import Mathlib

/-!
# XSSH job-control shell: the parser (`create_proc`, `create_job`), the supervisor,
the launcher (`execute_job`, `run_exec`), the job table and the dispatcher (`deinstr`, `main`)

A shallow embedding of `src/XSSH/xssh.c`.

Conventions of the embedding.

* A C string is modelled by its contents, a `List Char`, without the terminating NUL.
  `cstr` cuts a list at its first NUL, which is what every `str*` function of the C
  library sees of a buffer.
* `int` values are `Int`. The only place where the parser can leave the range of `int`
  is `int fd = atol(...)`; it is modelled for an LP64 target (`atol` is `strtol`, which
  saturates at `LONG_MAX`, and the narrowing to `int` wraps modulo `2^32`). The counters
  of a Job move by one per event and are taken to stay in the range of `int`.
* `malloc`/`strdup` are taken to succeed, and lines have at most `BUFLEN - 1 = 127`
  characters, so that no buffer of the parser overflows.
* A `NULL` pointer to a string is `none`; the `CIRCLEQ` lists are `List`s in queue order.
* `execute_job` is followed in the parent process; what `pipe`, `fork`, `setpgid` and
  `dup2` return in iteration `i` is given by an oracle `sys i`.
* The global context `g_context`, the variables `?` and `!`, the foreground process group
  of the terminal and the `SIGCONT` signals sent are the fields of `shell_state`. A Job is
  held by value: in the table, or in the foreground slot. The counter `max_bg_job_index`
  moves by one per Job sent to the background and is taken to stay in the range of `int`.
* What a function prints is the list of characters it writes to `stdout`; the descriptors of
  the child in `run_exec` are a table from descriptor numbers to open files.
-/

namespace XSSH

/-! ## Character classes (`<ctype.h>` in the C locale, and the helpers of `xssh.c`) -/

def BUFLEN : Nat := 128

/-- The NUL character that terminates a C string. -/
def NUL : Char := Char.ofNat 0

/-- The `isspace` of the C locale: space, `\t`, `\n`, `\v`, `\f`, `\r`. -/
def isspace (c : Char) : Bool :=
  c == ' ' || c == '\t' || c == '\n' || c == Char.ofNat 11 || c == Char.ofNat 12 || c == '\r'

/-- The `isdigit` of the C locale. -/
def isdigit (c : Char) : Bool :=
  decide (48 ≤ c.toNat) && decide (c.toNat ≤ 57)

def isampersand (c : Char) : Bool := c == '&'

def isinredir (c : Char) : Bool := c == '<'

def isoutredir (c : Char) : Bool := c == '>'

def isredir (c : Char) : Bool := isinredir c || isoutredir c

def isvalidtokenchar (c : Char) : Bool :=
  !(isinredir c || isoutredir c || isampersand c || isspace c || c == NUL)

/-- What the C library sees of a buffer: the characters before the first NUL. -/
def cstr (s : List Char) : List Char := s.takeWhile (fun c => c != NUL)

/-- The function `isvalidfd`: a non-empty string of digits. -/
def isvalidfd (ptr : List Char) : Bool :=
  if ptr.length = 0 then false
  else (ptr.dropWhile isdigit).isEmpty

/-- Value of a run of decimal digits. -/
def digitsVal (s : List Char) : Nat :=
  s.foldl (fun n c => 10 * n + (c.toNat - 48)) 0

def LONG_MAX : Int := 2 ^ 63 - 1

/-- The `atol` of the C library on a string that starts with digits (the parser only
calls it on strings accepted by `isvalidfd`): the value of the leading digits, saturated
at `LONG_MAX`. -/
def atol (s : List Char) : Int :=
  let v : Int := (digitsVal (s.takeWhile isdigit) : Nat)
  if v > LONG_MAX then LONG_MAX else v

/-- Conversion of a `long` to `int`: reduction modulo `2^32` into `[-2^31, 2^31)`. -/
def long_to_int (v : Int) : Int := (v + 2 ^ 31) % 2 ^ 32 - 2 ^ 31

/-- The statement `if(isvalidfd(tok)) fd = atol(tok);` on `int fd = -1`. -/
def fd_of_token (tok : List Char) : Int :=
  if isvalidfd tok then long_to_int (atol tok) else -1

/-- The function `ltrim`. -/
def ltrim (str : List Char) : List Char := str.dropWhile isspace

/-- The function `rtrim`. -/
def rtrim (str : List Char) : List Char := (str.reverse.dropWhile isspace).reverse

/-- Scanning loop of `strtok_r`: `acc` is the token being read. -/
def strtok_go (d : Char) : List Char → List Char → List (List Char)
  | [], acc => if acc.isEmpty then [] else [acc]
  | c :: cs, acc =>
    if c = d then
      if acc.isEmpty then strtok_go d cs [] else acc :: strtok_go d cs []
    else strtok_go d cs (acc ++ [c])

/-- The tokens returned by `strtok_r(s, d, &saveptr)` and the following calls
`strtok_r(NULL, d, &saveptr)` until `NULL`: the maximal non-empty runs without `d`. -/
def strtok_all (d : Char) (s : List Char) : List (List Char) := strtok_go d s []

/-! ## Data model -/

inductive process_state where
  | XSSH_PROC_STATE_STOPPED
  | XSSH_PROC_STATE_RUNNING
  | XSSH_PROC_STATE_TERMINATED
  | XSSH_PROC_STATE_KILLED
  deriving DecidableEq, Repr

inductive job_state where
  | XSSH_JOB_STATE_STOPPED
  | XSSH_JOB_STATE_RUNNING
  | XSSH_JOB_STATE_DONE
  | XSSH_JOB_STATE_KILLED
  deriving DecidableEq, Repr

structure redirect_info where
  srcfd : Int
  srcfile : Option (List Char)
  dstfd : Int
  dstfile : Option (List Char)
  mode : Int
  deriving DecidableEq, Repr

/-- The struct `proc_info`. `args` holds `args[0], args[1], ...` up to the closing `NULL`
(and is empty when `args` is `NULL`). -/
structure proc_info where
  pgid : Int
  pid : Int
  args : List (List Char)
  nargs : Int
  state : process_state
  background : Bool
  redirect_info_list : List redirect_info
  deriving DecidableEq, Repr

structure job_info where
  pgid : Int
  lastpid : Int
  state : job_state
  background : Bool
  job_spec : Int
  cmd : List Char
  nprocs : Int
  nstopped : Int
  nrunning : Int
  status : Int
  proc_info_list : List proc_info
  deriving DecidableEq, Repr

/-- The vector that `run_exec` hands to `execvp`: `&p->args[1]`. -/
def proc_info.argv (p : proc_info) : List (List Char) := p.args.tail

/-! ## `create_proc` -/

/-- The local variables of `create_proc` that live across iterations of its scanning loop.
`tok` is the slice `proc_buffer[j .. i)` while `token` is set, and empty otherwise (the
index `j` is not read then). `endcmdbuffer` is `none` while the pointer is `NULL`, and
otherwise the text written to `cmdbuffer` so far.
`prev_token` is assigned in every iteration before it is read, so it is a local of the
loop body. -/
structure ParseState where
  token : Bool
  tok : List Char
  cur_token : List Char
  rinfo : Option redirect_info
  background : Bool
  redirect_info_list : List redirect_info
  endcmdbuffer : Option (List Char)
  nargs : Nat
  deriving DecidableEq, Repr

/-- State on entry of the loop. -/
def ParseState.init : ParseState :=
  { token := false, tok := [], cur_token := [], rinfo := none, background := false,
    redirect_info_list := [], endcmdbuffer := none, nargs := 0 }

/-- Branch of the loop for a character of a token: `if(!token) {j = i; token = 1;}`. -/
def ParseState.tokenChar (st : ParseState) (c : Char) : ParseState :=
  { st with token := true, tok := (if st.token then st.tok else []) ++ [c] }

/-- The block `if(rinfo->mode == 3) {...}`: `none` is `goto done` with `retval = -1`. -/
def target_mode3 (rinfo : redirect_info) (fd : Int) (file : List Char) :
    Option redirect_info :=
  let r : redirect_info :=
    { rinfo with dstfd := fd, dstfile := if fd ≥ 0 then none else some file }
  if r.dstfile.isSome then
    if r.srcfd ≠ 1 then none else some { r with mode := 1 }
  else some r

/-- The block `if(rinfo->mode == 5) {...}`. -/
def target_mode5 (rinfo : redirect_info) (fd : Int) (file : List Char) :
    Option redirect_info :=
  let r : redirect_info :=
    { rinfo with dstfd := fd, dstfile := if fd ≥ 0 then none else some file }
  if r.dstfile.isSome then none else some r

/-- The block of `create_proc` that gives the pending redirection its target `cur_token`:
the five `if(rinfo->mode == k)` statements in sequence. -/
def set_target (rinfo : redirect_info) (cur_token : List Char) : Option redirect_info :=
  let fd : Int := fd_of_token cur_token
  let file := cur_token
  let r1 := if rinfo.mode = 1 then { rinfo with dstfile := some file, dstfd := -1 } else rinfo
  let r2 := if r1.mode = 2 then { r1 with dstfile := some file, dstfd := -1 } else r1
  match (if r2.mode = 3 then target_mode3 r2 fd file else some r2) with
  | none => none
  | some r3 =>
    let r4 := if r3.mode = 4 then { r3 with srcfd := -1, srcfile := some file } else r3
    if r4.mode = 5 then target_mode5 r4 fd file else some r4

/-- The block `if(isredir(proc_buffer[i])) {...}` after its guard: the new `rinfo` for the
operator starting with `c`, where `next` is `proc_buffer[i + 1]` and `fd` the descriptor
read from `prev_token`. The Boolean tells whether `i++` consumed `next`. -/
def new_redirect (c next : Char) (fd : Int) : redirect_info × Bool :=
  if isoutredir c then
    let srcfd := if fd < 0 then 1 else fd
    if isoutredir next then
      ({ srcfd := srcfd, srcfile := none, dstfd := -1, dstfile := none, mode := 2 }, true)
    else if isampersand next then
      ({ srcfd := srcfd, srcfile := none, dstfd := -1, dstfile := none, mode := 3 }, true)
    else
      ({ srcfd := srcfd, srcfile := none, dstfd := -1, dstfile := none, mode := 1 }, false)
  else
    let dstfd := if fd < 0 then 0 else fd
    if isampersand next then
      ({ srcfd := -1, srcfile := none, dstfd := dstfd, dstfile := none, mode := 5 }, true)
    else
      ({ srcfd := -1, srcfile := none, dstfd := dstfd, dstfile := none, mode := 4 }, false)

/-- The statement that appends `prev_token` to `cmdbuffer` when it is not empty. -/
def push_arg (st : ParseState) (prev_token : List Char) : ParseState :=
  if prev_token.length ≠ 0 then
    { st with
      endcmdbuffer := some (match st.endcmdbuffer with
        | none => prev_token
        | some b => b ++ ' ' :: prev_token),
      nargs := st.nargs + 1 }
  else st

/-- First half of the loop body at a character that is not a token character: the end of
the token, the target of the pending redirection, and the check after `&`. -/
def end_token (st : ParseState) : Option ParseState :=
  let cur_token := if st.token then st.tok else st.cur_token
  let st := { st with token := false, tok := [], cur_token := cur_token }
  let st1 : Option ParseState :=
    match st.rinfo with
    | some rinfo =>
      if st.cur_token.length ≠ 0 then
        match set_target rinfo st.cur_token with
        | none => none
        | some r =>
          some { st with redirect_info_list := st.redirect_info_list ++ [r],
                         rinfo := none, cur_token := [] }
      else some st
    | none => some st
  match st1 with
  | none => none
  | some st =>
    if st.background && st.cur_token.length ≠ 0 then none else some st

/-- Second half of the loop body at a character `c` that is not a token character: the
copy of `cur_token` to `prev_token`, the branch on `c` (a redirection operator, `&`, or the
terminating NUL) and the append of `prev_token` to `cmdbuffer`. `next` is
`proc_buffer[i + 1]`; the Boolean tells whether the operator took `next`. -/
def dispatch (st : ParseState) (c next : Char) : Option (ParseState × Bool) :=
  let prev_token := st.cur_token
  let st := { st with cur_token := [] }
  if isredir c then
    if st.rinfo.isSome || st.background then none
    else
      let fd := fd_of_token prev_token
      let prev_token := if fd ≥ 0 then [] else prev_token
      let r := new_redirect c next fd
      some (push_arg { st with rinfo := some r.1 } prev_token, r.2)
  else if isampersand c then
    if st.rinfo.isSome then none
    else some (push_arg { st with background := true } prev_token, false)
  else if c = NUL then
    if st.rinfo.isSome then none
    else some (push_arg st prev_token, false)
  else some (push_arg st prev_token, false)

/-- One iteration of the loop of `create_proc` at a character `c` that is not a token
character (`c` is NUL at `i = len`); `next` is `proc_buffer[i + 1]`. The result is `none`
for `goto done` with `retval = -1`. -/
def step (st : ParseState) (c next : Char) : Option (ParseState × Bool) :=
  match end_token st with
  | none => none
  | some st => dispatch st c next

/-- The loop `while(i <= len)` of `create_proc` over the characters from index `i` on; the
empty list is the iteration `i = len`, at the terminating NUL. -/
def scan : ParseState → List Char → Option ParseState
  | st, [] => (step st NUL NUL).map Prod.fst
  | st, c :: rest =>
    if isvalidtokenchar c then scan (st.tokenChar c) rest
    else
      match step st c (rest.headD NUL) with
      | none => none
      | some (st1, false) => scan st1 rest
      | some (st1, true) =>
        match rest with
        | [] => scan st1 []
        | _ :: rest2 => scan st1 rest2

/-- The block `if(nargs) {...}` of `create_proc`: the words of `cmdbuffer` are cut out with
`strtok_r(.., " ", ..)`; the first one is stored in `args[0]` and again in `args[1]`. -/
def build_args (st : ParseState) : List (List Char) × Int :=
  if st.nargs ≠ 0 then
    let words := strtok_all ' ' (st.endcmdbuffer.getD [])
    (words.head?.toList ++ words, (st.nargs : Int) + 1)
  else ([], 0)

/-- The `proc_info` that `create_proc` returns when its loop ends in state `st`: the
zeroed struct with the background flag, the redirection list and the arguments. -/
def proc_of (st : ParseState) : proc_info :=
  { pgid := 0, pid := 0, args := (build_args st).1, nargs := (build_args st).2,
    state := process_state.XSSH_PROC_STATE_STOPPED, background := st.background,
    redirect_info_list := st.redirect_info_list }

/-- The function `create_proc`; `none` is the return value `NULL`. -/
def create_proc (proc_buffer : List Char) : Option proc_info :=
  (scan ParseState.init (cstr proc_buffer)).map proc_of

/-! ## `create_job` -/

/-- Result of a function that may dereference a `NULL` pointer. -/
inductive Outcome (α : Type) where
  | ret (a : α)
  | fault
  deriving DecidableEq, Repr

/-- The `job_info` after `memset(job, 0, sizeof(job_info))` and `CIRCLEQ_INIT`. -/
def job_info.zero : job_info :=
  { pgid := 0, lastpid := 0, state := job_state.XSSH_JOB_STATE_STOPPED, background := false,
    job_spec := 0, cmd := [], nprocs := 0, nstopped := 0, nrunning := 0, status := 0,
    proc_info_list := [] }

/-- The loop `while (token != NULL)` of `create_job`, over the tokens that `strtok_r` still
has to return, the current one first. `none` is `goto done` with `retval = -1`; otherwise
the value of `job` after the loop (`none` for `NULL`). -/
def job_loop : Option job_info → List (List Char) → Option (Option job_info)
  | job, [] => some job
  | job, token :: more =>
    match create_proc token with
    | none => none
    | some p =>
      let job := job.getD job_info.zero
      if p.background && !more.isEmpty then none
      else
        let job := if p.background then { job with background := true } else job
        job_loop
          (some { job with proc_info_list := job.proc_info_list ++ [p],
                           nprocs := job.nprocs + 1 })
          more

/-- The function `create_job`. `ret none` is the return value `NULL`; `fault` is the
dereference of `job` after the loop when `job` is still `NULL`. -/
def create_job (buffer : List Char) : Outcome (Option job_info) :=
  let buffer := rtrim (ltrim (cstr buffer))
  let cmdBuffer := buffer
  match job_loop none (strtok_all '|' buffer) with
  | none => Outcome.ret none
  | some none => Outcome.fault
  | some (some job) =>
    let cmdBuffer := if job.background then cmdBuffer.dropLast else cmdBuffer
    Outcome.ret (some { job with cmd := cmdBuffer })

/-! ## Auxiliary definitions for the statements and proofs -/

/-- The iterations of the loop of `create_proc` over the characters `cs` alone, without the
final iteration at the terminating NUL: the state in which the loop reaches the character
that follows `cs`. -/
def feed : ParseState → List Char → Option ParseState
  | st, [] => some st
  | st, c :: rest =>
    if isvalidtokenchar c then feed (st.tokenChar c) rest
    else
      match step st c (rest.headD NUL) with
      | none => none
      | some (st1, false) => feed st1 rest
      | some (st1, true) =>
        match rest with
        | [] => some st1
        | _ :: rest2 => feed st1 rest2

/-- Between two words: no token is being read and `cur_token` is empty. -/
def ParseState.Idle (st : ParseState) : Prop :=
  st.token = false ∧ st.tok = [] ∧ st.cur_token = []

/-- The state while the word `w` is being read. -/
def ParseState.withTok (st : ParseState) (w : List Char) : ParseState :=
  { st with token := true, tok := w }

/-- The words written to `cmdbuffer` so far, as `strtok_r` will cut them out. -/
def argWords (st : ParseState) : List (List Char) :=
  strtok_all ' ' (st.endcmdbuffer.getD [])

/-- The argument count agrees with the words in `cmdbuffer`, and the token being read
consists of token characters. -/
def ParseState.WF (st : ParseState) : Prop :=
  st.nargs = (argWords st).length ∧
  (∀ c ∈ st.tok, isvalidtokenchar c = true) ∧
  (∀ c ∈ st.cur_token, isvalidtokenchar c = true)

/-- The five redirection operators of the grammar: `>`, `>>`, `>&`, `<`, `<&`. -/
inductive RedirOp where
  | trunc
  | append
  | dupout
  | read
  | dupin
  deriving DecidableEq, Repr

/-- The mode number that `redirect_info` uses for an operator. -/
def RedirOp.mode : RedirOp → Int
  | RedirOp.trunc => 1
  | RedirOp.append => 2
  | RedirOp.dupout => 3
  | RedirOp.read => 4
  | RedirOp.dupin => 5

/-- The characters of an operator. -/
def RedirOp.text : RedirOp → List Char
  | RedirOp.trunc => ['>']
  | RedirOp.append => ['>', '>']
  | RedirOp.dupout => ['>', '&']
  | RedirOp.read => ['<']
  | RedirOp.dupin => ['<', '&']

/-- The `redirect_info` that `create_proc` allocates when it meets an operator, `fd` being
the descriptor read from the word in front of it (`-1` for none). -/
def RedirOp.fresh (op : RedirOp) (fd : Int) : redirect_info :=
  match op with
  | RedirOp.trunc => (new_redirect '>' NUL fd).1
  | RedirOp.append => (new_redirect '>' '>' fd).1
  | RedirOp.dupout => (new_redirect '>' '&' fd).1
  | RedirOp.read => (new_redirect '<' NUL fd).1
  | RedirOp.dupin => (new_redirect '<' '&' fd).1

/-- The state in which the loop reaches the character after the (possibly empty) word
`w`, when it was between two words before `w`. -/
def ParseState.afterWord (st : ParseState) (w : List Char) : ParseState :=
  if w.isEmpty then st else st.withTok w

/-- The (mode, target) pair of a redirection is consistent: modes 1 and 2 carry a
destination file and a negative `dstfd`, which is `-1` unless the file name is a digit-run
that `atol` and the conversion to `int` turn into a negative number; mode 4 carries a source
file; modes 3 and 5 carry a destination descriptor `>= 0` and no destination file. -/
def redirect_info.Consistent (r : redirect_info) : Prop :=
  (r.mode = 1 → ∃ f, r.dstfile = some f ∧
    (r.dstfd = -1 ∨ (isvalidfd f = true ∧ r.dstfd = fd_of_token f ∧ r.dstfd < 0))) ∧
  (r.mode = 2 → r.dstfile.isSome = true ∧ r.dstfd = -1) ∧
  (r.mode = 4 → r.srcfile.isSome = true) ∧
  (r.mode = 3 ∨ r.mode = 5 → 0 ≤ r.dstfd ∧ r.dstfile = none) ∧
  (1 ≤ r.mode ∧ r.mode ≤ 5)

/-- The redirections of the list are consistent and the pending one is as allocated. -/
def ParseState.RedirOK (st : ParseState) : Prop :=
  (∀ r ∈ st.redirect_info_list, r.Consistent) ∧
  (∀ r, st.rinfo = some r → ∃ op fd, r = RedirOp.fresh op fd)

/-- A redirection in the list has the mode `m` of its operator, or mode 1 when the
operator was `>&` (mode 3) followed by a file name. -/
def ModeOK (m : Int) (r : redirect_info) : Prop :=
  r.mode = m ∨ (m = 3 ∧ r.mode = 1)

/-- The mode of the pending redirection, if any. -/
def ParseState.pendingModes (st : ParseState) : List Int :=
  (st.rinfo.map (fun r => r.mode)).toList

/-- Lexical items of a process text: a redirection operator, a `&` that is not part of an
operator, a character of a word, a blank. -/
inductive Lexeme where
  | op (o : RedirOp)
  | amp
  | wordchar (c : Char)
  | blank
  deriving DecidableEq, Repr

/-- The lexical structure of a process text according to the grammar of the specification,
read from left to right with the longest operator taken: `>>`, `>&` and `<&` are single
operators, every other `&` stands alone, blanks are the `isspace` characters and every
other character belongs to a word. -/
def lexemes : List Char → List Lexeme
  | [] => []
  | c :: rest =>
    if c = '>' then
      match rest with
      | [] => [Lexeme.op RedirOp.trunc]
      | d :: rest2 =>
        if d = '>' then Lexeme.op RedirOp.append :: lexemes rest2
        else if d = '&' then Lexeme.op RedirOp.dupout :: lexemes rest2
        else Lexeme.op RedirOp.trunc :: lexemes (d :: rest2)
    else if c = '<' then
      match rest with
      | [] => [Lexeme.op RedirOp.read]
      | d :: rest2 =>
        if d = '&' then Lexeme.op RedirOp.dupin :: lexemes rest2
        else Lexeme.op RedirOp.read :: lexemes (d :: rest2)
    else if c = '&' then Lexeme.amp :: lexemes rest
    else if isspace c then Lexeme.blank :: lexemes rest
    else Lexeme.wordchar c :: lexemes rest

/-- The redirection operators of a process text, from left to right. -/
def redir_ops (text : List Char) : List RedirOp :=
  (lexemes text).filterMap (fun l => match l with
    | Lexeme.op o => some o
    | _ => none)

/-- A lexical item that is a character of a word or a redirection operator. -/
def Lexeme.isWordOrOp : Lexeme → Bool
  | Lexeme.op _ => true
  | Lexeme.wordchar _ => true
  | _ => false

/-! ## The Supervisor: `process_stopped`, `process_continued`, `process_killed`,
`process_terminated`

The counters `nprocs`, `nrunning`, `nstopped` are `int`s that the handlers move by one; they
are modelled as `Int` (a Job has at most `BUFLEN` Processes). -/

/-- The loop `CIRCLEQ_FOREACH(p, &job->proc_info_list, link) if(p->pid == pid) {found = 1;
break;}` of the four handlers: the first Process of the list with this pid (`none` when
`found` stays `0`). -/
def find_proc (pid : Int) : List proc_info → Option proc_info
  | [] => none
  | p :: ps => if p.pid = pid then some p else find_proc pid ps

/-- The assignment `p->state = s` on the Process found by `find_proc`, seen in the list. -/
def set_proc_state (pid : Int) (s : process_state) : List proc_info → List proc_info
  | [] => []
  | p :: ps => if p.pid = pid then { p with state := s } :: ps else p :: set_proc_state pid s ps

/-- The statement `CIRCLEQ_REMOVE(&job->proc_info_list, p, link)` on the Process found by
`find_proc`. -/
def remove_proc (pid : Int) : List proc_info → List proc_info
  | [] => []
  | p :: ps => if p.pid = pid then ps else p :: remove_proc pid ps

/-- The function `process_stopped`. -/
def process_stopped (job : job_info) (pid : Int) : job_info :=
  match find_proc pid job.proc_info_list with
  | none => job
  | some p =>
    let job :=
      if p.state = process_state.XSSH_PROC_STATE_RUNNING then
        { job with nrunning := job.nrunning - 1, nstopped := job.nstopped + 1,
                   proc_info_list :=
                     set_proc_state pid process_state.XSSH_PROC_STATE_STOPPED
                       job.proc_info_list }
      else job
    if job.nrunning = 0 then { job with state := job_state.XSSH_JOB_STATE_STOPPED } else job

/-- The function `process_continued`. -/
def process_continued (job : job_info) (pid : Int) : job_info :=
  match find_proc pid job.proc_info_list with
  | none => job
  | some p =>
    let job :=
      if p.state = process_state.XSSH_PROC_STATE_STOPPED then
        { job with nrunning := job.nrunning + 1, nstopped := job.nstopped - 1,
                   proc_info_list :=
                     set_proc_state pid process_state.XSSH_PROC_STATE_RUNNING
                       job.proc_info_list }
      else job
    if job.nrunning > 0 then { job with state := job_state.XSSH_JOB_STATE_RUNNING } else job

/-- The function `process_killed`. The assignment `p->state = XSSH_PROC_STATE_KILLED` is
made on the Process that the function then removes from the list, so it is not seen in the
Job. -/
def process_killed (job : job_info) (pid : Int) (signal : Int) : job_info :=
  match find_proc pid job.proc_info_list with
  | none => job
  | some p =>
    let job :=
      if p.state = process_state.XSSH_PROC_STATE_STOPPED then
        { job with nstopped := job.nstopped - 1 }
      else job
    let job :=
      if p.state = process_state.XSSH_PROC_STATE_RUNNING then
        { job with nrunning := job.nrunning - 1 }
      else job
    let job :=
      if job.nrunning > 0 then { job with state := job_state.XSSH_JOB_STATE_RUNNING }
      else { job with state := job_state.XSSH_JOB_STATE_STOPPED }
    let job :=
      { job with proc_info_list := remove_proc pid job.proc_info_list,
                 nprocs := job.nprocs - 1, status := signal }
    if job.nprocs = 0 then { job with state := job_state.XSSH_JOB_STATE_KILLED } else job

/-- The function `process_terminated`. The assignment
`p->state = XSSH_PROC_STATE_TERMINATED` is made on the Process that the function then
removes from the list. -/
def process_terminated (job : job_info) (pid : Int) (status : Int) : job_info :=
  match find_proc pid job.proc_info_list with
  | none => job
  | some p =>
    let job :=
      if p.state = process_state.XSSH_PROC_STATE_STOPPED then
        { job with nstopped := job.nstopped - 1 }
      else job
    let job :=
      if p.state = process_state.XSSH_PROC_STATE_RUNNING then
        { job with nrunning := job.nrunning - 1 }
      else job
    let job :=
      if job.nrunning > 0 then { job with state := job_state.XSSH_JOB_STATE_RUNNING }
      else { job with state := job_state.XSSH_JOB_STATE_STOPPED }
    let job :=
      { job with proc_info_list := remove_proc pid job.proc_info_list,
                 nprocs := job.nprocs - 1, status := status }
    if job.nprocs = 0 then { job with state := job_state.XSSH_JOB_STATE_DONE } else job

/-- A status change reported by `waitid`: `si_code` with `si_pid` and `si_status`. -/
inductive Event where
  | CLD_EXITED (si_pid : Int) (si_status : Int)
  | CLD_KILLED (si_pid : Int) (si_status : Int)
  | CLD_STOPPED (si_pid : Int)
  | CLD_CONTINUED (si_pid : Int)
  deriving DecidableEq, Repr

/-- The dispatch on `info.si_code` in `wait_job` and `wait_background_job`. -/
def apply_event (job : job_info) : Event → job_info
  | Event.CLD_EXITED pid status => process_terminated job pid status
  | Event.CLD_STOPPED pid => process_stopped job pid
  | Event.CLD_KILLED pid status => process_killed job pid status
  | Event.CLD_CONTINUED pid => process_continued job pid

/-- The Job after a sequence of events. -/
def run_events (job : job_info) (es : List Event) : job_info := es.foldl apply_event job

/-- Whether the Process removed last from the Job was killed by a signal: `last` is the
answer before the events `es`, which are applied to `job`. -/
def last_removed_killed : job_info → List Event → Bool → Bool
  | _, [], last => last
  | job, e :: es, last =>
    let last1 :=
      match e with
      | Event.CLD_EXITED pid _ =>
        if (find_proc pid job.proc_info_list).isSome then false else last
      | Event.CLD_KILLED pid _ =>
        if (find_proc pid job.proc_info_list).isSome then true else last
      | _ => last
    last_removed_killed (apply_event job e) es last1

/-- Number of Processes of the list in state `RUNNING`. -/
def count_running (l : List proc_info) : Nat :=
  (l.filter (fun p => p.state = process_state.XSSH_PROC_STATE_RUNNING)).length

/-- A Process with the given pid and state and nothing else, for the examples. -/
def sample_proc (pid : Int) (s : process_state) : proc_info :=
  { pgid := 0, pid := pid, args := [], nargs := 0, state := s, background := false,
    redirect_info_list := [] }

/-- A Job with the given Processes, counters and state and nothing else, for the
examples. -/
def sample_job (procs : List proc_info) (nrunning nstopped : Int) (s : job_state) :
    job_info :=
  { job_info.zero with
    proc_info_list := procs, nprocs := procs.length, nrunning := nrunning,
    nstopped := nstopped, state := s }

/-- What the handlers keep true of a Job, `last` telling whether the Process removed last
was killed by a signal: the counters `nrunning` and `nprocs` count the Processes of the
list, every Process of the list is Running or Stopped, and the state of the Job is Running
or Stopped according to `nrunning` while Processes remain, Killed or Done according to
`last` once none remains. -/
def JobInv (job : job_info) (last : Bool) : Prop :=
  job.nrunning = (count_running job.proc_info_list : Int) ∧
  job.nprocs = (job.proc_info_list.length : Int) ∧
  (∀ p ∈ job.proc_info_list, p.state = process_state.XSSH_PROC_STATE_RUNNING ∨
    p.state = process_state.XSSH_PROC_STATE_STOPPED) ∧
  (job.proc_info_list ≠ [] →
    (job.state = job_state.XSSH_JOB_STATE_RUNNING ∧ job.nrunning > 0) ∨
    (job.state = job_state.XSSH_JOB_STATE_STOPPED ∧ job.nrunning = 0)) ∧
  (job.proc_info_list = [] →
    (job.state = job_state.XSSH_JOB_STATE_KILLED ∧ last = true) ∨
    (job.state = job_state.XSSH_JOB_STATE_DONE ∧ last = false))

/-- The answer of `last_removed_killed` after the single event `e` on `job`. -/
def last_after (job : job_info) (e : Event) (last : Bool) : Bool :=
  last_removed_killed job [e] last

/-- The pipeline segments of a command line as `create_job` hands them to `create_proc`:
the tokens that `strtok_r(buffer, "|", ..)` cuts out of the trimmed line, that is, the
maximal non-empty runs of characters other than `|`. -/
def segments (buffer : List Char) : List (List Char) :=
  strtok_all '|' (rtrim (ltrim (cstr buffer)))

/-- What the round trip compares of a Process: its `argv` and its redirection list. -/
def proc_info.shape (p : proc_info) : List (List Char) × List redirect_info :=
  (p.argv, p.redirect_info_list)

/-- No target word follows: the lexical items are blanks up to the end of the text, the next
redirection operator or a `&`. -/
def no_target : List Lexeme → Bool
  | [] => true
  | Lexeme.blank :: l => no_target l
  | Lexeme.wordchar _ :: _ => false
  | _ => true

/-! ## The Launcher: `execute_job` in the parent process -/

def EACCES : Int := 13

/-- The results of the system calls that one iteration of the loop of `execute_job` makes in
the shell: `pipe(fd)` with the two descriptors it stores, `fork()`, `setpgid(..)` and
`dup2(inpipe, inprevpipe)`, each with the `errno` it leaves when it fails. -/
structure launch_sys where
  pipe_ret : Int
  pipe_fd0 : Int
  pipe_fd1 : Int
  pipe_errno : Int
  fork_ret : Int
  fork_errno : Int
  setpgid_ret : Int
  setpgid_errno : Int
  dup2_ret : Int
  dup2_errno : Int
  deriving DecidableEq, Repr

/-- The loop `CIRCLEQ_FOREACH(p, &job->proc_info_list, link)` of `execute_job` from iteration
`i` on, as the shell runs it: `sys i` are the results of the system calls of iteration `i`,
`done` the Processes already launched and the last argument those still to launch. The
result is the value returned by `execute_job` with the Job as it is then; `none` is the
child process, in which `fork` returns `0` and which leaves the function through
`run_exec`. -/
def execute_loop (sys : Nat → launch_sys) (end_ : Int) :
    Nat → Int → job_info → List proc_info → List proc_info → Option (Int × job_info)
  | _, _, job, done, [] => some (0, { job with proc_info_list := done })
  | i, inprevpipe, job, done, p :: todo =>
    let y := sys i
    if (i : Int) < end_ ∧ y.pipe_ret < 0 then
      some (-y.pipe_errno, { job with proc_info_list := done ++ p :: todo })
    else
      let inpipe : Int := if (i : Int) < end_ then y.pipe_fd0 else 0
      if y.fork_ret < 0 then
        some (-y.fork_errno, { job with proc_info_list := done ++ p :: todo })
      else if y.fork_ret = 0 then none
      else if y.setpgid_ret < 0 ∧ y.setpgid_errno ≠ EACCES then
        some (y.setpgid_ret, { job with proc_info_list := done ++ p :: todo })
      else
        let pid := y.fork_ret
        let job := { job with pgid := if i ≠ 0 then job.pgid else pid, lastpid := pid,
                              nrunning := job.nrunning + 1 }
        let p := { p with pid := pid, state := process_state.XSSH_PROC_STATE_RUNNING }
        if (i : Int) = end_ then execute_loop sys end_ (i + 1) 0 job (done ++ [p]) todo
        else if i > 0 then
          if y.dup2_ret < 0 then
            some (-y.dup2_errno, { job with proc_info_list := done ++ p :: todo })
          else execute_loop sys end_ (i + 1) inprevpipe job (done ++ [p]) todo
        else execute_loop sys end_ (i + 1) inpipe job (done ++ [p]) todo

/-- The function `execute_job` in the shell process. -/
def execute_job (job : job_info) (sys : Nat → launch_sys) : Option (Int × job_info) :=
  execute_loop sys (job.nprocs - 1) 0 0 job [] job.proc_info_list

/-- The Processes `ps` once launched as the iterations `i`, `i + 1`, ... of the loop: each
with the pid that its `fork` returned, in state Running. -/
def launched (sys : Nat → launch_sys) : Nat → List proc_info → List proc_info
  | _, [] => []
  | i, p :: ps =>
    { p with pid := (sys i).fork_ret, state := process_state.XSSH_PROC_STATE_RUNNING } ::
      launched sys (i + 1) ps

/-! ## The job table: `send_job_to_bg`, `bring_job_to_fg`, `fg`, `bg` and the hooks -/

/-- The global variables of the core: the fields of `g_context`, the shell variables `?`
(`varvalue[1]`) and `!` (`varvalue[2]`), each held as the number that `sprintf(.., "%d", ..)`
writes into it (`none` is the empty string), and what the core does to the outside: the process group that `getpgrp()`
returns, the foreground process group of the terminal as `tcsetpgrp` sets it, and the
process groups to which `kill(-pgid, SIGCONT)` was sent, in order. A Job that a pointer
refers to is held by value: `fg_job` is `none` for `NULL`. -/
structure shell_state where
  bg_jobs : List job_info
  fg_job : Option job_info
  max_bg_job_index : Int
  last_bg_job_index : Int
  last_status : Int
  last_cmd : List Char
  varvalue_1 : Option Int
  varvalue_2 : Option Int
  pgrp : Int
  tty_pgrp : Int
  sigcont : List Int
  deriving DecidableEq, Repr

/-- The state after `memset(&g_context, 0, ..)` and `CIRCLEQ_INIT` in `main`, for a shell
in the process group `pgrp` that owns the terminal. -/
def shell_state.init (pgrp : Int) : shell_state :=
  { bg_jobs := [], fg_job := none, max_bg_job_index := 0, last_bg_job_index := 0,
    last_status := 0, last_cmd := [], varvalue_1 := none, varvalue_2 := none, pgrp := pgrp,
    tty_pgrp := pgrp, sigcont := [] }

/-- The function `resume_job`. -/
def resume_job (s : shell_state) (job : job_info) : shell_state :=
  { s with sigcont := s.sigcont ++ [job.pgid] }

/-- The function `send_job_to_bg`. The Job that the caller holds is the one appended to the
table, the last entry of `bg_jobs` afterwards. -/
def send_job_to_bg (s : shell_state) (job : job_info) (resume : Bool) : shell_state :=
  let s := { s with varvalue_2 := some job.pgid }
  let s := if job.job_spec = 0 then { s with max_bg_job_index := s.max_bg_job_index + 1 } else s
  let job := if job.job_spec = 0 then { job with job_spec := s.max_bg_job_index } else job
  let s := { s with last_bg_job_index := job.job_spec }
  let job := { job with background := true }
  let s := { s with bg_jobs := s.bg_jobs ++ [job] }
  if resume then resume_job s job else s

/-- The function `bring_job_to_fg`; `none` is the argument `NULL`. -/
def bring_job_to_fg (s : shell_state) (job : Option job_info) : shell_state :=
  match job with
  | none => { s with tty_pgrp := s.pgrp, fg_job := none }
  | some j =>
    let s := { s with tty_pgrp := j.pgid }
    let s := resume_job s j
    { s with fg_job := some { j with background := false } }

/-- The function `fg_job_stopped`. -/
def fg_job_stopped (s : shell_state) : shell_state :=
  match s.fg_job with
  | some j => bring_job_to_fg (send_job_to_bg s j false) none
  | none => bring_job_to_fg s none

/-- The function `fg_job_terminated`. -/
def fg_job_terminated (s : shell_state) : shell_state :=
  match s.fg_job with
  | some j =>
    let s := if j.job_spec ≠ 0 ∧ s.bg_jobs.isEmpty then { s with max_bg_job_index := 0 } else s
    let s := { s with varvalue_1 := some j.status }
    bring_job_to_fg s none
  | none => bring_job_to_fg s none

def LONG_MIN : Int := -(2 ^ 63)

/-- The `strtol(s, NULL, 10)` of the C library: blanks, an optional sign, and the value of
the digits that follow, saturated at `LONG_MIN` and `LONG_MAX`. -/
def strtol (s : List Char) : Int :=
  let t := s.dropWhile isspace
  let neg := t.head? = some '-'
  let u := if t.head? = some '-' ∨ t.head? = some '+' then t.tail else t
  let v : Int := (digitsVal (u.takeWhile isdigit) : Nat)
  if neg then (if -v < LONG_MIN then LONG_MIN else -v)
  else (if v > LONG_MAX then LONG_MAX else v)

/-- The job-spec that `bg` and `fg` read from their line: `last_bg_job_index` when nothing
follows the two letters of the command, else `strtol(buffer + 2, NULL, 10)` stored in an
`int`. The result is `none` when the trimmed line has fewer than two characters, `buffer + 2`
then pointing behind the terminator of the string. -/
def job_spec_arg (s : shell_state) (buffer : List Char) : Option Int :=
  let b := rtrim (ltrim (cstr buffer))
  if b.length < 2 then none
  else if (b.drop 2).length = 0 then some s.last_bg_job_index
  else some (long_to_int (strtol (b.drop 2)))

/-- The loop `CIRCLEQ_FOREACH(job, &g_context.bg_jobs, link)` of `bg` and `fg`: the first Job
of the table with this job-spec, if any. -/
def find_job (job_spec : Int) : List job_info → Option job_info
  | [] => none
  | j :: js => if j.job_spec = job_spec then some j else find_job job_spec js

/-- The statement `CIRCLEQ_REMOVE(&g_context.bg_jobs, job, link)` on the Job found. -/
def remove_job (job_spec : Int) : List job_info → List job_info
  | [] => []
  | j :: js => if j.job_spec = job_spec then js else j :: remove_job job_spec js

/-- The built-in `bg`. -/
def bg (s : shell_state) (buffer : List Char) : Option shell_state :=
  match job_spec_arg s buffer with
  | none => none
  | some job_spec =>
    match find_job job_spec s.bg_jobs with
    | none => some { s with varvalue_1 := some 1 }
    | some job =>
      let s := { s with bg_jobs := remove_job job_spec s.bg_jobs }
      let s := send_job_to_bg s job true
      some { s with varvalue_1 := some 0 }

/-- The built-in `fg`. -/
def fg (s : shell_state) (buffer : List Char) : Option shell_state :=
  match job_spec_arg s buffer with
  | none => none
  | some job_spec =>
    match find_job job_spec s.bg_jobs with
    | none => some { s with varvalue_1 := some 1 }
    | some job =>
      let s := { s with bg_jobs := remove_job job_spec s.bg_jobs }
      let s := bring_job_to_fg s (some job)
      some { s with varvalue_1 := some 0 }

/-- The statements of `main` that follow `execute_job`, for the Job `job` and the value
`retval` that `execute_job` returned. -/
def main_after_launch (s : shell_state) (job : job_info) (retval : Int) : shell_state :=
  let job := { job with state := job_state.XSSH_JOB_STATE_RUNNING }
  if retval = 0 ∧ job.background = true then send_job_to_bg s job false
  else { s with fg_job := some job }

/-! ## The background sweep: `wait_background_job` -/

def Event.si_pid : Event → Int
  | Event.CLD_EXITED pid _ => pid
  | Event.CLD_KILLED pid _ => pid
  | Event.CLD_STOPPED pid => pid
  | Event.CLD_CONTINUED pid => pid

/-- What a call `waitid(P_PGID, job->pgid, &info, WNOHANG | ..)` reports: failure with
`ECHILD`, another failure, nothing pending (`retval == 0` and `si_pid == 0`), a status
change that the sweep dispatches, or a status change with another `si_code`. -/
inductive wait_result where
  | echild
  | failed
  | nothing
  | status (e : Event)
  | other (si_pid : Int)
  deriving DecidableEq, Repr

/-- The loop `do {...} while(info.si_pid)` of `wait_background_job` on one Job, the calls of
`waitid` reporting `rs` in turn and nothing pending after that. The Boolean tells whether
the Job reached Done or Killed, the case in which the sweep removes and destroys it. -/
def drain (job : job_info) : List wait_result → job_info × Bool
  | [] => (job, false)
  | wait_result.echild :: _ => (job, false)
  | wait_result.failed :: _ => (job, false)
  | wait_result.nothing :: _ => (job, false)
  | wait_result.status e :: rs =>
    let job := apply_event job e
    if job.state = job_state.XSSH_JOB_STATE_DONE ∨ job.state = job_state.XSSH_JOB_STATE_KILLED
    then (job, true)
    else if e.si_pid = 0 then (job, false)
    else drain job rs
  | wait_result.other si_pid :: rs =>
    if job.state = job_state.XSSH_JOB_STATE_DONE ∨ job.state = job_state.XSSH_JOB_STATE_KILLED
    then (job, true)
    else if si_pid = 0 then (job, false)
    else drain job rs

/-- The loop `CIRCLEQ_FOREACH(job, &g_context.bg_jobs, link)` of `wait_background_job`:
`before` are the Jobs in front of the current one that stay in the table, the second list
the current Job and those behind it, and `pending` what `waitid` reports for the Jobs
visited, one list per visit. The result is the table after the loop together with the Jobs
visited, in order. When the current Job is removed, `job` is set to
`CIRCLEQ_LOOP_PREV(.., job, ..)`: the Job in front of it, or the last Job of the table
when it is the first one. In that case the loop ends, the successor of the last Job being
the head of the table; if the table has no other Job, `job` points to the Job just
destroyed, and reading its link is a fault. -/
def sweep : List job_info → List job_info → List (List wait_result) → List job_info →
    Outcome (List job_info × List job_info)
  | before, [], _, visited => Outcome.ret (before, visited)
  | before, job :: after, pending, visited =>
    let r := drain job (pending.headD [])
    if r.2 then
      if before.isEmpty then
        if after.isEmpty then Outcome.fault
        else Outcome.ret (after, visited ++ [r.1])
      else sweep before after pending.tail (visited ++ [r.1])
    else sweep (before ++ [r.1]) after pending.tail (visited ++ [r.1])

/-- The function `wait_background_job`, which leaves `g_context.bg_jobs` as the table; the
lines it prints are not modelled. -/
def wait_background_job (s : shell_state) (pending : List (List wait_result)) :
    Outcome shell_state :=
  match sweep [] s.bg_jobs pending [] with
  | Outcome.fault => Outcome.fault
  | Outcome.ret r => Outcome.ret { s with bg_jobs := r.1 }

/-- The states of the job table that a session reaches: from the initial state through a
launch (of a Job fresh from the parser, whose `job_spec` is `0`), the built-ins `fg` and
`bg`, the hooks `fg_job_stopped` and `fg_job_terminated`, a status change of the foreground
Job in `wait_job`, and the background sweep. -/
inductive Reachable : shell_state → Prop where
  | init (pgrp : Int) : Reachable (shell_state.init pgrp)
  | launch {s : shell_state} (job : job_info) (retval : Int) :
      Reachable s → job.job_spec = 0 → Reachable (main_after_launch s job retval)
  | fg {s t : shell_state} (buffer : List Char) :
      Reachable s → XSSH.fg s buffer = some t → Reachable t
  | bg {s t : shell_state} (buffer : List Char) :
      Reachable s → XSSH.bg s buffer = some t → Reachable t
  | stopped {s : shell_state} : Reachable s → Reachable (fg_job_stopped s)
  | terminated {s : shell_state} : Reachable s → Reachable (fg_job_terminated s)
  | event {s : shell_state} (e : Event) :
      Reachable s → Reachable { s with fg_job := s.fg_job.map (fun j => apply_event j e) }
  | swept {s t : shell_state} (pending : List (List wait_result)) :
      Reachable s → wait_background_job s pending = Outcome.ret t → Reachable t

/-- Whether one of the events `es`, applied to `job` in turn, removed a Process that was
killed by a signal. -/
def some_killed : job_info → List Event → Bool
  | _, [] => false
  | job, e :: es =>
    (match e with
      | Event.CLD_KILLED pid _ => (find_proc pid job.proc_info_list).isSome
      | _ => false) || some_killed (apply_event job e) es

/-- The events Exited for the pairs (pid, exit status) of `xs`, in order. -/
def exits (xs : List (Int × Int)) : List Event :=
  xs.map (fun x => Event.CLD_EXITED x.1 x.2)

/-- The system calls of the example: every call succeeds, the pipe has the descriptors 3
and 4, and the child of iteration `i` has pid `100 + i`. -/
def sample_sys (i : Nat) : launch_sys :=
  { pipe_ret := 0, pipe_fd0 := 3, pipe_fd1 := 4, pipe_errno := 0, fork_ret := 100 + i,
    fork_errno := 0, setpgid_ret := 0, setpgid_errno := 0, dup2_ret := 0, dup2_errno := 0 }

/-- What holds of the job table in every state of a session: the Jobs of the background
table have job-specs from `1` to `max_bg_job_index` that differ from one another, and the
job-spec of the foreground Job, when it has one, is in that range and not in the table. -/
structure TableInv (s : shell_state) : Prop where
  range : ∀ j ∈ s.bg_jobs, 1 ≤ j.job_spec ∧ j.job_spec ≤ s.max_bg_job_index
  nodup : (s.bg_jobs.map (fun j => j.job_spec)).Nodup
  fg_range : ∀ j, s.fg_job = some j → j.job_spec ≠ 0 →
    1 ≤ j.job_spec ∧ j.job_spec ≤ s.max_bg_job_index
  fg_fresh : ∀ j, s.fg_job = some j → j.job_spec ≠ 0 →
    ∀ k ∈ s.bg_jobs, k.job_spec ≠ j.job_spec
  max_nonneg : 0 ≤ s.max_bg_job_index

/-- A Job as it is after a successful launch of one Process with the pid `pid`, for the
examples: the Process is Running, the process group is `pid`, and `background` tells whether
the line ended in `&`. The Job has no job-spec yet. -/
def sample_launched (pid : Int) (background : Bool) : job_info :=
  { sample_job [sample_proc pid process_state.XSSH_PROC_STATE_RUNNING] 1 0
      job_state.XSSH_JOB_STATE_STOPPED with
    pgid := pid, lastpid := pid, background := background }

/-! ## The dispatcher: `deinstr` and the branch of `main` -/

def INSNUM : Nat := 13

/-- The array `instr` of the internal instructions. -/
def instr : List (List Char) :=
  ["show".toList, "set".toList, "export".toList, "unexport".toList, "show".toList,
   "exit".toList, "wait".toList, "help".toList, "bg".toList, "fg".toList, "jobs".toList,
   "pwd".toList, "cd".toList]

/-- The inner loop `for(j = 0; (j < len)&&(j < stdlen); j++)` of `deinstr` from index `j`
on, over what is left of `instr[i]` and of the buffer: the values of `flag` (`true` for 1)
and `j` after the loop. -/
def deinstr_compare : List Char → List Char → Nat → Bool × Nat
  | [], _, j => (false, j)
  | _ :: _, [], j => (false, j)
  | a :: name, b :: buffer, j =>
    if a ≠ b then (true, j) else deinstr_compare name buffer (j + 1)

/-- The loop `for(i = 0; i < INSNUM; i++)` of `deinstr` from iteration `i` on, with the
statements that follow it: the value returned. The last argument holds `instr[i]`,
`instr[i + 1]`, ...; when it is empty the loop has ended on `i < INSNUM`, after an
iteration that left `flag = 1`, and the function returns 0. -/
def deinstr_loop : List Char → Nat → List (List Char) → Int
  | _, _, [] => 0
  | buffer, i, name :: more =>
    let buffer := ltrim buffer
    let len := buffer.length
    let stdlen := name.length
    if len = 0 ∨ buffer.head? = some '#' then (INSNUM : Int) + 1
    else
      let r := deinstr_compare name buffer 0
      if r.1 = false ∧ 8 ≤ i ∧ i ≤ 12 then (i : Int) + 1
      else if r.1 = false ∧ r.2 = stdlen ∧ r.2 ≤ len ∧ buffer.getD r.2 NUL = ' ' then
        (i : Int) + 1
      else if r.1 = false ∧ r.2 = stdlen ∧ r.2 ≤ len ∧ i = 5 then (i : Int) + 1
      else if r.1 = false ∧ r.2 = stdlen ∧ r.2 ≤ len ∧ i = 7 then (i : Int) + 1
      else deinstr_loop buffer (i + 1) more

/-- The function `deinstr`. -/
def deinstr (buffer : List Char) : Int := deinstr_loop (cstr buffer) 0 instr

/-- The statements of `main` that delete the comment: the first `#` of the line is
replaced by a newline and the string ends behind it. -/
def strip_comment (buffer : List Char) : List Char :=
  if '#' ∈ cstr buffer then (cstr buffer).takeWhile (fun c => c != '#') ++ ['\n']
  else cstr buffer

/-- What `main` does with a line, by the branch of its `if` chain. -/
inductive main_action where
  | call_show
  | call_set
  | call_export
  | call_unexport
  | call_xsshexit
  | call_waitchild
  | call_help
  | call_bg
  | call_fg
  | call_jobs
  | call_pwd
  | call_cd
  | call_time
  | call_create_job
  deriving DecidableEq, Repr

/-- The `if` chain of `main` on the value `ins` that `deinstr` returned. -/
def main_branch (ins : Int) : main_action :=
  if ins = 1 then main_action.call_show
  else if ins = 2 then main_action.call_set
  else if ins = 3 then main_action.call_export
  else if ins = 4 then main_action.call_unexport
  else if ins = 5 then main_action.call_show
  else if ins = 6 then main_action.call_xsshexit
  else if ins = 7 then main_action.call_waitchild
  else if ins = 8 then main_action.call_help
  else if ins = 9 then main_action.call_bg
  else if ins = 10 then main_action.call_fg
  else if ins = 11 then main_action.call_jobs
  else if ins = 12 then main_action.call_pwd
  else if ins = 13 then main_action.call_cd
  else if ins = 14 then main_action.call_time
  else main_action.call_create_job

/-! ## The lines printed for a Job -/

/-- The value of a `job_state` as an `int`. -/
def job_state.toNat : job_state → Nat
  | job_state.XSSH_JOB_STATE_STOPPED => 0
  | job_state.XSSH_JOB_STATE_RUNNING => 1
  | job_state.XSSH_JOB_STATE_DONE => 2
  | job_state.XSSH_JOB_STATE_KILLED => 3

/-- The array `state_str`. -/
def state_str : List (List Char) :=
  ["STOPPED".toList, "RUNNING".toList, "DONE".toList, "KILLED".toList]

/-- The conversion `%d` of `printf`. -/
def fmt_d (n : Int) : List Char :=
  if n < 0 then '-' :: Nat.toDigits 10 n.natAbs else Nat.toDigits 10 n.toNat

/-- The function `print_job_status`: the characters written to `stdout`. -/
def print_job_status (job : job_info) : List Char :=
  if job.state = job_state.XSSH_JOB_STATE_DONE ∨ job.state = job_state.XSSH_JOB_STATE_KILLED
  then
    "[".toList ++ fmt_d job.job_spec ++ "] ".toList ++ state_str.getD job.state.toNat [] ++
      " ".toList ++ fmt_d job.status ++ " ".toList ++ job.cmd ++ "\n".toList
  else if job.state = job_state.XSSH_JOB_STATE_RUNNING then
    if job.background then
      "[".toList ++ fmt_d job.job_spec ++ "] ".toList ++ state_str.getD job.state.toNat [] ++
        " ".toList ++ job.cmd ++ " &\n".toList
    else job.cmd ++ "\n".toList
  else
    "[".toList ++ fmt_d job.job_spec ++ "] ".toList ++ state_str.getD job.state.toNat [] ++
      " ".toList ++ job.cmd ++ "\n".toList

/-- The line `fprintf(stdout, "[%d] %s &\n", job->job_spec, job->cmd)` that `main` prints
after it has sent the Job to the background. -/
def main_announce (job : job_info) : List Char :=
  "[".toList ++ fmt_d job.job_spec ++ "] ".toList ++ job.cmd ++ " &\n".toList

/-! ## The external command line in `main`, and `wait_job` -/

/-- The call `execute_job(job)` on the pointer that `create_job` returned: on `NULL` the first
statement, `int end = job->nprocs - 1`, dereferences it. -/
def execute_job_ptr (job : Option job_info) (sys : Nat → launch_sys) :
    Outcome (Option (Int × job_info)) :=
  match job with
  | none => Outcome.fault
  | some j => Outcome.ret (execute_job j sys)

/-- The last branch of the `if` chain of `main`, for an external command line: `create_job`,
`execute_job` and the statements behind it. The result is `none` in the child process; else
the state of the shell with the line printed, which is empty unless the Job went to the
background. -/
def main_external (s : shell_state) (buffer : List Char) (sys : Nat → launch_sys) :
    Outcome (Option (shell_state × List Char)) :=
  match create_job buffer with
  | Outcome.fault => Outcome.fault
  | Outcome.ret job =>
    match execute_job_ptr job sys with
    | Outcome.fault => Outcome.fault
    | Outcome.ret none => Outcome.ret none
    | Outcome.ret (some r) =>
      let t := main_after_launch s r.2 r.1
      if r.1 = 0 ∧ r.2.background = true then
        Outcome.ret (some (t, (t.bg_jobs.getLast?.map main_announce).getD []))
      else Outcome.ret (some (t, []))

/-- The loop `while(g_context.fg_job)` of `wait_job` over the results of its blocking calls
of `waitid`. The result is `none` when a call does not return (the results are used up
while a Job is in the foreground), and for the results `failed` and `nothing`, after which
the loop reads a `siginfo_t` that the call has not filled. -/
def wait_loop : shell_state → List wait_result → Option shell_state
  | s, [] => if s.fg_job.isNone then some s else none
  | s, r :: rs =>
    match s.fg_job with
    | none => some s
    | some j =>
      match r with
      | wait_result.echild => some s
      | wait_result.failed => none
      | wait_result.nothing => none
      | wait_result.status e =>
        let j := apply_event j e
        let s := { s with fg_job := some j }
        if j.state = job_state.XSSH_JOB_STATE_STOPPED then some (fg_job_stopped s)
        else if j.state = job_state.XSSH_JOB_STATE_KILLED ∨
            j.state = job_state.XSSH_JOB_STATE_DONE then some (fg_job_terminated s)
        else wait_loop s rs
      | wait_result.other _ =>
        if j.state = job_state.XSSH_JOB_STATE_STOPPED then some (fg_job_stopped s)
        else if j.state = job_state.XSSH_JOB_STATE_KILLED ∨
            j.state = job_state.XSSH_JOB_STATE_DONE then some (fg_job_terminated s)
        else wait_loop s rs

/-- The function `wait_job`: the loop on the foreground Job, then `wait_background_job(0)`
with the results `pending` of its calls of `waitid`. -/
def wait_job (s : shell_state) (rs : List wait_result) (pending : List (List wait_result)) :
    Option (Outcome shell_state) :=
  (wait_loop s rs).map (fun t => wait_background_job t pending)

/-! ## The redirections in `run_exec` -/

/-- What a file descriptor of the child refers to: the open file that descriptor `fd` of the
child referred to when `run_exec` reached its redirection loop, or a file opened by the loop
with the flags of redirection mode `mode`. -/
inductive open_file where
  | inherited (fd : Nat)
  | opened (path : List Char) (mode : Int)
  deriving DecidableEq, Repr

/-- The descriptor table of the process: entry `n` is what descriptor `n` refers to, `none`
when it is closed; descriptors behind the end of the list are closed. -/
abbrev fd_table := List (Option open_file)

/-- What descriptor `fd` refers to. -/
def fd_lookup (t : fd_table) (fd : Int) : Option open_file :=
  if fd < 0 then none else (t.getD fd.toNat none)

/-- The table with entry `n` replaced. -/
def fd_store : fd_table → Nat → Option open_file → fd_table
  | [], 0, r => [r]
  | [], n + 1, r => none :: fd_store [] n r
  | _ :: t, 0, r => r :: t
  | x :: t, n + 1, r => x :: fd_store t n r

/-- The lowest descriptor that is closed. -/
def lowest_free : fd_table → Nat
  | [] => 0
  | none :: _ => 0
  | some _ :: t => lowest_free t + 1

/-- The system call `close`. -/
def sys_close (t : fd_table) (fd : Int) : fd_table :=
  if (fd_lookup t fd).isSome then fd_store t fd.toNat none else t

/-- The system call `dup2(oldfd, newfd)`: the value returned (`-1` on a descriptor that is
not open or not valid) and the table. -/
def sys_dup2 (t : fd_table) (oldfd newfd : Int) : Int × fd_table :=
  match fd_lookup t oldfd with
  | none => (-1, t)
  | some f =>
    if newfd < 0 then (-1, t)
    else if oldfd = newfd then (newfd, t)
    else (newfd, fd_store t newfd.toNat (some f))

/-- The system call `open` with the flags of redirection mode `mode`, which returns the
lowest descriptor that is closed; `can_open` tells of which paths the call succeeds. -/
def sys_open (can_open : List Char → Bool) (t : fd_table) (path : Option (List Char))
    (mode : Int) : Int × fd_table :=
  match path with
  | none => (-1, t)
  | some p =>
    if can_open p then
      ((lowest_free t : Nat), fd_store t (lowest_free t) (some (open_file.opened p mode)))
    else (-1, t)

/-- The loop `CIRCLEQ_FOREACH(rinfo, &p->redirect_info_list, link)` of `run_exec`: the
descriptor table with which the loop ends, `none` when it leaves through `goto done` (a
failed `dup2`) or meets a mode other than 1 to 5, for which `fd1` and `fd2` are not
assigned. -/
def run_exec_redirects (can_open : List Char → Bool) :
    List redirect_info → fd_table → Option fd_table
  | [], t => some t
  | rinfo :: more, t =>
    if rinfo.mode = 1 ∨ rinfo.mode = 2 then
      let o := sys_open can_open t rinfo.dstfile rinfo.mode
      let d := sys_dup2 o.2 o.1 rinfo.srcfd
      if d.1 < 0 then none else run_exec_redirects can_open more (sys_close d.2 o.1)
    else if rinfo.mode = 3 then
      let d := sys_dup2 t rinfo.dstfd rinfo.srcfd
      if d.1 < 0 then none else run_exec_redirects can_open more (sys_close d.2 rinfo.dstfd)
    else if rinfo.mode = 4 then
      let o := sys_open can_open t rinfo.srcfile rinfo.mode
      let d := sys_dup2 o.2 o.1 rinfo.dstfd
      if d.1 < 0 then none else run_exec_redirects can_open more (sys_close d.2 o.1)
    else if rinfo.mode = 5 then
      let d := sys_dup2 t rinfo.srcfd rinfo.dstfd
      if d.1 < 0 then none else run_exec_redirects can_open more (sys_close d.2 rinfo.srcfd)
    else none

/-- The number of Processes of the list that are Stopped. -/
def count_stopped (l : List proc_info) : Nat :=
  (l.filter (fun p => p.state = process_state.XSSH_PROC_STATE_STOPPED)).length

/-- The line that `main` printed for an external command line, from the result of
`main_external`; empty when nothing was printed or the shell did not get that far. -/
def main_external_output : Outcome (Option (shell_state × List Char)) → List Char
  | Outcome.ret (some r) => r.2
  | _ => []

/-- The state of the shell after an external command line, from the result of
`main_external`. -/
def main_external_state : Outcome (Option (shell_state × List Char)) → Option shell_state
  | Outcome.ret (some r) => some r.1
  | _ => none

/-- Whether the instruction `name` with index `i` ends the loop of `deinstr` on the buffer:
the conditions of the four branches that `break`. -/
def deinstr_match (i : Nat) (name buffer : List Char) : Prop :=
  ((deinstr_compare name buffer 0).1 = false ∧ 8 ≤ i ∧ i ≤ 12) ∨
  ((deinstr_compare name buffer 0).1 = false ∧
    (deinstr_compare name buffer 0).2 = name.length ∧
    (deinstr_compare name buffer 0).2 ≤ buffer.length ∧
    (buffer.getD (deinstr_compare name buffer 0).2 NUL = ' ' ∨ i = 5 ∨ i = 7))

/-! ## The redirections of a process text, read from the grammar -/

/-- A redirection of a process text as it is written: the operator, the word written
directly in front of it (empty when a blank, an operator or the start of the text is in
front of it, and when the word in front is the target of the operator before) and the
first word after it, its target. -/
structure RedirItem where
  op : RedirOp
  fd_text : List Char
  target : List Char
  deriving DecidableEq, Repr

/-- The end of the word `w` (empty if no word has been read since the last blank or
operator) while `pending` is the operator that waits for its target, with the word in front
of it: a word that ends after an operator is the target of the operator. The result is the
redirection that is complete, the operator that still waits, and the word that is left in
front of what follows. -/
def close_word (w : List Char) (pending : Option (RedirOp × List Char)) :
    List RedirItem × Option (RedirOp × List Char) × List Char :=
  match pending with
  | some (o, pre) =>
    if w ≠ [] then ([{ op := o, fd_text := pre, target := w }], none, [])
    else ([], some (o, pre), [])
  | none => ([], none, w)

/-- The redirections of a sequence of lexical items, from left to right; `w` is the word
read so far and `pending` the operator that waits for its target. -/
def redir_items_go : List Lexeme → List Char → Option (RedirOp × List Char) → List RedirItem
  | [], w, pending => (close_word w pending).1
  | Lexeme.wordchar c :: rest, w, pending => redir_items_go rest (w ++ [c]) pending
  | Lexeme.blank :: rest, w, pending =>
    (close_word w pending).1 ++ redir_items_go rest [] (close_word w pending).2.1
  | Lexeme.amp :: rest, w, pending =>
    (close_word w pending).1 ++ redir_items_go rest [] (close_word w pending).2.1
  | Lexeme.op o :: rest, w, pending =>
    (close_word w pending).1 ++ redir_items_go rest [] (some (o, (close_word w pending).2.2))

/-- The redirections of a process text in the order in which they are written, each with
its operator, the word directly in front of the operator and its target. -/
def redir_items (text : List Char) : List RedirItem :=
  redir_items_go (lexemes text) [] none

/-- The entry of the redirection list for a redirection as it is written, `n` being the
descriptor read from the word in front of the operator (`-1` if that is not a descriptor).
`>`, `>>` and `>&` record `n` or else 1 as `srcfd`, `<` records `n` or else 0 as `dstfd`;
`>` and `>>` take the target as a file, `<` takes it as the source file; `>&` and `<&`
take a target that is a descriptor as `dstfd`. `>&` followed by a file name is the entry of
`>` if its descriptor is 1 and is refused otherwise; `<&` followed by a file name is
refused, and `<&` does not keep `n`. `none` is a refused redirection. -/
def RedirItem.entry (it : RedirItem) : Option redirect_info :=
  let n := fd_of_token it.fd_text
  let m := fd_of_token it.target
  match it.op with
  | RedirOp.trunc =>
    some { srcfd := if n < 0 then 1 else n, srcfile := none, dstfd := -1,
           dstfile := some it.target, mode := 1 }
  | RedirOp.append =>
    some { srcfd := if n < 0 then 1 else n, srcfile := none, dstfd := -1,
           dstfile := some it.target, mode := 2 }
  | RedirOp.dupout =>
    if m ≥ 0 then
      some { srcfd := if n < 0 then 1 else n, srcfile := none, dstfd := m, dstfile := none,
             mode := 3 }
    else if (if n < 0 then 1 else n) ≠ 1 then none
    else some { srcfd := 1, srcfile := none, dstfd := m, dstfile := some it.target,
                mode := 1 }
  | RedirOp.read =>
    some { srcfd := -1, srcfile := some it.target, dstfd := if n < 0 then 0 else n,
           dstfile := none, mode := 4 }
  | RedirOp.dupin =>
    if m ≥ 0 then
      some { srcfd := -1, srcfile := none, dstfd := m, dstfile := none, mode := 5 }
    else none

/-- The state of the loop of `create_proc` between two characters, seen from the text read
so far: `w` is the word that is being read (empty between words) and `pending` the operator
that waits for its target, with the word in front of it. -/
def ParseState.Reads (st : ParseState) (w : List Char)
    (pending : Option (RedirOp × List Char)) : Prop :=
  st.cur_token = [] ∧ (if st.token then st.tok = w else w = []) ∧
  st.rinfo = pending.map (fun p => p.1.fresh (fd_of_token p.2))

/-! ## Lemmas on the scanning loop -/

theorem tokchar_facts {c : Char} (h : isvalidtokenchar c = true) :
    isredir c = false ∧ isampersand c = false ∧ isspace c = false ∧ c ≠ NUL := by
  simp only [isvalidtokenchar, isredir, Bool.not_eq_true', Bool.or_eq_false_iff] at h ⊢
  obtain ⟨⟨⟨⟨h1, h2⟩, h3⟩, h4⟩, h5⟩ := h
  refine ⟨⟨h1, h2⟩, h3, h4, ?_⟩
  simpa using h5

theorem space_facts {c : Char} (h : isspace c = true) :
    isvalidtokenchar c = false ∧ isredir c = false ∧ isampersand c = false ∧ c ≠ NUL := by
  have h' : c = ' ' ∨ c = '\t' ∨ c = '\n' ∨ c = Char.ofNat 11 ∨ c = Char.ofNat 12 ∨ c = '\r' := by
    simpa [isspace, or_assoc] using h
  rcases h' with h | h | h | h | h | h <;> subst h <;> decide

theorem scan_nil (st : ParseState) : scan st [] = (step st NUL NUL).map Prod.fst := by
  simp [scan]

theorem scan_cons_tok {c : Char} (st : ParseState) (rest : List Char)
    (h : isvalidtokenchar c = true) : scan st (c :: rest) = scan (st.tokenChar c) rest := by
  simp [scan, h]

theorem feed_cons_tok {c : Char} (st : ParseState) (rest : List Char)
    (h : isvalidtokenchar c = true) : feed st (c :: rest) = feed (st.tokenChar c) rest := by
  simp [feed, h]

/-- a step at a character that is not `<` or `>` does not look at the next character -/
theorem step_plain {c : Char} (st : ParseState) (n : Char) (h : isredir c = false) :
    step st c n = (step st c NUL).map (fun r => (r.1, false)) := by
  unfold step
  cases end_token st with
  | none => rfl
  | some s =>
    simp only [dispatch, h, Bool.false_eq_true, ↓reduceIte]
    split_ifs <;> rfl

theorem scan_cons_plain {c : Char} (st : ParseState) (rest : List Char)
    (h1 : isvalidtokenchar c = false) (h2 : isredir c = false) :
    scan st (c :: rest) = ((step st c NUL).map Prod.fst).bind (fun s => scan s rest) := by
  rw [scan]
  simp only [h1, Bool.false_eq_true, ↓reduceIte]
  rw [step_plain st _ h2]
  cases step st c NUL with
  | none => rfl
  | some r => rfl

theorem feed_cons_plain {c : Char} (st : ParseState) (rest : List Char)
    (h1 : isvalidtokenchar c = false) (h2 : isredir c = false) :
    feed st (c :: rest) = ((step st c NUL).map Prod.fst).bind (fun s => feed s rest) := by
  rw [feed]
  simp only [h1, Bool.false_eq_true, ↓reduceIte]
  rw [step_plain st _ h2]
  cases step st c NUL with
  | none => rfl
  | some r => rfl

theorem new_redirect_congr (c n n' : Char) (fd : Int) (h1 : isoutredir n = isoutredir n')
    (h2 : isampersand n = isampersand n') : new_redirect c n fd = new_redirect c n' fd := by
  simp only [new_redirect, h1, h2]

theorem step_congr (st : ParseState) (c n n' : Char) (h1 : isoutredir n = isoutredir n')
    (h2 : isampersand n = isampersand n') : step st c n = step st c n' := by
  simp only [step, dispatch, new_redirect_congr c n n' _ h1 h2]

theorem new_redirect_skip {c n : Char} {fd : Int} (h : (new_redirect c n fd).2 = true) :
    isoutredir n = true ∨ isampersand n = true := by
  unfold new_redirect at h
  by_cases h1 : isoutredir n = true
  · exact Or.inl h1
  · by_cases h2 : isampersand n = true
    · exact Or.inr h2
    · simp only [h1, h2, Bool.false_eq_true, ↓reduceIte] at h
      split_ifs at h

theorem step_skip {st s : ParseState} {c n : Char} (h : step st c n = some (s, true)) :
    isoutredir n = true ∨ isampersand n = true := by
  unfold step at h
  cases he : end_token st with
  | none => simp [he] at h
  | some s0 =>
    simp only [he, dispatch] at h
    split_ifs at h
    all_goals first
      | (simp only [Option.some.injEq, Prod.mk.injEq] at h; exact new_redirect_skip h.2)
      | simp at h

theorem step_plain2 {c : Char} (st : ParseState) (n n' : Char) (h : isredir c = false) :
    step st c n = step st c n' := by
  unfold step
  cases end_token st with
  | none => rfl
  | some s => simp only [dispatch, h, Bool.false_eq_true, ↓reduceIte]

theorem step_no_skip {st : ParseState} {c n : Char}
    (h1 : isoutredir n = false) (h2 : isampersand n = false) :
    ∀ r, step st c n = some r → r.2 = false := by
  intro r hr
  rcases r with ⟨s, b⟩
  cases b with
  | false => rfl
  | true =>
    rcases step_skip hr with h | h
    · rw [h1] at h; cases h
    · rw [h2] at h; cases h

theorem scan_sep_none {c : Char} {st : ParseState} {r : List Char}
    (h : isvalidtokenchar c = false) (hs : step st c (r.headD NUL) = none) :
    scan st (c :: r) = none := by
  rw [scan]
  simp only [h, Bool.false_eq_true, ↓reduceIte, hs]

theorem scan_sep_next {c : Char} {st s : ParseState} {r : List Char}
    (h : isvalidtokenchar c = false) (hs : step st c (r.headD NUL) = some (s, false)) :
    scan st (c :: r) = scan s r := by
  rw [scan]
  simp only [h, Bool.false_eq_true, ↓reduceIte, hs]

theorem scan_sep_skip {c d : Char} {st s : ParseState} {r : List Char}
    (h : isvalidtokenchar c = false) (hs : step st c d = some (s, true)) :
    scan st (c :: d :: r) = scan s r := by
  rw [scan]
  simp only [h, Bool.false_eq_true, ↓reduceIte, List.headD_cons, hs]

theorem feed_sep_none {c : Char} {st : ParseState} {r : List Char}
    (h : isvalidtokenchar c = false) (hs : step st c (r.headD NUL) = none) :
    feed st (c :: r) = none := by
  rw [feed]
  simp only [h, Bool.false_eq_true, ↓reduceIte, hs]

theorem feed_sep_next {c : Char} {st s : ParseState} {r : List Char}
    (h : isvalidtokenchar c = false) (hs : step st c (r.headD NUL) = some (s, false)) :
    feed st (c :: r) = feed s r := by
  rw [feed]
  simp only [h, Bool.false_eq_true, ↓reduceIte, hs]

theorem feed_sep_skip {c d : Char} {st s : ParseState} {r : List Char}
    (h : isvalidtokenchar c = false) (hs : step st c d = some (s, true)) :
    feed st (c :: d :: r) = feed s r := by
  rw [feed]
  simp only [h, Bool.false_eq_true, ↓reduceIte, List.headD_cons, hs]

theorem scan_append_aux (n : Nat) : ∀ (pre rest : List Char) (st : ParseState),
    pre.length ≤ n →
    (∀ c, pre.getLast? = some c → isredir c = true →
      isoutredir (rest.headD NUL) = false ∧ isampersand (rest.headD NUL) = false) →
    scan st (pre ++ rest) = (feed st pre).bind (fun s => scan s rest) := by
  induction n with
  | zero =>
    intro pre rest st hlen _
    have : pre = [] := List.length_eq_zero.mp (Nat.le_zero.mp hlen)
    subst this
    simp [feed]
  | succ n ih =>
    intro pre rest st hlen h
    cases pre with
    | nil => simp [feed]
    | cons c pre1 =>
      by_cases hc : isvalidtokenchar c = true
      · rw [List.cons_append, scan_cons_tok _ _ hc, feed_cons_tok _ _ hc]
        apply ih
        · simpa using hlen
        · intro x hx
          apply h x
          cases pre1 with
          | nil => simp at hx
          | cons d pre2 => simpa [List.getLast?_cons_cons] using hx
      · simp only [Bool.not_eq_true] at hc
        cases pre1 with
        | nil =>
          have hs : step st c (rest.headD NUL) = step st c NUL := by
            by_cases hr : isredir c = true
            · obtain ⟨h1, h2⟩ := h c rfl hr
              exact step_congr st c _ _ (by rw [h1]; decide) (by rw [h2]; decide)
            · simp only [Bool.not_eq_true] at hr
              exact step_plain2 st _ _ hr
          have hn : ∀ r, step st c NUL = some r → r.2 = false :=
            step_no_skip (by decide) (by decide)
          rw [List.cons_append, List.nil_append]
          cases hstep : step st c NUL with
          | none =>
            rw [scan_sep_none (r := rest) hc (hs.trans hstep), feed_sep_none (r := []) hc hstep]
            rfl
          | some r =>
            rcases r with ⟨s, b⟩
            have := hn _ hstep
            simp only at this
            subst this
            rw [scan_sep_next (r := rest) hc (hs.trans hstep), feed_sep_next (r := []) hc hstep]
            simp [feed]
        | cons d pre2 =>
          have h2 : ∀ x, (d :: pre2).getLast? = some x → isredir x = true →
              isoutredir (rest.headD NUL) = false ∧ isampersand (rest.headD NUL) = false := by
            intro x hx
            exact h x (by simpa [List.getLast?_cons_cons] using hx)
          have h3 : ∀ x, pre2.getLast? = some x → isredir x = true →
              isoutredir (rest.headD NUL) = false ∧ isampersand (rest.headD NUL) = false := by
            intro x hx
            apply h2 x
            cases pre2 with
            | nil => simp at hx
            | cons e pre3 => simpa [List.getLast?_cons_cons] using hx
          have hl2 : (d :: pre2).length ≤ n := by simpa using hlen
          have hl3 : pre2.length ≤ n := by
            simp only [List.length_cons] at hlen hl2; omega
          rw [List.cons_append, List.cons_append]
          cases hstep : step st c d with
          | none =>
            rw [scan_sep_none (r := d :: (pre2 ++ rest)) hc hstep,
              feed_sep_none (r := d :: pre2) hc hstep]
            rfl
          | some r =>
            rcases r with ⟨s, b⟩
            cases b with
            | false =>
              rw [scan_sep_next (r := d :: (pre2 ++ rest)) hc hstep,
                feed_sep_next (r := d :: pre2) hc hstep]
              have := ih (d :: pre2) rest s hl2 h2
              simpa only [List.cons_append] using this
            | true =>
              rw [scan_sep_skip hc hstep, feed_sep_skip hc hstep]
              exact ih pre2 rest s hl3 h3

theorem scan_append (pre rest : List Char) (st : ParseState)
    (h : ∀ c, pre.getLast? = some c → isredir c = true →
      isoutredir (rest.headD NUL) = false ∧ isampersand (rest.headD NUL) = false) :
    scan st (pre ++ rest) = (feed st pre).bind (fun s => scan s rest) :=
  scan_append_aux pre.length pre rest st le_rfl h

/-! ## Lemmas on `create_job` -/

theorem strtok_go_replicate (d : Char) (n : Nat) : strtok_go d (List.replicate n d) [] = [] := by
  induction n with
  | zero => rfl
  | succ n ih => simp [List.replicate_succ, strtok_go, ih]

theorem cstr_eq_self {s : List Char} (h : ∀ c ∈ s, c ≠ NUL) : cstr s = s := by
  unfold cstr
  rw [List.takeWhile_eq_self_iff]
  intro c hc
  simpa using h c hc

theorem ltrim_cons_of_not_space {c : Char} (s : List Char) (h : isspace c = false) :
    ltrim (c :: s) = c :: s := by
  simp [ltrim, List.dropWhile, h]

theorem rtrim_of_last {s : List Char} {c : Char} (h : isspace c = false) :
    rtrim (s ++ [c]) = s ++ [c] := by
  simp [rtrim, List.dropWhile, h]

/-- Claim C1 (code defect): on a line made only of `|` characters `strtok_r` returns no
token, the loop of `create_job` is not entered, `job` is still `NULL`, and the statement
`if(job->background)` after the loop dereferences it: `create_job` faults instead of
returning a Job or `NULL`. -/
theorem create_job_pipes_fault (n : Nat) :
    create_job (List.replicate (n + 1) '|') = Outcome.fault := by
  have hc : cstr (List.replicate (n + 1) '|') = List.replicate (n + 1) '|' := by
    apply cstr_eq_self
    intro c hc
    rw [List.eq_of_mem_replicate hc]
    decide
  have hl : ltrim (List.replicate (n + 1) '|') = List.replicate (n + 1) '|' := by
    rw [List.replicate_succ]; exact ltrim_cons_of_not_space _ (by decide)
  have hr : rtrim (List.replicate (n + 1) '|') = List.replicate (n + 1) '|' := by
    rw [List.replicate_succ']; exact rtrim_of_last (by decide)
  simp only [create_job, hc, hl, hr, strtok_all, strtok_go_replicate, job_loop]

theorem tokenChar_of_idle {st : ParseState} (h : st.Idle) (c : Char) :
    st.tokenChar c = st.withTok [c] := by
  simp [ParseState.tokenChar, ParseState.withTok, h.1]

theorem tokenChar_withTok (st : ParseState) (w : List Char) (c : Char) :
    (st.withTok w).tokenChar c = st.withTok (w ++ [c]) := by
  simp [ParseState.tokenChar, ParseState.withTok]

theorem feed_withTok (st : ParseState) : ∀ (w v : List Char),
    (∀ c ∈ v, isvalidtokenchar c = true) →
    feed (st.withTok w) v = some (st.withTok (w ++ v)) := by
  intro w v
  induction v generalizing w with
  | nil => intro _; simp [feed]
  | cons c v ih =>
    intro h
    rw [feed_cons_tok _ _ (h c (List.mem_cons_self _ _)), tokenChar_withTok, ih]
    · simp
    · intro x hx; exact h x (List.mem_cons_of_mem _ hx)

/-- reading a word from an idle state -/
theorem feed_word {st : ParseState} (hi : st.Idle) {w : List Char} (hne : w ≠ [])
    (hw : ∀ c ∈ w, isvalidtokenchar c = true) : feed st w = some (st.withTok w) := by
  cases w with
  | nil => exact absurd rfl hne
  | cons c v =>
    rw [feed_cons_tok _ _ (hw c (List.mem_cons_self _ _)), tokenChar_of_idle hi,
      feed_withTok _ _ _ (fun x hx => hw x (List.mem_cons_of_mem _ hx))]
    rfl

theorem getLast_word_not_redir {w : List Char} (hw : ∀ c ∈ w, isvalidtokenchar c = true)
    (rest : List Char) : ∀ c, w.getLast? = some c → isredir c = true →
      isoutredir (rest.headD NUL) = false ∧ isampersand (rest.headD NUL) = false := by
  intro c hc hr
  have := (tokchar_facts (hw c (List.mem_of_getLast?_eq_some hc))).1
  rw [this] at hr; cases hr

theorem scan_word {st : ParseState} (hi : st.Idle) {w : List Char} (hne : w ≠ [])
    (hw : ∀ c ∈ w, isvalidtokenchar c = true) (rest : List Char) :
    scan st (w ++ rest) = scan (st.withTok w) rest := by
  rw [scan_append _ _ _ (getLast_word_not_redir hw rest), feed_word hi hne hw]
  rfl

theorem idle_eta {st : ParseState} (h : st.Idle) :
    ({ st with token := false, tok := [], cur_token := [] } : ParseState) = st := by
  obtain ⟨h1, h2, h3⟩ := h
  cases st
  simp only [ParseState.mk.injEq] at *
  simp [h1, h2, h3]

theorem end_token_idle {st : ParseState} (h : st.Idle) : end_token st = some st := by
  obtain ⟨h1, h2, h3⟩ := h
  cases st with
  | mk token tok cur rinfo bg rl ecb na =>
    simp only at h1 h2 h3
    subst h1 h2 h3
    cases rinfo <;> simp [end_token]

theorem end_token_word {st : ParseState} (hi : st.Idle) (hr : st.rinfo = none)
    (hb : st.background = false) (w : List Char) :
    end_token (st.withTok w) = some { st with cur_token := w } := by
  obtain ⟨h1, h2, h3⟩ := hi
  cases st with
  | mk token tok cur rinfo bg rl ecb na =>
    simp only at h1 h2 h3 hr hb
    subst h1 h2 h3 hr hb
    simp [end_token, ParseState.withTok]

theorem end_token_word_bg {st : ParseState} (hr : st.rinfo = none)
    (hb : st.background = true) {w : List Char} (hne : w ≠ []) :
    end_token (st.withTok w) = none := by
  cases st with
  | mk token tok cur rinfo bg rl ecb na =>
    simp only at hr hb
    subst hr hb
    simp [end_token, ParseState.withTok, hne]

theorem end_token_target {st : ParseState} (hi : st.Idle) {r : redirect_info}
    (hr : st.rinfo = some r) {w : List Char} (hne : w ≠ []) :
    end_token (st.withTok w) =
      (set_target r w).map (fun x =>
        { st with rinfo := none, redirect_info_list := st.redirect_info_list ++ [x] }) := by
  obtain ⟨h1, h2, h3⟩ := hi
  cases st with
  | mk token tok cur rinfo bg rl ecb na =>
    simp only at h1 h2 h3 hr
    subst h1 h2 h3 hr
    simp only [end_token, ParseState.withTok, ite_true]
    cases set_target r w with
    | none => simp [hne]
    | some x => simp [hne]

theorem push_arg_nil (st : ParseState) : push_arg st [] = st := by
  simp [push_arg]

theorem fd_of_token_nil : fd_of_token [] = -1 := by
  simp [fd_of_token, isvalidfd]

/-- a blank between words changes nothing -/
theorem step_idle_space {st : ParseState} (hi : st.Idle) {c : Char} (hc : isspace c = true)
    (n : Char) : step st c n = some (st, false) := by
  obtain ⟨h1, h2, h3, h4⟩ := space_facts hc
  simp only [step, end_token_idle hi, dispatch, h2, h3, h4, hi.2.2, Bool.false_eq_true,
    ↓reduceIte, push_arg_nil]
  rw [← hi.2.2]

theorem step_idle_nul {st : ParseState} (hi : st.Idle) (n : Char) :
    step st NUL n = if st.rinfo.isSome then none else some (st, false) := by
  have e : ({ st with cur_token := [] } : ParseState) = st := by rw [← hi.2.2]
  have h1 : isredir NUL = false := by decide
  have h2 : isampersand NUL = false := by decide
  simp only [step, end_token_idle hi, dispatch, h1, h2, hi.2.2, Bool.false_eq_true,
    ↓reduceIte, push_arg_nil, e]

/-- the end of a word at a blank or at the end of the text -/
theorem step_word_end {st : ParseState} (hi : st.Idle) (hr : st.rinfo = none)
    (hb : st.background = false) (w : List Char) {c : Char}
    (h1 : isredir c = false) (h2 : isampersand c = false) (n : Char) :
    step (st.withTok w) c n = some (push_arg st w, false) := by
  rw [step, end_token_word hi hr hb]
  obtain ⟨i1, i2, i3⟩ := hi
  cases st with
  | mk token tok cur rinfo bg rl ecb na =>
    simp only at i1 i2 i3 hr hb
    subst i1 i2 i3 hr hb
    simp only [dispatch, h1, h2, Bool.false_eq_true, ↓reduceIte, Option.isSome_none, ite_self]

theorem step_word_amp {st : ParseState} (hi : st.Idle) (hr : st.rinfo = none)
    (hb : st.background = false) (w : List Char) (n : Char) :
    step (st.withTok w) '&' n = some (push_arg { st with background := true } w, false) := by
  have h1 : isredir '&' = false := by decide
  have h2 : isampersand '&' = true := by decide
  rw [step, end_token_word hi hr hb]
  obtain ⟨i1, i2, i3⟩ := hi
  cases st with
  | mk token tok cur rinfo bg rl ecb na =>
    simp only at i1 i2 i3 hr hb
    subst i1 i2 i3 hr hb
    simp only [dispatch, h1, h2, Bool.false_eq_true, ↓reduceIte, Option.isSome_none]

theorem step_word_redir {st : ParseState} (hi : st.Idle) (hr : st.rinfo = none)
    (hb : st.background = false) (w : List Char) {c : Char} (hc : isredir c = true)
    (n : Char) :
    step (st.withTok w) c n =
      some (push_arg { st with rinfo := some (new_redirect c n (fd_of_token w)).1 }
              (if fd_of_token w ≥ 0 then [] else w),
            (new_redirect c n (fd_of_token w)).2) := by
  rw [step, end_token_word hi hr hb]
  obtain ⟨i1, i2, i3⟩ := hi
  cases st with
  | mk token tok cur rinfo bg rl ecb na =>
    simp only at i1 i2 i3 hr hb
    subst i1 i2 i3 hr hb
    simp only [dispatch, hc, ↓reduceIte, Option.isSome_none, Bool.or_self, Bool.false_eq_true]

theorem step_idle_redir {st : ParseState} (hi : st.Idle) (hr : st.rinfo = none)
    (hb : st.background = false) {c : Char} (hc : isredir c = true) (n : Char) :
    step st c n =
      some ({ st with rinfo := some (new_redirect c n (-1)).1 }, (new_redirect c n (-1)).2) := by
  rw [step, end_token_idle hi]
  obtain ⟨i1, i2, i3⟩ := hi
  cases st with
  | mk token tok cur rinfo bg rl ecb na =>
    simp only at i1 i2 i3 hr hb
    subst i1 i2 i3 hr hb
    simp only [dispatch, hc, ↓reduceIte, Option.isSome_none, Bool.or_self, Bool.false_eq_true,
      fd_of_token_nil]
    simp [push_arg]

theorem step_idle_amp {st : ParseState} (hi : st.Idle) (hr : st.rinfo = none) (n : Char) :
    step st '&' n = some ({ st with background := true }, false) := by
  have h1 : isredir '&' = false := by decide
  have h2 : isampersand '&' = true := by decide
  rw [step, end_token_idle hi]
  obtain ⟨i1, i2, i3⟩ := hi
  cases st with
  | mk token tok cur rinfo bg rl ecb na =>
    simp only at i1 i2 i3 hr
    subst i1 i2 i3 hr
    simp only [dispatch, h1, h2, Bool.false_eq_true, ↓reduceIte, Option.isSome_none, push_arg_nil]

/-- the end of the target of the pending redirection -/
theorem step_target_end {st : ParseState} (hi : st.Idle) {r : redirect_info}
    (hr : st.rinfo = some r) {w : List Char} (hne : w ≠ []) {c : Char}
    (h1 : isredir c = false) (h2 : isampersand c = false) (n : Char) :
    step (st.withTok w) c n =
      (set_target r w).map (fun x =>
        ({ st with rinfo := none, redirect_info_list := st.redirect_info_list ++ [x] },
          false)) := by
  simp only [step, end_token_target hi hr hne]
  obtain ⟨i1, i2, i3⟩ := hi
  cases st with
  | mk token tok cur rinfo bg rl ecb na =>
    simp only at i1 i2 i3 hr
    subst i1 i2 i3 hr
    cases set_target r w with
    | none => rfl
    | some x =>
      simp only [Option.map_some', dispatch, h1, h2, Bool.false_eq_true, ↓reduceIte,
        Option.isSome_none, push_arg_nil, ite_self]

/-! strtok -/
theorem strtok_go_word (d : Char) : ∀ (w acc : List Char), d ∉ w → acc ++ w ≠ [] →
    strtok_go d w acc = [acc ++ w] := by
  intro w
  induction w with
  | nil =>
    intro acc _ hne
    have : acc ≠ [] := by simpa using hne
    simp [strtok_go, this]
  | cons c w ih =>
    intro acc hd _
    have hcd : c ≠ d := fun h => hd (by simp [h])
    have hdw : d ∉ w := fun h => hd (List.mem_cons_of_mem _ h)
    rw [strtok_go]
    simp only [hcd, ↓reduceIte]
    rw [ih (acc ++ [c]) hdw (by simp)]
    simp

theorem strtok_go_append (d : Char) (w : List Char) : ∀ (b acc : List Char),
    strtok_go d (b ++ d :: w) acc = strtok_go d b acc ++ strtok_go d w [] := by
  intro b
  induction b with
  | nil =>
    intro acc
    simp only [List.nil_append, strtok_go, ↓reduceIte]
    split_ifs <;> simp
  | cons c b ih =>
    intro acc
    rw [List.cons_append, strtok_go, strtok_go]
    split_ifs <;> simp [ih]

theorem strtok_all_word {d : Char} {w : List Char} (hd : d ∉ w) (hne : w ≠ []) :
    strtok_all d w = [w] := by
  have := strtok_go_word d w [] hd (by simpa using hne)
  simpa [strtok_all] using this

theorem strtok_all_append {d : Char} (b : List Char) {w : List Char} (hd : d ∉ w)
    (hne : w ≠ []) : strtok_all d (b ++ d :: w) = strtok_all d b ++ [w] := by
  unfold strtok_all
  rw [strtok_go_append, strtok_go_word d w [] hd (by simpa using hne)]
  simp

theorem space_not_mem_word {w : List Char} (hw : ∀ c ∈ w, isvalidtokenchar c = true) :
    ' ' ∉ w := by
  intro h
  have := (tokchar_facts (hw _ h)).2.2.1
  revert this
  decide

theorem argWords_push_arg (st : ParseState) {w : List Char} (hne : w ≠ [])
    (hw : ∀ c ∈ w, isvalidtokenchar c = true) :
    argWords (push_arg st w) = argWords st ++ [w] := by
  have hl : w.length ≠ 0 := by simpa using hne
  simp only [push_arg, hl, ne_eq, not_false_eq_true, ↓reduceIte, argWords]
  cases st.endcmdbuffer with
  | none =>
    simp only [Option.getD_some, Option.getD_none]
    rw [strtok_all_word (space_not_mem_word hw) hne]
    rfl
  | some b =>
    simp only [Option.getD_some]
    exact strtok_all_append b (space_not_mem_word hw) hne

theorem nargs_push_arg (st : ParseState) {w : List Char} (hne : w ≠ []) :
    (push_arg st w).nargs = st.nargs + 1 := by
  have hl : w.length ≠ 0 := by simpa using hne
  simp [push_arg, hl]

theorem push_arg_idle {st : ParseState} (h : st.Idle) (w : List Char) : (push_arg st w).Idle := by
  unfold push_arg
  split_ifs
  · exact h
  · exact h

theorem push_arg_rinfo (st : ParseState) (w : List Char) : (push_arg st w).rinfo = st.rinfo := by
  unfold push_arg; split_ifs <;> rfl

theorem push_arg_background (st : ParseState) (w : List Char) :
    (push_arg st w).background = st.background := by
  unfold push_arg; split_ifs <;> rfl

theorem push_arg_redirects (st : ParseState) (w : List Char) :
    (push_arg st w).redirect_info_list = st.redirect_info_list := by
  unfold push_arg; split_ifs <;> rfl

/-! blanks -/
theorem feed_spaces {st : ParseState} (hi : st.Idle) : ∀ (ws : List Char),
    (∀ c ∈ ws, isspace c = true) → feed st ws = some st := by
  intro ws
  induction ws with
  | nil => intro _; rfl
  | cons c ws ih =>
    intro h
    have hc := h c (List.mem_cons_self _ _)
    rw [feed_sep_next (space_facts hc).1 (step_idle_space hi hc _)]
    exact ih (fun x hx => h x (List.mem_cons_of_mem _ hx))

theorem getLast_spaces_not_redir {ws : List Char} (hw : ∀ c ∈ ws, isspace c = true)
    (rest : List Char) : ∀ c, ws.getLast? = some c → isredir c = true →
      isoutredir (rest.headD NUL) = false ∧ isampersand (rest.headD NUL) = false := by
  intro c hc hr
  have := (space_facts (hw c (List.mem_of_getLast?_eq_some hc))).2.1
  rw [this] at hr; cases hr

theorem scan_spaces {st : ParseState} (hi : st.Idle) {ws : List Char}
    (hw : ∀ c ∈ ws, isspace c = true) (rest : List Char) :
    scan st (ws ++ rest) = scan st rest := by
  rw [scan_append _ _ _ (getLast_spaces_not_redir hw rest), feed_spaces hi ws hw]
  rfl

theorem scan_idle_nil {st : ParseState} (hi : st.Idle) (hr : st.rinfo = none) :
    scan st [] = some st := by
  rw [scan_nil, step_idle_nul hi, hr]
  rfl

/-- the end of the last word, followed by blanks only -/
theorem scan_word_trail {st : ParseState} (hi : st.Idle) (hr : st.rinfo = none)
    (hb : st.background = false) (w : List Char) {trail : List Char}
    (ht : ∀ c ∈ trail, isspace c = true) :
    scan (st.withTok w) trail = some (push_arg st w) := by
  cases trail with
  | nil =>
    rw [scan_nil, step_word_end hi hr hb w (by decide) (by decide)]
    rfl
  | cons c t =>
    have hc := ht c (List.mem_cons_self _ _)
    obtain ⟨h1, h2, h3, _⟩ := space_facts hc
    rw [scan_sep_next h1 (step_word_end hi hr hb w h2 h3 _)]
    have := scan_spaces (push_arg_idle hi w) (fun x hx => ht x (List.mem_cons_of_mem _ hx)) []
    rw [List.append_nil] at this
    rw [this, scan_idle_nil (push_arg_idle hi w) (by rw [push_arg_rinfo, hr])]

/-- The text of a list of words, each preceded by its separator. -/
theorem scan_words : ∀ (rest : List (List Char × List Char)) (st : ParseState) (w : List Char)
    (trail : List Char), st.Idle → st.rinfo = none → st.background = false →
    (∀ p ∈ rest, p.1 ≠ [] ∧ (∀ c ∈ p.1, isspace c = true) ∧
      p.2 ≠ [] ∧ ∀ c ∈ p.2, isvalidtokenchar c = true) →
    (∀ c ∈ trail, isspace c = true) →
    scan (st.withTok w) ((rest.map (fun p => p.1 ++ p.2)).flatten ++ trail) =
      some ((rest.map Prod.snd).foldl push_arg (push_arg st w)) := by
  intro rest
  induction rest with
  | nil =>
    intro st w trail hi hr hb _ ht
    simpa using scan_word_trail hi hr hb w ht
  | cons p rest ih =>
    intro st w trail hi hr hb hp ht
    obtain ⟨hs1, hs2, hw1, hw2⟩ := hp p (List.mem_cons_self _ _)
    rcases p with ⟨sep, w1⟩
    simp only at hs1 hs2 hw1 hw2
    cases sep with
    | nil => exact absurd rfl hs1
    | cons c s =>
      have hc := hs2 c (List.mem_cons_self _ _)
      obtain ⟨h1, h2, h3, _⟩ := space_facts hc
      simp only [List.map_cons, List.flatten_cons, List.cons_append, List.append_assoc,
        List.foldl_cons]
      rw [scan_sep_next h1 (step_word_end hi hr hb w h2 h3 _),
        scan_spaces (push_arg_idle hi w) (fun x hx => hs2 x (List.mem_cons_of_mem _ hx)),
        scan_word (push_arg_idle hi w) hw1 hw2]
      exact ih (push_arg st w) w1 trail (push_arg_idle hi w) (by rw [push_arg_rinfo, hr])
        (by rw [push_arg_background, hb]) (fun q hq => hp q (List.mem_cons_of_mem _ hq)) ht

theorem foldl_push_arg : ∀ (ws : List (List Char)) (st : ParseState),
    (∀ w ∈ ws, w ≠ [] ∧ ∀ c ∈ w, isvalidtokenchar c = true) →
    argWords (ws.foldl push_arg st) = argWords st ++ ws ∧
    (ws.foldl push_arg st).nargs = st.nargs + ws.length ∧
    (ws.foldl push_arg st).background = st.background ∧
    (ws.foldl push_arg st).redirect_info_list = st.redirect_info_list := by
  intro ws
  induction ws with
  | nil => intro st _; simp
  | cons w ws ih =>
    intro st h
    obtain ⟨h1, h2⟩ := h w (List.mem_cons_self _ _)
    obtain ⟨a, b, c, d⟩ := ih (push_arg st w) (fun x hx => h x (List.mem_cons_of_mem _ hx))
    simp only [List.foldl_cons, List.length_cons]
    rw [a, b, c, d, argWords_push_arg st h1 h2, nargs_push_arg st h1, push_arg_background,
      push_arg_redirects]
    refine ⟨by simp, by omega, rfl, rfl⟩

theorem build_args_eq (st : ParseState) :
    build_args st =
      if st.nargs ≠ 0 then ((argWords st).head?.toList ++ argWords st, (st.nargs : Int) + 1)
      else ([], 0) := rfl

theorem argWords_init : argWords ParseState.init = [] := rfl

theorem init_idle : ParseState.init.Idle := ⟨rfl, rfl, rfl⟩

/-- The loop on a text made of words separated by blanks. -/
theorem scan_word_list (lead w0 : List Char) (rest : List (List Char × List Char))
    (trail : List Char)
    (hlead : ∀ c ∈ lead, isspace c = true)
    (hw0 : w0 ≠ [] ∧ ∀ c ∈ w0, isvalidtokenchar c = true)
    (hrest : ∀ p ∈ rest, p.1 ≠ [] ∧ (∀ c ∈ p.1, isspace c = true) ∧
      p.2 ≠ [] ∧ ∀ c ∈ p.2, isvalidtokenchar c = true)
    (htrail : ∀ c ∈ trail, isspace c = true) :
    scan ParseState.init (lead ++ w0 ++ (rest.map (fun p => p.1 ++ p.2)).flatten ++ trail) =
      some ((w0 :: rest.map Prod.snd).foldl push_arg ParseState.init) := by
  rw [List.append_assoc, List.append_assoc, scan_spaces init_idle hlead,
    scan_word init_idle hw0.1 hw0.2,
    scan_words rest _ w0 trail init_idle rfl rfl hrest htrail]
  rfl

theorem word_list_not_nul (lead w0 : List Char) (rest : List (List Char × List Char))
    (trail : List Char)
    (hlead : ∀ c ∈ lead, isspace c = true)
    (hw0 : w0 ≠ [] ∧ ∀ c ∈ w0, isvalidtokenchar c = true)
    (hrest : ∀ p ∈ rest, p.1 ≠ [] ∧ (∀ c ∈ p.1, isspace c = true) ∧
      p.2 ≠ [] ∧ ∀ c ∈ p.2, isvalidtokenchar c = true)
    (htrail : ∀ c ∈ trail, isspace c = true) :
    ∀ c ∈ lead ++ w0 ++ (rest.map (fun p => p.1 ++ p.2)).flatten ++ trail, c ≠ NUL := by
  intro c hc
  simp only [List.mem_append, List.mem_flatten, List.mem_map] at hc
  rcases hc with ((hc | hc) | ⟨l, ⟨p, hp, rfl⟩, hc⟩) | hc
  · exact (space_facts (hlead c hc)).2.2.2
  · exact (tokchar_facts (hw0.2 c hc)).2.2.2
  · rcases List.mem_append.mp hc with hc | hc
    · exact (space_facts ((hrest p hp).2.1 c hc)).2.2.2
    · exact (tokchar_facts ((hrest p hp).2.2.2 c hc)).2.2.2
  · exact (space_facts (htrail c hc)).2.2.2

theorem word_list_tokens (w0 : List Char) (rest : List (List Char × List Char))
    (hw0 : w0 ≠ [] ∧ ∀ c ∈ w0, isvalidtokenchar c = true)
    (hrest : ∀ p ∈ rest, p.1 ≠ [] ∧ (∀ c ∈ p.1, isspace c = true) ∧
      p.2 ≠ [] ∧ ∀ c ∈ p.2, isvalidtokenchar c = true) :
    ∀ w ∈ w0 :: rest.map Prod.snd, w ≠ [] ∧ ∀ c ∈ w, isvalidtokenchar c = true := by
  intro w hw
  rcases List.mem_cons.mp hw with rfl | hw
  · exact hw0
  · obtain ⟨p, hp, rfl⟩ := List.mem_map.mp hw
    exact (hrest p hp).2.2

/-- Claim C2: a process text made only of `k ≥ 1` words `w0, w1, ...` separated by blanks
(with optional blanks before and after) is parsed by `create_proc` into a process without
redirections and with the background flag clear, whose `argv` (the vector `args[1..]` that
`run_exec` passes to `execvp`) is exactly the words in order and whose `args[0]` is the
first word. -/
theorem create_proc_words (lead w0 : List Char) (rest : List (List Char × List Char))
    (trail : List Char)
    (hlead : ∀ c ∈ lead, isspace c = true)
    (hw0 : w0 ≠ [] ∧ ∀ c ∈ w0, isvalidtokenchar c = true)
    (hrest : ∀ p ∈ rest, p.1 ≠ [] ∧ (∀ c ∈ p.1, isspace c = true) ∧
      p.2 ≠ [] ∧ ∀ c ∈ p.2, isvalidtokenchar c = true)
    (htrail : ∀ c ∈ trail, isspace c = true) :
    ∃ p, create_proc (lead ++ w0 ++ (rest.map (fun p => p.1 ++ p.2)).flatten ++ trail) = some p ∧
      p.argv = w0 :: rest.map Prod.snd ∧
      p.args.head? = some w0 ∧
      p.nargs = (rest.length : Int) + 2 ∧
      p.redirect_info_list = [] ∧
      p.background = false := by
  have hnul := word_list_not_nul lead w0 rest trail hlead hw0 hrest htrail
  obtain ⟨a, b, c, d⟩ := foldl_push_arg (w0 :: rest.map Prod.snd) ParseState.init
    (word_list_tokens w0 rest hw0 hrest)
  have hscan := scan_word_list lead w0 rest trail hlead hw0 hrest htrail
  refine ⟨proc_of ((w0 :: rest.map Prod.snd).foldl push_arg ParseState.init), ?_, ?_, ?_, ?_, ?_, ?_⟩
  · rw [create_proc, cstr_eq_self hnul, hscan]; rfl
  all_goals
    simp only [proc_of, proc_info.argv, build_args_eq, a, b, c, d, argWords_init,
      List.nil_append, List.length_cons, List.length_map]
  · simp [ParseState.init]
  · simp [ParseState.init]
  · simp [ParseState.init]; ring
  · rfl
  · rfl

theorem create_proc_words_witness :
    ∃ p, create_proc ("".toList ++ "echo".toList ++
        ([(" ".toList, "hello".toList)].map (fun p => p.1 ++ p.2)).flatten ++ "".toList) = some p ∧
      p.argv = "echo".toList :: [(" ".toList, "hello".toList)].map Prod.snd ∧
      p.args.head? = some "echo".toList ∧
      p.nargs = (([(" ".toList, "hello".toList)] : List (List Char × List Char)).length : Int) + 2 ∧
      p.redirect_info_list = [] ∧
      p.background = false :=
  create_proc_words "".toList "echo".toList [(" ".toList, "hello".toList)] "".toList
    (by decide) (by decide) (by decide) (by decide)

theorem end_token_closed {st s : ParseState} (h : end_token st = some s) :
    s.token = false ∧ s.tok = [] ∧ s.background = st.background := by
  rcases st with ⟨token, tok, cur, rinfo, bg, rl, ecb, na⟩
  unfold end_token at h
  cases rinfo with
  | none =>
    simp only at h
    split_ifs at h <;> (simp only [Option.some.injEq] at h; subst h; exact ⟨rfl, rfl, rfl⟩)
  | some r =>
    simp only at h
    by_cases hw : (if token = true then tok else cur).length ≠ 0
    · rw [if_pos hw] at h
      cases hs : set_target r (if token = true then tok else cur) with
      | none => rw [hs] at h; cases h
      | some x =>
        rw [hs] at h
        simp only at h
        split_ifs at h
        simp only [Option.some.injEq] at h
        subst h
        exact ⟨rfl, rfl, rfl⟩
    · rw [if_neg hw] at h
      simp only at h
      split_ifs at h
      all_goals
        simp only [Option.some.injEq] at h
        subst h
        exact ⟨rfl, rfl, rfl⟩

theorem step_eq (st : ParseState) (c n : Char) :
    step st c n = (end_token st).bind (fun s => dispatch s c n) := by
  unfold step
  cases end_token st <;> rfl

theorem dispatch_plain (s : ParseState) {c : Char} (h1 : isredir c = false)
    (h2 : isampersand c = false) (h3 : c ≠ NUL) (n : Char) :
    dispatch s c n = some (push_arg { s with cur_token := [] } s.cur_token, false) := by
  simp only [dispatch, h1, h2, h3, Bool.false_eq_true, ↓reduceIte]

theorem dispatch_nul (s : ParseState) (n : Char) :
    dispatch s NUL n =
      if s.rinfo.isSome then none
      else some (push_arg { s with cur_token := [] } s.cur_token, false) := by
  have n1 : isredir NUL = false := by decide
  have n2 : isampersand NUL = false := by decide
  simp only [dispatch, n1, n2, Bool.false_eq_true, ↓reduceIte]

/-- a blank before the end of the text is not seen -/
theorem step_space_nul (st : ParseState) {c : Char} (hc : isspace c = true) :
    ((step st c NUL).map Prod.fst).bind (fun s => (step s NUL NUL).map Prod.fst) =
      (step st NUL NUL).map Prod.fst := by
  obtain ⟨_, h2, h3, h4⟩ := space_facts hc
  rw [step_eq st c, step_eq st NUL]
  cases he : end_token st with
  | none => rfl
  | some s =>
    obtain ⟨t1, t2, _⟩ := end_token_closed he
    have hi0 : ({ s with cur_token := [] } : ParseState).Idle := ⟨t1, t2, rfl⟩
    have hid := push_arg_idle hi0 s.cur_token
    simp only [Option.some_bind, dispatch_plain s h2 h3 h4, dispatch_nul, Option.map_some']
    rw [step_idle_nul hid NUL, push_arg_rinfo]

theorem scan_only_spaces : ∀ (ws : List Char) (st : ParseState),
    (∀ c ∈ ws, isspace c = true) → scan st ws = scan st [] := by
  intro ws
  induction ws with
  | nil => intro st _; rfl
  | cons c ws ih =>
    intro st h
    have hc := h c (List.mem_cons_self _ _)
    rw [scan_cons_plain st ws (space_facts hc).1 (space_facts hc).2.1]
    have : (fun s => scan s ws) = fun s => (step s NUL NUL).map Prod.fst := by
      funext s
      rw [ih s (fun x hx => h x (List.mem_cons_of_mem _ hx)), scan_nil]
    rw [this, step_space_nul st hc, scan_nil]

/-- blanks at the end of a process text are not seen -/
theorem scan_trailing_spaces (st : ParseState) (s : List Char) {ws : List Char}
    (hw : ∀ c ∈ ws, isspace c = true) : scan st (s ++ ws) = scan st s := by
  have h1 : ∀ c, s.getLast? = some c → isredir c = true →
      isoutredir (ws.headD NUL) = false ∧ isampersand (ws.headD NUL) = false := by
    intro c _ _
    cases ws with
    | nil => exact ⟨by decide, by decide⟩
    | cons d t =>
      have hd := space_facts (hw d (List.mem_cons_self _ _))
      simp only [List.headD_cons]
      refine ⟨?_, hd.2.2.1⟩
      have := hd.2.1
      simp only [isredir, Bool.or_eq_false_iff] at this
      exact this.2
  have h2 : ∀ c, s.getLast? = some c → isredir c = true →
      isoutredir (([] : List Char).headD NUL) = false ∧
        isampersand (([] : List Char).headD NUL) = false := by
    intro c _ _
    exact ⟨by decide, by decide⟩
  have e := scan_append s [] st h2
  rw [List.append_nil] at e
  rw [scan_append s ws st h1, e]
  congr 1
  funext x
  exact scan_only_spaces ws x hw

theorem create_proc_eq {s : List Char} (h : ∀ c ∈ s, c ≠ NUL) :
    create_proc s = (scan ParseState.init s).map proc_of := by
  rw [create_proc, cstr_eq_self h]

theorem ltrim_spec (s : List Char) :
    ∃ ws, s = ws ++ ltrim s ∧ ∀ c ∈ ws, isspace c = true :=
  ⟨s.takeWhile isspace, (List.takeWhile_append_dropWhile isspace s).symm,
    fun _ hc => List.mem_takeWhile_imp hc⟩

theorem rtrim_spec (s : List Char) :
    ∃ ws, s = rtrim s ++ ws ∧ ∀ c ∈ ws, isspace c = true := by
  refine ⟨(s.reverse.takeWhile isspace).reverse, ?_, ?_⟩
  · have := congrArg List.reverse (List.takeWhile_append_dropWhile isspace s.reverse)
    simp only [List.reverse_append, List.reverse_reverse] at this
    exact this.symm
  · intro c hc
    exact List.mem_takeWhile_imp (List.mem_reverse.mp hc)

theorem ltrim_subset (s : List Char) : ∀ c ∈ ltrim s, c ∈ s :=
  fun _ hc => (List.dropWhile_sublist isspace).subset hc

theorem rtrim_subset (s : List Char) : ∀ c ∈ rtrim s, c ∈ s := by
  intro c hc
  have := (List.dropWhile_sublist isspace).subset (List.mem_reverse.mp hc)
  exact List.mem_reverse.mp this

/-- `create_proc` does not see blanks at the start of its text -/
theorem create_proc_ltrim {s : List Char} (h : ∀ c ∈ s, c ≠ NUL) :
    create_proc (ltrim s) = create_proc s := by
  obtain ⟨ws, e, hw⟩ := ltrim_spec s
  rw [create_proc_eq h, create_proc_eq (fun c hc => h c (ltrim_subset s c hc))]
  conv_rhs => rw [e]
  rw [scan_spaces init_idle hw]

/-- `create_proc` does not see blanks at the end of its text -/
theorem create_proc_rtrim {s : List Char} (h : ∀ c ∈ s, c ≠ NUL) :
    create_proc (rtrim s) = create_proc s := by
  obtain ⟨ws, e, hw⟩ := rtrim_spec s
  rw [create_proc_eq h, create_proc_eq (fun c hc => h c (rtrim_subset s c hc))]
  conv_rhs => rw [e]
  rw [scan_trailing_spaces _ _ hw]

theorem strtok_all_pipeline : ∀ (rest : List (List Char)) (s0 : List Char),
    s0 ≠ [] → '|' ∉ s0 → (∀ s ∈ rest, s ≠ [] ∧ '|' ∉ s) →
    strtok_all '|' (s0 ++ (rest.map (fun s => '|' :: s)).flatten) = s0 :: rest := by
  intro rest
  induction rest with
  | nil =>
    intro s0 h1 h2 _
    simpa using strtok_all_word h2 h1
  | cons s1 rest ih =>
    intro s0 h1 h2 h
    have h3 := h s1 (List.mem_cons_self _ _)
    have := ih s1 h3.1 h3.2 (fun s hs => h s (List.mem_cons_of_mem _ hs))
    simp only [List.map_cons, List.flatten_cons, List.cons_append]
    unfold strtok_all at this ⊢
    rw [strtok_go_append, strtok_go_word '|' s0 [] h2 (by simpa using h1), this]
    simp

theorem ltrim_append {s : List Char} (h : ∃ c ∈ s, isspace c = false) (t : List Char) :
    ltrim (s ++ t) = ltrim s ++ t := by
  unfold ltrim
  rw [List.dropWhile_append]
  have : List.dropWhile isspace s ≠ [] := by
    intro e
    rw [List.dropWhile_eq_nil_iff] at e
    obtain ⟨c, hc, hs⟩ := h
    rw [e c hc] at hs
    cases hs
  simp [this]

theorem rtrim_append (s : List Char) {t : List Char} (h : ∃ c ∈ t, isspace c = false) :
    rtrim (s ++ t) = s ++ rtrim t := by
  unfold rtrim
  rw [List.reverse_append, List.dropWhile_append]
  have : List.dropWhile isspace t.reverse ≠ [] := by
    intro e
    rw [List.dropWhile_eq_nil_iff] at e
    obtain ⟨c, hc, hs⟩ := h
    rw [e c (List.mem_reverse.mpr hc)] at hs
    cases hs
  simp [this]

theorem ltrim_nonblank {s : List Char} (h : ∃ c ∈ s, isspace c = false) :
    ∃ c ∈ ltrim s, isspace c = false := by
  obtain ⟨ws, e, hw⟩ := ltrim_spec s
  obtain ⟨c, hc, hs⟩ := h
  rw [e] at hc
  rcases List.mem_append.mp hc with h1 | h1
  · rw [hw c h1] at hs; cases hs
  · exact ⟨c, h1, hs⟩

theorem rtrim_nonblank {s : List Char} (h : ∃ c ∈ s, isspace c = false) :
    ∃ c ∈ rtrim s, isspace c = false := by
  obtain ⟨ws, e, hw⟩ := rtrim_spec s
  obtain ⟨c, hc, hs⟩ := h
  rw [e] at hc
  rcases List.mem_append.mp hc with h1 | h1
  · exact ⟨c, h1, hs⟩
  · rw [hw c h1] at hs; cases hs

theorem ne_nil_of_nonblank {s : List Char} (h : ∃ c ∈ s, isspace c = false) : s ≠ [] := by
  obtain ⟨c, hc, _⟩ := h
  exact List.ne_nil_of_mem hc

/-- The loop of `create_job` on tokens that all parse, none but the last with the
background flag. -/
theorem job_loop_ok : ∀ (toks : List (List Char)) (j : Option job_info) (procs : List proc_info),
    toks ≠ [] → toks.map create_proc = procs.map some →
    (∀ p ∈ procs.dropLast, p.background = false) →
    ∃ job, job_loop j toks = some (some job) ∧
      job.proc_info_list = (j.getD job_info.zero).proc_info_list ++ procs ∧
      job.nprocs = (j.getD job_info.zero).nprocs + procs.length ∧
      job.background = ((j.getD job_info.zero).background || procs.any (fun p => p.background)) := by
  intro toks
  induction toks with
  | nil => intro j procs h; exact absurd rfl h
  | cons t more ih =>
    intro j procs _ hmap hbg
    cases procs with
    | nil => simp at hmap
    | cons p ps =>
      simp only [List.map_cons, List.cons.injEq] at hmap
      obtain ⟨hp, hps⟩ := hmap
      rw [job_loop, hp]
      simp only
      by_cases hm : more = []
      · subst hm
        have : ps = [] := by simpa using hps.symm
        subst this
        simp only [List.isEmpty_nil, Bool.not_true, Bool.and_false, Bool.false_eq_true,
          ↓reduceIte, job_loop]
        refine ⟨_, rfl, ?_, ?_, ?_⟩
        · split_ifs <;> rfl
        · split_ifs <;> simp
        · split_ifs with hb <;> simp [hb]
      · have hps_ne : ps ≠ [] := by
          intro e; subst e
          simp only [List.map_nil, List.map_eq_nil_iff] at hps
          exact hm hps
        have hpb : p.background = false := by
          apply hbg
          cases ps with
          | nil => exact absurd rfl hps_ne
          | cons q qs => simp [List.dropLast]
        have hbg2 : ∀ q ∈ ps.dropLast, q.background = false := by
          intro q hq
          apply hbg
          cases ps with
          | nil => simp at hq
          | cons q2 qs => simp only [List.dropLast_cons₂]; exact List.mem_cons_of_mem _ hq
        simp only [hpb, Bool.false_and, Bool.false_eq_true, ↓reduceIte]
        obtain ⟨job, h1, h2, h3, h4⟩ := ih
          (some { (j.getD job_info.zero) with
            proc_info_list := (j.getD job_info.zero).proc_info_list ++ [p],
            nprocs := (j.getD job_info.zero).nprocs + 1 }) ps hm hps hbg2
        refine ⟨job, h1, ?_, ?_, ?_⟩
        · rw [h2]; simp
        · rw [h3]; simp only [Option.getD_some, List.length_cons]; push_cast; ring
        · rw [h4]; simp [hpb]

/-- The tokens that `create_job` cuts out of a line of non-blank segments separated by
single `|` are parsed by `create_proc` like the segments themselves. -/
theorem pipeline_tokens (s0 : List Char) (rest : List (List Char))
    (hseg : ∀ s ∈ s0 :: rest, (∀ c ∈ s, c ≠ NUL ∧ c ≠ '|') ∧ ∃ c ∈ s, isspace c = false) :
    (strtok_all '|' (rtrim (ltrim (s0 ++ (rest.map (fun s => '|' :: s)).flatten)))).map
        create_proc = (s0 :: rest).map create_proc ∧
    strtok_all '|' (rtrim (ltrim (s0 ++ (rest.map (fun s => '|' :: s)).flatten))) ≠ [] := by
  have h0 := hseg s0 (List.mem_cons_self _ _)
  have hnul0 : ∀ c ∈ s0, c ≠ NUL := fun c hc => (h0.1 c hc).1
  have hl0 : ∀ c ∈ ltrim s0, c ≠ NUL ∧ c ≠ '|' := fun c hc => h0.1 c (ltrim_subset s0 c hc)
  have hpipe : ∀ {s : List Char}, (∀ c ∈ s, c ≠ NUL ∧ c ≠ '|') → '|' ∉ s :=
    fun h hm => (h _ hm).2 rfl
  rw [ltrim_append h0.2]
  rcases List.eq_nil_or_concat rest with e | ⟨rinit, t, e⟩
  · subst e
    simp only [List.map_nil, List.flatten_nil, List.append_nil, List.map_cons]
    have hr : ∀ c ∈ rtrim (ltrim s0), c ≠ NUL ∧ c ≠ '|' :=
      fun c hc => hl0 c (rtrim_subset _ c hc)
    rw [strtok_all_word (hpipe hr) (ne_nil_of_nonblank (rtrim_nonblank (ltrim_nonblank h0.2)))]
    refine ⟨?_, by simp⟩
    simp only [List.map_cons, List.map_nil]
    rw [create_proc_rtrim (fun c hc => (hl0 c hc).1), create_proc_ltrim hnul0]
  · subst e
    have ht := hseg t (by simp)
    have hrt : ∀ c ∈ rtrim t, c ≠ NUL ∧ c ≠ '|' := fun c hc => ht.1 c (rtrim_subset _ c hc)
    have e1 : ltrim s0 ++ ((rinit.concat t).map (fun s => '|' :: s)).flatten =
        (ltrim s0 ++ (rinit.map (fun s => '|' :: s)).flatten ++ ['|']) ++ t := by
      simp [List.concat_eq_append]
    have e2 : (ltrim s0 ++ (rinit.map (fun s => '|' :: s)).flatten ++ ['|']) ++ rtrim t =
        ltrim s0 ++ ((rinit ++ [rtrim t]).map (fun s => '|' :: s)).flatten := by
      simp
    rw [e1, rtrim_append _ ht.2, e2, strtok_all_pipeline _ _
      (ne_nil_of_nonblank (ltrim_nonblank h0.2)) (hpipe hl0)]
    · refine ⟨?_, by simp⟩
      simp only [List.map_cons, List.map_append, List.map_nil, List.concat_eq_append]
      rw [create_proc_rtrim (fun c hc => (ht.1 c hc).1), create_proc_ltrim hnul0]
    · intro s hs
      rcases List.mem_append.mp hs with h | h
      · have := hseg s (by simp [List.concat_eq_append, h])
        exact ⟨ne_nil_of_nonblank this.2, hpipe this.1⟩
      · simp only [List.mem_singleton] at h
        subst h
        exact ⟨ne_nil_of_nonblank (rtrim_nonblank ht.2), hpipe hrt⟩

/-- Claim C3 (amended): for a line made of `n ≥ 1` non-blank segments separated by single
`|` characters, each of which parses and none of which but the last carries the background
flag, `create_job` returns a Job whose process list consists of exactly the `n` Processes
parsed from the segments, in the order of the segments, with `nprocs = n`. -/
theorem create_job_pipeline (s0 : List Char) (rest : List (List Char))
    (procs : List proc_info)
    (hseg : ∀ s ∈ s0 :: rest, (∀ c ∈ s, c ≠ NUL ∧ c ≠ '|') ∧ ∃ c ∈ s, isspace c = false)
    (hparse : (s0 :: rest).map create_proc = procs.map some)
    (hbg : ∀ p ∈ procs.dropLast, p.background = false) :
    ∃ job, create_job (s0 ++ (rest.map (fun s => '|' :: s)).flatten) = Outcome.ret (some job) ∧
      job.proc_info_list = procs ∧
      job.proc_info_list.length = rest.length + 1 ∧
      job.nprocs = (rest.length : Int) + 1 := by
  have hnul : ∀ c ∈ s0 ++ (rest.map (fun s => '|' :: s)).flatten, c ≠ NUL := by
    intro c hc
    simp only [List.mem_append, List.mem_flatten, List.mem_map] at hc
    rcases hc with hc | ⟨l, ⟨s, hs, rfl⟩, hc⟩
    · exact ((hseg s0 (List.mem_cons_self _ _)).1 c hc).1
    · rcases List.mem_cons.mp hc with rfl | hc
      · decide
      · exact ((hseg s (List.mem_cons_of_mem _ hs)).1 c hc).1
  obtain ⟨hm, hne⟩ := pipeline_tokens s0 rest hseg
  obtain ⟨job, h1, h2, h3, _⟩ := job_loop_ok _ none procs hne (hm.trans hparse) hbg
  have hlen : procs.length = rest.length + 1 := by
    have := congrArg List.length hparse
    simpa using this.symm
  refine ⟨{ job with
      cmd := (if job.background then
        (rtrim (ltrim (s0 ++ (rest.map (fun s => '|' :: s)).flatten))).dropLast
        else rtrim (ltrim (s0 ++ (rest.map (fun s => '|' :: s)).flatten))) }, ?_, ?_, ?_, ?_⟩
  · simp only [create_job, cstr_eq_self hnul, h1]
  · simpa [job_info.zero] using h2
  · simp only [h2, Option.getD_none, job_info.zero, List.nil_append, hlen]
  · simp only [h3, Option.getD_none, job_info.zero, hlen]; push_cast; ring

theorem create_job_pipeline_witness :
    ∃ job, create_job ("cat file.txt ".toList ++
        ([" wc -l".toList].map (fun s => '|' :: s)).flatten) = Outcome.ret (some job) ∧
      job.proc_info_list =
        [{ pgid := 0, pid := 0, args := ["cat".toList, "cat".toList, "file.txt".toList],
           nargs := 3, state := process_state.XSSH_PROC_STATE_STOPPED, background := false,
           redirect_info_list := [] },
         { pgid := 0, pid := 0, args := ["wc".toList, "wc".toList, "-l".toList],
           nargs := 3, state := process_state.XSSH_PROC_STATE_STOPPED, background := false,
           redirect_info_list := [] }] ∧
      job.proc_info_list.length = [" wc -l".toList].length + 1 ∧
      job.nprocs = (([" wc -l".toList] : List (List Char)).length : Int) + 1 :=
  create_job_pipeline "cat file.txt ".toList [" wc -l".toList] _
    (by decide) (by decide) (by decide)

/-- Claim C3 as stated fails: both segments of `a & | b` parse, yet `create_job` returns
no Job, because the first Process carries the background flag. -/
theorem create_job_pipeline_counterexample :
    (create_proc "a & ".toList).isSome = true ∧ (create_proc " b".toList).isSome = true ∧
    create_job ("a & ".toList ++ '|' :: " b".toList) = Outcome.ret none := by
  decide

theorem dispatch_idle {s t : ParseState} {c n : Char} {b : Bool} (h1 : s.token = false)
    (h2 : s.tok = []) (h : dispatch s c n = some (t, b)) : t.Idle := by
  rcases s with ⟨token, tok, cur, rinfo, bg, rl, ecb, na⟩
  simp only at h1 h2
  subst h1 h2
  unfold dispatch at h
  simp only at h
  split_ifs at h
  all_goals
    simp only [Option.some.injEq, Prod.mk.injEq] at h
    rw [← h.1]
    exact push_arg_idle ⟨rfl, rfl, rfl⟩ _

/-- after an iteration at a character that is not a token character, no token is open -/
theorem step_idle {st t : ParseState} {c n : Char} {b : Bool}
    (h : step st c n = some (t, b)) : t.Idle := by
  rw [step_eq] at h
  cases he : end_token st with
  | none => rw [he] at h; cases h
  | some s =>
    rw [he] at h
    obtain ⟨h1, h2, _⟩ := end_token_closed he
    exact dispatch_idle h1 h2 h

theorem feed_idle_aux (n : Nat) : ∀ (pre : List Char) (st t : ParseState),
    pre.length ≤ n → (pre = [] → st.Idle) →
    (∀ c, pre.getLast? = some c → isvalidtokenchar c = false) →
    feed st pre = some t → t.Idle := by
  induction n with
  | zero =>
    intro pre st t hlen hi _ h
    have : pre = [] := List.length_eq_zero.mp (Nat.le_zero.mp hlen)
    subst this
    simp only [feed, Option.some.injEq] at h
    subst h
    exact hi rfl
  | succ n ih =>
    intro pre st t hlen hi hl h
    cases pre with
    | nil =>
      simp only [feed, Option.some.injEq] at h
      subst h
      exact hi rfl
    | cons c pre1 =>
      by_cases hc : isvalidtokenchar c = true
      · rw [feed_cons_tok _ _ hc] at h
        have hne : pre1 ≠ [] := by
          intro e; subst e
          have := hl c rfl
          rw [hc] at this; cases this
        refine ih pre1 _ t (by simpa using hlen) (fun e => absurd e hne) ?_ h
        intro x hx
        apply hl x
        cases pre1 with
        | nil => exact absurd rfl hne
        | cons d pre2 => simpa [List.getLast?_cons_cons] using hx
      · simp only [Bool.not_eq_true] at hc
        cases hs : step st c (pre1.headD NUL) with
        | none => rw [feed_sep_none hc hs] at h; cases h
        | some r =>
          rcases r with ⟨s, b⟩
          have hsi := step_idle hs
          cases b with
          | false =>
            rw [feed_sep_next hc hs] at h
            refine ih pre1 s t (by simpa using hlen) (fun _ => hsi) ?_ h
            intro x hx
            apply hl x
            cases pre1 with
            | nil => simp at hx
            | cons d pre2 => simpa [List.getLast?_cons_cons] using hx
          | true =>
            cases pre1 with
            | nil =>
              simp only [feed, hc, Bool.false_eq_true, ↓reduceIte, List.headD_nil] at h
              simp only [List.headD_nil] at hs
              rw [hs] at h
              simp only [Option.some.injEq] at h
              subst h
              exact hsi
            | cons d pre2 =>
              simp only [List.headD_cons] at hs
              rw [feed_sep_skip hc hs] at h
              refine ih pre2 s t ?_ (fun _ => hsi) ?_ h
              · simp only [List.length_cons] at hlen; omega
              · intro x hx
                apply hl x
                cases pre2 with
                | nil => simp at hx
                | cons e pre3 => simpa [List.getLast?_cons_cons] using hx

theorem feed_idle {pre : List Char} {st t : ParseState} (hi : st.Idle)
    (hl : ∀ c, pre.getLast? = some c → isvalidtokenchar c = false)
    (h : feed st pre = some t) : t.Idle :=
  feed_idle_aux pre.length pre st t le_rfl (fun _ => hi) hl h

theorem nil_headD_plain :
    isoutredir (([] : List Char).headD NUL) = false ∧
      isampersand (([] : List Char).headD NUL) = false :=
  ⟨by decide, by decide⟩

theorem scan_eq_feed (st : ParseState) (s : List Char) :
    scan st s = (feed st s).bind (fun x => scan x []) := by
  have := scan_append s [] st (fun _ _ _ => nil_headD_plain)
  rwa [List.append_nil] at this

/-- A text that is empty or ends with a blank, and that parses, leaves the loop between
two words with no redirection pending. -/
theorem complete_text {pre : List Char} {s : ParseState}
    (hl : ∀ c, pre.getLast? = some c → isspace c = true)
    (h : scan ParseState.init pre = some s) :
    feed ParseState.init pre = some s ∧ s.Idle ∧ s.rinfo = none := by
  rw [scan_eq_feed] at h
  cases hf : feed ParseState.init pre with
  | none => rw [hf] at h; cases h
  | some t =>
    rw [hf] at h
    simp only [Option.some_bind] at h
    have hti : t.Idle := feed_idle init_idle (fun c hc => (space_facts (hl c hc)).1) hf
    rw [scan_nil, step_idle_nul hti] at h
    cases hr : t.rinfo with
    | some r => rw [hr] at h; cases h
    | none =>
      rw [hr] at h
      simp only [Option.isSome_none, Bool.false_eq_true, ↓reduceIte, Option.map_some',
        Option.some.injEq] at h
      subst h
      exact ⟨rfl, hti, hr⟩

/-- A property of the parser state that every iteration of the loop preserves holds
after any number of iterations. -/
theorem feed_invariant (P : ParseState → Prop)
    (htok : ∀ st c, P st → isvalidtokenchar c = true → P (st.tokenChar c))
    (hstep : ∀ st c n s b, P st → step st c n = some (s, b) → P s) :
    ∀ (k : Nat) (pre : List Char) (st t : ParseState), pre.length ≤ k → P st →
      feed st pre = some t → P t := by
  intro k
  induction k with
  | zero =>
    intro pre st t hlen hp h
    have : pre = [] := List.length_eq_zero.mp (Nat.le_zero.mp hlen)
    subst this
    simp only [feed, Option.some.injEq] at h
    subst h
    exact hp
  | succ k ih =>
    intro pre st t hlen hp h
    cases pre with
    | nil =>
      simp only [feed, Option.some.injEq] at h
      subst h
      exact hp
    | cons c pre1 =>
      by_cases hc : isvalidtokenchar c = true
      · rw [feed_cons_tok _ _ hc] at h
        exact ih pre1 _ t (by simpa using hlen) (htok st c hp hc) h
      · simp only [Bool.not_eq_true] at hc
        cases hs : step st c (pre1.headD NUL) with
        | none => rw [feed_sep_none hc hs] at h; cases h
        | some r =>
          rcases r with ⟨s, b⟩
          have hps := hstep _ _ _ _ _ hp hs
          cases b with
          | false =>
            rw [feed_sep_next hc hs] at h
            exact ih pre1 s t (by simpa using hlen) hps h
          | true =>
            cases pre1 with
            | nil =>
              simp only [feed, hc, Bool.false_eq_true, ↓reduceIte, List.headD_nil] at h
              simp only [List.headD_nil] at hs
              rw [hs] at h
              simp only [Option.some.injEq] at h
              subst h
              exact hps
            | cons d pre2 =>
              simp only [List.headD_cons] at hs
              rw [feed_sep_skip hc hs] at h
              refine ih pre2 s t ?_ hps h
              simp only [List.length_cons] at hlen; omega

theorem scan_invariant (P : ParseState → Prop)
    (htok : ∀ st c, P st → isvalidtokenchar c = true → P (st.tokenChar c))
    (hstep : ∀ st c n s b, P st → step st c n = some (s, b) → P s)
    {text : List Char} {st t : ParseState} (hp : P st) (h : scan st text = some t) : P t := by
  rw [scan_eq_feed] at h
  cases hf : feed st text with
  | none => rw [hf] at h; cases h
  | some x =>
    rw [hf, Option.some_bind, scan_nil] at h
    have hx := feed_invariant P htok hstep text.length text st x le_rfl hp hf
    cases hs : step x NUL NUL with
    | none => rw [hs] at h; cases h
    | some r =>
      rcases r with ⟨s, b⟩
      rw [hs] at h
      simp only [Option.map_some', Option.some.injEq] at h
      subst h
      exact hstep _ _ _ _ _ hx hs

theorem argWords_congr {s t : ParseState} (h : s.endcmdbuffer = t.endcmdbuffer) :
    argWords s = argWords t := by
  simp only [argWords, h]

theorem end_token_args {st s : ParseState} (h : end_token st = some s) :
    s.endcmdbuffer = st.endcmdbuffer ∧ s.nargs = st.nargs ∧
      (s.cur_token = [] ∨ s.cur_token = (if st.token then st.tok else st.cur_token)) := by
  rcases st with ⟨token, tok, cur, rinfo, bg, rl, ecb, na⟩
  unfold end_token at h
  cases rinfo with
  | none =>
    simp only at h
    split_ifs at h <;>
      (simp only [Option.some.injEq] at h; subst h; exact ⟨rfl, rfl, Or.inr (by simp [*])⟩)
  | some r =>
    simp only at h
    by_cases hw : (if token = true then tok else cur).length ≠ 0
    · rw [if_pos hw] at h
      cases hs : set_target r (if token = true then tok else cur) with
      | none => rw [hs] at h; cases h
      | some x =>
        rw [hs] at h
        simp only at h
        split_ifs at h
        simp only [Option.some.injEq] at h
        subst h
        exact ⟨rfl, rfl, Or.inl rfl⟩
    · rw [if_neg hw] at h
      simp only at h
      split_ifs at h
      all_goals
        simp only [Option.some.injEq] at h
        subst h
        exact ⟨rfl, rfl, Or.inr (by simp [*])⟩

theorem push_arg_wf {st : ParseState} (h1 : st.nargs = (argWords st).length)
    {w : List Char} (hw : ∀ c ∈ w, isvalidtokenchar c = true) :
    (push_arg st w).nargs = (argWords (push_arg st w)).length := by
  by_cases hne : w = []
  · subst hne; rw [push_arg_nil]; exact h1
  · rw [nargs_push_arg st hne, argWords_push_arg st hne hw, h1]
    simp

theorem tokenChar_wf (st : ParseState) (c : Char) (h : st.WF)
    (hc : isvalidtokenchar c = true) : (st.tokenChar c).WF := by
  obtain ⟨h1, h2, h3⟩ := h
  refine ⟨h1, ?_, h3⟩
  intro x hx
  simp only [ParseState.tokenChar, List.mem_append, List.mem_singleton] at hx
  rcases hx with hx | rfl
  · split_ifs at hx
    · exact h2 x hx
    · simp at hx
  · exact hc

theorem step_wf (st : ParseState) (c n : Char) (s : ParseState) (b : Bool) (h : st.WF)
    (hs : step st c n = some (s, b)) : s.WF := by
  obtain ⟨h1, h2, h3⟩ := h
  have hid := step_idle hs
  rw [step_eq] at hs
  cases he : end_token st with
  | none => rw [he] at hs; cases hs
  | some e =>
    rw [he, Option.some_bind] at hs
    obtain ⟨a1, a2, a3⟩ := end_token_args he
    have hcur : ∀ x ∈ e.cur_token, isvalidtokenchar x = true := by
      intro x hx
      rcases a3 with a3 | a3
      · rw [a3] at hx; simp at hx
      · rw [a3] at hx
        split_ifs at hx
        · exact h2 x hx
        · exact h3 x hx
    have hn : e.nargs = (argWords e).length := by
      rw [a2, argWords_congr a1]; exact h1
    have key : ∀ (x : ParseState) (w : List Char), x.endcmdbuffer = e.endcmdbuffer →
        x.nargs = e.nargs → (∀ c ∈ w, isvalidtokenchar c = true) →
        (push_arg x w).nargs = (argWords (push_arg x w)).length := by
      intro x w e1 e2 hw
      apply push_arg_wf _ hw
      rw [e2, argWords_congr e1]; exact hn
    refine ⟨?_, ?_, ?_⟩
    · unfold dispatch at hs
      simp only at hs
      split_ifs at hs
      all_goals
        simp only [Option.some.injEq, Prod.mk.injEq] at hs
        rw [← hs.1]
        first
          | exact key _ _ rfl rfl hcur
          | exact key _ _ rfl rfl (by simp)
    · rw [hid.2.1]; simp
    · rw [hid.2.2]; simp

theorem init_wf : ParseState.init.WF := ⟨rfl, by simp [ParseState.init], by simp [ParseState.init]⟩

theorem scan_wf {text : List Char} {t : ParseState}
    (h : scan ParseState.init text = some t) : t.WF :=
  scan_invariant ParseState.WF tokenChar_wf step_wf init_wf h

theorem scan_afterWord {st : ParseState} (hi : st.Idle) {w : List Char}
    (hw : ∀ c ∈ w, isvalidtokenchar c = true) (rest : List Char) :
    scan st (w ++ rest) = scan (st.afterWord w) rest := by
  cases w with
  | nil => rfl
  | cons c v => exact scan_word hi (by simp) hw rest

theorem step_afterWord_redir {st : ParseState} (hi : st.Idle) (hr : st.rinfo = none)
    (hb : st.background = false) (w : List Char) {c : Char} (hc : isredir c = true)
    (n : Char) :
    step (st.afterWord w) c n =
      some (push_arg { st with rinfo := some (new_redirect c n (fd_of_token w)).1 }
              (if fd_of_token w ≥ 0 then [] else w),
            (new_redirect c n (fd_of_token w)).2) := by
  cases w with
  | nil =>
    simp only [ParseState.afterWord, List.isEmpty_nil, ↓reduceIte, step_idle_redir hi hr hb hc,
      fd_of_token_nil, ite_self, push_arg_nil]
  | cons x v =>
    simp only [ParseState.afterWord, List.isEmpty_cons, Bool.false_eq_true, ↓reduceIte]
    exact step_word_redir hi hr hb _ hc n

theorem afterWord_idle_bg {st : ParseState} (hr : st.rinfo = none)
    (hb : st.background = true) {w : List Char} (hne : w ≠ []) {c : Char} (n : Char) :
    step (st.afterWord w) c n = none := by
  cases w with
  | nil => exact absurd rfl hne
  | cons x v =>
    simp only [ParseState.afterWord, List.isEmpty_cons, Bool.false_eq_true, ↓reduceIte]
    rw [step_eq, end_token_word_bg hr hb (by simp)]
    rfl

/-- the characters of a word, of blanks, and NUL do not continue an operator -/
theorem headD_plain {ws tgt : List Char} (hws : ∀ c ∈ ws, isspace c = true)
    (htgt : ∀ c ∈ tgt, isvalidtokenchar c = true) :
    isoutredir ((ws ++ tgt).headD NUL) = false ∧ isampersand ((ws ++ tgt).headD NUL) = false := by
  have key : ∀ c : Char, isredir c = false → isampersand c = false →
      isoutredir c = false ∧ isampersand c = false := by
    intro c h1 h2
    simp only [isredir, Bool.or_eq_false_iff] at h1
    exact ⟨h1.2, h2⟩
  cases ws with
  | nil =>
    cases tgt with
    | nil => exact ⟨by decide, by decide⟩
    | cons c t =>
      have := tokchar_facts (htgt c (List.mem_cons_self _ _))
      exact key c this.1 this.2.1
  | cons c t =>
    have := space_facts (hws c (List.mem_cons_self _ _))
    exact key c this.2.1 this.2.2.1

theorem new_redirect_plain (c : Char) {n : Char} (fd : Int) (h1 : isoutredir n = false)
    (h2 : isampersand n = false) : new_redirect c n fd = ((new_redirect c NUL fd).1, false) := by
  have e1 : isoutredir NUL = false := by decide
  have e2 : isampersand NUL = false := by decide
  simp only [new_redirect, h1, h2, e1, e2, Bool.false_eq_true, ↓reduceIte]
  split_ifs <;> rfl

/-- The loop over an operator that follows the word `w`. -/
theorem scan_op {st : ParseState} (hi : st.Idle) (hr : st.rinfo = none)
    (hb : st.background = false) (w : List Char) (op : RedirOp) {rest : List Char}
    (h1 : isoutredir (rest.headD NUL) = false) (h2 : isampersand (rest.headD NUL) = false) :
    scan (st.afterWord w) (op.text ++ rest) =
      scan (push_arg { st with rinfo := some (op.fresh (fd_of_token w)) }
        (if fd_of_token w ≥ 0 then [] else w)) rest := by
  have hgt : isvalidtokenchar '>' = false := by decide
  have hlt : isvalidtokenchar '<' = false := by decide
  have rgt : isredir '>' = true := by decide
  have rlt : isredir '<' = true := by decide
  cases op with
  | trunc =>
    have := step_afterWord_redir hi hr hb w rgt (rest.headD NUL)
    rw [new_redirect_plain _ _ h1 h2] at this
    exact scan_sep_next hgt this
  | append =>
    have := step_afterWord_redir hi hr hb w rgt '>'
    have e : (new_redirect '>' '>' (fd_of_token w)).2 = true := by
      simp [new_redirect, isoutredir]
    rw [e] at this
    exact scan_sep_skip hgt this
  | dupout =>
    have := step_afterWord_redir hi hr hb w rgt '&'
    have e : (new_redirect '>' '&' (fd_of_token w)).2 = true := by
      simp [new_redirect, isoutredir, isampersand]
    rw [e] at this
    exact scan_sep_skip hgt this
  | read =>
    have := step_afterWord_redir hi hr hb w rlt (rest.headD NUL)
    rw [new_redirect_plain _ _ h1 h2] at this
    exact scan_sep_next hlt this
  | dupin =>
    have := step_afterWord_redir hi hr hb w rlt '&'
    have e : (new_redirect '<' '&' (fd_of_token w)).2 = true := by
      simp [new_redirect, isoutredir, isampersand]
    rw [e] at this
    exact scan_sep_skip hlt this

/-- The loop over the target of the pending redirection, at the end of the text. -/
theorem scan_target_end {st : ParseState} (hi : st.Idle) {r : redirect_info}
    (hr : st.rinfo = some r) {ws tgt : List Char} (hws : ∀ c ∈ ws, isspace c = true)
    (hne : tgt ≠ []) (htgt : ∀ c ∈ tgt, isvalidtokenchar c = true) :
    scan st (ws ++ tgt) =
      (set_target r tgt).map (fun x =>
        { st with rinfo := none, redirect_info_list := st.redirect_info_list ++ [x] }) := by
  have := scan_word hi hne htgt []
  rw [List.append_nil] at this
  rw [scan_spaces hi hws, this, scan_nil,
    step_target_end hi hr hne (by decide) (by decide) NUL]
  cases set_target r tgt <;> rfl

/-- A text that parses, followed by a word `w`, an operator, blanks and a target word at
the end of the text: the result of the loop. -/
theorem scan_redirect_at_end {pre : List Char} {st1 : ParseState}
    (hl : ∀ c, pre.getLast? = some c → isspace c = true)
    (hpre : scan ParseState.init pre = some st1) (hbg : st1.background = false)
    {w ws tgt : List Char} (op : RedirOp)
    (hw : ∀ c ∈ w, isvalidtokenchar c = true) (hws : ∀ c ∈ ws, isspace c = true)
    (hne : tgt ≠ []) (htgt : ∀ c ∈ tgt, isvalidtokenchar c = true) :
    scan ParseState.init (pre ++ (w ++ (op.text ++ (ws ++ tgt)))) =
      (set_target (op.fresh (fd_of_token w)) tgt).map (fun x =>
        { push_arg st1 (if fd_of_token w ≥ 0 then [] else w) with
          redirect_info_list := st1.redirect_info_list ++ [x] }) := by
  obtain ⟨hf, hi, hr⟩ := complete_text hl hpre
  have hh := headD_plain hws htgt
  have hlast : ∀ c, pre.getLast? = some c → isredir c = true →
      isoutredir ((w ++ (op.text ++ (ws ++ tgt))).headD NUL) = false ∧
        isampersand ((w ++ (op.text ++ (ws ++ tgt))).headD NUL) = false := by
    intro c hc hr2
    have := (space_facts (hl c hc)).2.1
    rw [this] at hr2; cases hr2
  have hi2 : ({ st1 with rinfo := some (op.fresh (fd_of_token w)) } : ParseState).Idle := hi
  have hid := push_arg_idle hi2 (if fd_of_token w ≥ 0 then [] else w)
  have hr2 : (push_arg { st1 with rinfo := some (op.fresh (fd_of_token w)) }
      (if fd_of_token w ≥ 0 then [] else w)).rinfo = some (op.fresh (fd_of_token w)) :=
    push_arg_rinfo _ _
  rw [scan_append pre _ _ hlast, hf, Option.some_bind, scan_afterWord hi hw,
    scan_op hi hr hbg w op hh.1 hh.2, scan_target_end hid hr2 hws hne htgt]
  congr 1
  funext x
  rcases st1 with ⟨token, tok, cur, rinfo, bg, rl, ecb, na⟩
  simp only at hr
  subst hr
  unfold push_arg
  split_ifs <;> rfl

theorem fd_of_token_invalid {w : List Char} (h : isvalidfd w = false) : fd_of_token w = -1 := by
  simp [fd_of_token, h]

theorem fresh_forms (fd : Int) :
    RedirOp.trunc.fresh fd =
      { srcfd := if fd < 0 then 1 else fd, srcfile := none, dstfd := -1, dstfile := none,
        mode := 1 } ∧
    RedirOp.append.fresh fd =
      { srcfd := if fd < 0 then 1 else fd, srcfile := none, dstfd := -1, dstfile := none,
        mode := 2 } ∧
    RedirOp.dupout.fresh fd =
      { srcfd := if fd < 0 then 1 else fd, srcfile := none, dstfd := -1, dstfile := none,
        mode := 3 } ∧
    RedirOp.read.fresh fd =
      { srcfd := -1, srcfile := none, dstfd := if fd < 0 then 0 else fd, dstfile := none,
        mode := 4 } ∧
    RedirOp.dupin.fresh fd =
      { srcfd := -1, srcfile := none, dstfd := if fd < 0 then 0 else fd, dstfile := none,
        mode := 5 } := by
  have a1 : isoutredir '>' = true := by decide
  have a2 : isoutredir '<' = false := by decide
  have a3 : isoutredir NUL = false := by decide
  have a4 : isampersand NUL = false := by decide
  have a5 : isampersand '&' = true := by decide
  have a6 : isoutredir '&' = false := by decide
  refine ⟨?_, ?_, ?_, ?_, ?_⟩ <;>
    simp only [RedirOp.fresh, new_redirect, a1, a2, a3, a4, a5, a6, ↓reduceIte,
      Bool.false_eq_true]

theorem set_target_trunc (fd : Int) (tgt : List Char) :
    set_target (RedirOp.trunc.fresh fd) tgt =
      some { srcfd := if fd < 0 then 1 else fd, srcfile := none, dstfd := -1,
             dstfile := some tgt, mode := 1 } := by
  rw [(fresh_forms fd).1]
  simp [set_target]

theorem set_target_append (fd : Int) (tgt : List Char) :
    set_target (RedirOp.append.fresh fd) tgt =
      some { srcfd := if fd < 0 then 1 else fd, srcfile := none, dstfd := -1,
             dstfile := some tgt, mode := 2 } := by
  rw [(fresh_forms fd).2.1]
  simp [set_target]

theorem set_target_read (fd : Int) (tgt : List Char) :
    set_target (RedirOp.read.fresh fd) tgt =
      some { srcfd := -1, srcfile := some tgt, dstfd := if fd < 0 then 0 else fd,
             dstfile := none, mode := 4 } := by
  rw [(fresh_forms fd).2.2.2.1]
  simp [set_target]

theorem set_target_dupout (fd : Int) (tgt : List Char) :
    set_target (RedirOp.dupout.fresh fd) tgt =
      if fd_of_token tgt ≥ 0 then
        some { srcfd := if fd < 0 then 1 else fd, srcfile := none, dstfd := fd_of_token tgt,
               dstfile := none, mode := 3 }
      else if (if fd < 0 then 1 else fd) ≠ 1 then none
      else some { srcfd := if fd < 0 then 1 else fd, srcfile := none, dstfd := fd_of_token tgt,
                  dstfile := some tgt, mode := 1 } := by
  rw [(fresh_forms fd).2.2.1]
  by_cases h : fd_of_token tgt ≥ 0
  · simp [set_target, target_mode3, h]
  · by_cases h2 : (if fd < 0 then 1 else fd) = 1
    · simp [set_target, target_mode3, h, h2]
    · simp [set_target, target_mode3, h, h2]

theorem set_target_dupin (fd : Int) (tgt : List Char) :
    set_target (RedirOp.dupin.fresh fd) tgt =
      if fd_of_token tgt ≥ 0 then
        some { srcfd := -1, srcfile := none, dstfd := fd_of_token tgt, dstfile := none,
               mode := 5 }
      else none := by
  rw [(fresh_forms fd).2.2.2.2]
  by_cases h : fd_of_token tgt ≥ 0
  · simp [set_target, target_mode5, h]
  · simp [set_target, target_mode5, h]

theorem op_text_not_nul (op : RedirOp) : ∀ c ∈ op.text, c ≠ NUL := by
  cases op <;> decide

theorem word_not_nul {w : List Char} (hw : ∀ c ∈ w, isvalidtokenchar c = true) :
    ∀ c ∈ w, c ≠ NUL := fun c hc => (tokchar_facts (hw c hc)).2.2.2

theorem spaces_not_nul {w : List Char} (hw : ∀ c ∈ w, isspace c = true) :
    ∀ c ∈ w, c ≠ NUL := fun c hc => (space_facts (hw c hc)).2.2.2

theorem scan_of_create_proc {s : List Char} {p : proc_info} (hnul : ∀ c ∈ s, c ≠ NUL)
    (h : create_proc s = some p) :
    ∃ st, scan ParseState.init s = some st ∧ proc_of st = p ∧ st.WF := by
  rw [create_proc_eq hnul] at h
  cases hs : scan ParseState.init s with
  | none => rw [hs] at h; cases h
  | some st =>
    rw [hs] at h
    simp only [Option.map_some', Option.some.injEq] at h
    exact ⟨st, rfl, h, scan_wf hs⟩

/-- The result of `create_proc` on a text that parses followed by a word, an operator,
blanks and a target word. -/
theorem redirect_parse {pre : List Char} {st1 : ParseState} (hnul : ∀ c ∈ pre, c ≠ NUL)
    (hl : ∀ c, pre.getLast? = some c → isspace c = true)
    (hpre : scan ParseState.init pre = some st1) (hbg : st1.background = false)
    {w ws tgt : List Char} (op : RedirOp)
    (hw : ∀ c ∈ w, isvalidtokenchar c = true) (hws : ∀ c ∈ ws, isspace c = true)
    (hne : tgt ≠ []) (htgt : ∀ c ∈ tgt, isvalidtokenchar c = true) :
    create_proc (pre ++ (w ++ (op.text ++ (ws ++ tgt)))) =
      (set_target (op.fresh (fd_of_token w)) tgt).map (fun x =>
        proc_of { push_arg st1 (if fd_of_token w ≥ 0 then [] else w) with
          redirect_info_list := st1.redirect_info_list ++ [x] }) := by
  have hn : ∀ c ∈ pre ++ (w ++ (op.text ++ (ws ++ tgt))), c ≠ NUL := by
    intro c hc
    simp only [List.mem_append] at hc
    rcases hc with hc | hc | hc | hc | hc
    · exact hnul c hc
    · exact word_not_nul hw c hc
    · exact op_text_not_nul op c hc
    · exact spaces_not_nul hws c hc
    · exact word_not_nul htgt c hc
  rw [create_proc_eq hn, scan_redirect_at_end hl hpre hbg op hw hws hne htgt]
  cases set_target (op.fresh (fd_of_token w)) tgt <;> rfl

theorem cstr_not_nul (s : List Char) : ∀ c ∈ cstr s, c ≠ NUL := by
  intro c hc
  have := List.mem_takeWhile_imp hc
  simpa using this

/-- Claim C6: for every command word list `w0 w1 ... wk` and every target word `file` that
is not purely digits, `create_proc` parses `cmd >&file` (no digit in front of the operator)
to the same Process as `cmd >file`: the `argv` of the command and the single redirection
with mode 1 (WriteTrunc), source descriptor 1, destination path `file` and destination
descriptor -1. -/
theorem create_proc_dupout_file (w0 : List Char) (ws : List (List Char)) (file : List Char)
    (hw0 : w0 ≠ [] ∧ ∀ c ∈ w0, isvalidtokenchar c = true)
    (hws : ∀ w ∈ ws, w ≠ [] ∧ ∀ c ∈ w, isvalidtokenchar c = true)
    (hfile : file ≠ [] ∧ ∀ c ∈ file, isvalidtokenchar c = true)
    (hnd : isvalidfd file = false) :
    create_proc (w0 ++ (ws.map (fun w => ' ' :: w)).flatten ++ " >&".toList ++ file) =
      create_proc (w0 ++ (ws.map (fun w => ' ' :: w)).flatten ++ " >".toList ++ file) ∧
    create_proc (w0 ++ (ws.map (fun w => ' ' :: w)).flatten ++ " >".toList ++ file) =
      some { pgid := 0, pid := 0, args := w0 :: w0 :: ws, nargs := (ws.length : Int) + 2,
             state := process_state.XSSH_PROC_STATE_STOPPED, background := false,
             redirect_info_list :=
               [{ srcfd := 1, srcfile := none, dstfd := -1, dstfile := some file,
                  mode := 1 }] } := by
  have hsp : ∀ c ∈ [' '], isspace c = true := by decide
  have hrest : ∀ p ∈ ws.map (fun w => ([' '], w)), p.1 ≠ [] ∧ (∀ c ∈ p.1, isspace c = true) ∧
      p.2 ≠ [] ∧ ∀ c ∈ p.2, isvalidtokenchar c = true := by
    intro p hp
    obtain ⟨w, hw, rfl⟩ := List.mem_map.mp hp
    exact ⟨by simp, hsp, hws w hw⟩
  have hnil : ∀ c ∈ ([] : List Char), isspace c = true := by simp
  have hscan := scan_word_list [] w0 (ws.map (fun w => ([' '], w))) [' '] hnil hw0 hrest hsp
  have hnul := word_list_not_nul [] w0 (ws.map (fun w => ([' '], w))) [' '] hnil hw0 hrest hsp
  have hmap : (ws.map (fun w => ([' '], w))).map Prod.snd = ws := by
    simp [List.map_map, Function.comp_def]
  obtain ⟨a, b, c, d⟩ := foldl_push_arg (w0 :: ws) ParseState.init (by
    intro w hw
    rcases List.mem_cons.mp hw with rfl | hw
    · exact hw0
    · exact hws w hw)
  rw [hmap] at hscan
  have hl : ∀ c, ([] ++ w0 ++ ((ws.map (fun w => ([' '], w))).map
      (fun (p : List Char × List Char) => p.1 ++ p.2)).flatten ++ [' ']).getLast? = some c →
      isspace c = true := by
    intro c hc
    rw [List.getLast?_append_of_ne_nil _ (by simp)] at hc
    simp only [List.getLast?_singleton, Option.some.injEq] at hc
    subst hc
    decide
  have hfdf : ¬ fd_of_token file ≥ 0 := by rw [fd_of_token_invalid hnd]; decide
  have key : ∀ op : RedirOp, op = RedirOp.trunc ∨ op = RedirOp.dupout →
      create_proc (w0 ++ (ws.map (fun w => ' ' :: w)).flatten ++ (' ' :: op.text) ++ file) =
        some { pgid := 0, pid := 0, args := w0 :: w0 :: ws, nargs := (ws.length : Int) + 2,
               state := process_state.XSSH_PROC_STATE_STOPPED, background := false,
               redirect_info_list :=
                 [{ srcfd := 1, srcfile := none, dstfd := -1, dstfile := some file,
                    mode := 1 }] } := by
    intro op hop
    have e : w0 ++ (ws.map (fun w => ' ' :: w)).flatten ++ (' ' :: op.text) ++ file =
        ([] ++ w0 ++ ((ws.map (fun w => ([' '], w))).map (fun p => p.1 ++ p.2)).flatten ++ [' '])
          ++ ([] ++ (op.text ++ ([] ++ file))) := by
      simp [List.map_map, Function.comp_def]
    have hst : set_target (op.fresh (fd_of_token [])) file =
        some { srcfd := 1, srcfile := none, dstfd := -1, dstfile := some file, mode := 1 } := by
      rcases hop with rfl | rfl
      · rw [set_target_trunc, fd_of_token_nil]; rfl
      · rw [set_target_dupout, if_neg hfdf, fd_of_token_nil, fd_of_token_invalid hnd]; rfl
    rw [e, redirect_parse hnul hl hscan (by rw [c]; rfl) op (by simp) hnil hfile.1 hfile.2, hst]
    simp only [Option.map_some', fd_of_token_nil, ite_self, push_arg_nil, Option.some.injEq]
    generalize List.foldl push_arg ParseState.init (w0 :: ws) = S at a b c d
    have a2 : strtok_all ' ' (S.endcmdbuffer.getD []) = w0 :: ws := by
      simpa [argWords] using a
    simp only [proc_of, build_args_eq, argWords, a2, b, c, d]
    simp only [ParseState.init, List.length_cons]
    simp
    ring
  have k1 := key RedirOp.trunc (Or.inl rfl)
  have k2 := key RedirOp.dupout (Or.inr rfl)
  simp only [RedirOp.text] at k1 k2
  have e1 : " >".toList = [' ', '>'] := rfl
  have e2 : " >&".toList = [' ', '>', '&'] := rfl
  rw [e1, e2]
  exact ⟨k2.trans k1.symm, k1⟩

theorem create_proc_dupout_file_witness :
    create_proc ("ls".toList ++ (["-l".toList].map (fun w => ' ' :: w)).flatten ++
        " >&".toList ++ "out.txt".toList) =
      create_proc ("ls".toList ++ (["-l".toList].map (fun w => ' ' :: w)).flatten ++
        " >".toList ++ "out.txt".toList) :=
  (create_proc_dupout_file "ls".toList ["-l".toList] "out.txt".toList
    (by decide) (by decide) (by decide) (by decide)).1

theorem end_token_cases {st s : ParseState} (h : end_token st = some s) :
    (s.redirect_info_list = st.redirect_info_list ∧ s.rinfo = st.rinfo) ∨
    (∃ r w x, st.rinfo = some r ∧ set_target r w = some x ∧
      s.redirect_info_list = st.redirect_info_list ++ [x] ∧ s.rinfo = none) := by
  rcases st with ⟨token, tok, cur, rinfo, bg, rl, ecb, na⟩
  unfold end_token at h
  cases rinfo with
  | none =>
    simp only at h
    split_ifs at h <;>
      (simp only [Option.some.injEq] at h; subst h; exact Or.inl ⟨rfl, rfl⟩)
  | some r =>
    simp only at h
    by_cases hw : (if token = true then tok else cur).length ≠ 0
    · rw [if_pos hw] at h
      cases hs : set_target r (if token = true then tok else cur) with
      | none => rw [hs] at h; cases h
      | some x =>
        rw [hs] at h
        simp only at h
        split_ifs at h
        simp only [Option.some.injEq] at h
        subst h
        exact Or.inr ⟨r, _, x, rfl, hs, rfl, rfl⟩
    · rw [if_neg hw] at h
      simp only at h
      split_ifs at h
      all_goals
        simp only [Option.some.injEq] at h
        subst h
        exact Or.inl ⟨rfl, rfl⟩

theorem dispatch_cases {s t : ParseState} {c n : Char} {b : Bool}
    (h : dispatch s c n = some (t, b)) :
    t.redirect_info_list = s.redirect_info_list ∧
    ((isredir c = true ∧ s.rinfo = none ∧
        ∃ fd, t.rinfo = some (new_redirect c n fd).1 ∧ b = (new_redirect c n fd).2) ∨
      (isredir c = false ∧ t.rinfo = s.rinfo ∧ b = false ∧ (c = NUL → s.rinfo = none))) := by
  unfold dispatch at h
  simp only at h
  by_cases hc : isredir c = true
  · rw [if_pos hc] at h
    split_ifs at h with h1
    all_goals
      simp only [Option.some.injEq, Prod.mk.injEq] at h
      obtain ⟨h2, h3⟩ := h
      subst h2
      have hn : s.rinfo = none := by
        cases hr : s.rinfo with
        | none => rfl
        | some r => rw [hr] at h1; simp at h1
      exact ⟨push_arg_redirects _ _, Or.inl ⟨hc, hn, _, push_arg_rinfo _ _, h3.symm⟩⟩
  · rw [if_neg hc] at h
    simp only [Bool.not_eq_true] at hc
    split_ifs at h with h1 h2 h3 h4
    all_goals
      simp only [Option.some.injEq, Prod.mk.injEq] at h
      obtain ⟨h5, h6⟩ := h
      subst h5
      refine ⟨push_arg_redirects _ _, Or.inr ⟨hc, push_arg_rinfo _ _, h6.symm, ?_⟩⟩
    · intro e; subst e; exact absurd h1 (by decide)
    · intro _; simpa using h4
    · intro e; exact absurd e h3

theorem consistent_of_mode1 {r : redirect_info} {f : List Char} (hm : r.mode = 1)
    (hf : r.dstfile = some f)
    (hd : r.dstfd = -1 ∨ (isvalidfd f = true ∧ r.dstfd = fd_of_token f ∧ r.dstfd < 0)) :
    r.Consistent := by
  refine ⟨fun _ => ⟨f, hf, hd⟩, ?_, ?_, ?_, ?_⟩
  · intro h; rw [hm] at h; exact absurd h (by decide)
  · intro h; rw [hm] at h; exact absurd h (by decide)
  · intro h; rcases h with h | h <;> (rw [hm] at h; exact absurd h (by decide))
  · rw [hm]; decide

theorem consistent_of_mode2 {r : redirect_info} {f : List Char} (hm : r.mode = 2)
    (hf : r.dstfile = some f) (hd : r.dstfd = -1) : r.Consistent := by
  refine ⟨?_, fun _ => ⟨by rw [hf]; rfl, hd⟩, ?_, ?_, ?_⟩
  · intro h; rw [hm] at h; exact absurd h (by decide)
  · intro h; rw [hm] at h; exact absurd h (by decide)
  · intro h; rcases h with h | h <;> (rw [hm] at h; exact absurd h (by decide))
  · rw [hm]; decide

theorem consistent_of_mode4 {r : redirect_info} {f : List Char} (hm : r.mode = 4)
    (hf : r.srcfile = some f) : r.Consistent := by
  refine ⟨?_, ?_, fun _ => by rw [hf]; rfl, ?_, ?_⟩
  · intro h; rw [hm] at h; exact absurd h (by decide)
  · intro h; rw [hm] at h; exact absurd h (by decide)
  · intro h; rcases h with h | h <;> (rw [hm] at h; exact absurd h (by decide))
  · rw [hm]; decide

theorem consistent_of_fd {r : redirect_info} (hm : r.mode = 3 ∨ r.mode = 5)
    (hf : r.dstfile = none) (hd : 0 ≤ r.dstfd) : r.Consistent := by
  refine ⟨?_, ?_, ?_, fun _ => ⟨hd, hf⟩, ?_⟩
  · intro h1; rcases hm with h | h <;> (rw [h] at h1; exact absurd h1 (by decide))
  · intro h1; rcases hm with h | h <;> (rw [h] at h1; exact absurd h1 (by decide))
  · intro h1; rcases hm with h | h <;> (rw [h] at h1; exact absurd h1 (by decide))
  · rcases hm with h | h <;> (rw [h]; decide)

theorem set_target_consistent (op : RedirOp) (fd : Int) {w : List Char} {x : redirect_info}
    (h : set_target (op.fresh fd) w = some x) : x.Consistent := by
  cases op with
  | trunc =>
    rw [set_target_trunc] at h
    simp only [Option.some.injEq] at h
    subst h
    exact consistent_of_mode1 rfl rfl (Or.inl rfl)
  | append =>
    rw [set_target_append] at h
    simp only [Option.some.injEq] at h
    subst h
    exact consistent_of_mode2 rfl rfl rfl
  | dupout =>
    rw [set_target_dupout] at h
    by_cases h1 : fd_of_token w ≥ 0
    · rw [if_pos h1] at h
      simp only [Option.some.injEq] at h
      subst h
      exact consistent_of_fd (Or.inl rfl) rfl h1
    · rw [if_neg h1] at h
      by_cases h2 : (if fd < 0 then 1 else fd) ≠ 1
      · rw [if_pos h2] at h; cases h
      · rw [if_neg h2] at h
        simp only [Option.some.injEq] at h
        subst h
        apply consistent_of_mode1 rfl rfl
        by_cases hv : isvalidfd w = true
        · exact Or.inr ⟨hv, rfl, by simpa using h1⟩
        · simp only [Bool.not_eq_true] at hv
          exact Or.inl (fd_of_token_invalid hv)
  | read =>
    rw [set_target_read] at h
    simp only [Option.some.injEq] at h
    subst h
    exact consistent_of_mode4 rfl rfl
  | dupin =>
    rw [set_target_dupin] at h
    by_cases h1 : fd_of_token w ≥ 0
    · rw [if_pos h1] at h
      simp only [Option.some.injEq] at h
      subst h
      exact consistent_of_fd (Or.inr rfl) rfl h1
    · rw [if_neg h1] at h; cases h

theorem new_redirect_fresh {c : Char} (hc : isredir c = true) (n : Char) (fd : Int) :
    ∃ op, (new_redirect c n fd).1 = RedirOp.fresh op fd := by
  have hcc : c = '<' ∨ c = '>' := by
    simpa [isredir, isinredir, isoutredir] using hc
  have f := fresh_forms fd
  rcases hcc with rfl | rfl
  · have a1 : isoutredir '<' = false := by decide
    by_cases h2 : isampersand n = true
    · refine ⟨RedirOp.dupin, ?_⟩
      rw [f.2.2.2.2]; simp [new_redirect, a1, h2]
    · refine ⟨RedirOp.read, ?_⟩
      rw [f.2.2.2.1]; simp [new_redirect, a1, h2]
  · have a1 : isoutredir '>' = true := by decide
    by_cases h1 : isoutredir n = true
    · refine ⟨RedirOp.append, ?_⟩
      rw [f.2.1]; simp [new_redirect, a1, h1]
    · by_cases h2 : isampersand n = true
      · refine ⟨RedirOp.dupout, ?_⟩
        rw [f.2.2.1]; simp [new_redirect, a1, h1, h2]
      · refine ⟨RedirOp.trunc, ?_⟩
        rw [f.1]; simp [new_redirect, a1, h1, h2]

theorem tokenChar_redirOK (st : ParseState) (c : Char) (h : st.RedirOK)
    (_ : isvalidtokenchar c = true) : (st.tokenChar c).RedirOK := h

theorem step_redirOK (st : ParseState) (c n : Char) (t : ParseState) (b : Bool)
    (h : st.RedirOK) (hs : step st c n = some (t, b)) : t.RedirOK := by
  rw [step_eq] at hs
  cases he : end_token st with
  | none => rw [he] at hs; cases hs
  | some s =>
    rw [he, Option.some_bind] at hs
    have hsok : s.RedirOK := by
      rcases end_token_cases he with ⟨e1, e2⟩ | ⟨r, w, x, e1, e2, e3, e4⟩
      · exact ⟨by rw [e1]; exact h.1, by rw [e2]; exact h.2⟩
      · obtain ⟨op, fd, hr⟩ := h.2 r e1
        subst hr
        refine ⟨?_, ?_⟩
        · intro y hy
          rw [e3] at hy
          rcases List.mem_append.mp hy with hy | hy
          · exact h.1 y hy
          · simp only [List.mem_singleton] at hy
            subst hy
            exact set_target_consistent op fd e2
        · intro y hy
          rw [e4] at hy; cases hy
    obtain ⟨d1, d2⟩ := dispatch_cases hs
    refine ⟨by rw [d1]; exact hsok.1, ?_⟩
    rcases d2 with ⟨hc, _, fd, e, _⟩ | ⟨_, e, _, _⟩
    · intro y hy
      rw [e] at hy
      simp only [Option.some.injEq] at hy
      subst hy
      obtain ⟨op, hop⟩ := new_redirect_fresh hc n fd
      exact ⟨op, fd, hop⟩
    · rw [e]; exact hsok.2

theorem init_redirOK : ParseState.init.RedirOK :=
  ⟨by simp [ParseState.init], by simp [ParseState.init]⟩

/-- Claim C8 (amended): every redirection in the list of a Process returned by
`create_proc` has a consistent (mode, target) pair: modes 1 (WriteTrunc) and 2
(WriteAppend) carry a non-null `dstfile` and a negative `dstfd`, which is `-1` for mode 2
and, for mode 1, `-1` unless the file name is a digit-run that the conversion to `int`
makes negative; mode 4 (ReadFile) carries a non-null `srcfile`; modes 3 (DupOut) and 5
(DupIn) carry `dstfd >= 0` and a null `dstfile`. -/
theorem create_proc_redirects_consistent (text : List Char) (p : proc_info)
    (h : create_proc text = some p) : ∀ r ∈ p.redirect_info_list, r.Consistent := by
  obtain ⟨st, hs, hp, _⟩ := scan_of_create_proc (cstr_not_nul text) (by
    rw [create_proc] at h ⊢
    rw [cstr_eq_self (cstr_not_nul text)]
    exact h)
  have := scan_invariant ParseState.RedirOK tokenChar_redirOK step_redirOK init_redirOK hs
  rw [← hp]
  exact this.1

theorem create_proc_redirects_consistent_witness :
    create_proc "cmd 2>&1 >file".toList =
      some ({ pgid := 0, pid := 0, args := ["cmd".toList, "cmd".toList], nargs := 2,
              state := process_state.XSSH_PROC_STATE_STOPPED, background := false,
              redirect_info_list :=
                [{ srcfd := 2, srcfile := none, dstfd := 1, dstfile := none, mode := 3 },
                 { srcfd := 1, srcfile := none, dstfd := -1,
                   dstfile := some "file".toList, mode := 1 }] } : proc_info) ∧
      ({ srcfd := 2, srcfile := none, dstfd := 1, dstfile := none, mode := 3 } :
        redirect_info).Consistent ∧
      ({ srcfd := 1, srcfile := none, dstfd := -1, dstfile := some "file".toList,
         mode := 1 } : redirect_info).Consistent := by
  have hp : create_proc "cmd 2>&1 >file".toList =
      some ({ pgid := 0, pid := 0, args := ["cmd".toList, "cmd".toList], nargs := 2,
              state := process_state.XSSH_PROC_STATE_STOPPED, background := false,
              redirect_info_list :=
                [{ srcfd := 2, srcfile := none, dstfd := 1, dstfile := none, mode := 3 },
                 { srcfd := 1, srcfile := none, dstfd := -1,
                   dstfile := some "file".toList, mode := 1 }] } : proc_info) := by
    decide!
  have h := create_proc_redirects_consistent _ _ hp
  exact ⟨hp, h _ (List.mem_cons_self _ _),
    h _ (List.mem_cons_of_mem _ (List.mem_cons_self _ _))⟩

/-- Claim C8 as stated fails: `cmd >&2147483648` is parsed to a redirection of mode 1
whose `dstfd` is `-2147483648`, not `-1`. -/
theorem create_proc_redirects_consistent_counterexample :
    create_proc "cmd >&2147483648".toList =
      some { pgid := 0, pid := 0, args := ["cmd".toList, "cmd".toList], nargs := 2,
             state := process_state.XSSH_PROC_STATE_STOPPED, background := false,
             redirect_info_list :=
               [{ srcfd := 1, srcfile := none, dstfd := -2147483648,
                  dstfile := some "2147483648".toList, mode := 1 }] } := by
  decide!

theorem target_mode3_mode {r x : redirect_info} {fd : Int} {w : List Char}
    (h : target_mode3 r fd w = some x) : x.mode = r.mode ∨ x.mode = 1 := by
  unfold target_mode3 at h
  simp only at h
  split_ifs at h
  all_goals
    simp only [Option.some.injEq] at h
    subst h
    first
      | exact Or.inl rfl
      | exact Or.inr rfl

theorem target_mode5_mode {r x : redirect_info} {fd : Int} {w : List Char}
    (h : target_mode5 r fd w = some x) : x.mode = r.mode := by
  unfold target_mode5 at h
  simp only at h
  split_ifs at h
  all_goals
    simp only [Option.some.injEq] at h
    subst h
    rfl

theorem set_target_modeOK {r x : redirect_info} {w : List Char}
    (h : set_target r w = some x) : ModeOK r.mode x := by
  unfold set_target at h
  simp only at h
  generalize hr1 : (if r.mode = 1 then
    ({ r with dstfile := some w, dstfd := -1 } : redirect_info) else r) = r1 at h
  have m1 : r1.mode = r.mode := by rw [← hr1]; split_ifs <;> rfl
  generalize hr2 : (if r1.mode = 2 then
    ({ r1 with dstfile := some w, dstfd := -1 } : redirect_info) else r1) = r2 at h
  have m2 : r2.mode = r.mode := by rw [← hr2, ← m1]; split_ifs <;> rfl
  cases h3 : (if r2.mode = 3 then target_mode3 r2 (fd_of_token w) w else some r2) with
  | none => rw [h3] at h; cases h
  | some r3 =>
    rw [h3] at h
    simp only at h
    have m3 : r3.mode = r.mode ∨ (r.mode = 3 ∧ r3.mode = 1) := by
      split_ifs at h3 with c3
      · rcases target_mode3_mode h3 with e | e
        · exact Or.inl (e.trans m2)
        · exact Or.inr ⟨m2 ▸ c3, e⟩
      · simp only [Option.some.injEq] at h3
        subst h3
        exact Or.inl m2
    generalize hr4 : (if r3.mode = 4 then
      ({ r3 with srcfd := -1, srcfile := some w } : redirect_info) else r3) = r4 at h
    have m4 : r4.mode = r3.mode := by rw [← hr4]; split_ifs <;> rfl
    have m5 : x.mode = r4.mode := by
      split_ifs at h
      · exact target_mode5_mode h
      · simp only [Option.some.injEq] at h
        subst h; rfl
    rcases m3 with e | ⟨e1, e2⟩
    · exact Or.inl (m5.trans (m4.trans e))
    · exact Or.inr ⟨e1, m5.trans (m4.trans e2)⟩

theorem redir_ops_plain {c : Char} (h : isredir c = false) (rest : List Char) :
    redir_ops (c :: rest) = redir_ops rest := by
  have h1 : c ≠ '>' := by
    intro e; subst e; exact absurd h (by decide)
  have h2 : c ≠ '<' := by
    intro e; subst e; exact absurd h (by decide)
  unfold redir_ops
  cases rest with
  | nil =>
    simp only [lexemes, h1, h2, ↓reduceIte]
    split_ifs <;> simp only [List.filterMap_cons, List.filterMap_nil]
  | cons d t =>
    rw [lexemes]
    simp only [h1, h2, ↓reduceIte]
    split_ifs <;> simp only [List.filterMap_cons]

theorem redir_ops_gt_gt (r : List Char) :
    redir_ops ('>' :: '>' :: r) = RedirOp.append :: redir_ops r := by
  unfold redir_ops
  rw [lexemes]
  simp only [↓reduceIte, List.filterMap_cons]

theorem redir_ops_gt_amp (r : List Char) :
    redir_ops ('>' :: '&' :: r) = RedirOp.dupout :: redir_ops r := by
  unfold redir_ops
  rw [lexemes]
  have : ('&' : Char) ≠ '>' := by decide
  simp only [↓reduceIte, this, List.filterMap_cons]

theorem redir_ops_lt_amp (r : List Char) :
    redir_ops ('<' :: '&' :: r) = RedirOp.dupin :: redir_ops r := by
  unfold redir_ops
  rw [lexemes]
  have : ('<' : Char) ≠ '>' := by decide
  simp only [↓reduceIte, this, List.filterMap_cons]

theorem redir_ops_gt_other {r : List Char} (h1 : isoutredir (r.headD NUL) = false)
    (h2 : isampersand (r.headD NUL) = false) :
    redir_ops ('>' :: r) = RedirOp.trunc :: redir_ops r := by
  unfold redir_ops
  cases r with
  | nil => simp only [lexemes, ↓reduceIte, List.filterMap_cons, List.filterMap_nil]
  | cons d t =>
    simp only [List.headD_cons] at h1 h2
    have e1 : d ≠ '>' := by
      intro e; subst e; exact absurd h1 (by decide)
    have e2 : d ≠ '&' := by
      intro e; subst e; exact absurd h2 (by decide)
    rw [lexemes]
    simp only [↓reduceIte, e1, e2, List.filterMap_cons]

theorem redir_ops_lt_other {r : List Char} (h2 : isampersand (r.headD NUL) = false) :
    redir_ops ('<' :: r) = RedirOp.read :: redir_ops r := by
  unfold redir_ops
  have : ('<' : Char) ≠ '>' := by decide
  cases r with
  | nil => simp only [lexemes, this, ↓reduceIte, List.filterMap_cons, List.filterMap_nil]
  | cons d t =>
    simp only [List.headD_cons] at h2
    have e2 : d ≠ '&' := by
      intro e; subst e; exact absurd h2 (by decide)
    rw [lexemes]
    simp only [↓reduceIte, this, e2, List.filterMap_cons]

theorem new_redirect_cases (c n : Char) (fd : Int) (hc : isredir c = true) :
    (c = '>' ∧ n = '>' ∧ new_redirect c n fd = (RedirOp.append.fresh fd, true)) ∨
    (c = '>' ∧ n = '&' ∧ new_redirect c n fd = (RedirOp.dupout.fresh fd, true)) ∨
    (c = '>' ∧ isoutredir n = false ∧ isampersand n = false ∧
      new_redirect c n fd = (RedirOp.trunc.fresh fd, false)) ∨
    (c = '<' ∧ n = '&' ∧ new_redirect c n fd = (RedirOp.dupin.fresh fd, true)) ∨
    (c = '<' ∧ isampersand n = false ∧
      new_redirect c n fd = (RedirOp.read.fresh fd, false)) := by
  have hcc : c = '<' ∨ c = '>' := by
    simpa [isredir, isinredir, isoutredir] using hc
  have f := fresh_forms fd
  rcases hcc with rfl | rfl
  · have a1 : isoutredir '<' = false := by decide
    by_cases h2 : isampersand n = true
    · have hd : n = '&' := by simpa [isampersand] using h2
      refine Or.inr (Or.inr (Or.inr (Or.inl ⟨rfl, hd, ?_⟩)))
      rw [f.2.2.2.2]
      simp only [new_redirect, a1, h2, ↓reduceIte, Bool.false_eq_true]
    · simp only [Bool.not_eq_true] at h2
      refine Or.inr (Or.inr (Or.inr (Or.inr ⟨rfl, h2, ?_⟩)))
      rw [f.2.2.2.1]
      simp only [new_redirect, a1, h2, ↓reduceIte, Bool.false_eq_true]
  · have a1 : isoutredir '>' = true := by decide
    by_cases h1 : isoutredir n = true
    · have hd : n = '>' := by simpa [isoutredir] using h1
      refine Or.inl ⟨rfl, hd, ?_⟩
      rw [f.2.1]
      simp only [new_redirect, a1, h1, ↓reduceIte]
    · simp only [Bool.not_eq_true] at h1
      by_cases h2 : isampersand n = true
      · have hd : n = '&' := by simpa [isampersand] using h2
        refine Or.inr (Or.inl ⟨rfl, hd, ?_⟩)
        rw [f.2.2.1]
        simp only [new_redirect, a1, h1, h2, ↓reduceIte, Bool.false_eq_true]
      · simp only [Bool.not_eq_true] at h2
        refine Or.inr (Or.inr (Or.inl ⟨rfl, h1, h2, ?_⟩))
        rw [f.1]
        simp only [new_redirect, a1, h1, h2, ↓reduceIte, Bool.false_eq_true]

/-- The operator that the lexical structure finds at a `<` or `>` is the one that
`create_proc` allocates there, and both take the same number of characters. -/
theorem redir_ops_redir {c : Char} (hc : isredir c = true) (fd : Int) (rest : List Char) :
    ∃ o : RedirOp, (new_redirect c (rest.headD NUL) fd).1 = o.fresh fd ∧
      (((new_redirect c (rest.headD NUL) fd).2 = false ∧
          redir_ops (c :: rest) = o :: redir_ops rest) ∨
        (∃ d r2, rest = d :: r2 ∧ (new_redirect c (rest.headD NUL) fd).2 = true ∧
          redir_ops (c :: rest) = o :: redir_ops r2)) := by
  have hd : ∀ x : Char, rest.headD NUL = x → x ≠ NUL → ∃ r2, rest = x :: r2 := by
    intro x hx hne
    cases rest with
    | nil => exact absurd hx.symm hne
    | cons d r2 => exact ⟨r2, by simpa using hx⟩
  rcases new_redirect_cases c (rest.headD NUL) fd hc with
    ⟨rfl, h, e⟩ | ⟨rfl, h, e⟩ | ⟨rfl, h1, h2, e⟩ | ⟨rfl, h, e⟩ | ⟨rfl, h, e⟩
  · obtain ⟨r2, hr⟩ := hd _ h (by decide)
    refine ⟨RedirOp.append, by rw [e], Or.inr ⟨'>', r2, hr, by rw [e], ?_⟩⟩
    rw [hr]; exact redir_ops_gt_gt r2
  · obtain ⟨r2, hr⟩ := hd _ h (by decide)
    refine ⟨RedirOp.dupout, by rw [e], Or.inr ⟨'&', r2, hr, by rw [e], ?_⟩⟩
    rw [hr]; exact redir_ops_gt_amp r2
  · exact ⟨RedirOp.trunc, by rw [e], Or.inl ⟨by rw [e], redir_ops_gt_other h1 h2⟩⟩
  · obtain ⟨r2, hr⟩ := hd _ h (by decide)
    refine ⟨RedirOp.dupin, by rw [e], Or.inr ⟨'&', r2, hr, by rw [e], ?_⟩⟩
    rw [hr]; exact redir_ops_lt_amp r2
  · exact ⟨RedirOp.read, by rw [e], Or.inl ⟨by rw [e], redir_ops_lt_other h⟩⟩

theorem fresh_mode (o : RedirOp) (fd : Int) : (o.fresh fd).mode = o.mode := by
  have f := fresh_forms fd
  cases o
  · rw [f.1]; rfl
  · rw [f.2.1]; rfl
  · rw [f.2.2.1]; rfl
  · rw [f.2.2.2.1]; rfl
  · rw [f.2.2.2.2]; rfl

theorem pendingModes_of_none {st : ParseState} (h : st.rinfo = none) : st.pendingModes = [] := by
  simp [ParseState.pendingModes, h]

theorem pendingModes_of_some {st : ParseState} {r : redirect_info} (h : st.rinfo = some r) :
    st.pendingModes = [r.mode] := by
  simp [ParseState.pendingModes, h]

theorem pendingModes_congr {s t : ParseState} (h : s.rinfo = t.rinfo) :
    s.pendingModes = t.pendingModes := by
  simp [ParseState.pendingModes, h]

/-- One iteration of the loop at a character that is not a token character: the
redirections added to the list, against the operators met. -/
theorem step_redirs {st s1 : ParseState} {c : Char} {b : Bool} (rest : List Char)
    (h : step st c (rest.headD NUL) = some (s1, b)) :
    ∃ X Mx, s1.redirect_info_list = st.redirect_info_list ++ X ∧
      List.Forall₂ ModeOK Mx X ∧
      st.pendingModes ++ (redir_ops (c :: rest)).map RedirOp.mode =
        Mx ++ (s1.pendingModes ++
          (redir_ops (if b then rest.tail else rest)).map RedirOp.mode) ∧
      (b = true → rest ≠ []) ∧ (c = NUL → s1.rinfo = none) := by
  rw [step_eq] at h
  cases he : end_token st with
  | none => rw [he] at h; cases h
  | some s =>
    rw [he, Option.some_bind] at h
    obtain ⟨d1, d2⟩ := dispatch_cases h
    -- what the end of the token did
    have hend : ∃ X Mx, s.redirect_info_list = st.redirect_info_list ++ X ∧
        List.Forall₂ ModeOK Mx X ∧ st.pendingModes = Mx ++ s.pendingModes := by
      rcases end_token_cases he with ⟨e1, e2⟩ | ⟨r, w, x, e1, e2, e3, e4⟩
      · exact ⟨[], [], by rw [e1, List.append_nil], List.Forall₂.nil,
          by rw [List.nil_append, pendingModes_congr e2]⟩
      · exact ⟨[x], [r.mode], e3, List.Forall₂.cons (set_target_modeOK e2) List.Forall₂.nil,
          by rw [pendingModes_of_some e1, pendingModes_of_none e4]; rfl⟩
    obtain ⟨X, Mx, x1, x2, x3⟩ := hend
    refine ⟨X, Mx, by rw [d1, x1], x2, ?_, ?_, ?_⟩
    · rcases d2 with ⟨hc, hn, fd, e, hb⟩ | ⟨hc, e, hb, _⟩
      · obtain ⟨o, ho, hops⟩ := redir_ops_redir hc fd rest
        rw [x3, pendingModes_of_none hn, pendingModes_of_some e, ho, fresh_mode]
        rcases hops with ⟨hb2, hops⟩ | ⟨d, r2, hr, hb2, hops⟩
        · rw [hb, hb2, hops]; simp
        · rw [hb, hb2, hops, hr]; simp
      · rw [x3, pendingModes_congr e, hb, redir_ops_plain hc]; simp
    · intro hb
      rcases d2 with ⟨hc, hn, fd, e, hb2⟩ | ⟨hc, e, hb2, _⟩
      · rw [hb] at hb2
        rcases new_redirect_skip hb2.symm with h1 | h1
        · intro e2; rw [e2] at h1; exact absurd h1 (by decide)
        · intro e2; rw [e2] at h1; exact absurd h1 (by decide)
      · rw [hb] at hb2; cases hb2
    · intro hc
      rcases d2 with ⟨hc2, _⟩ | ⟨_, e, _, hn⟩
      · rw [hc] at hc2; exact absurd hc2 (by decide)
      · rw [e]; exact hn hc

theorem forall₂_append' {α β : Type} {R : α → β → Prop} {a1 a2 : List α} {b1 b2 : List β}
    (h1 : List.Forall₂ R a1 b1) (h2 : List.Forall₂ R a2 b2) :
    List.Forall₂ R (a1 ++ a2) (b1 ++ b2) := by
  induction h1 with
  | nil => exact h2
  | cons h _ ih => exact List.Forall₂.cons h ih

/-- The redirections that the loop adds to the list correspond, in order, to the pending
operator and the operators of the remaining text. -/
theorem scan_redirs (k : Nat) : ∀ (rest : List Char) (st t : ParseState),
    rest.length ≤ k → scan st rest = some t →
    ∃ R, t.redirect_info_list = st.redirect_info_list ++ R ∧
      List.Forall₂ ModeOK (st.pendingModes ++ (redir_ops rest).map RedirOp.mode) R := by
  induction k with
  | zero =>
    intro rest st t hlen h
    have : rest = [] := List.length_eq_zero.mp (Nat.le_zero.mp hlen)
    subst this
    rw [scan_nil] at h
    cases hs : step st NUL NUL with
    | none => rw [hs] at h; cases h
    | some r =>
      rcases r with ⟨s1, b⟩
      rw [hs] at h
      simp only [Option.map_some', Option.some.injEq] at h
      subst h
      obtain ⟨X, Mx, x1, x2, x3, _, x5⟩ := step_redirs (c := NUL) [] hs
      refine ⟨X, x1, ?_⟩
      have e0 : redir_ops [] = [] := rfl
      have e1 : redir_ops [NUL] = [] := by rw [redir_ops_plain (by decide)]; rfl
      rw [pendingModes_of_none (x5 rfl)] at x3
      simp only [e0, e1, List.map_nil, List.append_nil, List.nil_append, List.tail_nil,
        ite_self] at x3 ⊢
      rw [x3]; exact x2
  | succ k ih =>
    intro rest st t hlen h
    cases rest with
    | nil => exact ih [] st t (Nat.zero_le _) h
    | cons c rest1 =>
      by_cases hc : isvalidtokenchar c = true
      · rw [scan_cons_tok _ _ hc] at h
        obtain ⟨R, r1, r2⟩ := ih rest1 _ t (by simpa using hlen) h
        refine ⟨R, r1, ?_⟩
        rw [redir_ops_plain (tokchar_facts hc).1]
        exact r2
      · simp only [Bool.not_eq_true] at hc
        cases hs : step st c (rest1.headD NUL) with
        | none => rw [scan_sep_none hc hs] at h; cases h
        | some r =>
          rcases r with ⟨s1, b⟩
          obtain ⟨X, Mx, x1, x2, x3, x4, _⟩ := step_redirs rest1 hs
          cases b with
          | false =>
            rw [scan_sep_next hc hs] at h
            obtain ⟨R, r1, r2⟩ := ih rest1 s1 t (by simpa using hlen) h
            refine ⟨X ++ R, by rw [r1, x1, List.append_assoc], ?_⟩
            rw [x3]
            exact forall₂_append' x2 r2
          | true =>
            cases rest1 with
            | nil => exact absurd rfl (x4 rfl)
            | cons d rest2 =>
              simp only [List.headD_cons] at hs
              rw [scan_sep_skip hc hs] at h
              obtain ⟨R, r1, r2⟩ := ih rest2 s1 t (by
                simp only [List.length_cons] at hlen; omega) h
              refine ⟨X ++ R, by rw [r1, x1, List.append_assoc], ?_⟩
              rw [x3]
              exact forall₂_append' x2 r2

theorem lexemes_plain {c : Char} (h : isredir c = false) (rest : List Char) :
    lexemes (c :: rest) =
      (if c = '&' then Lexeme.amp else if isspace c then Lexeme.blank else Lexeme.wordchar c)
        :: lexemes rest := by
  have h1 : c ≠ '>' := by
    intro e; subst e; exact absurd h (by decide)
  have h2 : c ≠ '<' := by
    intro e; subst e; exact absurd h (by decide)
  cases rest with
  | nil =>
    simp only [lexemes, h1, h2, ↓reduceIte]
    split_ifs <;> rfl
  | cons d t =>
    rw [lexemes]
    simp only [h1, h2, ↓reduceIte]
    split_ifs <;> rfl

theorem lexemes_gt_gt (r : List Char) :
    lexemes ('>' :: '>' :: r) = Lexeme.op RedirOp.append :: lexemes r := by
  rw [lexemes]
  simp only [↓reduceIte]

theorem lexemes_gt_amp (r : List Char) :
    lexemes ('>' :: '&' :: r) = Lexeme.op RedirOp.dupout :: lexemes r := by
  rw [lexemes]
  have : ('&' : Char) ≠ '>' := by decide
  simp only [↓reduceIte, this]

theorem lexemes_lt_amp (r : List Char) :
    lexemes ('<' :: '&' :: r) = Lexeme.op RedirOp.dupin :: lexemes r := by
  rw [lexemes]
  have : ('<' : Char) ≠ '>' := by decide
  simp only [↓reduceIte, this]

theorem lexemes_gt_other {r : List Char} (h1 : isoutredir (r.headD NUL) = false)
    (h2 : isampersand (r.headD NUL) = false) :
    lexemes ('>' :: r) = Lexeme.op RedirOp.trunc :: lexemes r := by
  cases r with
  | nil => simp only [lexemes, ↓reduceIte]
  | cons d t =>
    simp only [List.headD_cons] at h1 h2
    have e1 : d ≠ '>' := by
      intro e; subst e; exact absurd h1 (by decide)
    have e2 : d ≠ '&' := by
      intro e; subst e; exact absurd h2 (by decide)
    rw [lexemes]
    simp only [↓reduceIte, e1, e2]

theorem lexemes_lt_other {r : List Char} (h2 : isampersand (r.headD NUL) = false) :
    lexemes ('<' :: r) = Lexeme.op RedirOp.read :: lexemes r := by
  have : ('<' : Char) ≠ '>' := by decide
  cases r with
  | nil => simp only [lexemes, this, ↓reduceIte]
  | cons d t =>
    simp only [List.headD_cons] at h2
    have e2 : d ≠ '&' := by
      intro e; subst e; exact absurd h2 (by decide)
    rw [lexemes]
    simp only [↓reduceIte, this, e2]

/-- At a `<` or `>` the lexical structure and `create_proc` take the same number of
characters for the operator. -/
theorem lexemes_redir {c : Char} (hc : isredir c = true) (fd : Int) (rest : List Char) :
    ∃ o : RedirOp,
      (((new_redirect c (rest.headD NUL) fd).2 = false ∧
          lexemes (c :: rest) = Lexeme.op o :: lexemes rest) ∨
        (∃ d r2, rest = d :: r2 ∧ (new_redirect c (rest.headD NUL) fd).2 = true ∧
          lexemes (c :: rest) = Lexeme.op o :: lexemes r2)) := by
  have hd : ∀ x : Char, rest.headD NUL = x → x ≠ NUL → ∃ r2, rest = x :: r2 := by
    intro x hx hne
    cases rest with
    | nil => exact absurd hx.symm hne
    | cons d r2 => exact ⟨r2, by simpa using hx⟩
  rcases new_redirect_cases c (rest.headD NUL) fd hc with
    ⟨rfl, h, e⟩ | ⟨rfl, h, e⟩ | ⟨rfl, h1, h2, e⟩ | ⟨rfl, h, e⟩ | ⟨rfl, h, e⟩
  · obtain ⟨r2, hr⟩ := hd _ h (by decide)
    refine ⟨RedirOp.append, Or.inr ⟨'>', r2, hr, by rw [e], ?_⟩⟩
    rw [hr]; exact lexemes_gt_gt r2
  · obtain ⟨r2, hr⟩ := hd _ h (by decide)
    refine ⟨RedirOp.dupout, Or.inr ⟨'&', r2, hr, by rw [e], ?_⟩⟩
    rw [hr]; exact lexemes_gt_amp r2
  · exact ⟨RedirOp.trunc, Or.inl ⟨by rw [e], lexemes_gt_other h1 h2⟩⟩
  · obtain ⟨r2, hr⟩ := hd _ h (by decide)
    refine ⟨RedirOp.dupin, Or.inr ⟨'&', r2, hr, by rw [e], ?_⟩⟩
    rw [hr]; exact lexemes_lt_amp r2
  · exact ⟨RedirOp.read, Or.inl ⟨by rw [e], lexemes_lt_other h⟩⟩

theorem end_token_bg_word {st : ParseState} (hr : st.rinfo = none)
    (hb : st.background = true) (ht : st.token = true) (hne : st.tok ≠ []) :
    end_token st = none := by
  rcases st with ⟨token, tok, cur, rinfo, bg, rl, ecb, na⟩
  simp only at hr hb ht hne
  subst hr hb ht
  simp [end_token, hne]

/-- once the background flag is set, a word that has begun makes the parse fail -/
theorem scan_doomed : ∀ (rest : List Char) (st : ParseState), st.rinfo = none →
    st.background = true → st.token = true → st.tok ≠ [] → scan st rest = none := by
  intro rest
  induction rest with
  | nil =>
    intro st hr hb ht hne
    rw [scan_nil, step_eq, end_token_bg_word hr hb ht hne]
    rfl
  | cons c rest ih =>
    intro st hr hb ht hne
    by_cases hc : isvalidtokenchar c = true
    · rw [scan_cons_tok _ _ hc]
      exact ih _ hr hb rfl (by simp [ParseState.tokenChar])
    · simp only [Bool.not_eq_true] at hc
      apply scan_sep_none hc
      rw [step_eq, end_token_bg_word hr hb ht hne]
      rfl

theorem not_token_cases {c : Char} (hc : isvalidtokenchar c = false) :
    isredir c = true ∨ c = '&' ∨ isspace c = true ∨ c = NUL := by
  simp only [isvalidtokenchar, Bool.not_eq_false', Bool.or_eq_true, isredir, isampersand,
    beq_iff_eq] at hc ⊢
  tauto

theorem step_idle_bg_redir {st : ParseState} (hi : st.Idle) (hb : st.background = true)
    {c : Char} (hc : isredir c = true) (n : Char) : step st c n = none := by
  rw [step_eq, end_token_idle hi]
  simp [dispatch, hc, hb]

/-- after `&`, a later word or operator makes the parse fail -/
theorem scan_after_amp : ∀ (rest : List Char) (st : ParseState), st.rinfo = none →
    st.background = true → st.Idle → (∀ c ∈ rest, c ≠ NUL) →
    (∃ x ∈ lexemes rest, x.isWordOrOp = true) → scan st rest = none := by
  intro rest
  induction rest with
  | nil =>
    intro st _ _ _ _ h
    obtain ⟨x, hx, _⟩ := h
    simp [lexemes] at hx
  | cons c rest ih =>
    intro st hr hb hi hnul h
    have hnul2 : ∀ x ∈ rest, x ≠ NUL := fun x hx => hnul x (List.mem_cons_of_mem _ hx)
    by_cases hc : isvalidtokenchar c = true
    · rw [scan_cons_tok _ _ hc]
      exact scan_doomed rest _ hr hb rfl (by simp [ParseState.tokenChar])
    · simp only [Bool.not_eq_true] at hc
      rcases not_token_cases hc with h1 | h1 | h1 | h1
      · exact scan_sep_none hc (step_idle_bg_redir hi hb h1 _)
      · subst h1
        rw [scan_sep_next hc (step_idle_amp hi hr _)]
        refine ih { st with background := true } hr rfl hi hnul2 ?_
        rw [lexemes_plain (by decide)] at h
        obtain ⟨x, hx, hw⟩ := h
        rcases List.mem_cons.mp hx with e | e
        · subst e; simp [Lexeme.isWordOrOp] at hw
        · exact ⟨x, e, hw⟩
      · rw [scan_sep_next hc (step_idle_space hi h1 _)]
        apply ih _ hr hb hi hnul2
        have hamp : c ≠ '&' := by
          intro e; subst e; exact absurd h1 (by decide)
        rw [lexemes_plain (space_facts h1).2.1] at h
        obtain ⟨x, hx, hw⟩ := h
        rcases List.mem_cons.mp hx with e | e
        · subst e; simp [hamp, h1, Lexeme.isWordOrOp] at hw
        · exact ⟨x, e, hw⟩
      · exact absurd h1 (hnul c (List.mem_cons_self _ _))

theorem step_amp {st t : ParseState} {n : Char} {b : Bool}
    (h : step st '&' n = some (t, b)) :
    t.background = true ∧ t.rinfo = none ∧ t.Idle ∧ b = false := by
  have hid := step_idle h
  rw [step_eq] at h
  cases he : end_token st with
  | none => rw [he] at h; cases h
  | some s =>
    rw [he, Option.some_bind] at h
    have h1 : isredir '&' = false := by decide
    have h2 : isampersand '&' = true := by decide
    unfold dispatch at h
    simp only [h1, h2, Bool.false_eq_true, ↓reduceIte] at h
    cases hr : s.rinfo with
    | some r => rw [hr] at h; simp at h
    | none =>
      rw [hr] at h
      simp only [Option.isSome_none, Bool.false_eq_true, ↓reduceIte, Option.some.injEq,
        Prod.mk.injEq] at h
      obtain ⟨e1, e2⟩ := h
      refine ⟨?_, ?_, hid, e2.symm⟩
      · rw [← e1, push_arg_background]
      · rw [← e1, push_arg_rinfo]

theorem step_flag {st t : ParseState} {c n : Char} {b : Bool}
    (h : step st c n = some (t, b)) (hc : isredir c = true) :
    ∃ fd, b = (new_redirect c n fd).2 := by
  rw [step_eq] at h
  cases he : end_token st with
  | none => rw [he] at h; cases h
  | some s =>
    rw [he, Option.some_bind] at h
    rcases (dispatch_cases h).2 with ⟨_, _, fd, _, e⟩ | ⟨e, _⟩
    · exact ⟨fd, e⟩
    · rw [hc] at e; cases e

/-- A `&` that is not part of a redirection operator and is followed later by a word or
an operator makes the loop fail, in every state. -/
theorem scan_amp_then_word (k : Nat) : ∀ (rest : List Char) (st : ParseState),
    rest.length ≤ k → (∀ c ∈ rest, c ≠ NUL) →
    (∃ l1 l2, lexemes rest = l1 ++ Lexeme.amp :: l2 ∧ ∃ x ∈ l2, x.isWordOrOp = true) →
    scan st rest = none := by
  induction k with
  | zero =>
    intro rest st hlen _ h
    have : rest = [] := List.length_eq_zero.mp (Nat.le_zero.mp hlen)
    subst this
    obtain ⟨l1, l2, e, _⟩ := h
    simp [lexemes] at e
  | succ k ih =>
    intro rest st hlen hnul h
    cases rest with
    | nil =>
      obtain ⟨l1, l2, e, _⟩ := h
      simp [lexemes] at e
    | cons c rest1 =>
      have hnul2 : ∀ x ∈ rest1, x ≠ NUL := fun x hx => hnul x (List.mem_cons_of_mem _ hx)
      have hlen1 : rest1.length ≤ k := by simpa using hlen
      obtain ⟨l1, l2, e, hw⟩ := h
      -- a first lexical item other than `&` belongs to `l1`
      have peel : ∀ (x : Lexeme) (tl : List Lexeme), x ≠ Lexeme.amp →
          x :: tl = l1 ++ Lexeme.amp :: l2 →
          ∃ l1b, tl = l1b ++ Lexeme.amp :: l2 := by
        intro x tl hx e2
        cases l1 with
        | nil =>
          simp only [List.nil_append, List.cons.injEq] at e2
          exact absurd e2.1 hx
        | cons y l1b =>
          simp only [List.cons_append, List.cons.injEq] at e2
          exact ⟨l1b, e2.2⟩
      by_cases hc : isvalidtokenchar c = true
      · rw [scan_cons_tok _ _ hc]
        have f := tokchar_facts hc
        rw [lexemes_plain f.1] at e
        have hamp : c ≠ '&' := by
          intro e2; subst e2; exact absurd f.2.1 (by decide)
        simp only [hamp, f.2.2.1, ↓reduceIte, Bool.false_eq_true] at e
        obtain ⟨l1b, e3⟩ := peel _ _ (by simp) e
        exact ih rest1 _ hlen1 hnul2 ⟨l1b, l2, e3, hw⟩
      · simp only [Bool.not_eq_true] at hc
        cases hs : step st c (rest1.headD NUL) with
        | none => exact scan_sep_none hc hs
        | some r =>
          rcases r with ⟨s1, b⟩
          rcases not_token_cases hc with h1 | h1 | h1 | h1
          · -- a redirection operator
            obtain ⟨fd, hb⟩ := step_flag hs h1
            obtain ⟨o, hl⟩ := lexemes_redir h1 fd rest1
            rcases hl with ⟨hb2, hl⟩ | ⟨d, r2, hr, hb2, hl⟩
            · rw [hb2] at hb
              subst hb
              rw [scan_sep_next hc hs]
              rw [hl] at e
              obtain ⟨l1b, e3⟩ := peel _ _ (by simp) e
              exact ih rest1 _ hlen1 hnul2 ⟨l1b, l2, e3, hw⟩
            · rw [hb2] at hb
              subst hb
              subst hr
              simp only [List.headD_cons] at hs
              rw [scan_sep_skip hc hs]
              rw [hl] at e
              obtain ⟨l1b, e3⟩ := peel _ _ (by simp) e
              refine ih r2 _ ?_ (fun x hx => hnul2 x (List.mem_cons_of_mem _ hx))
                ⟨l1b, l2, e3, hw⟩
              simp only [List.length_cons] at hlen1; omega
          · -- the character `&`
            subst h1
            obtain ⟨a1, a2, a3, a4⟩ := step_amp hs
            subst a4
            rw [scan_sep_next hc hs]
            rw [lexemes_plain (by decide)] at e
            simp only [↓reduceIte] at e
            cases l1 with
            | nil =>
              simp only [List.nil_append, List.cons.injEq, true_and] at e
              rw [← e] at hw
              exact scan_after_amp rest1 s1 a2 a1 a3 hnul2 hw
            | cons y l1b =>
              simp only [List.cons_append, List.cons.injEq] at e
              exact ih rest1 _ hlen1 hnul2 ⟨l1b, l2, e.2, hw⟩
          · -- a blank
            have f := space_facts h1
            have hb : b = false := @step_no_skip st c NUL (by decide) (by decide) (s1, b) (by
                rw [← hs]; exact step_plain2 st _ _ f.2.1)
            subst hb
            rw [scan_sep_next hc hs]
            have hamp : c ≠ '&' := by
              intro e2; subst e2; exact absurd h1 (by decide)
            rw [lexemes_plain f.2.1] at e
            simp only [hamp, h1, ↓reduceIte] at e
            obtain ⟨l1b, e3⟩ := peel _ _ (by simp) e
            exact ih rest1 _ hlen1 hnul2 ⟨l1b, l2, e3, hw⟩
          · exact absurd h1 (hnul c (List.mem_cons_self _ _))

/-- Claim C10: for every process text in which a `&` outside a redirection operator is
followed later by a word or by another redirection operator, `create_proc` fails and
returns no Process. -/
theorem create_proc_after_background (text : List Char) (l1 l2 : List Lexeme)
    (h : lexemes (cstr text) = l1 ++ Lexeme.amp :: l2)
    (hw : ∃ x ∈ l2, x.isWordOrOp = true) : create_proc text = none := by
  rw [create_proc,
    scan_amp_then_word _ (cstr text) ParseState.init le_rfl (cstr_not_nul text) ⟨l1, l2, h, hw⟩]
  rfl

theorem create_proc_after_background_witness : create_proc "a & b".toList = none :=
  create_proc_after_background "a & b".toList
    [Lexeme.wordchar 'a', Lexeme.blank] [Lexeme.blank, Lexeme.wordchar 'b']
    (by decide) (by decide)

/-- Claim C9 (code defect): for `cmd 3<&4` the parsed redirection has mode 5 (DupIn) and the
target descriptor 4 in `dstfd`, but the source descriptor 3 written in front of `<&` is
lost: `srcfd` is `-1`. The assignment `rinfo->dstfd = fd` at the target overwrites the
descriptor that was stored in `dstfd` at the operator. -/
theorem create_proc_dupin_loses_source :
    create_proc "cmd 3<&4".toList =
      some { pgid := 0, pid := 0, args := ["cmd".toList, "cmd".toList], nargs := 2,
             state := process_state.XSSH_PROC_STATE_STOPPED, background := false,
             redirect_info_list :=
               [{ srcfd := -1, srcfile := none, dstfd := 4, dstfile := none, mode := 5 }] } := by
  decide!

/-! ## The Supervisor -/

theorem find_proc_split (pid : Int) (p : proc_info) (l2 : List proc_info) (hp : p.pid = pid) :
    ∀ (l1 : List proc_info), (∀ q ∈ l1, q.pid ≠ pid) →
      find_proc pid (l1 ++ p :: l2) = some p := by
  intro l1
  induction l1 with
  | nil => intro _; simp [find_proc, hp]
  | cons q l1 ih =>
    intro h
    have hq : q.pid ≠ pid := h q (List.mem_cons_self _ _)
    simp only [List.cons_append, find_proc, hq, ↓reduceIte]
    exact ih (fun x hx => h x (List.mem_cons_of_mem _ hx))

theorem remove_proc_split (pid : Int) (p : proc_info) (l2 : List proc_info) (hp : p.pid = pid) :
    ∀ (l1 : List proc_info), (∀ q ∈ l1, q.pid ≠ pid) →
      remove_proc pid (l1 ++ p :: l2) = l1 ++ l2 := by
  intro l1
  induction l1 with
  | nil => intro _; simp [remove_proc, hp]
  | cons q l1 ih =>
    intro h
    have hq : q.pid ≠ pid := h q (List.mem_cons_self _ _)
    simp only [List.cons_append, remove_proc, hq, ↓reduceIte]
    exact congrArg (List.cons q) (ih (fun x hx => h x (List.mem_cons_of_mem _ hx)))

theorem set_proc_state_split (pid : Int) (s : process_state) (p : proc_info)
    (l2 : List proc_info) (hp : p.pid = pid) :
    ∀ (l1 : List proc_info), (∀ q ∈ l1, q.pid ≠ pid) →
      set_proc_state pid s (l1 ++ p :: l2) = l1 ++ { p with state := s } :: l2 := by
  intro l1
  induction l1 with
  | nil => intro _; simp [set_proc_state, hp]
  | cons q l1 ih =>
    intro h
    have hq : q.pid ≠ pid := h q (List.mem_cons_self _ _)
    simp only [List.cons_append, set_proc_state, hq, ↓reduceIte]
    exact congrArg (List.cons q) (ih (fun x hx => h x (List.mem_cons_of_mem _ hx)))

/-- Claim C17: let `pid` belong to the Process `p` of the Job (`p` is the first Process of
the list with this pid). Both `process_terminated` (event Exited, called with the exit
code) and `process_killed` (event Killed, called with the signal number) lower `nrunning`
by one and keep `nstopped` if `p` was Running, lower `nstopped` by one and keep `nrunning`
if `p` was Stopped, remove `p` from the list and keep every other Process in order, lower
`nprocs` by one and store the code in `status`. -/
theorem process_reaped (job : job_info) (pid code : Int) (l1 l2 : List proc_info)
    (p : proc_info) (hl : job.proc_info_list = l1 ++ p :: l2) (hp : p.pid = pid)
    (hfirst : ∀ q ∈ l1, q.pid ≠ pid) :
    ∀ j ∈ [process_terminated job pid code, process_killed job pid code],
      (p.state = process_state.XSSH_PROC_STATE_RUNNING →
        j.nrunning = job.nrunning - 1 ∧ j.nstopped = job.nstopped) ∧
      (p.state = process_state.XSSH_PROC_STATE_STOPPED →
        j.nstopped = job.nstopped - 1 ∧ j.nrunning = job.nrunning) ∧
      j.proc_info_list = l1 ++ l2 ∧
      j.nprocs = job.nprocs - 1 ∧
      j.status = code := by
  have hf : find_proc pid job.proc_info_list = some p := by
    rw [hl]; exact find_proc_split pid p l2 hp l1 hfirst
  have hr : remove_proc pid job.proc_info_list = l1 ++ l2 := by
    rw [hl]; exact remove_proc_split pid p l2 hp l1 hfirst
  intro j hj
  simp only [List.mem_cons, List.mem_singleton, List.not_mem_nil, or_false] at hj
  rcases hj with e | e
  · subst e
    unfold process_terminated
    rw [hf]
    simp only
    cases hs : p.state <;> simp only [reduceCtorEq, ↓reduceIte] <;> split_ifs <;>
      simp [hr]
  · subst e
    unfold process_killed
    rw [hf]
    simp only
    cases hs : p.state <;> simp only [reduceCtorEq, ↓reduceIte] <;> split_ifs <;>
      simp [hr]

theorem process_reaped_witness :
    (process_terminated
        (sample_job [sample_proc 5 process_state.XSSH_PROC_STATE_RUNNING,
                     sample_proc 7 process_state.XSSH_PROC_STATE_RUNNING] 2 0
          job_state.XSSH_JOB_STATE_RUNNING) 7 3).proc_info_list =
      [sample_proc 5 process_state.XSSH_PROC_STATE_RUNNING] ++ [] ∧
    (process_killed
        (sample_job [sample_proc 5 process_state.XSSH_PROC_STATE_RUNNING,
                     sample_proc 7 process_state.XSSH_PROC_STATE_RUNNING] 2 0
          job_state.XSSH_JOB_STATE_RUNNING) 7 3).status = 3 :=
  have h := process_reaped
    (sample_job [sample_proc 5 process_state.XSSH_PROC_STATE_RUNNING,
                 sample_proc 7 process_state.XSSH_PROC_STATE_RUNNING] 2 0
      job_state.XSSH_JOB_STATE_RUNNING) 7 3
    [sample_proc 5 process_state.XSSH_PROC_STATE_RUNNING] []
    (sample_proc 7 process_state.XSSH_PROC_STATE_RUNNING) rfl rfl (by decide)
  ⟨(h _ (List.mem_cons_self _ _)).2.2.1,
   (h _ (List.mem_cons_of_mem _ (List.mem_cons_self _ _))).2.2.2.2⟩

/-- Claim C18: let `pid` belong to the Running Process `p` of the Job (`p` is the first
Process of the list with this pid). `process_stopped` sets `p` to Stopped, lowers
`nrunning` by one and raises `nstopped` by one; the process list is otherwise unchanged
(same Processes in the same order), and so are `nprocs` and `status`. -/
theorem process_stopped_running (job : job_info) (pid : Int) (l1 l2 : List proc_info)
    (p : proc_info) (hl : job.proc_info_list = l1 ++ p :: l2) (hp : p.pid = pid)
    (hfirst : ∀ q ∈ l1, q.pid ≠ pid)
    (hs : p.state = process_state.XSSH_PROC_STATE_RUNNING) :
    (process_stopped job pid).proc_info_list =
      l1 ++ { p with state := process_state.XSSH_PROC_STATE_STOPPED } :: l2 ∧
    (process_stopped job pid).nrunning = job.nrunning - 1 ∧
    (process_stopped job pid).nstopped = job.nstopped + 1 ∧
    (process_stopped job pid).nprocs = job.nprocs ∧
    (process_stopped job pid).status = job.status := by
  have hf : find_proc pid job.proc_info_list = some p := by
    rw [hl]; exact find_proc_split pid p l2 hp l1 hfirst
  have hr : set_proc_state pid process_state.XSSH_PROC_STATE_STOPPED job.proc_info_list =
      l1 ++ { p with state := process_state.XSSH_PROC_STATE_STOPPED } :: l2 := by
    rw [hl]; exact set_proc_state_split pid _ p l2 hp l1 hfirst
  unfold process_stopped
  rw [hf]
  simp only [hs, ↓reduceIte]
  split_ifs <;> simp [hr]

theorem process_stopped_running_witness :
    (process_stopped
        (sample_job [sample_proc 5 process_state.XSSH_PROC_STATE_RUNNING,
                     sample_proc 7 process_state.XSSH_PROC_STATE_RUNNING] 2 0
          job_state.XSSH_JOB_STATE_RUNNING) 7).proc_info_list =
      [sample_proc 5 process_state.XSSH_PROC_STATE_RUNNING] ++
        [{ sample_proc 7 process_state.XSSH_PROC_STATE_RUNNING with
           state := process_state.XSSH_PROC_STATE_STOPPED }] :=
  (process_stopped_running
    (sample_job [sample_proc 5 process_state.XSSH_PROC_STATE_RUNNING,
                 sample_proc 7 process_state.XSSH_PROC_STATE_RUNNING] 2 0
      job_state.XSSH_JOB_STATE_RUNNING) 7
    [sample_proc 5 process_state.XSSH_PROC_STATE_RUNNING] []
    (sample_proc 7 process_state.XSSH_PROC_STATE_RUNNING) rfl rfl (by decide) rfl).1

/-- Claim C19: let `pid` belong to the Stopped Process `p` of a Job (`p` is the first
Process of the list with this pid) whose count `nrunning` of running Processes is not
negative. `process_continued` sets `p` to Running, lowers `nstopped` by one, raises
`nrunning` by one and sets the state of the Job to Running; the process list is otherwise
unchanged (same Processes in the same order), and so are `nprocs` and `status`. -/
theorem process_continued_stopped (job : job_info) (pid : Int) (l1 l2 : List proc_info)
    (p : proc_info) (hl : job.proc_info_list = l1 ++ p :: l2) (hp : p.pid = pid)
    (hfirst : ∀ q ∈ l1, q.pid ≠ pid)
    (hs : p.state = process_state.XSSH_PROC_STATE_STOPPED)
    (hn : 0 ≤ job.nrunning) :
    (process_continued job pid).proc_info_list =
      l1 ++ { p with state := process_state.XSSH_PROC_STATE_RUNNING } :: l2 ∧
    (process_continued job pid).nstopped = job.nstopped - 1 ∧
    (process_continued job pid).nrunning = job.nrunning + 1 ∧
    (process_continued job pid).state = job_state.XSSH_JOB_STATE_RUNNING ∧
    (process_continued job pid).nprocs = job.nprocs ∧
    (process_continued job pid).status = job.status := by
  have hf : find_proc pid job.proc_info_list = some p := by
    rw [hl]; exact find_proc_split pid p l2 hp l1 hfirst
  have hr : set_proc_state pid process_state.XSSH_PROC_STATE_RUNNING job.proc_info_list =
      l1 ++ { p with state := process_state.XSSH_PROC_STATE_RUNNING } :: l2 := by
    rw [hl]; exact set_proc_state_split pid _ p l2 hp l1 hfirst
  have hpos : job.nrunning + 1 > 0 := by omega
  unfold process_continued
  rw [hf]
  simp only [hs, ↓reduceIte, hpos]
  simp [hr]

theorem process_continued_stopped_witness :
    (process_continued
        (sample_job [sample_proc 5 process_state.XSSH_PROC_STATE_STOPPED,
                     sample_proc 7 process_state.XSSH_PROC_STATE_STOPPED] 0 2
          job_state.XSSH_JOB_STATE_STOPPED) 7).state = job_state.XSSH_JOB_STATE_RUNNING :=
  (process_continued_stopped
    (sample_job [sample_proc 5 process_state.XSSH_PROC_STATE_STOPPED,
                 sample_proc 7 process_state.XSSH_PROC_STATE_STOPPED] 0 2
      job_state.XSSH_JOB_STATE_STOPPED) 7
    [sample_proc 5 process_state.XSSH_PROC_STATE_STOPPED] []
    (sample_proc 7 process_state.XSSH_PROC_STATE_STOPPED) rfl rfl (by decide) rfl
    (by decide)).2.2.2.1

theorem find_proc_some (pid : Int) : ∀ (l : List proc_info) (p : proc_info),
    find_proc pid l = some p →
    ∃ l1 l2, l = l1 ++ p :: l2 ∧ p.pid = pid ∧ ∀ q ∈ l1, q.pid ≠ pid := by
  intro l
  induction l with
  | nil => intro p h; simp [find_proc] at h
  | cons q l ih =>
    intro p h
    by_cases hq : q.pid = pid
    · simp only [find_proc, hq, ↓reduceIte, Option.some.injEq] at h
      subst h
      exact ⟨[], l, rfl, hq, by simp⟩
    · simp only [find_proc, hq, ↓reduceIte] at h
      obtain ⟨l1, l2, e, hp, hf⟩ := ih p h
      refine ⟨q :: l1, l2, by rw [e]; rfl, hp, ?_⟩
      intro x hx
      rcases List.mem_cons.mp hx with e2 | e2
      · subst e2; exact hq
      · exact hf x e2

theorem count_running_append (a b : List proc_info) :
    count_running (a ++ b) = count_running a + count_running b := by
  simp [count_running]

theorem count_running_cons (p : proc_info) (l : List proc_info) :
    count_running (p :: l) =
      (if p.state = process_state.XSSH_PROC_STATE_RUNNING then 1 else 0) + count_running l := by
  unfold count_running
  by_cases h : p.state = process_state.XSSH_PROC_STATE_RUNNING
  · simp [h]; omega
  · simp [h]

theorem count_running_pos {l : List proc_info} {p : proc_info} (hp : p ∈ l)
    (hs : p.state = process_state.XSSH_PROC_STATE_RUNNING) : 0 < count_running l := by
  unfold count_running
  apply List.length_pos_of_mem (a := p)
  simp [hp, hs]

theorem exists_stopped {l : List proc_info} (hne : l ≠ [])
    (hall : ∀ p ∈ l, p.state = process_state.XSSH_PROC_STATE_RUNNING ∨
      p.state = process_state.XSSH_PROC_STATE_STOPPED)
    (hc : count_running l = 0) :
    ∃ p ∈ l, p.state = process_state.XSSH_PROC_STATE_STOPPED := by
  cases l with
  | nil => exact absurd rfl hne
  | cons p l =>
    refine ⟨p, List.mem_cons_self _ _, ?_⟩
    rcases hall p (List.mem_cons_self _ _) with h | h
    · have := count_running_pos (List.mem_cons_self p l) h
      omega
    · exact h

theorem process_stopped_inv (job : job_info) (pid : Int) (last : Bool)
    (h : JobInv job last) : JobInv (process_stopped job pid) last := by
  cases hf : find_proc pid job.proc_info_list with
  | none => unfold process_stopped; rw [hf]; exact h
  | some p =>
    obtain ⟨l1, l2, hl, hp, hfirst⟩ := find_proc_some pid _ p hf
    have hr := set_proc_state_split pid process_state.XSSH_PROC_STATE_STOPPED p l2 hp l1 hfirst
    rcases job with ⟨pgid, lastpid, state, bg, spec, cmd, nprocs, nstopped, nrunning, status, l⟩
    simp only at hl hf
    subst hl
    obtain ⟨h1, h2, h3, h4, h5⟩ := h
    simp only [count_running_append, count_running_cons, List.length_append,
      List.length_cons, ne_eq, List.append_eq_nil, reduceCtorEq, and_false,
      not_false_eq_true, true_implies, false_implies] at h1 h2 h4 h5
    unfold process_stopped
    rw [hf]
    simp only
    rcases h3 p (by simp) with hs | hs
    · simp only [hs, ↓reduceIte, hr]
      simp only [hs, ↓reduceIte] at h1
      have hall : ∀ q ∈ l1 ++ { p with state := process_state.XSSH_PROC_STATE_STOPPED } :: l2,
          q.state = process_state.XSSH_PROC_STATE_RUNNING ∨
            q.state = process_state.XSSH_PROC_STATE_STOPPED := by
        intro q hq
        simp only [List.mem_append, List.mem_cons] at hq
        rcases hq with hq | hq | hq
        · exact h3 q (by simp [hq])
        · subst hq; exact Or.inr rfl
        · exact h3 q (by simp [hq])
      split_ifs with h0
      · refine ⟨?_, ?_, hall, ?_, ?_⟩
        · simp only [count_running_append, count_running_cons, reduceCtorEq, ↓reduceIte]
          push_cast at h1 ⊢; omega
        · simp only [List.length_append, List.length_cons]; exact h2
        · intro _; exact Or.inr ⟨rfl, h0⟩
        · intro e; simp at e
      · refine ⟨?_, ?_, hall, ?_, ?_⟩
        · simp only [count_running_append, count_running_cons, reduceCtorEq, ↓reduceIte]
          push_cast at h1 ⊢; omega
        · simp only [List.length_append, List.length_cons]; exact h2
        · intro _
          rcases h4 with ⟨a, _⟩ | ⟨_, b⟩
          · refine Or.inl ⟨a, ?_⟩
            show nrunning - 1 > 0
            have h0b : ¬ (nrunning - 1 = 0) := h0
            push_cast at h1; omega
          · push_cast at h1; omega
        · intro e; simp at e
    · have hne : ¬ p.state = process_state.XSSH_PROC_STATE_RUNNING := by rw [hs]; decide
      simp only [hne, ↓reduceIte]
      simp only [hne, ↓reduceIte] at h1
      split_ifs with h0
      · refine ⟨?_, ?_, h3, ?_, ?_⟩
        · simp only [count_running_append, count_running_cons, hne, ↓reduceIte]
          exact h1
        · simp only [List.length_append, List.length_cons]; exact h2
        · intro _; exact Or.inr ⟨rfl, h0⟩
        · intro e; simp at e
      · refine ⟨?_, ?_, h3, ?_, ?_⟩
        · simp only [count_running_append, count_running_cons, hne, ↓reduceIte]
          exact h1
        · simp only [List.length_append, List.length_cons]; exact h2
        · intro _; exact h4
        · intro e; simp at e

theorem process_continued_inv (job : job_info) (pid : Int) (last : Bool)
    (h : JobInv job last) : JobInv (process_continued job pid) last := by
  cases hf : find_proc pid job.proc_info_list with
  | none => unfold process_continued; rw [hf]; exact h
  | some p =>
    obtain ⟨l1, l2, hl, hp, hfirst⟩ := find_proc_some pid _ p hf
    have hr := set_proc_state_split pid process_state.XSSH_PROC_STATE_RUNNING p l2 hp l1 hfirst
    rcases job with ⟨pgid, lastpid, state, bg, spec, cmd, nprocs, nstopped, nrunning, status, l⟩
    simp only at hl hf
    subst hl
    obtain ⟨h1, h2, h3, h4, h5⟩ := h
    simp only [count_running_append, count_running_cons, List.length_append,
      List.length_cons, ne_eq, List.append_eq_nil, reduceCtorEq, and_false,
      not_false_eq_true, true_implies, false_implies] at h1 h2 h4 h5
    unfold process_continued
    rw [hf]
    simp only
    rcases h3 p (by simp) with hs | hs
    · have hne : ¬ p.state = process_state.XSSH_PROC_STATE_STOPPED := by rw [hs]; decide
      simp only [hne, ↓reduceIte]
      simp only [hs, ↓reduceIte] at h1
      have hpos : nrunning > 0 := by push_cast at h1; omega
      simp only [hpos, ↓reduceIte]
      refine ⟨?_, ?_, h3, ?_, ?_⟩
      · simp only [count_running_append, count_running_cons, hs, ↓reduceIte]
        exact h1
      · simp only [List.length_append, List.length_cons]; exact h2
      · intro _; exact Or.inl ⟨rfl, hpos⟩
      · intro e; simp at e
    · have hne : ¬ p.state = process_state.XSSH_PROC_STATE_RUNNING := by rw [hs]; decide
      simp only [hs, ↓reduceIte, hr]
      simp only [hne, ↓reduceIte] at h1
      have hpos : nrunning + 1 > 0 := by push_cast at h1; omega
      simp only [hpos, ↓reduceIte]
      have hall : ∀ q ∈ l1 ++ { p with state := process_state.XSSH_PROC_STATE_RUNNING } :: l2,
          q.state = process_state.XSSH_PROC_STATE_RUNNING ∨
            q.state = process_state.XSSH_PROC_STATE_STOPPED := by
        intro q hq
        simp only [List.mem_append, List.mem_cons] at hq
        rcases hq with hq | hq | hq
        · exact h3 q (by simp [hq])
        · subst hq; exact Or.inl rfl
        · exact h3 q (by simp [hq])
      refine ⟨?_, ?_, hall, ?_, ?_⟩
      · simp only [count_running_append, count_running_cons, ↓reduceIte]
        push_cast at h1 ⊢; omega
      · simp only [List.length_append, List.length_cons]; exact h2
      · intro _; exact Or.inl ⟨rfl, hpos⟩
      · intro e; simp at e

/-- the invariant after the removal of a Process, for both `process_terminated` and
`process_killed` -/
theorem reap_inv (pgid lastpid : Int) (state : job_state) (bg : Bool) (spec : Int)
    (cmd : List Char) (nprocs nstopped nrunning status : Int) (l1 l2 : List proc_info)
    (p : proc_info) (last : Bool) (final : job_state) (code ns : Int) (fl : Bool)
    (h : JobInv { pgid := pgid, lastpid := lastpid, state := state, background := bg,
                  job_spec := spec, cmd := cmd, nprocs := nprocs, nstopped := nstopped,
                  nrunning := nrunning, status := status,
                  proc_info_list := l1 ++ p :: l2 } last)
    (hfin : (final = job_state.XSSH_JOB_STATE_KILLED ∧ fl = true) ∨
      (final = job_state.XSSH_JOB_STATE_DONE ∧ fl = false)) :
    JobInv { pgid := pgid, lastpid := lastpid,
             state := if nprocs - 1 = 0 then final
               else if (if p.state = process_state.XSSH_PROC_STATE_RUNNING
                        then nrunning - 1 else nrunning) > 0
                 then job_state.XSSH_JOB_STATE_RUNNING
                 else job_state.XSSH_JOB_STATE_STOPPED,
             background := bg, job_spec := spec, cmd := cmd, nprocs := nprocs - 1,
             nstopped := ns,
             nrunning := if p.state = process_state.XSSH_PROC_STATE_RUNNING
                         then nrunning - 1 else nrunning,
             status := code, proc_info_list := l1 ++ l2 } fl := by
  obtain ⟨h1, h2, h3, h4, h5⟩ := h
  simp only [count_running_append, count_running_cons, List.length_append,
    List.length_cons, ne_eq, List.append_eq_nil, reduceCtorEq, and_false,
    not_false_eq_true, true_implies, false_implies] at h1 h2 h4 h5
  have hall : ∀ q ∈ l1 ++ l2, q.state = process_state.XSSH_PROC_STATE_RUNNING ∨
      q.state = process_state.XSSH_PROC_STATE_STOPPED := by
    intro q hq
    simp only [List.mem_append] at hq
    rcases hq with hq | hq
    · exact h3 q (by simp [hq])
    · exact h3 q (by simp [hq])
  have hc : (if p.state = process_state.XSSH_PROC_STATE_RUNNING then nrunning - 1
      else nrunning) = ((count_running l1 + count_running l2 : Nat) : Int) := by
    split_ifs with hs
    · simp only [hs, ↓reduceIte] at h1; push_cast at h1 ⊢; omega
    · simp only [hs, ↓reduceIte] at h1; push_cast at h1 ⊢; omega
  refine ⟨?_, ?_, hall, ?_, ?_⟩
  · simp only [count_running_append]; exact hc
  · simp only [List.length_append]; push_cast at h2 ⊢; omega
  · intro hne
    have hlen : (l1 ++ l2).length ≠ 0 := fun e => hne (List.length_eq_zero.mp e)
    simp only [List.length_append] at hlen
    have hnp : ¬ (nprocs - 1 = 0) := by push_cast at h2; omega
    simp only [hnp, ↓reduceIte]
    by_cases hpos : (if p.state = process_state.XSSH_PROC_STATE_RUNNING then nrunning - 1
        else nrunning) > 0
    · refine Or.inl ⟨?_, hpos⟩
      show (if (if p.state = process_state.XSSH_PROC_STATE_RUNNING then nrunning - 1
        else nrunning) > 0 then job_state.XSSH_JOB_STATE_RUNNING
        else job_state.XSSH_JOB_STATE_STOPPED) = job_state.XSSH_JOB_STATE_RUNNING
      rw [if_pos hpos]
    · refine Or.inr ⟨?_, ?_⟩
      · show (if (if p.state = process_state.XSSH_PROC_STATE_RUNNING then nrunning - 1
          else nrunning) > 0 then job_state.XSSH_JOB_STATE_RUNNING
          else job_state.XSSH_JOB_STATE_STOPPED) = job_state.XSSH_JOB_STATE_STOPPED
        rw [if_neg hpos]
      · show (if p.state = process_state.XSSH_PROC_STATE_RUNNING then nrunning - 1
          else nrunning) = 0
        rw [hc] at hpos ⊢
        omega
  · intro he
    have he2 : l1 ++ l2 = [] := he
    have hlen : (l1 ++ l2).length = 0 := by rw [he2]; rfl
    simp only [List.length_append] at hlen
    have hnp : nprocs - 1 = 0 := by push_cast at h2; omega
    simp only [hnp, ↓reduceIte]
    exact hfin

theorem process_terminated_inv (job : job_info) (pid code : Int) (last : Bool)
    (h : JobInv job last) :
    JobInv (process_terminated job pid code)
      (if (find_proc pid job.proc_info_list).isSome then false else last) := by
  cases hf : find_proc pid job.proc_info_list with
  | none =>
    unfold process_terminated; rw [hf]
    simpa using h
  | some p =>
    obtain ⟨l1, l2, hl, hp, hfirst⟩ := find_proc_some pid _ p hf
    have hr := remove_proc_split pid p l2 hp l1 hfirst
    rcases job with ⟨pgid, lastpid, state, bg, spec, cmd, nprocs, nstopped, nrunning, status, l⟩
    simp only at hl hf
    subst hl
    have key := reap_inv pgid lastpid state bg spec cmd nprocs nstopped nrunning status l1 l2 p
      last job_state.XSSH_JOB_STATE_DONE code
      (if p.state = process_state.XSSH_PROC_STATE_STOPPED then nstopped - 1 else nstopped)
      false h (Or.inr ⟨rfl, rfl⟩)
    have e : process_terminated
        { pgid := pgid, lastpid := lastpid, state := state, background := bg,
          job_spec := spec, cmd := cmd, nprocs := nprocs, nstopped := nstopped,
          nrunning := nrunning, status := status, proc_info_list := l1 ++ p :: l2 } pid code =
        { pgid := pgid, lastpid := lastpid,
          state := if nprocs - 1 = 0 then job_state.XSSH_JOB_STATE_DONE
            else if (if p.state = process_state.XSSH_PROC_STATE_RUNNING
                     then nrunning - 1 else nrunning) > 0
              then job_state.XSSH_JOB_STATE_RUNNING
              else job_state.XSSH_JOB_STATE_STOPPED,
          background := bg, job_spec := spec, cmd := cmd, nprocs := nprocs - 1,
          nstopped := if p.state = process_state.XSSH_PROC_STATE_STOPPED
                      then nstopped - 1 else nstopped,
          nrunning := if p.state = process_state.XSSH_PROC_STATE_RUNNING
                      then nrunning - 1 else nrunning,
          status := code, proc_info_list := l1 ++ l2 } := by
      unfold process_terminated
      rw [hf]
      simp only
      cases hs : p.state <;> simp only [reduceCtorEq, ↓reduceIte] <;> split_ifs <;>
        simp [hr]
    rw [e]
    simpa using key

theorem process_killed_inv (job : job_info) (pid code : Int) (last : Bool)
    (h : JobInv job last) :
    JobInv (process_killed job pid code)
      (if (find_proc pid job.proc_info_list).isSome then true else last) := by
  cases hf : find_proc pid job.proc_info_list with
  | none =>
    unfold process_killed; rw [hf]
    simpa using h
  | some p =>
    obtain ⟨l1, l2, hl, hp, hfirst⟩ := find_proc_some pid _ p hf
    have hr := remove_proc_split pid p l2 hp l1 hfirst
    rcases job with ⟨pgid, lastpid, state, bg, spec, cmd, nprocs, nstopped, nrunning, status, l⟩
    simp only at hl hf
    subst hl
    have key := reap_inv pgid lastpid state bg spec cmd nprocs nstopped nrunning status l1 l2 p
      last job_state.XSSH_JOB_STATE_KILLED code
      (if p.state = process_state.XSSH_PROC_STATE_STOPPED then nstopped - 1 else nstopped)
      true h (Or.inl ⟨rfl, rfl⟩)
    have e : process_killed
        { pgid := pgid, lastpid := lastpid, state := state, background := bg,
          job_spec := spec, cmd := cmd, nprocs := nprocs, nstopped := nstopped,
          nrunning := nrunning, status := status, proc_info_list := l1 ++ p :: l2 } pid code =
        { pgid := pgid, lastpid := lastpid,
          state := if nprocs - 1 = 0 then job_state.XSSH_JOB_STATE_KILLED
            else if (if p.state = process_state.XSSH_PROC_STATE_RUNNING
                     then nrunning - 1 else nrunning) > 0
              then job_state.XSSH_JOB_STATE_RUNNING
              else job_state.XSSH_JOB_STATE_STOPPED,
          background := bg, job_spec := spec, cmd := cmd, nprocs := nprocs - 1,
          nstopped := if p.state = process_state.XSSH_PROC_STATE_STOPPED
                      then nstopped - 1 else nstopped,
          nrunning := if p.state = process_state.XSSH_PROC_STATE_RUNNING
                      then nrunning - 1 else nrunning,
          status := code, proc_info_list := l1 ++ l2 } := by
      unfold process_killed
      rw [hf]
      simp only
      cases hs : p.state <;> simp only [reduceCtorEq, ↓reduceIte] <;> split_ifs <;>
        simp [hr]
    rw [e]
    simpa using key

theorem apply_event_inv (job : job_info) (e : Event) (last : Bool) (h : JobInv job last) :
    JobInv (apply_event job e) (last_after job e last) := by
  cases e with
  | CLD_EXITED pid status =>
    exact process_terminated_inv job pid status last h
  | CLD_KILLED pid status =>
    exact process_killed_inv job pid status last h
  | CLD_STOPPED pid => exact process_stopped_inv job pid last h
  | CLD_CONTINUED pid => exact process_continued_inv job pid last h

theorem last_removed_killed_cons (job : job_info) (e : Event) (es : List Event)
    (last : Bool) :
    last_removed_killed job (e :: es) last =
      last_removed_killed (apply_event job e) es (last_after job e last) := by
  cases e <;> rfl

theorem run_events_inv : ∀ (es : List Event) (job : job_info) (last : Bool),
    JobInv job last → JobInv (run_events job es) (last_removed_killed job es last) := by
  intro es
  induction es with
  | nil => intro job last h; exact h
  | cons e es ih =>
    intro job last h
    rw [last_removed_killed_cons]
    exact ih _ _ (apply_event_inv job e last h)

/-- Claim C20: let a Job of `n >= 1` Processes be launched successfully (every Process
Running, `nrunning = nprocs = n`, state Running). After every finite sequence of events
Exited, Killed, Stopped, Continued handled by `process_terminated`, `process_killed`,
`process_stopped`, `process_continued` (so after each event of such a sequence), the state
of the Job is Running iff `nrunning > 0`, it is Stopped iff `nrunning = 0` and a Process
that remains is Stopped, and it is Killed iff no Process remains and the Process removed
last was killed by a signal. -/
theorem job_state_invariant (job : job_info) (es : List Event)
    (hn : job.proc_info_list ≠ [])
    (hall : ∀ p ∈ job.proc_info_list, p.state = process_state.XSSH_PROC_STATE_RUNNING)
    (hnr : job.nrunning = (job.proc_info_list.length : Int))
    (hnp : job.nprocs = (job.proc_info_list.length : Int))
    (hst : job.state = job_state.XSSH_JOB_STATE_RUNNING) :
    ((run_events job es).state = job_state.XSSH_JOB_STATE_RUNNING ↔
      (run_events job es).nrunning > 0) ∧
    ((run_events job es).state = job_state.XSSH_JOB_STATE_STOPPED ↔
      ((run_events job es).nrunning = 0 ∧
        ∃ p ∈ (run_events job es).proc_info_list,
          p.state = process_state.XSSH_PROC_STATE_STOPPED)) ∧
    ((run_events job es).state = job_state.XSSH_JOB_STATE_KILLED ↔
      ((run_events job es).proc_info_list = [] ∧
        last_removed_killed job es false = true)) := by
  have hcount : count_running job.proc_info_list = job.proc_info_list.length := by
    unfold count_running
    rw [List.filter_eq_self.mpr]
    intro p hp
    simp [hall p hp]
  have hlen : 0 < job.proc_info_list.length := List.length_pos.mpr hn
  have h0 : JobInv job false := by
    refine ⟨by rw [hnr, hcount], hnp, fun p hp => Or.inl (hall p hp), ?_, ?_⟩
    · intro _; exact Or.inl ⟨hst, by rw [hnr]; exact_mod_cast hlen⟩
    · intro e; exact absurd e hn
  obtain ⟨h1, h2, h3, h4, h5⟩ := run_events_inv es job false h0
  generalize run_events job es = j at h1 h2 h3 h4 h5 ⊢
  generalize last_removed_killed job es false = last at h5 ⊢
  by_cases he : j.proc_info_list = []
  · have hz : j.nrunning = 0 := by rw [h1, he]; rfl
    rcases h5 he with ⟨a, b⟩ | ⟨a, b⟩
    · rw [a, hz, he, b]; simp
    · rw [a, hz, he, b]; simp
  · have hc0 : j.nrunning = 0 → ∃ p ∈ j.proc_info_list,
        p.state = process_state.XSSH_PROC_STATE_STOPPED := by
      intro hz
      apply exists_stopped he h3
      rw [hz] at h1
      exact_mod_cast h1.symm
    rcases h4 he with ⟨a, b⟩ | ⟨a, b⟩
    · rw [a]
      refine ⟨by simp [b], ?_, by simp [he]⟩
      constructor
      · intro x; cases x
      · intro x; omega
    · rw [a, b]
      refine ⟨by simp, ?_, by simp [he]⟩
      simp only [true_and, true_iff]
      exact hc0 b

theorem job_state_invariant_witness :
    (run_events
        (sample_job [sample_proc 5 process_state.XSSH_PROC_STATE_RUNNING,
                 sample_proc 7 process_state.XSSH_PROC_STATE_RUNNING] 2 0
      job_state.XSSH_JOB_STATE_RUNNING)
        [Event.CLD_STOPPED 5, Event.CLD_EXITED 7 0, Event.CLD_KILLED 5 9]).state = job_state.XSSH_JOB_STATE_KILLED ↔
      ((run_events
          (sample_job [sample_proc 5 process_state.XSSH_PROC_STATE_RUNNING,
                 sample_proc 7 process_state.XSSH_PROC_STATE_RUNNING] 2 0
      job_state.XSSH_JOB_STATE_RUNNING)
          [Event.CLD_STOPPED 5, Event.CLD_EXITED 7 0, Event.CLD_KILLED 5 9]).proc_info_list = [] ∧
        last_removed_killed
          (sample_job [sample_proc 5 process_state.XSSH_PROC_STATE_RUNNING,
                 sample_proc 7 process_state.XSSH_PROC_STATE_RUNNING] 2 0
      job_state.XSSH_JOB_STATE_RUNNING)
          [Event.CLD_STOPPED 5, Event.CLD_EXITED 7 0, Event.CLD_KILLED 5 9] false = true) :=
  (job_state_invariant
    (sample_job [sample_proc 5 process_state.XSSH_PROC_STATE_RUNNING,
                 sample_proc 7 process_state.XSSH_PROC_STATE_RUNNING] 2 0
      job_state.XSSH_JOB_STATE_RUNNING)
    [Event.CLD_STOPPED 5, Event.CLD_EXITED 7 0, Event.CLD_KILLED 5 9]
    (by decide) (by decide) (by decide) (by decide) (by decide)).2.2

/-! ## More on `create_job` -/

theorem create_job_of_none {buffer : List Char}
    (h : job_loop none (segments buffer) = none) : create_job buffer = Outcome.ret none := by
  unfold segments at h
  unfold create_job
  simp only [h]

theorem create_job_of_fault {buffer : List Char}
    (h : job_loop none (segments buffer) = some none) : create_job buffer = Outcome.fault := by
  unfold segments at h
  unfold create_job
  simp only [h]

theorem create_job_of_some {buffer : List Char} {job : job_info}
    (h : job_loop none (segments buffer) = some (some job)) :
    create_job buffer =
      Outcome.ret (some { job with
        cmd := (if job.background then (rtrim (ltrim (cstr buffer))).dropLast
                else rtrim (ltrim (cstr buffer))) }) := by
  unfold segments at h
  unfold create_job
  simp only [h]

/-- once a Job is allocated, the loop does not end with `job == NULL` -/
theorem job_loop_some_ne : ∀ (toks : List (List Char)) (j : job_info),
    job_loop (some j) toks ≠ some none := by
  intro toks
  induction toks with
  | nil => intro j h; simp [job_loop] at h
  | cons t more ih =>
    intro j
    rw [job_loop]
    cases create_proc t with
    | none => simp
    | some p =>
      simp only
      by_cases hc : (p.background && !more.isEmpty) = true
      · rw [if_pos hc]; simp
      · rw [if_neg hc]; exact ih _

theorem job_loop_cons_ne (t : List Char) (more : List (List Char)) (j : Option job_info) :
    job_loop j (t :: more) ≠ some none := by
  rw [job_loop]
  cases create_proc t with
  | none => simp
  | some p =>
    simp only
    by_cases hc : (p.background && !more.isEmpty) = true
    · rw [if_pos hc]; simp
    · rw [if_neg hc]; exact job_loop_some_ne _ _

/-- a segment that does not parse makes the loop fail -/
theorem job_loop_parse_fail : ∀ (toks : List (List Char)) (j : Option job_info)
    (tok : List Char), tok ∈ toks → create_proc tok = none → job_loop j toks = none := by
  intro toks
  induction toks with
  | nil => intro j tok h; simp at h
  | cons t more ih =>
    intro j tok hmem hfail
    rw [job_loop]
    cases hp : create_proc t with
    | none => rfl
    | some p =>
      simp only
      rcases List.mem_cons.mp hmem with e | e
      · subst e; rw [hfail] at hp; cases hp
      · by_cases hc : (p.background && !more.isEmpty) = true
        · rw [if_pos hc]
        · rw [if_neg hc]; exact ih _ tok e hfail

/-- a segment with the background flag that is not the last one makes the loop fail -/
theorem job_loop_bg_fail : ∀ (pre : List (List Char)) (j : Option job_info)
    (tok : List Char) (post : List (List Char)) (p : proc_info), post ≠ [] →
    create_proc tok = some p → p.background = true →
    job_loop j (pre ++ tok :: post) = none := by
  intro pre
  induction pre with
  | nil =>
    intro j tok post p hpost hp hb
    rw [List.nil_append, job_loop, hp]
    cases post with
    | nil => exact absurd rfl hpost
    | cons a b => simp [hb]
  | cons t more ih =>
    intro j tok post p hpost hp hb
    rw [List.cons_append, job_loop]
    cases create_proc t with
    | none => rfl
    | some q =>
      simp only
      by_cases hc : (q.background && !(more ++ tok :: post).isEmpty) = true
      · rw [if_pos hc]
      · rw [if_neg hc]; exact ih _ tok post p hpost hp hb

/-- the Processes of a Job that the loop returns are those of the segments -/
theorem job_loop_some : ∀ (toks : List (List Char)) (j : Option job_info) (job : job_info),
    toks ≠ [] → job_loop j toks = some (some job) →
    ∃ procs : List proc_info, toks.map create_proc = procs.map some ∧
      (∀ p ∈ procs.dropLast, p.background = false) := by
  intro toks
  induction toks with
  | nil => intro j job h; exact absurd rfl h
  | cons t more ih =>
    intro j job _ h
    rw [job_loop] at h
    cases hp : create_proc t with
    | none => rw [hp] at h; cases h
    | some p =>
      rw [hp] at h
      simp only at h
      by_cases hm : more = []
      · subst hm
        exact ⟨[p], by simp [hp], by simp⟩
      · have hne : more.isEmpty = false := by
          cases more with
          | nil => exact absurd rfl hm
          | cons a b => rfl
        simp only [hne, Bool.not_false, Bool.and_true] at h
        by_cases hb : p.background = true
        · simp [hb] at h
        · simp only [hb, Bool.false_eq_true, ↓reduceIte] at h
          obtain ⟨procs, h1, h2⟩ := ih _ job hm h
          refine ⟨p :: procs, by simp [hp, h1], ?_⟩
          intro q hq
          cases procs with
          | nil =>
            simp only [List.map_nil, List.map_eq_nil_iff] at h1
            exact absurd h1 hm
          | cons a b =>
            simp only [List.dropLast_cons₂, List.mem_cons] at hq
            rcases hq with e | e
            · subst e; simpa using hb
            · exact h2 q e

/-- Claim C14: if `create_proc` fails on any pipeline segment of a command line (the first
one, a middle one or the last one), `create_job` returns no Job, however many segments
before it were parsed. -/
theorem create_job_no_partial (buffer tok : List Char) (hmem : tok ∈ segments buffer)
    (hfail : create_proc tok = none) : create_job buffer = Outcome.ret none := by
  exact create_job_of_none (job_loop_parse_fail _ none tok hmem hfail)

theorem create_job_no_partial_witness :
    create_job "ls | cat > | wc".toList = Outcome.ret none :=
  create_job_no_partial "ls | cat > | wc".toList " cat > ".toList (by decide) (by decide)

/-- Claim C12: if a Process other than the last one of the pipeline carries the background
flag, `create_job` returns no Job; and the background flag of every Job that `create_job`
returns equals the background flag of its last Process. -/
theorem create_job_background (buffer : List Char) :
    (∀ pre tok post p, segments buffer = pre ++ tok :: post → post ≠ [] →
      create_proc tok = some p → p.background = true →
      create_job buffer = Outcome.ret none) ∧
    (∀ job, create_job buffer = Outcome.ret (some job) →
      ∃ p, job.proc_info_list.getLast? = some p ∧ job.background = p.background) := by
  constructor
  · intro pre tok post p hs hpost hp hb
    apply create_job_of_none
    rw [hs]
    exact job_loop_bg_fail pre none tok post p hpost hp hb
  · intro job h
    cases hl : job_loop none (segments buffer) with
    | none => rw [create_job_of_none hl] at h; cases h
    | some x =>
      cases x with
      | none => rw [create_job_of_fault hl] at h; cases h
      | some j0 =>
        rw [create_job_of_some hl] at h
        simp only [Outcome.ret.injEq, Option.some.injEq] at h
        have hne : segments buffer ≠ [] := by
          intro e; rw [e] at hl; simp [job_loop] at hl
        obtain ⟨procs, h1, h2⟩ := job_loop_some _ none j0 hne hl
        obtain ⟨j1, e1, e2, _, e4⟩ := job_loop_ok _ none procs hne h1 h2
        rw [hl] at e1
        simp only [Option.some.injEq] at e1
        subst e1
        have hpn : procs ≠ [] := by
          intro e; subst e
          simp only [List.map_nil, List.map_eq_nil_iff] at h1
          exact hne h1
        obtain ⟨init, lst, e⟩ := (List.eq_nil_or_concat procs).resolve_left hpn
        subst e
        simp only [List.concat_eq_append] at h2 e2 e4
        rw [List.dropLast_concat] at h2
        refine ⟨lst, ?_, ?_⟩
        · rw [← h]
          simp only [e2, Option.getD_none, job_info.zero, List.nil_append]
          simp
        · rw [← h]
          simp only [e4, Option.getD_none, job_info.zero, Bool.false_or]
          rw [List.any_append]
          have : (init.any fun p => p.background) = false := by
            rw [List.any_eq_false]
            intro q hq
            simp [h2 q hq]
          rw [this]
          simp

theorem create_job_background_witness :
    create_job "a & | b".toList = Outcome.ret none :=
  (create_job_background "a & | b".toList).1 [] "a & ".toList [" b".toList]
    ({ pgid := 0, pid := 0, args := ["a".toList, "a".toList], nargs := 2,
       state := process_state.XSSH_PROC_STATE_STOPPED, background := true,
       redirect_info_list := [] } : proc_info)
    (by decide) (by decide) (by decide) (by decide)

/-! ## The background flag -/

theorem end_token_frame {st s : ParseState} (h : end_token st = some s) :
    s.background = st.background ∧ s.endcmdbuffer = st.endcmdbuffer ∧ s.nargs = st.nargs := by
  rcases st with ⟨token, tok, cur, rinfo, bg, rl, ecb, na⟩
  unfold end_token at h
  cases rinfo with
  | none =>
    simp only at h
    split_ifs at h <;>
      (simp only [Option.some.injEq] at h; subst h; exact ⟨rfl, rfl, rfl⟩)
  | some r =>
    simp only at h
    by_cases hw : (if token = true then tok else cur).length ≠ 0
    · rw [if_pos hw] at h
      cases hs : set_target r (if token = true then tok else cur) with
      | none => rw [hs] at h; cases h
      | some x =>
        rw [hs] at h
        simp only at h
        split_ifs at h
        simp only [Option.some.injEq] at h
        subst h
        exact ⟨rfl, rfl, rfl⟩
    · rw [if_neg hw] at h
      simp only at h
      split_ifs at h
      all_goals
        simp only [Option.some.injEq] at h
        subst h
        exact ⟨rfl, rfl, rfl⟩

theorem dispatch_background {s t : ParseState} {c n : Char} {b : Bool}
    (h : dispatch s c n = some (t, b)) :
    t.background = (s.background || decide (c = '&')) := by
  unfold dispatch at h
  simp only at h
  by_cases hc : isredir c = true
  · have hne : c ≠ '&' := by
      intro e; subst e; exact absurd hc (by decide)
    rw [if_pos hc] at h
    split_ifs at h with h1
    all_goals
      simp only [Option.some.injEq, Prod.mk.injEq] at h
      rw [← h.1, push_arg_background]
      simp [hne]
  · rw [if_neg hc] at h
    by_cases ha : isampersand c = true
    · have he : c = '&' := by simpa [isampersand] using ha
      rw [if_pos ha] at h
      split_ifs at h
      simp only [Option.some.injEq, Prod.mk.injEq] at h
      rw [← h.1, push_arg_background]
      simp [he]
    · have hne : c ≠ '&' := by
        intro e; subst e; exact ha (by decide)
      rw [if_neg ha] at h
      split_ifs at h
      all_goals
        simp only [Option.some.injEq, Prod.mk.injEq] at h
        rw [← h.1, push_arg_background]
        simp [hne]

theorem step_background {st t : ParseState} {c n : Char} {b : Bool}
    (h : step st c n = some (t, b)) :
    t.background = (st.background || decide (c = '&')) := by
  rw [step_eq] at h
  cases he : end_token st with
  | none => rw [he] at h; cases h
  | some s =>
    rw [he, Option.some_bind] at h
    rw [dispatch_background h, (end_token_frame he).1]

theorem scan_background_mono {text : List Char} {st t : ParseState}
    (hb : st.background = true) (h : scan st text = some t) : t.background = true := by
  refine scan_invariant (fun s => s.background = true) ?_ ?_ hb h
  · intro s c hs _; exact hs
  · intro s c n s2 b hs hstep
    rw [step_background hstep, hs]
    rfl

/-- a `&` that is not part of a redirection operator sets the background flag -/
theorem scan_amp_background (k : Nat) : ∀ (rest : List Char) (st t : ParseState),
    rest.length ≤ k → (∀ c ∈ rest, c ≠ NUL) → Lexeme.amp ∈ lexemes rest →
    scan st rest = some t → t.background = true := by
  induction k with
  | zero =>
    intro rest st t hlen _ h _
    have : rest = [] := List.length_eq_zero.mp (Nat.le_zero.mp hlen)
    subst this
    simp [lexemes] at h
  | succ k ih =>
    intro rest st t hlen hnul h hs
    cases rest with
    | nil => simp [lexemes] at h
    | cons c rest1 =>
      have hnul2 : ∀ x ∈ rest1, x ≠ NUL := fun x hx => hnul x (List.mem_cons_of_mem _ hx)
      have hlen1 : rest1.length ≤ k := by simpa using hlen
      by_cases hc : isvalidtokenchar c = true
      · rw [scan_cons_tok _ _ hc] at hs
        have f := tokchar_facts hc
        rw [lexemes_plain f.1] at h
        have hamp : c ≠ '&' := by
          intro e2; subst e2; exact absurd f.2.1 (by decide)
        simp only [hamp, f.2.2.1, ↓reduceIte, Bool.false_eq_true, List.mem_cons,
          reduceCtorEq, false_or] at h
        exact ih rest1 _ t hlen1 hnul2 h hs
      · simp only [Bool.not_eq_true] at hc
        cases hst : step st c (rest1.headD NUL) with
        | none => rw [scan_sep_none hc hst] at hs; cases hs
        | some r =>
          rcases r with ⟨s1, b⟩
          rcases not_token_cases hc with h1 | h1 | h1 | h1
          · obtain ⟨fd, hb⟩ := step_flag hst h1
            obtain ⟨o, hl⟩ := lexemes_redir h1 fd rest1
            rcases hl with ⟨hb2, hl⟩ | ⟨d, r2, hr, hb2, hl⟩
            · rw [hb2] at hb
              subst hb
              rw [scan_sep_next hc hst] at hs
              rw [hl] at h
              simp only [List.mem_cons, reduceCtorEq, false_or] at h
              exact ih rest1 _ t hlen1 hnul2 h hs
            · rw [hb2] at hb
              subst hb
              subst hr
              simp only [List.headD_cons] at hst
              rw [scan_sep_skip hc hst] at hs
              rw [hl] at h
              simp only [List.mem_cons, reduceCtorEq, false_or] at h
              refine ih r2 _ t ?_ (fun x hx => hnul2 x (List.mem_cons_of_mem _ hx)) h hs
              simp only [List.length_cons] at hlen1; omega
          · subst h1
            obtain ⟨a1, _, _, a4⟩ := step_amp hst
            subst a4
            rw [scan_sep_next hc hst] at hs
            exact scan_background_mono a1 hs
          · have f := space_facts h1
            have hb : b = false := @step_no_skip st c NUL (by decide) (by decide) (s1, b) (by
                rw [← hst]; exact step_plain2 st _ _ f.2.1)
            subst hb
            rw [scan_sep_next hc hst] at hs
            have hamp : c ≠ '&' := by
              intro e2; subst e2; exact absurd h1 (by decide)
            rw [lexemes_plain f.2.1] at h
            simp only [hamp, h1, ↓reduceIte, List.mem_cons, reduceCtorEq, false_or] at h
            exact ih rest1 _ t hlen1 hnul2 h hs
          · exact absurd h1 (hnul c (List.mem_cons_self _ _))

theorem create_proc_amp_background {text : List Char} {p : proc_info}
    (h : create_proc text = some p) (hamp : Lexeme.amp ∈ lexemes (cstr text)) :
    p.background = true := by
  unfold create_proc at h
  cases hs : scan ParseState.init (cstr text) with
  | none => rw [hs] at h; cases h
  | some t =>
    rw [hs] at h
    simp only [Option.map_some', Option.some.injEq] at h
    rw [← h]
    exact scan_amp_background _ _ _ t le_rfl (cstr_not_nul text) hamp hs

/-- Claim C11 (amended): if a background `&` (one that is not part of a redirection
operator) stands in a pipeline segment of the command line that is followed by a further
segment, that is, by `|` and at least one more character other than `|`, `create_job`
fails and returns no Job. -/
theorem create_job_amp_then_pipe (buffer : List Char) (pre : List (List Char))
    (tok : List Char) (post : List (List Char))
    (h : segments buffer = pre ++ tok :: post) (hpost : post ≠ [])
    (hamp : Lexeme.amp ∈ lexemes (cstr tok)) : create_job buffer = Outcome.ret none := by
  cases hp : create_proc tok with
  | none =>
    exact create_job_of_none (job_loop_parse_fail _ none tok (by rw [h]; simp) hp)
  | some p =>
    apply create_job_of_none
    rw [h]
    exact job_loop_bg_fail pre none tok post p hpost hp (create_proc_amp_background hp hamp)

theorem create_job_amp_then_pipe_witness :
    create_job "ls & | wc -l".toList = Outcome.ret none :=
  create_job_amp_then_pipe "ls & | wc -l".toList [] "ls & ".toList [" wc -l".toList]
    (by decide) (by decide) (by decide)

/-- Claim C11 as stated fails when nothing but `|` follows the `&`: the line `a & |` is
accepted as a background Job of the one Process `a`. -/
theorem create_job_amp_then_pipe_counterexample :
    create_job "a & |".toList =
      Outcome.ret (some { pgid := 0, lastpid := 0, state := job_state.XSSH_JOB_STATE_STOPPED,
                          background := true, job_spec := 0, cmd := "a & ".toList,
                          nprocs := 1, nstopped := 0, nrunning := 0, status := 0,
                          proc_info_list :=
                            [{ pgid := 0, pid := 0, args := ["a".toList, "a".toList],
                               nargs := 2,
                               state := process_state.XSSH_PROC_STATE_STOPPED,
                               background := true, redirect_info_list := [] }] }) := by
  decide!

/-! ## A redirection operator without target -/

theorem step_idle_pending {st : ParseState} (hi : st.Idle) (hr : st.rinfo.isSome = true)
    {c : Char} (hc : isredir c = true ∨ c = '&' ∨ c = NUL) (n : Char) :
    step st c n = none := by
  rw [step_eq, end_token_idle hi, Option.some_bind]
  unfold dispatch
  rcases hc with h | h | h
  · simp [h, hr]
  · subst h
    have h1 : isredir '&' = false := by decide
    have h2 : isampersand '&' = true := by decide
    simp [h1, h2, hr]
  · subst h
    have h1 : isredir NUL = false := by decide
    have h2 : isampersand NUL = false := by decide
    simp [h1, h2, hr]

theorem step_redir_pending {st t : ParseState} {c n : Char} {b : Bool}
    (h : step st c n = some (t, b)) (hc : isredir c = true) : t.rinfo.isSome = true := by
  rw [step_eq] at h
  cases he : end_token st with
  | none => rw [he] at h; cases h
  | some s =>
    rw [he, Option.some_bind] at h
    rcases (dispatch_cases h).2 with ⟨_, _, fd, e, _⟩ | ⟨e, _⟩
    · rw [e]; rfl
    · rw [hc] at e; cases e

/-- while a redirection waits for its target, the end of the text, an operator or a `&`
makes the loop fail -/
theorem scan_pending : ∀ (rest : List Char) (st : ParseState), st.Idle →
    st.rinfo.isSome = true → (∀ c ∈ rest, c ≠ NUL) → no_target (lexemes rest) = true →
    scan st rest = none := by
  intro rest
  induction rest with
  | nil =>
    intro st hi hr _ _
    rw [scan_nil, step_idle_pending hi hr (Or.inr (Or.inr rfl))]
    rfl
  | cons c rest ih =>
    intro st hi hr hnul h
    have hnul2 : ∀ x ∈ rest, x ≠ NUL := fun x hx => hnul x (List.mem_cons_of_mem _ hx)
    by_cases hc : isvalidtokenchar c = true
    · have f := tokchar_facts hc
      have hamp : c ≠ '&' := by
        intro e2; subst e2; exact absurd f.2.1 (by decide)
      rw [lexemes_plain f.1] at h
      simp [hamp, f.2.2.1, no_target] at h
    · simp only [Bool.not_eq_true] at hc
      rcases not_token_cases hc with h1 | h1 | h1 | h1
      · exact scan_sep_none hc (step_idle_pending hi hr (Or.inl h1) _)
      · exact scan_sep_none hc (step_idle_pending hi hr (Or.inr (Or.inl h1)) _)
      · rw [scan_sep_next hc (step_idle_space hi h1 _)]
        apply ih st hi hr hnul2
        have hamp : c ≠ '&' := by
          intro e2; subst e2; exact absurd h1 (by decide)
        rw [lexemes_plain (space_facts h1).2.1] at h
        simpa [hamp, h1, no_target] using h
      · exact absurd h1 (hnul c (List.mem_cons_self _ _))

/-- A redirection operator that no target follows makes the loop fail, in every state. -/
theorem scan_op_no_target (k : Nat) : ∀ (rest : List Char) (st : ParseState),
    rest.length ≤ k → (∀ c ∈ rest, c ≠ NUL) →
    (∃ l1 o l2, lexemes rest = l1 ++ Lexeme.op o :: l2 ∧ no_target l2 = true) →
    scan st rest = none := by
  induction k with
  | zero =>
    intro rest st hlen _ h
    have : rest = [] := List.length_eq_zero.mp (Nat.le_zero.mp hlen)
    subst this
    obtain ⟨l1, o, l2, e, _⟩ := h
    simp [lexemes] at e
  | succ k ih =>
    intro rest st hlen hnul h
    cases rest with
    | nil =>
      obtain ⟨l1, o, l2, e, _⟩ := h
      simp [lexemes] at e
    | cons c rest1 =>
      have hnul2 : ∀ x ∈ rest1, x ≠ NUL := fun x hx => hnul x (List.mem_cons_of_mem _ hx)
      have hlen1 : rest1.length ≤ k := by simpa using hlen
      obtain ⟨l1, o, l2, e, hw⟩ := h
      -- a first lexical item that is not an operator belongs to `l1`
      have peel : ∀ (x : Lexeme) (tl : List Lexeme), (∀ o2, x ≠ Lexeme.op o2) →
          x :: tl = l1 ++ Lexeme.op o :: l2 →
          ∃ l1b, tl = l1b ++ Lexeme.op o :: l2 := by
        intro x tl hx e2
        cases l1 with
        | nil =>
          simp only [List.nil_append, List.cons.injEq] at e2
          exact absurd e2.1 (hx o)
        | cons y l1b =>
          simp only [List.cons_append, List.cons.injEq] at e2
          exact ⟨l1b, e2.2⟩
      by_cases hc : isvalidtokenchar c = true
      · rw [scan_cons_tok _ _ hc]
        have f := tokchar_facts hc
        rw [lexemes_plain f.1] at e
        have hamp : c ≠ '&' := by
          intro e2; subst e2; exact absurd f.2.1 (by decide)
        simp only [hamp, f.2.2.1, ↓reduceIte, Bool.false_eq_true] at e
        obtain ⟨l1b, e3⟩ := peel _ _ (by simp) e
        exact ih rest1 _ hlen1 hnul2 ⟨l1b, o, l2, e3, hw⟩
      · simp only [Bool.not_eq_true] at hc
        cases hs : step st c (rest1.headD NUL) with
        | none => exact scan_sep_none hc hs
        | some r =>
          rcases r with ⟨s1, b⟩
          have hid := step_idle hs
          rcases not_token_cases hc with h1 | h1 | h1 | h1
          · -- a redirection operator
            have hpend := step_redir_pending hs h1
            obtain ⟨fd, hb⟩ := step_flag hs h1
            obtain ⟨o2, hl⟩ := lexemes_redir h1 fd rest1
            rcases hl with ⟨hb2, hl⟩ | ⟨d, r2, hr, hb2, hl⟩
            · rw [hb2] at hb
              subst hb
              rw [scan_sep_next hc hs]
              rw [hl] at e
              cases l1 with
              | nil =>
                simp only [List.nil_append, List.cons.injEq] at e
                rw [← e.2] at hw
                exact scan_pending rest1 s1 hid hpend hnul2 hw
              | cons y l1b =>
                simp only [List.cons_append, List.cons.injEq] at e
                exact ih rest1 _ hlen1 hnul2 ⟨l1b, o, l2, e.2, hw⟩
            · rw [hb2] at hb
              subst hb
              subst hr
              simp only [List.headD_cons] at hs
              rw [scan_sep_skip hc hs]
              rw [hl] at e
              have hnul3 : ∀ x ∈ r2, x ≠ NUL := fun x hx => hnul2 x (List.mem_cons_of_mem _ hx)
              cases l1 with
              | nil =>
                simp only [List.nil_append, List.cons.injEq] at e
                rw [← e.2] at hw
                exact scan_pending r2 s1 hid hpend hnul3 hw
              | cons y l1b =>
                simp only [List.cons_append, List.cons.injEq] at e
                refine ih r2 _ ?_ hnul3 ⟨l1b, o, l2, e.2, hw⟩
                simp only [List.length_cons] at hlen1; omega
          · -- the character `&`
            subst h1
            obtain ⟨_, _, _, a4⟩ := step_amp hs
            subst a4
            rw [scan_sep_next hc hs]
            rw [lexemes_plain (by decide)] at e
            simp only [↓reduceIte] at e
            obtain ⟨l1b, e3⟩ := peel _ _ (by simp) e
            exact ih rest1 _ hlen1 hnul2 ⟨l1b, o, l2, e3, hw⟩
          · -- a blank
            have f := space_facts h1
            have hb : b = false := @step_no_skip st c NUL (by decide) (by decide) (s1, b) (by
                rw [← hs]; exact step_plain2 st _ _ f.2.1)
            subst hb
            rw [scan_sep_next hc hs]
            have hamp : c ≠ '&' := by
              intro e2; subst e2; exact absurd h1 (by decide)
            rw [lexemes_plain f.2.1] at e
            simp only [hamp, h1, ↓reduceIte] at e
            obtain ⟨l1b, e3⟩ := peel _ _ (by simp) e
            exact ih rest1 _ hlen1 hnul2 ⟨l1b, o, l2, e3, hw⟩
          · exact absurd h1 (hnul c (List.mem_cons_self _ _))

/-- Claim C13: for every process text in which a redirection operator is not followed by a
target word before the next operator, a `&` or the end of the text (only blanks stand in
between), `create_proc` fails and returns no Process. -/
theorem create_proc_no_target (text : List Char) (l1 l2 : List Lexeme) (o : RedirOp)
    (h : lexemes (cstr text) = l1 ++ Lexeme.op o :: l2)
    (hw : no_target l2 = true) : create_proc text = none := by
  rw [create_proc,
    scan_op_no_target _ (cstr text) ParseState.init le_rfl (cstr_not_nul text)
      ⟨l1, o, l2, h, hw⟩]
  rfl

theorem create_proc_no_target_witness :
    create_proc "cmd >".toList = none ∧ create_proc "cmd > > f".toList = none ∧
      create_proc "cmd < &".toList = none ∧ create_proc "cmd >>> f".toList = none :=
  ⟨create_proc_no_target "cmd >".toList
      [Lexeme.wordchar 'c', Lexeme.wordchar 'm', Lexeme.wordchar 'd', Lexeme.blank] []
      RedirOp.trunc (by decide) (by decide),
   create_proc_no_target "cmd > > f".toList
      [Lexeme.wordchar 'c', Lexeme.wordchar 'm', Lexeme.wordchar 'd', Lexeme.blank]
      [Lexeme.blank, Lexeme.op RedirOp.trunc, Lexeme.blank, Lexeme.wordchar 'f']
      RedirOp.trunc (by decide) (by decide),
   create_proc_no_target "cmd < &".toList
      [Lexeme.wordchar 'c', Lexeme.wordchar 'm', Lexeme.wordchar 'd', Lexeme.blank]
      [Lexeme.blank, Lexeme.amp]
      RedirOp.read (by decide) (by decide),
   create_proc_no_target "cmd >>> f".toList
      [Lexeme.wordchar 'c', Lexeme.wordchar 'm', Lexeme.wordchar 'd', Lexeme.blank]
      [Lexeme.op RedirOp.trunc, Lexeme.blank, Lexeme.wordchar 'f']
      RedirOp.append (by decide) (by decide)⟩

/-! ## Segments without a word -/

theorem strtok_go_tokens (d : Char) : ∀ (s acc : List Char), d ∉ acc →
    ∀ t ∈ strtok_go d s acc, t ≠ [] ∧ d ∉ t := by
  intro s
  induction s with
  | nil =>
    intro acc hacc t ht
    unfold strtok_go at ht
    by_cases he : acc.isEmpty = true
    · simp [he] at ht
    · simp only [he, Bool.false_eq_true, ↓reduceIte, List.mem_singleton] at ht
      subst ht
      exact ⟨fun e => he (by rw [e]; rfl), hacc⟩
  | cons c cs ih =>
    intro acc hacc t ht
    unfold strtok_go at ht
    by_cases hc : c = d
    · simp only [hc, ↓reduceIte] at ht
      by_cases he : acc.isEmpty = true
      · simp only [he, ↓reduceIte] at ht
        exact ih [] (by simp) t ht
      · simp only [he, Bool.false_eq_true, ↓reduceIte, List.mem_cons] at ht
        rcases ht with e | e
        · subst e
          exact ⟨fun e => he (by rw [e]; rfl), hacc⟩
        · exact ih [] (by simp) t e
    · simp only [hc, ↓reduceIte] at ht
      refine ih (acc ++ [c]) ?_ t ht
      simp only [List.mem_append, List.mem_singleton, not_or]
      exact ⟨hacc, fun e => hc e.symm⟩

theorem segments_tokens (buffer : List Char) :
    ∀ t ∈ segments buffer, t ≠ [] ∧ '|' ∉ t :=
  strtok_go_tokens '|' _ [] (by simp)

theorem forall₂_of_map {P : List Char → Prop} : ∀ (toks : List (List Char))
    (procs : List proc_info), toks.map create_proc = procs.map some → (∀ t ∈ toks, P t) →
    List.Forall₂ (fun tok p => P tok ∧ create_proc tok = some p) toks procs := by
  intro toks
  induction toks with
  | nil =>
    intro procs h _
    cases procs with
    | nil => exact List.Forall₂.nil
    | cons p ps => simp at h
  | cons t more ih =>
    intro procs h hP
    cases procs with
    | nil => simp at h
    | cons p ps =>
      simp only [List.map_cons, List.cons.injEq] at h
      exact List.Forall₂.cons ⟨hP t (List.mem_cons_self _ _), h.1⟩
        (ih ps h.2 (fun x hx => hP x (List.mem_cons_of_mem _ hx)))

/-- the Processes of a Job that `create_job` returns are those of the segments -/
theorem create_job_procs {buffer : List Char} {job : job_info}
    (h : create_job buffer = Outcome.ret (some job)) :
    segments buffer ≠ [] ∧
    ∃ j0, job_loop none (segments buffer) = some (some j0) ∧
      job = { j0 with
        cmd := (if j0.background then (rtrim (ltrim (cstr buffer))).dropLast
                else rtrim (ltrim (cstr buffer))) } ∧
      (segments buffer).map create_proc = j0.proc_info_list.map some ∧
      (∀ p ∈ j0.proc_info_list.dropLast, p.background = false) ∧
      j0.background = j0.proc_info_list.any (fun p => p.background) := by
  cases hl : job_loop none (segments buffer) with
  | none => rw [create_job_of_none hl] at h; cases h
  | some x =>
    cases x with
    | none => rw [create_job_of_fault hl] at h; cases h
    | some j0 =>
      rw [create_job_of_some hl] at h
      simp only [Outcome.ret.injEq, Option.some.injEq] at h
      have hne : segments buffer ≠ [] := by
        intro e; rw [e] at hl; simp [job_loop] at hl
      obtain ⟨procs, h1, h2⟩ := job_loop_some _ none j0 hne hl
      obtain ⟨j1, e1, e2, _, e4⟩ := job_loop_ok _ none procs hne h1 h2
      rw [hl] at e1
      simp only [Option.some.injEq] at e1
      subst e1
      simp only [Option.getD_none, job_info.zero, List.nil_append, Bool.false_or] at e2 e4
      refine ⟨hne, j0, rfl, h.symm, ?_, ?_, ?_⟩
      · rw [e2]; exact h1
      · rw [e2]; exact h2
      · rw [e4, e2]

/-- blanks and `&` between words only set the background flag -/
theorem scan_blank_amp : ∀ (s : List Char) (st : ParseState), st.Idle → st.rinfo = none →
    (∀ c ∈ s, isspace c = true ∨ c = '&') →
    scan st s = some { st with background := st.background || decide ('&' ∈ s) } := by
  intro s
  induction s with
  | nil =>
    intro st hi hr _
    rw [scan_idle_nil hi hr]
    simp
  | cons c r ih =>
    intro st hi hr h
    have hr2 : ∀ x ∈ r, isspace x = true ∨ x = '&' :=
      fun x hx => h x (List.mem_cons_of_mem _ hx)
    rcases h c (List.mem_cons_self _ _) with h1 | h1
    · have hne : c ≠ '&' := by
        intro e; subst e; exact absurd h1 (by decide)
      rw [scan_sep_next (space_facts h1).1 (step_idle_space hi h1 _), ih st hi hr hr2]
      simp [hne, eq_comm]
    · subst h1
      have hc : isvalidtokenchar '&' = false := by decide
      rw [scan_sep_next hc (step_idle_amp hi hr _),
        ih { st with background := true } hi hr hr2]
      simp

/-- a segment made of blanks and `&` only is parsed to a Process without word and without
redirection -/
theorem create_proc_blank_amp {s : List Char} (h : ∀ c ∈ s, isspace c = true ∨ c = '&') :
    create_proc s =
      some { pgid := 0, pid := 0, args := [], nargs := 0,
             state := process_state.XSSH_PROC_STATE_STOPPED,
             background := decide ('&' ∈ s), redirect_info_list := [] } := by
  have hnul : ∀ c ∈ s, c ≠ NUL := by
    intro c hc
    rcases h c hc with h1 | h1
    · exact (space_facts h1).2.2.2
    · subst h1; decide
  rw [create_proc_eq hnul, scan_blank_amp s ParseState.init init_idle rfl h]
  rfl

/-- Claim C16 (amended): every Process of a Job that `create_job` returns is parsed from a
non-empty pipeline segment, a maximal run of characters other than `|` of the trimmed line,
the segments being taken in order; empty segments are skipped and not rejected. A segment
that contains only whitespace and/or `&` is accepted by `create_proc`: it yields a Process
without any word and without redirection. -/
theorem create_job_segments (buffer : List Char) :
    (∀ job, create_job buffer = Outcome.ret (some job) →
      List.Forall₂ (fun tok p => (tok ≠ [] ∧ '|' ∉ tok) ∧ create_proc tok = some p)
        (segments buffer) job.proc_info_list) ∧
    ((∀ c ∈ buffer, isspace c = true ∨ c = '&') →
      create_proc buffer =
        some { pgid := 0, pid := 0, args := [], nargs := 0,
               state := process_state.XSSH_PROC_STATE_STOPPED,
               background := decide ('&' ∈ buffer), redirect_info_list := [] }) := by
  constructor
  · intro job h
    obtain ⟨_, j0, _, e, hmap, _, _⟩ := create_job_procs h
    have : job.proc_info_list = j0.proc_info_list := by rw [e]
    rw [this]
    exact forall₂_of_map _ _ hmap (segments_tokens buffer)
  · exact create_proc_blank_amp

theorem create_job_segments_witness :
    create_proc " & ".toList =
      some { pgid := 0, pid := 0, args := [], nargs := 0,
             state := process_state.XSSH_PROC_STATE_STOPPED,
             background := decide ('&' ∈ " & ".toList), redirect_info_list := [] } :=
  (create_job_segments " & ".toList).2 (by decide)

/-- Claim C16 as stated fails: `a | | b` is accepted, and the Process of its middle segment
has no word and no redirection; a lone `&` is accepted likewise. -/
theorem create_job_segments_counterexample :
    create_job "a | | b".toList =
      Outcome.ret (some { pgid := 0, lastpid := 0, state := job_state.XSSH_JOB_STATE_STOPPED,
                          background := false, job_spec := 0, cmd := "a | | b".toList,
                          nprocs := 3, nstopped := 0, nrunning := 0, status := 0,
                          proc_info_list :=
                            [{ pgid := 0, pid := 0, args := ["a".toList, "a".toList],
                               nargs := 2,
                               state := process_state.XSSH_PROC_STATE_STOPPED,
                               background := false, redirect_info_list := [] },
                             { pgid := 0, pid := 0, args := [], nargs := 0,
                               state := process_state.XSSH_PROC_STATE_STOPPED,
                               background := false, redirect_info_list := [] },
                             { pgid := 0, pid := 0, args := ["b".toList, "b".toList],
                               nargs := 2,
                               state := process_state.XSSH_PROC_STATE_STOPPED,
                               background := false, redirect_info_list := [] }] }) ∧
    create_job "&".toList =
      Outcome.ret (some { pgid := 0, lastpid := 0, state := job_state.XSSH_JOB_STATE_STOPPED,
                          background := true, job_spec := 0, cmd := [],
                          nprocs := 1, nstopped := 0, nrunning := 0, status := 0,
                          proc_info_list :=
                            [{ pgid := 0, pid := 0, args := [], nargs := 0,
                               state := process_state.XSSH_PROC_STATE_STOPPED,
                               background := true, redirect_info_list := [] }] }) := by
  decide!

/-! ## The last segment of a line -/

theorem strtok_all_delims (d : Char) (b : List Char) :
    ∀ n : Nat, strtok_all d (b ++ List.replicate n d) = strtok_all d b := by
  intro n
  induction n with
  | zero => simp
  | succ n ih =>
    rw [List.replicate_succ', ← List.append_assoc]
    have := strtok_go_append d [] (b ++ List.replicate n d) []
    unfold strtok_all at ih ⊢
    rw [this, ih]
    simp [strtok_go]

theorem split_trailing (d : Char) (l : List Char) :
    ∃ C n, l = C ++ List.replicate n d ∧ ∀ c, C.getLast? = some c → c ≠ d := by
  induction l using List.reverseRecOn with
  | nil => exact ⟨[], 0, rfl, by simp⟩
  | append_singleton l a ih =>
    by_cases ha : a = d
    · obtain ⟨C, n, e, hC⟩ := ih
      refine ⟨C, n + 1, ?_, hC⟩
      rw [List.replicate_succ', ← List.append_assoc, ← e, ha]
    · refine ⟨l ++ [a], 0, by simp, ?_⟩
      intro c hc
      rw [List.getLast?_concat] at hc
      simp only [Option.some.injEq] at hc
      rw [← hc]; exact ha

theorem split_last_segment (d : Char) (C : List Char) :
    ∃ pre tl, C = pre ++ tl ∧ d ∉ tl ∧ (pre = [] ∨ ∃ pre2, pre = pre2 ++ [d]) := by
  induction C using List.reverseRecOn with
  | nil => exact ⟨[], [], rfl, by simp, Or.inl rfl⟩
  | append_singleton C a ih =>
    by_cases ha : a = d
    · exact ⟨C ++ [a], [], by simp, by simp, Or.inr ⟨C, by rw [ha]⟩⟩
    · obtain ⟨pre, tl, e, hd, hpre⟩ := ih
      refine ⟨pre, tl ++ [a], by rw [e, List.append_assoc], ?_, hpre⟩
      simp only [List.mem_append, List.mem_singleton, not_or]
      exact ⟨hd, fun e2 => ha e2.symm⟩

/-- the tokens of a text after the last delimiter that has a token behind it -/
theorem strtok_all_pre (d : Char) {pre : List Char}
    (hpre : pre = [] ∨ ∃ pre2, pre = pre2 ++ [d]) :
    ∃ X : List (List Char), ∀ Y : List Char, Y ≠ [] → d ∉ Y → ∀ m : Nat,
      strtok_all d (pre ++ Y ++ List.replicate m d) = X ++ [Y] := by
  rcases hpre with e | ⟨pre2, e⟩
  · subst e
    refine ⟨[], ?_⟩
    intro Y hY hd m
    rw [strtok_all_delims, List.nil_append, strtok_all_word hd hY]
    rfl
  · subst e
    refine ⟨strtok_all d pre2, ?_⟩
    intro Y hY hd m
    rw [strtok_all_delims]
    have : pre2 ++ [d] ++ Y = pre2 ++ d :: Y := by simp
    rw [this, strtok_all_append pre2 hd hY]

/-- The line around its last segment: what stands behind the last segment are `|`
characters only, and another segment in its place is the last token as well. -/
theorem strtok_last (d : Char) {B : List Char} {toks0 : List (List Char)} {tl : List Char}
    (h : strtok_all d B = toks0 ++ [tl]) :
    ∃ pre n, B = pre ++ tl ++ List.replicate n d ∧ tl ≠ [] ∧ d ∉ tl ∧
      ∀ Y : List Char, Y ≠ [] → d ∉ Y → ∀ m : Nat,
        strtok_all d (pre ++ Y ++ List.replicate m d) = toks0 ++ [Y] := by
  obtain ⟨C, n, eB, hC⟩ := split_trailing d B
  obtain ⟨pre, tl2, eC, hd, hpre⟩ := split_last_segment d C
  have hne : tl2 ≠ [] := by
    intro e
    subst e
    rw [List.append_nil] at eC
    subst eC
    rcases hpre with e | ⟨pre2, e⟩
    · subst e
      rw [eB] at h
      rw [List.nil_append] at h
      have := strtok_go_replicate d n
      unfold strtok_all at h
      rw [this] at h
      simp at h
    · subst e
      exact hC d (by simp) rfl
  obtain ⟨X, hX⟩ := strtok_all_pre d hpre
  have h2 := hX tl2 hne hd n
  rw [← eC, ← eB, h] at h2
  have e1 : toks0 = X := List.append_inj_left' h2 rfl
  have e2 : tl = tl2 := by
    have := List.append_inj_right' h2 rfl
    simpa using this
  subst e1 e2
  exact ⟨pre, n, by rw [eB, eC], hne, hd, hX⟩

/-! ## Trimming twice -/

theorem ltrim_of_head {l : List Char} (h : ∀ c, l.head? = some c → isspace c = false) :
    ltrim l = l := by
  cases l with
  | nil => rfl
  | cons a l => exact ltrim_cons_of_not_space l (h a rfl)

theorem ltrim_head (s : List Char) : ∀ c, (ltrim s).head? = some c → isspace c = false := by
  intro c hc
  unfold ltrim at hc
  have := List.head?_dropWhile_not isspace s
  rw [hc] at this
  simpa using this

theorem rtrim_last (s : List Char) :
    ∀ c, (rtrim s).getLast? = some c → isspace c = false := by
  intro c hc
  unfold rtrim at hc
  rw [List.getLast?_reverse] at hc
  have := List.head?_dropWhile_not isspace s.reverse
  rw [hc] at this
  simpa using this

theorem rtrim_of_last_not_space {l : List Char}
    (h : ∀ c, l.getLast? = some c → isspace c = false) : rtrim l = l := by
  induction l using List.reverseRecOn with
  | nil => rfl
  | append_singleton l a _ => exact rtrim_of_last (h a (by simp))

theorem head?_of_prefix {a b : List Char} (ha : a ≠ []) : (a ++ b).head? = a.head? := by
  cases a with
  | nil => exact absurd rfl ha
  | cons x a => rfl

/-- the trimmed line begins and ends with a character that is not a blank -/
theorem trim_ends (s : List Char) :
    (∀ c, (rtrim (ltrim s)).head? = some c → isspace c = false) ∧
    (∀ c, (rtrim (ltrim s)).getLast? = some c → isspace c = false) := by
  refine ⟨?_, rtrim_last _⟩
  intro c hc
  obtain ⟨ws, e, _⟩ := rtrim_spec (ltrim s)
  by_cases hne : rtrim (ltrim s) = []
  · rw [hne] at hc; cases hc
  · apply ltrim_head s c
    rw [e, head?_of_prefix hne]
    exact hc

theorem trim_not_nul (s : List Char) : ∀ c ∈ rtrim (ltrim (cstr s)), c ≠ NUL :=
  fun c hc => cstr_not_nul s c (ltrim_subset _ c (rtrim_subset _ c hc))

/-! ## The text of a Process without its final `&` -/

theorem new_redirect_amp (c : Char) (fd : Int) :
    (new_redirect c '&' fd).2 = true := by
  have h1 : isoutredir '&' = false := by decide
  have h2 : isampersand '&' = true := by decide
  unfold new_redirect
  by_cases ho : isoutredir c = true
  · simp [ho, h1, h2]
  · simp [ho, h2]

/-- at the end of the text a `&` does what the terminating NUL does, and sets the flag -/
theorem step_amp_nul {st t : ParseState} {n : Char} {b : Bool}
    (h : step st '&' n = some (t, b)) (m : Char) :
    ∃ t2, step st NUL m = some (t2, false) ∧ t = { t2 with background := true } := by
  rw [step_eq] at h ⊢
  cases he : end_token st with
  | none => rw [he] at h; cases h
  | some e =>
    simp only [he, Option.some_bind] at h ⊢
    have h1 : isredir '&' = false := by decide
    have h2 : isampersand '&' = true := by decide
    have h3 : isredir NUL = false := by decide
    have h4 : isampersand NUL = false := by decide
    unfold dispatch at h ⊢
    simp only [h1, h2, h3, h4, Bool.false_eq_true, ↓reduceIte] at h ⊢
    cases hr : e.rinfo with
    | some r => rw [hr] at h; simp at h
    | none =>
      rw [hr] at h
      simp only [Option.isSome_none, Bool.false_eq_true, ↓reduceIte, Option.some.injEq,
        Prod.mk.injEq] at h ⊢
      refine ⟨_, ⟨rfl, trivial⟩, ?_⟩
      rw [← h.1]
      unfold push_arg
      split_ifs <;> rfl

/-- The loop on a text without its final `&` ends in the same state, background flag
apart. -/
theorem scan_drop_amp (k : Nat) : ∀ (T : List Char) (st t : ParseState), T.length ≤ k →
    (∀ c ∈ T, c ≠ NUL) → scan st (T ++ ['&']) = some t →
    ∃ t2, scan st T = some t2 ∧ t = { t2 with background := true } := by
  induction k with
  | zero =>
    intro T st t hlen _ h
    have : T = [] := List.length_eq_zero.mp (Nat.le_zero.mp hlen)
    subst this
    rw [List.nil_append] at h
    have hc : isvalidtokenchar '&' = false := by decide
    cases hs : step st '&' (([] : List Char).headD NUL) with
    | none => rw [scan_sep_none hc hs] at h; cases h
    | some r =>
      rcases r with ⟨s1, b⟩
      obtain ⟨_, a2, a3, a4⟩ := step_amp hs
      subst a4
      rw [scan_sep_next hc hs, scan_idle_nil a3 a2] at h
      simp only [Option.some.injEq] at h
      subst h
      obtain ⟨t2, e1, e2⟩ := step_amp_nul hs NUL
      refine ⟨t2, ?_, e2⟩
      rw [scan_nil, e1]
      rfl
  | succ k ih =>
    intro T st t hlen hnul h
    cases T with
    | nil => exact ih [] st t (Nat.zero_le _) hnul h
    | cons c T1 =>
      have hnul2 : ∀ x ∈ T1, x ≠ NUL := fun x hx => hnul x (List.mem_cons_of_mem _ hx)
      have hlen1 : T1.length ≤ k := by simpa using hlen
      rw [List.cons_append] at h
      by_cases hc : isvalidtokenchar c = true
      · rw [scan_cons_tok _ _ hc] at h ⊢
        exact ih T1 _ t hlen1 hnul2 h
      · simp only [Bool.not_eq_true] at hc
        rcases not_token_cases hc with h1 | h1 | h1 | h1
        · -- a redirection operator
          cases T1 with
          | nil =>
            -- the operator takes the `&`, and no target follows
            exfalso
            rw [List.nil_append] at h
            cases hs : step st c '&' with
            | none =>
              have : scan st [c, '&'] = none := scan_sep_none hc (by simpa using hs)
              rw [this] at h; cases h
            | some r =>
              rcases r with ⟨s1, b⟩
              obtain ⟨fd, hb⟩ := step_flag hs h1
              rw [new_redirect_amp] at hb
              subst hb
              rw [scan_sep_skip hc hs, scan_nil,
                step_idle_pending (step_idle hs) (step_redir_pending hs h1)
                  (Or.inr (Or.inr rfl))] at h
              cases h
          | cons d T2 =>
            have hh : ((d :: T2) ++ ['&']).headD NUL = (d :: T2).headD NUL := rfl
            cases hs : step st c ((d :: T2).headD NUL) with
            | none =>
              rw [scan_sep_none hc (by rw [hh]; exact hs)] at h; cases h
            | some r =>
              rcases r with ⟨s1, b⟩
              cases b with
              | false =>
                rw [scan_sep_next hc (by rw [hh]; exact hs)] at h
                rw [scan_sep_next hc hs]
                exact ih _ _ t hlen1 hnul2 h
              | true =>
                simp only [List.headD_cons] at hs
                rw [List.cons_append, scan_sep_skip hc hs] at h
                rw [scan_sep_skip hc hs]
                refine ih T2 _ t ?_ (fun x hx => hnul2 x (List.mem_cons_of_mem _ hx)) h
                simp only [List.length_cons] at hlen1; omega
        · -- the character `&`, a blank: the next character is not looked at
          have hr : isredir c = false := by subst h1; decide
          cases hs : step st c NUL with
          | none =>
            rw [scan_sep_none hc (by rw [step_plain2 st _ NUL hr]; exact hs)] at h; cases h
          | some r =>
            rcases r with ⟨s1, b⟩
            have hb : b = false :=
              @step_no_skip st c NUL (by decide) (by decide) (s1, b) hs
            subst hb
            rw [scan_sep_next hc (by rw [step_plain2 st _ NUL hr]; exact hs)] at h
            rw [scan_sep_next hc (by rw [step_plain2 st _ NUL hr]; exact hs)]
            exact ih T1 _ t hlen1 hnul2 h
        · have hr : isredir c = false := (space_facts h1).2.1
          cases hs : step st c NUL with
          | none =>
            rw [scan_sep_none hc (by rw [step_plain2 st _ NUL hr]; exact hs)] at h; cases h
          | some r =>
            rcases r with ⟨s1, b⟩
            have hb : b = false :=
              @step_no_skip st c NUL (by decide) (by decide) (s1, b) hs
            subst hb
            rw [scan_sep_next hc (by rw [step_plain2 st _ NUL hr]; exact hs)] at h
            rw [scan_sep_next hc (by rw [step_plain2 st _ NUL hr]; exact hs)]
            exact ih T1 _ t hlen1 hnul2 h
        · exact absurd h1 (hnul c (List.mem_cons_self _ _))

theorem proc_of_set_background (t : ParseState) (b : Bool) :
    proc_of { t with background := b } = { proc_of t with background := b } := rfl

/-- A Process text without its final `&` is parsed to the same Process, background flag
apart. -/
theorem create_proc_drop_amp {T : List Char} {p : proc_info} (hnul : ∀ c ∈ T, c ≠ NUL)
    (h : create_proc (T ++ ['&']) = some p) :
    ∃ q, create_proc T = some q ∧ p = { q with background := true } := by
  have hnul2 : ∀ c ∈ T ++ ['&'], c ≠ NUL := by
    intro c hc
    rcases List.mem_append.mp hc with e | e
    · exact hnul c e
    · simp only [List.mem_singleton] at e; subst e; decide
  rw [create_proc_eq hnul2] at h
  rw [create_proc_eq hnul]
  cases hs : scan ParseState.init (T ++ ['&']) with
  | none => rw [hs] at h; cases h
  | some t =>
    rw [hs] at h
    simp only [Option.map_some', Option.some.injEq] at h
    obtain ⟨t2, e1, e2⟩ := scan_drop_amp _ T ParseState.init t le_rfl hnul hs
    refine ⟨proc_of t2, by rw [e1]; rfl, ?_⟩
    rw [← h, e2, proc_of_set_background]

/-! ## Where the background flag comes from -/

/-- once the background flag is set, only blanks and `&` may follow -/
theorem scan_after_bg_chars : ∀ (rest : List Char) (st t : ParseState),
    st.background = true → st.rinfo = none → st.Idle → (∀ c ∈ rest, c ≠ NUL) →
    scan st rest = some t → ∀ c ∈ rest, isspace c = true ∨ c = '&' := by
  intro rest
  induction rest with
  | nil => intro st t _ _ _ _ _ c hc; simp at hc
  | cons c rest ih =>
    intro st t hb hr hi hnul h
    have hnul2 : ∀ x ∈ rest, x ≠ NUL := fun x hx => hnul x (List.mem_cons_of_mem _ hx)
    by_cases hc : isvalidtokenchar c = true
    · rw [scan_cons_tok _ _ hc,
        scan_doomed rest (st.tokenChar c) hr hb rfl (by simp [ParseState.tokenChar])] at h
      cases h
    · simp only [Bool.not_eq_true] at hc
      rcases not_token_cases hc with h1 | h1 | h1 | h1
      · rw [scan_sep_none hc (step_idle_bg_redir hi hb h1 _)] at h; cases h
      · subst h1
        rw [scan_sep_next hc (step_idle_amp hi hr _)] at h
        have := ih { st with background := true } t rfl hr hi hnul2 h
        intro x hx
        rcases List.mem_cons.mp hx with e | e
        · exact Or.inr e
        · exact this x e
      · rw [scan_sep_next hc (step_idle_space hi h1 _)] at h
        have := ih st t hb hr hi hnul2 h
        intro x hx
        rcases List.mem_cons.mp hx with e | e
        · subst e; exact Or.inl h1
        · exact this x e
      · exact absurd h1 (hnul c (List.mem_cons_self _ _))

/-- a text that is parsed with the background flag has a `&` after which only blanks and
`&` follow -/
theorem scan_bg_split (k : Nat) : ∀ (rest : List Char) (st t : ParseState),
    rest.length ≤ k → (∀ c ∈ rest, c ≠ NUL) → scan st rest = some t →
    t.background = true → st.background = false →
    ∃ r1 r2, rest = r1 ++ '&' :: r2 ∧ ∀ c ∈ r2, isspace c = true ∨ c = '&' := by
  induction k with
  | zero =>
    intro rest st t hlen _ h ht hst
    have : rest = [] := List.length_eq_zero.mp (Nat.le_zero.mp hlen)
    subst this
    rw [scan_nil] at h
    cases hs : step st NUL NUL with
    | none => rw [hs] at h; cases h
    | some r =>
      rcases r with ⟨s1, b⟩
      rw [hs] at h
      simp only [Option.map_some', Option.some.injEq] at h
      subst h
      have := step_background hs
      rw [ht, hst] at this
      exact absurd this (by decide)
  | succ k ih =>
    intro rest st t hlen hnul h ht hst
    cases rest with
    | nil => exact ih [] st t (Nat.zero_le _) hnul h ht hst
    | cons c rest1 =>
      have hnul2 : ∀ x ∈ rest1, x ≠ NUL := fun x hx => hnul x (List.mem_cons_of_mem _ hx)
      have hlen1 : rest1.length ≤ k := by simpa using hlen
      by_cases hc : isvalidtokenchar c = true
      · rw [scan_cons_tok _ _ hc] at h
        obtain ⟨r1, r2, e, hr2⟩ := ih rest1 _ t hlen1 hnul2 h ht hst
        exact ⟨c :: r1, r2, by rw [e]; rfl, hr2⟩
      · simp only [Bool.not_eq_true] at hc
        cases hs : step st c (rest1.headD NUL) with
        | none => rw [scan_sep_none hc hs] at h; cases h
        | some r =>
          rcases r with ⟨s1, b⟩
          by_cases hamp : c = '&'
          · subst hamp
            obtain ⟨a1, a2, a3, a4⟩ := step_amp hs
            subst a4
            rw [scan_sep_next hc hs] at h
            exact ⟨[], rest1, rfl, scan_after_bg_chars rest1 s1 t a1 a2 a3 hnul2 h⟩
          · have hb1 : s1.background = false := by
              rw [step_background hs, hst]
              simp [hamp]
            cases b with
            | false =>
              rw [scan_sep_next hc hs] at h
              obtain ⟨r1, r2, e, hr2⟩ := ih rest1 _ t hlen1 hnul2 h ht hb1
              exact ⟨c :: r1, r2, by rw [e]; rfl, hr2⟩
            | true =>
              cases rest1 with
              | nil =>
                exfalso
                have := @step_no_skip st c NUL (by decide) (by decide) (s1, true) hs
                cases this
              | cons d rest2 =>
                simp only [List.headD_cons] at hs
                rw [scan_sep_skip hc hs] at h
                obtain ⟨r1, r2, e, hr2⟩ := ih rest2 _ t
                  (by simp only [List.length_cons] at hlen1; omega)
                  (fun x hx => hnul2 x (List.mem_cons_of_mem _ hx)) h ht hb1
                exact ⟨c :: d :: r1, r2, by rw [e]; rfl, hr2⟩

theorem create_proc_bg_split {s : List Char} {p : proc_info} (hnul : ∀ c ∈ s, c ≠ NUL)
    (h : create_proc s = some p) (hb : p.background = true) :
    ∃ r1 r2, s = r1 ++ '&' :: r2 ∧ ∀ c ∈ r2, isspace c = true ∨ c = '&' := by
  rw [create_proc_eq hnul] at h
  cases hs : scan ParseState.init s with
  | none => rw [hs] at h; cases h
  | some t =>
    rw [hs] at h
    simp only [Option.map_some', Option.some.injEq] at h
    have ht : t.background = true := by rw [← hb, ← h]; rfl
    exact scan_bg_split _ s ParseState.init t le_rfl hnul hs ht rfl

/-! ## The round trip through the display text of a Job -/

/-- the segments of a text that is already trimmed on the left -/
theorem segments_of_text {D : List Char} (hnul : ∀ c ∈ D, c ≠ NUL)
    (hhead : ∀ c, D.head? = some c → isspace c = false) :
    segments D = strtok_all '|' (rtrim D) := by
  unfold segments
  rw [cstr_eq_self hnul, ltrim_of_head hhead]

/-- The segments of a line whose last segment `Y0` is not blank: the last token is `Y0`,
possibly without blanks at its end. -/
theorem segments_last {pre Y0 : List Char} {m : Nat} {X : List (List Char)}
    (hX : ∀ Y : List Char, Y ≠ [] → '|' ∉ Y → ∀ m : Nat,
      strtok_all '|' (pre ++ Y ++ List.replicate m '|') = X ++ [Y])
    (hnul : ∀ c ∈ pre ++ Y0 ++ List.replicate m '|', c ≠ NUL)
    (hhead : ∀ c, (pre ++ Y0 ++ List.replicate m '|').head? = some c → isspace c = false)
    (hY : ∃ c ∈ Y0, isspace c = false) (hd : '|' ∉ Y0) :
    ∃ Y1, segments (pre ++ Y0 ++ List.replicate m '|') = X ++ [Y1] ∧
      create_proc Y1 = create_proc Y0 := by
  rw [segments_of_text hnul hhead]
  have hnulY : ∀ c ∈ Y0, c ≠ NUL := fun c hc => hnul c (by simp [hc])
  cases m with
  | zero =>
    simp only [List.replicate_zero, List.append_nil]
    rw [rtrim_append pre hY]
    obtain ⟨c, hc, _⟩ := rtrim_nonblank hY
    have hne : rtrim Y0 ≠ [] := List.ne_nil_of_mem hc
    have hd2 : '|' ∉ rtrim Y0 := fun e => hd (rtrim_subset _ _ e)
    have := hX (rtrim Y0) hne hd2 0
    simp only [List.replicate_zero, List.append_nil] at this
    exact ⟨rtrim Y0, this, create_proc_rtrim hnulY⟩
  | succ m =>
    have hl : rtrim (pre ++ Y0 ++ List.replicate (m + 1) '|') =
        pre ++ Y0 ++ List.replicate (m + 1) '|' := by
      rw [List.replicate_succ', ← List.append_assoc]
      exact rtrim_of_last (by decide)
    rw [hl]
    have hne : Y0 ≠ [] := by
      obtain ⟨c, hc, _⟩ := hY
      exact List.ne_nil_of_mem hc
    exact ⟨Y0, hX Y0 hne hd (m + 1), rfl⟩

theorem map_concat_inj {toks0 : List (List Char)} {tl : List Char} {procs0 : List proc_info}
    {p : proc_info}
    (h : (toks0 ++ [tl]).map create_proc = (procs0 ++ [p]).map some) :
    toks0.map create_proc = procs0.map some ∧ create_proc tl = some p := by
  simp only [List.map_append, List.map_cons, List.map_nil] at h
  have h1 := List.append_inj_left' h rfl
  have h2 := List.append_inj_right' h rfl
  exact ⟨h1, by simpa using h2⟩

/-- the display text of a Job in the background, around the last segment -/
theorem background_cmd {B pre tl : List Char} {n : Nat} {p : proc_info}
    (eB : B = pre ++ tl ++ List.replicate n '|')
    (hlastB : ∀ c, B.getLast? = some c → isspace c = false)
    (hnul : ∀ c ∈ tl, c ≠ NUL) (hd : '|' ∉ tl)
    (hp : create_proc tl = some p) (hb : p.background = true)
    (hw : p.args ≠ [] ∨ p.redirect_info_list ≠ []) :
    ∃ Y0 m q, B.dropLast = pre ++ Y0 ++ List.replicate m '|' ∧ create_proc Y0 = some q ∧
      q.shape = p.shape ∧ (∃ c ∈ Y0, isspace c = false) ∧ '|' ∉ Y0 := by
  obtain ⟨r1, r2, etl, hr2⟩ := create_proc_bg_split hnul hp hb
  cases n with
  | succ m =>
    refine ⟨tl, m, p, ?_, hp, rfl, ⟨'&', by rw [etl]; simp, by decide⟩, hd⟩
    rw [eB, List.replicate_succ', ← List.append_assoc, List.dropLast_concat]
  | zero =>
    simp only [List.replicate_zero, List.append_nil] at eB
    -- the last character of the segment is a `&`
    have hT : ∃ T, tl = T ++ ['&'] := by
      rcases List.eq_nil_or_concat r2 with e | ⟨r3, x, e⟩
      · subst e; exact ⟨r1, etl⟩
      · simp only [List.concat_eq_append] at e
        have hx : x = '&' := by
          rcases hr2 x (by rw [e]; simp) with h1 | h1
          · have hl : B.getLast? = some x := by
              rw [eB, etl, e, ← List.append_assoc, ← List.cons_append, ← List.append_assoc]
              exact List.getLast?_concat _
            rw [hlastB x hl] at h1
            cases h1
          · exact h1
        subst hx
        refine ⟨r1 ++ '&' :: r3, ?_⟩
        rw [etl, e]
        simp
    obtain ⟨T, eT⟩ := hT
    subst eT
    have hnulT : ∀ c ∈ T, c ≠ NUL := fun c hc => hnul c (by simp [hc])
    obtain ⟨q, hq, epq⟩ := create_proc_drop_amp hnulT hp
    have hTne : ∃ c ∈ T, isspace c = false := by
      by_contra hcon
      simp only [not_exists, not_and, Bool.not_eq_false] at hcon
      have hall : ∀ c ∈ T ++ ['&'], isspace c = true ∨ c = '&' := by
        intro c hc
        rcases List.mem_append.mp hc with e | e
        · exact Or.inl (hcon c e)
        · exact Or.inr (by simpa using e)
      rw [create_proc_blank_amp hall] at hp
      simp only [Option.some.injEq] at hp
      rw [← hp] at hw
      simp at hw
    refine ⟨T, 0, q, ?_, hq, ?_, hTne, fun e => hd (by simp [e])⟩
    · rw [eB, ← List.append_assoc, List.dropLast_concat]
      simp
    · rw [epq]
      rfl

/-- Claim C15 (amended): round trip. Let `create_job` succeed on a command line with the
Job `J`, and let the last Process of `J` have at least one word or one redirection. Then
`create_job` succeeds on the display text `J.cmd` (the line without its `&` suffix) and
yields a Job with the same number of Processes and, Process by Process, the same `argv`
and the same redirection list as `J`. -/
theorem create_job_round_trip (s : List Char) (J : job_info) (p : proc_info)
    (h : create_job s = Outcome.ret (some J))
    (hlast : J.proc_info_list.getLast? = some p)
    (hp : p.args ≠ [] ∨ p.redirect_info_list ≠ []) :
    ∃ J2, create_job J.cmd = Outcome.ret (some J2) ∧
      J2.proc_info_list.length = J.proc_info_list.length ∧
      J2.proc_info_list.map proc_info.shape = J.proc_info_list.map proc_info.shape := by
  obtain ⟨hne, j0, hl, eJ, hmap, hbgs, hany⟩ := create_job_procs h
  have hJl : J.proc_info_list = j0.proc_info_list := by rw [eJ]
  have hends := trim_ends (cstr s)
  have hnulB := trim_not_nul s
  have hseg : segments s = strtok_all '|' (rtrim (ltrim (cstr s))) := rfl
  by_cases hb : j0.background = true
  · -- a Job in the background: the display text lacks the last character of the line
    have hcmd : J.cmd = (rtrim (ltrim (cstr s))).dropLast := by rw [eJ]; simp [hb]
    obtain ⟨toks0, tl, etoks⟩ := (List.eq_nil_or_concat (segments s)).resolve_left hne
    have hpn : j0.proc_info_list ≠ [] := by
      intro e
      rw [e] at hmap
      simp only [List.map_nil, List.map_eq_nil_iff] at hmap
      exact hne hmap
    obtain ⟨procs0, p1, eprocs⟩ := (List.eq_nil_or_concat j0.proc_info_list).resolve_left hpn
    simp only [List.concat_eq_append] at etoks eprocs
    rw [etoks, eprocs] at hmap
    obtain ⟨hmap0, hp1⟩ := map_concat_inj hmap
    rw [eprocs, List.dropLast_concat] at hbgs
    have hpp : p1 = p := by
      rw [hJl, eprocs] at hlast
      simpa using hlast
    subst hpp
    have hbp : p1.background = true := by
      rw [eprocs, List.any_append, hb] at hany
      have : (procs0.any fun q => q.background) = false := by
        rw [List.any_eq_false]
        intro q hq
        simp [hbgs q hq]
      rw [this] at hany
      simpa using hany.symm
    rw [hseg] at etoks
    obtain ⟨pre, n, eB, _, hd, hX⟩ := strtok_last '|' etoks
    have hnultl : ∀ c ∈ tl, c ≠ NUL := fun c hc => hnulB c (by rw [eB]; simp [hc])
    obtain ⟨Y0, m, q, eD, hq, hshape, hY, hdY⟩ :=
      background_cmd eB hends.2 hnultl hd hp1 hbp hp
    have hnulD : ∀ c ∈ pre ++ Y0 ++ List.replicate m '|', c ≠ NUL := by
      intro c hc
      rw [← eD] at hc
      exact hnulB c (List.mem_of_mem_dropLast hc)
    have hheadD : ∀ c, (pre ++ Y0 ++ List.replicate m '|').head? = some c →
        isspace c = false := by
      intro c hc
      rw [← eD] at hc
      have hBne : rtrim (ltrim (cstr s)) ≠ [] := by
        intro e; rw [e] at hc; simp at hc
      obtain ⟨D, x, e⟩ := (List.eq_nil_or_concat _).resolve_left hBne
      simp only [List.concat_eq_append] at e
      rw [e, List.dropLast_concat] at hc
      have hDne : D ≠ [] := by
        intro e2; rw [e2] at hc; cases hc
      apply hends.1 c
      rw [e, head?_of_prefix hDne]
      exact hc
    obtain ⟨Y1, hsegD, hY1⟩ := segments_last hX hnulD hheadD hY hdY
    have hmap2 : (toks0 ++ [Y1]).map create_proc = (procs0 ++ [q]).map some := by
      simp only [List.map_append, List.map_cons, List.map_nil, hmap0, hY1, hq]
    obtain ⟨job2, e1, e2, _, _⟩ := job_loop_ok (toks0 ++ [Y1]) none (procs0 ++ [q])
      (by simp) hmap2 (by rw [List.dropLast_concat]; exact hbgs)
    rw [← hsegD, ← eD, ← hcmd] at e1
    refine ⟨_, create_job_of_some e1, ?_, ?_⟩
    · simp only [e2, hJl, eprocs, Option.getD_none, job_info.zero, List.nil_append,
        List.length_append, List.length_singleton]
    · simp only [e2, hJl, eprocs, Option.getD_none, job_info.zero, List.nil_append,
        List.map_append, List.map_cons, List.map_nil, hshape]
  · -- a Job in the foreground: the display text is the trimmed line
    have hcmd : J.cmd = rtrim (ltrim (cstr s)) := by rw [eJ]; simp [hb]
    have hsame : segments J.cmd = segments s := by
      rw [hcmd, segments_of_text hnulB hends.1, rtrim_of_last_not_space hends.2]
      rfl
    rw [← hsame] at hl
    refine ⟨_, create_job_of_some hl, ?_, ?_⟩
    · simp only [hJl]
    · simp only [hJl]

theorem create_job_round_trip_witness :
    ∃ J2, create_job "cat f | wc -l ".toList = Outcome.ret (some J2) ∧
      J2.proc_info_list.length = 2 ∧
      J2.proc_info_list.map proc_info.shape =
        [(["cat".toList, "f".toList], []), (["wc".toList, "-l".toList], [])] :=
  create_job_round_trip "cat f | wc -l &".toList
    { pgid := 0, lastpid := 0, state := job_state.XSSH_JOB_STATE_STOPPED,
      background := true, job_spec := 0, cmd := "cat f | wc -l ".toList,
      nprocs := 2, nstopped := 0, nrunning := 0, status := 0,
      proc_info_list :=
        [{ pgid := 0, pid := 0, args := ["cat".toList, "cat".toList, "f".toList],
           nargs := 3, state := process_state.XSSH_PROC_STATE_STOPPED,
           background := false, redirect_info_list := [] },
         { pgid := 0, pid := 0, args := ["wc".toList, "wc".toList, "-l".toList],
           nargs := 3, state := process_state.XSSH_PROC_STATE_STOPPED,
           background := true, redirect_info_list := [] }] }
    { pgid := 0, pid := 0, args := ["wc".toList, "wc".toList, "-l".toList],
      nargs := 3, state := process_state.XSSH_PROC_STATE_STOPPED,
      background := true, redirect_info_list := [] }
    (by decide!) (by decide) (by decide)

/-- Claim C15 as stated fails when the last Process has no word: the Job of `a | &` has two
Processes, its display text is `a | `, and `create_job` parses that text to a Job with one
Process; the display text of the Job of `&` is empty, and `create_job` faults on it. -/
theorem create_job_round_trip_counterexample :
    create_job "a | &".toList =
      Outcome.ret (some { pgid := 0, lastpid := 0, state := job_state.XSSH_JOB_STATE_STOPPED,
                          background := true, job_spec := 0, cmd := "a | ".toList,
                          nprocs := 2, nstopped := 0, nrunning := 0, status := 0,
                          proc_info_list :=
                            [{ pgid := 0, pid := 0, args := ["a".toList, "a".toList],
                               nargs := 2,
                               state := process_state.XSSH_PROC_STATE_STOPPED,
                               background := false, redirect_info_list := [] },
                             { pgid := 0, pid := 0, args := [], nargs := 0,
                               state := process_state.XSSH_PROC_STATE_STOPPED,
                               background := true, redirect_info_list := [] }] }) ∧
    create_job "a | ".toList =
      Outcome.ret (some { pgid := 0, lastpid := 0, state := job_state.XSSH_JOB_STATE_STOPPED,
                          background := false, job_spec := 0, cmd := "a |".toList,
                          nprocs := 1, nstopped := 0, nrunning := 0, status := 0,
                          proc_info_list :=
                            [{ pgid := 0, pid := 0, args := ["a".toList, "a".toList],
                               nargs := 2,
                               state := process_state.XSSH_PROC_STATE_STOPPED,
                               background := false, redirect_info_list := [] }] }) ∧
    create_job "&".toList =
      Outcome.ret (some { pgid := 0, lastpid := 0, state := job_state.XSSH_JOB_STATE_STOPPED,
                          background := true, job_spec := 0, cmd := [],
                          nprocs := 1, nstopped := 0, nrunning := 0, status := 0,
                          proc_info_list :=
                            [{ pgid := 0, pid := 0, args := [], nargs := 0,
                               state := process_state.XSSH_PROC_STATE_STOPPED,
                               background := true, redirect_info_list := [] }] }) ∧
    create_job [] = Outcome.fault := by
  decide!

/-! ## The state Done and the status of a Job -/

theorem last_removed_killed_imp : ∀ (es : List Event) (job : job_info) (last : Bool),
    last_removed_killed job es last = true → last = true ∨ some_killed job es = true := by
  intro es
  induction es with
  | nil => intro job last h; exact Or.inl h
  | cons e es ih =>
    intro job last h
    rw [last_removed_killed_cons] at h
    rcases ih _ _ h with h1 | h1
    · cases e with
      | CLD_EXITED pid st =>
        simp only [last_after, last_removed_killed] at h1
        by_cases hf : (find_proc pid job.proc_info_list).isSome = true
        · rw [if_pos hf] at h1; cases h1
        · rw [if_neg hf] at h1; exact Or.inl h1
      | CLD_KILLED pid st =>
        simp only [last_after, last_removed_killed] at h1
        by_cases hf : (find_proc pid job.proc_info_list).isSome = true
        · right; simp [some_killed, hf]
        · rw [if_neg hf] at h1; exact Or.inl h1
      | CLD_STOPPED pid => exact Or.inl h1
      | CLD_CONTINUED pid => exact Or.inl h1
    · right
      simp [some_killed, h1]

/-- the invariant of the handlers holds for a Job as launched -/
theorem launched_inv {job : job_info}
    (hn : job.proc_info_list ≠ [])
    (hall : ∀ p ∈ job.proc_info_list, p.state = process_state.XSSH_PROC_STATE_RUNNING)
    (hnr : job.nrunning = (job.proc_info_list.length : Int))
    (hnp : job.nprocs = (job.proc_info_list.length : Int))
    (hst : job.state = job_state.XSSH_JOB_STATE_RUNNING) : JobInv job false := by
  have hcount : count_running job.proc_info_list = job.proc_info_list.length := by
    unfold count_running
    rw [List.filter_eq_self.mpr]
    intro p hp
    simp [hall p hp]
  have hlen : 0 < job.proc_info_list.length := List.length_pos.mpr hn
  refine ⟨by rw [hnr, hcount], hnp, fun p hp => Or.inl (hall p hp), ?_, ?_⟩
  · intro _; exact Or.inl ⟨hst, by rw [hnr]; exact_mod_cast hlen⟩
  · intro e; exact absurd e hn

/-- Claim C21 (amended): for a Job launched successfully (every Process Running,
`nrunning = nprocs = n >= 1`, state Running) and every sequence of status events, after
the events the state of the Job is Done iff no Process remains and the Process removed
last ended via normal exit. So the Job is Done when every Process has ended via normal
exit and none was killed by a signal; it is Done as well when a Process other than the one
that ended last was killed. -/
theorem job_state_done (job : job_info) (es : List Event)
    (hn : job.proc_info_list ≠ [])
    (hall : ∀ p ∈ job.proc_info_list, p.state = process_state.XSSH_PROC_STATE_RUNNING)
    (hnr : job.nrunning = (job.proc_info_list.length : Int))
    (hnp : job.nprocs = (job.proc_info_list.length : Int))
    (hst : job.state = job_state.XSSH_JOB_STATE_RUNNING) :
    ((run_events job es).state = job_state.XSSH_JOB_STATE_DONE ↔
      ((run_events job es).proc_info_list = [] ∧
        last_removed_killed job es false = false)) ∧
    ((run_events job es).proc_info_list = [] → some_killed job es = false →
      (run_events job es).state = job_state.XSSH_JOB_STATE_DONE) := by
  obtain ⟨_, _, _, h4, h5⟩ := run_events_inv es job false (launched_inv hn hall hnr hnp hst)
  have hk := last_removed_killed_imp es job false
  generalize run_events job es = j at h4 h5 ⊢
  generalize last_removed_killed job es false = last at h5 hk ⊢
  have key : j.state = job_state.XSSH_JOB_STATE_DONE ↔
      (j.proc_info_list = [] ∧ last = false) := by
    by_cases he : j.proc_info_list = []
    · rcases h5 he with ⟨a, b⟩ | ⟨a, b⟩
      · rw [a, b]; simp
      · rw [a, b]; simp [he]
    · rcases h4 he with ⟨a, _⟩ | ⟨a, _⟩
      · rw [a]; simp [he]
      · rw [a]; simp [he]
  refine ⟨key, ?_⟩
  intro he hs
  apply key.mpr ⟨he, ?_⟩
  cases hl : last with
  | false => rfl
  | true =>
    rcases hk hl with h1 | h1
    · cases h1
    · rw [hs] at h1; cases h1

theorem job_state_done_witness :
    (run_events
        (sample_job [sample_proc 5 process_state.XSSH_PROC_STATE_RUNNING,
                     sample_proc 7 process_state.XSSH_PROC_STATE_RUNNING] 2 0
          job_state.XSSH_JOB_STATE_RUNNING)
        [Event.CLD_EXITED 5 0, Event.CLD_STOPPED 7, Event.CLD_EXITED 7 1]).state =
      job_state.XSSH_JOB_STATE_DONE :=
  (job_state_done
    (sample_job [sample_proc 5 process_state.XSSH_PROC_STATE_RUNNING,
                 sample_proc 7 process_state.XSSH_PROC_STATE_RUNNING] 2 0
      job_state.XSSH_JOB_STATE_RUNNING)
    [Event.CLD_EXITED 5 0, Event.CLD_STOPPED 7, Event.CLD_EXITED 7 1]
    (by decide) (by decide) (by decide) (by decide) (by decide)).2 (by decide) (by decide)

/-- Claim C21 as stated fails: of the two Processes of a Job the first is killed by signal
9 and the second then exits with status 0; the Job is Done although one of its Processes
was killed by a signal. -/
theorem job_state_done_counterexample :
    (run_events
        (sample_job [sample_proc 5 process_state.XSSH_PROC_STATE_RUNNING,
                     sample_proc 7 process_state.XSSH_PROC_STATE_RUNNING] 2 0
          job_state.XSSH_JOB_STATE_RUNNING)
        [Event.CLD_KILLED 5 9, Event.CLD_EXITED 7 0]).state =
      job_state.XSSH_JOB_STATE_DONE ∧
    some_killed
        (sample_job [sample_proc 5 process_state.XSSH_PROC_STATE_RUNNING,
                     sample_proc 7 process_state.XSSH_PROC_STATE_RUNNING] 2 0
          job_state.XSSH_JOB_STATE_RUNNING)
        [Event.CLD_KILLED 5 9, Event.CLD_EXITED 7 0] = true := by
  decide

/-! ### The status of a pipeline -/

theorem remove_proc_of_none {pid : Int} : ∀ {l : List proc_info},
    find_proc pid l = none → remove_proc pid l = l := by
  intro l
  induction l with
  | nil => intro _; rfl
  | cons p l ih =>
    intro h
    by_cases hp : p.pid = pid
    · simp [find_proc, hp] at h
    · simp only [find_proc, hp, ↓reduceIte] at h
      simp only [remove_proc, hp, ↓reduceIte, ih h]

theorem remove_proc_pids (pid : Int) : ∀ (l : List proc_info),
    (remove_proc pid l).map (fun p => p.pid) = (l.map (fun p => p.pid)).erase pid := by
  intro l
  induction l with
  | nil => rfl
  | cons p l ih =>
    by_cases hp : p.pid = pid
    · simp [remove_proc, hp]
    · simp only [remove_proc, hp, ↓reduceIte, List.map_cons]
      rw [List.erase_cons_tail (by simpa using hp), ih]

theorem find_proc_of_mem {pid : Int} : ∀ {l : List proc_info},
    pid ∈ l.map (fun p => p.pid) → ∃ p, find_proc pid l = some p := by
  intro l
  induction l with
  | nil => intro h; simp at h
  | cons q l ih =>
    intro h
    by_cases hq : q.pid = pid
    · exact ⟨q, by simp [find_proc, hq]⟩
    · simp only [List.map_cons, List.mem_cons] at h
      rcases h with e | e
      · exact absurd e.symm hq
      · obtain ⟨p, hp⟩ := ih e
        exact ⟨p, by simp [find_proc, hq, hp]⟩

theorem process_terminated_list (job : job_info) (pid code : Int) :
    (process_terminated job pid code).proc_info_list = remove_proc pid job.proc_info_list := by
  cases hf : find_proc pid job.proc_info_list with
  | none =>
    unfold process_terminated
    rw [hf, remove_proc_of_none hf]
  | some p =>
    unfold process_terminated
    rw [hf]
    simp only
    cases hs : p.state <;> simp only [reduceCtorEq, ↓reduceIte] <;> split_ifs <;> rfl

theorem process_terminated_status {job : job_info} {pid : Int} {p : proc_info}
    (hf : find_proc pid job.proc_info_list = some p) (code : Int) :
    (process_terminated job pid code).status = code := by
  unfold process_terminated
  rw [hf]
  simp only
  cases hs : p.state <;> simp only [reduceCtorEq, ↓reduceIte] <;> split_ifs <;> rfl

theorem run_events_cons (job : job_info) (e : Event) (es : List Event) :
    run_events job (e :: es) = run_events (apply_event job e) es := rfl

/-- when every Process exits, none is left -/
theorem exits_list : ∀ (xs : List (Int × Int)) (job : job_info),
    (xs.map Prod.fst).Perm (job.proc_info_list.map (fun p => p.pid)) →
    (run_events job (exits xs)).proc_info_list = [] := by
  intro xs
  induction xs with
  | nil =>
    intro job h
    simp only [List.map_nil, List.nil_perm, List.map_eq_nil_iff] at h
    exact h
  | cons x xs ih =>
    intro job h
    rw [List.map_cons, List.cons_perm_iff_perm_erase] at h
    simp only [exits, List.map_cons, run_events_cons, apply_event]
    apply ih
    rw [process_terminated_list, remove_proc_pids]
    exact h.2

/-- when every Process exits, the status of the Job is that of the exit reaped last -/
theorem exits_status : ∀ (xs : List (Int × Int)) (job : job_info) (x : Int × Int),
    (xs.map Prod.fst).Perm (job.proc_info_list.map (fun p => p.pid)) →
    xs.getLast? = some x → (run_events job (exits xs)).status = x.2 := by
  intro xs
  induction xs with
  | nil => intro job x _ h; simp at h
  | cons y xs ih =>
    intro job x h hx
    rw [List.map_cons, List.cons_perm_iff_perm_erase] at h
    simp only [exits, List.map_cons, run_events_cons, apply_event]
    cases xs with
    | nil =>
      simp only [List.getLast?_singleton, Option.some.injEq] at hx
      subst hx
      obtain ⟨p, hp⟩ := find_proc_of_mem h.1
      exact process_terminated_status hp _
    | cons z zs =>
      apply ih
      · rw [process_terminated_list, remove_proc_pids]
        exact h.2
      · simpa using hx

theorem exits_not_killed : ∀ (xs : List (Int × Int)) (job : job_info),
    some_killed job (exits xs) = false := by
  intro xs
  induction xs with
  | nil => intro job; rfl
  | cons x xs ih =>
    intro job
    simp only [exits, List.map_cons, some_killed, Bool.false_or]
    exact ih _

/-- Claim C22 (amended): for a pipeline Job launched successfully whose Processes all exit,
in whatever order `xs` their exits are reaped, the Job is Done once the last exit is reaped
and `Job.status` is the exit status of the Process whose exit was reaped last; it is the
status of the last Process of the pipeline when that Process is the last one to be reaped. -/
theorem job_status_last_reaped (job : job_info) (xs : List (Int × Int)) (x : Int × Int)
    (hn : job.proc_info_list ≠ [])
    (hall : ∀ p ∈ job.proc_info_list, p.state = process_state.XSSH_PROC_STATE_RUNNING)
    (hnr : job.nrunning = (job.proc_info_list.length : Int))
    (hnp : job.nprocs = (job.proc_info_list.length : Int))
    (hst : job.state = job_state.XSSH_JOB_STATE_RUNNING)
    (hperm : (xs.map Prod.fst).Perm (job.proc_info_list.map (fun p => p.pid)))
    (hx : xs.getLast? = some x) :
    (run_events job (exits xs)).state = job_state.XSSH_JOB_STATE_DONE ∧
    (run_events job (exits xs)).status = x.2 ∧
    (∀ p, job.proc_info_list.getLast? = some p → p.pid = x.1 →
      (run_events job (exits xs)).status = x.2) := by
  have h1 := exits_list xs job hperm
  have h2 := exits_status xs job x hperm hx
  obtain ⟨_, _, _, _, h5⟩ :=
    run_events_inv (exits xs) job false (launched_inv hn hall hnr hnp hst)
  refine ⟨?_, h2, fun _ _ _ => h2⟩
  rcases h5 h1 with ⟨_, b⟩ | ⟨a, _⟩
  · rcases last_removed_killed_imp _ _ _ b with h | h
    · cases h
    · rw [exits_not_killed] at h; cases h
  · exact a

theorem job_status_last_reaped_witness :
    (run_events
        (sample_job [sample_proc 5 process_state.XSSH_PROC_STATE_RUNNING,
                     sample_proc 7 process_state.XSSH_PROC_STATE_RUNNING] 2 0
          job_state.XSSH_JOB_STATE_RUNNING)
        (exits [(5, 0), (7, 3)])).state = job_state.XSSH_JOB_STATE_DONE ∧
    (run_events
        (sample_job [sample_proc 5 process_state.XSSH_PROC_STATE_RUNNING,
                     sample_proc 7 process_state.XSSH_PROC_STATE_RUNNING] 2 0
          job_state.XSSH_JOB_STATE_RUNNING)
        (exits [(5, 0), (7, 3)])).status = 3 :=
  have h := job_status_last_reaped
    (sample_job [sample_proc 5 process_state.XSSH_PROC_STATE_RUNNING,
                 sample_proc 7 process_state.XSSH_PROC_STATE_RUNNING] 2 0
      job_state.XSSH_JOB_STATE_RUNNING)
    [(5, 0), (7, 3)] (7, 3)
    (by decide) (by decide) (by decide) (by decide) (by decide) (by decide) (by decide)
  ⟨h.1, h.2.1⟩

/-- Claim C22 as stated fails: in a pipeline of two Processes the last Process (pid 7)
exits first with status 0, the first Process (pid 5) exits after it with status 3; the
Job is Done with status 3, which is not the exit status of the last Process. -/
theorem job_status_last_reaped_counterexample :
    (run_events
        (sample_job [sample_proc 5 process_state.XSSH_PROC_STATE_RUNNING,
                     sample_proc 7 process_state.XSSH_PROC_STATE_RUNNING] 2 0
          job_state.XSSH_JOB_STATE_RUNNING)
        [Event.CLD_EXITED 7 0, Event.CLD_EXITED 5 3]).state =
      job_state.XSSH_JOB_STATE_DONE ∧
    (run_events
        (sample_job [sample_proc 5 process_state.XSSH_PROC_STATE_RUNNING,
                     sample_proc 7 process_state.XSSH_PROC_STATE_RUNNING] 2 0
          job_state.XSSH_JOB_STATE_RUNNING)
        [Event.CLD_EXITED 7 0, Event.CLD_EXITED 5 3]).status = 3 := by
  decide

/-! ## The Launcher when every system call succeeds -/

theorem launched_length (sys : Nat → launch_sys) : ∀ (l : List proc_info) (k : Nat),
    (launched sys k l).length = l.length := by
  intro l
  induction l with
  | nil => intro k; rfl
  | cons p l ih => intro k; simp [launched, ih]

theorem launched_get (sys : Nat → launch_sys) : ∀ (l : List proc_info) (k i : Nat)
    (p : proc_info), (launched sys k l)[i]? = some p →
    p.pid = (sys (k + i)).fork_ret ∧ p.state = process_state.XSSH_PROC_STATE_RUNNING := by
  intro l
  induction l with
  | nil => intro k i p h; simp [launched] at h
  | cons q l ih =>
    intro k i p h
    cases i with
    | zero =>
      simp only [launched, List.getElem?_cons_zero, Option.some.injEq] at h
      subst h
      exact ⟨rfl, rfl⟩
    | succ i =>
      simp only [launched, List.getElem?_cons_succ] at h
      have := ih (k + 1) i p h
      rw [show k + (i + 1) = k + 1 + i by omega]
      exact this

/-- the loop of `execute_job` from iteration `i` on, when the calls made succeed -/
theorem execute_loop_ok (sys : Nat → launch_sys) (end_ : Int) :
    ∀ (todo : List proc_info) (i : Nat) (inprevpipe : Int) (job : job_info)
      (done : List proc_info),
    ((i + todo.length : Nat) : Int) = end_ + 1 →
    (∀ k, k < todo.length → ((i + k : Nat) : Int) < end_ → 0 ≤ (sys (i + k)).pipe_ret) →
    (∀ k, k < todo.length → 0 < (sys (i + k)).fork_ret) →
    (∀ k, k < todo.length → 0 ≤ (sys (i + k)).setpgid_ret) →
    (∀ k, k < todo.length → 0 < i + k → ((i + k : Nat) : Int) < end_ →
      0 ≤ (sys (i + k)).dup2_ret) →
    ∃ job2 : job_info, execute_loop sys end_ i inprevpipe job done todo = some (0, job2) ∧
      job2.proc_info_list = done ++ launched sys i todo ∧
      job2.nrunning = job.nrunning + todo.length ∧
      job2.nprocs = job.nprocs ∧
      job2.pgid = (if i = 0 ∧ todo ≠ [] then (sys 0).fork_ret else job.pgid) ∧
      job2.lastpid =
        (if todo = [] then job.lastpid else (sys (i + todo.length - 1)).fork_ret) := by
  intro todo
  induction todo with
  | nil =>
    intro i inprevpipe job done _ _ _ _ _
    exact ⟨_, rfl, by simp [launched], by simp, rfl, by simp, by simp⟩
  | cons p todo ih =>
    intro i inprevpipe job done hend hpipe hfork hset hdup
    have hend2 : ((i + 1 + todo.length : Nat) : Int) = end_ + 1 := by
      rw [← hend]; simp only [List.length_cons]; push_cast; ring
    have hp0 := hpipe 0 (by simp)
    have hf0 := hfork 0 (by simp)
    have hs0 := hset 0 (by simp)
    have hd0 := hdup 0 (by simp)
    simp only [Nat.add_zero] at hp0 hf0 hs0 hd0
    have hpipe2 : ∀ k, k < todo.length → ((i + 1 + k : Nat) : Int) < end_ →
        0 ≤ (sys (i + 1 + k)).pipe_ret := by
      intro k hk hlt
      have := hpipe (k + 1) (by simp; omega)
      rw [show i + (k + 1) = i + 1 + k by omega] at this
      exact this hlt
    have hfork2 : ∀ k, k < todo.length → 0 < (sys (i + 1 + k)).fork_ret := by
      intro k hk
      have := hfork (k + 1) (by simp; omega)
      rw [show i + (k + 1) = i + 1 + k by omega] at this
      exact this
    have hset2 : ∀ k, k < todo.length → 0 ≤ (sys (i + 1 + k)).setpgid_ret := by
      intro k hk
      have := hset (k + 1) (by simp; omega)
      rw [show i + (k + 1) = i + 1 + k by omega] at this
      exact this
    have hdup2 : ∀ k, k < todo.length → 0 < i + 1 + k → ((i + 1 + k : Nat) : Int) < end_ →
        0 ≤ (sys (i + 1 + k)).dup2_ret := by
      intro k hk hpos hlt
      have := hdup (k + 1) (by simp; omega)
      rw [show i + (k + 1) = i + 1 + k by omega] at this
      exact this hpos hlt
    have c1 : ¬ ((i : Int) < end_ ∧ (sys i).pipe_ret < 0) := by
      intro h
      have := hp0 h.1
      omega
    have c2 : ¬ (sys i).fork_ret < 0 := by omega
    have c3 : ¬ (sys i).fork_ret = 0 := by omega
    have c4 : ¬ ((sys i).setpgid_ret < 0 ∧ (sys i).setpgid_errno ≠ EACCES) := by
      intro h
      omega
    have fin : ∀ (ip : Int) (r : Option (Int × job_info)),
        r = execute_loop sys end_ (i + 1) ip
          { job with pgid := if i ≠ 0 then job.pgid else (sys i).fork_ret,
                     lastpid := (sys i).fork_ret, nrunning := job.nrunning + 1 }
          (done ++ [{ p with pid := (sys i).fork_ret,
                             state := process_state.XSSH_PROC_STATE_RUNNING }]) todo →
        ∃ job2 : job_info, r = some (0, job2) ∧
          job2.proc_info_list = done ++ launched sys i (p :: todo) ∧
          job2.nrunning = job.nrunning + (p :: todo).length ∧
          job2.nprocs = job.nprocs ∧
          job2.pgid = (if i = 0 ∧ p :: todo ≠ [] then (sys 0).fork_ret else job.pgid) ∧
          job2.lastpid =
            (if p :: todo = [] then job.lastpid
             else (sys (i + (p :: todo).length - 1)).fork_ret) := by
      intro ip r hr
      obtain ⟨job2, e, h1, h2, h3, h4, h5⟩ := ih (i + 1) ip _ _ hend2 hpipe2 hfork2 hset2 hdup2
      refine ⟨job2, by rw [hr, e], ?_, ?_, ?_, ?_, ?_⟩
      · rw [h1]; simp [launched]
      · rw [h2]; simp only [List.length_cons]; push_cast; ring
      · rw [h3]
      · rw [h4]
        simp only [Nat.add_one_ne_zero, false_and, ↓reduceIte, ne_eq, reduceCtorEq,
          not_false_eq_true, and_true]
        by_cases hi : i = 0
        · subst hi; simp
        · simp [hi]
      · rw [h5]
        simp only [reduceCtorEq, ↓reduceIte, List.length_cons]
        by_cases ht : todo = []
        · subst ht; simp
        · have : 0 < todo.length := List.length_pos.mpr ht
          simp only [ht, ↓reduceIte]
          congr 2
          omega
    unfold execute_loop
    simp only
    rw [if_neg c1, if_neg c2, if_neg c3, if_neg c4]
    by_cases he : (i : Int) = end_
    · rw [if_pos he]
      exact fin _ _ rfl
    · rw [if_neg he]
      by_cases hi : i > 0
      · rw [if_pos hi]
        have hlt : (i : Int) < end_ := by
          simp only [List.length_cons] at hend
          push_cast at hend
          omega
        have : ¬ (sys i).dup2_ret < 0 := by
          have := hd0 hi hlt
          omega
        rw [if_neg this]
        exact fin _ _ rfl
      · rw [if_neg hi]
        exact fin _ _ rfl

/-- Claim C23: when `execute_job` runs on a parsed Job of `n >= 1` Processes (`nprocs = n`,
no Process counted as running yet) and every `pipe`, `fork`, `setpgid` and `dup2` call the
parent makes succeeds, the forks returning the child pids `(sys i).fork_ret`, then it
returns 0, `pgid` is the pid of the first child, `lastpid` that of the last, Process `i`
has the pid of child `i` and state Running for every `i`, and `nrunning = n = nprocs`. -/
theorem execute_job_success (job : job_info) (sys : Nat → launch_sys)
    (hn : job.proc_info_list ≠ [])
    (hnp : job.nprocs = (job.proc_info_list.length : Int))
    (hnr : job.nrunning = 0)
    (hpipe : ∀ i, i + 1 < job.proc_info_list.length → 0 ≤ (sys i).pipe_ret)
    (hfork : ∀ i, i < job.proc_info_list.length → 0 < (sys i).fork_ret)
    (hset : ∀ i, i < job.proc_info_list.length → 0 ≤ (sys i).setpgid_ret)
    (hdup : ∀ i, 0 < i → i + 1 < job.proc_info_list.length → 0 ≤ (sys i).dup2_ret) :
    ∃ job2 : job_info, execute_job job sys = some (0, job2) ∧
      job2.pgid = (sys 0).fork_ret ∧
      job2.lastpid = (sys (job.proc_info_list.length - 1)).fork_ret ∧
      job2.proc_info_list = launched sys 0 job.proc_info_list ∧
      job2.proc_info_list.length = job.proc_info_list.length ∧
      (∀ (i : Nat) (p : proc_info), job2.proc_info_list[i]? = some p →
        p.pid = (sys i).fork_ret ∧ p.state = process_state.XSSH_PROC_STATE_RUNNING) ∧
      job2.nrunning = (job.proc_info_list.length : Int) ∧
      job2.nprocs = (job.proc_info_list.length : Int) := by
  have hlen : 0 < job.proc_info_list.length := List.length_pos.mpr hn
  obtain ⟨job2, e, h1, h2, h3, h4, h5⟩ :=
    execute_loop_ok sys (job.nprocs - 1) job.proc_info_list 0 0 job []
      (by rw [hnp]; push_cast; ring)
      (fun k hk hlt => by
        rw [Nat.zero_add] at hlt ⊢
        apply hpipe k
        rw [hnp] at hlt
        omega)
      (fun k hk => by rw [Nat.zero_add]; exact hfork k hk)
      (fun k hk => by rw [Nat.zero_add]; exact hset k hk)
      (fun k hk hpos hlt => by
        rw [Nat.zero_add] at hpos hlt ⊢
        apply hdup k hpos
        rw [hnp] at hlt
        omega)
  refine ⟨job2, e, ?_, ?_, ?_, ?_, ?_, ?_, ?_⟩
  · rw [h4]; simp [hn]
  · rw [h5]; simp [hn]
  · rw [h1]; rfl
  · rw [h1, List.nil_append, launched_length]
  · intro i p hp
    rw [h1, List.nil_append] at hp
    have := launched_get sys _ 0 i p hp
    rw [Nat.zero_add] at this
    exact this
  · rw [h2, hnr]; simp
  · rw [h3, hnp]

theorem execute_job_success_witness :
    (execute_job
        (sample_job [sample_proc 0 process_state.XSSH_PROC_STATE_TERMINATED,
                     sample_proc 0 process_state.XSSH_PROC_STATE_TERMINATED,
                     sample_proc 0 process_state.XSSH_PROC_STATE_TERMINATED] 0 0
          job_state.XSSH_JOB_STATE_STOPPED) sample_sys).map
      (fun r => (r.1, r.2.pgid, r.2.lastpid, r.2.nrunning, r.2.nprocs)) =
      some (0, 100, 102, 3, 3) := by
  obtain ⟨job2, e, h1, h2, _, _, _, h6, h7⟩ := execute_job_success
    (sample_job [sample_proc 0 process_state.XSSH_PROC_STATE_TERMINATED,
                 sample_proc 0 process_state.XSSH_PROC_STATE_TERMINATED,
                 sample_proc 0 process_state.XSSH_PROC_STATE_TERMINATED] 0 0
      job_state.XSSH_JOB_STATE_STOPPED) sample_sys
    (by decide) (by decide) (by decide)
    (fun i _ => by simp [sample_sys]) (fun i _ => by simp [sample_sys]; omega)
    (fun i _ => by simp [sample_sys]) (fun i _ _ => by simp [sample_sys])
  rw [e, Option.map_some', h1, h2, h6, h7]
  rfl

/-! ## The job table -/

theorem process_terminated_job_spec (job : job_info) (pid code : Int) :
    (process_terminated job pid code).job_spec = job.job_spec := by
  unfold process_terminated
  cases find_proc pid job.proc_info_list with
  | none => rfl
  | some p =>
    simp only
    cases hs : p.state <;> simp only [reduceCtorEq, ↓reduceIte] <;> split_ifs <;> rfl

theorem process_killed_job_spec (job : job_info) (pid code : Int) :
    (process_killed job pid code).job_spec = job.job_spec := by
  unfold process_killed
  cases find_proc pid job.proc_info_list with
  | none => rfl
  | some p =>
    simp only
    cases hs : p.state <;> simp only [reduceCtorEq, ↓reduceIte] <;> split_ifs <;> rfl

theorem process_stopped_job_spec (job : job_info) (pid : Int) :
    (process_stopped job pid).job_spec = job.job_spec := by
  unfold process_stopped
  cases find_proc pid job.proc_info_list with
  | none => rfl
  | some p =>
    simp only
    cases hs : p.state <;> simp only [reduceCtorEq, ↓reduceIte] <;> split_ifs <;> rfl

theorem process_continued_job_spec (job : job_info) (pid : Int) :
    (process_continued job pid).job_spec = job.job_spec := by
  unfold process_continued
  cases find_proc pid job.proc_info_list with
  | none => rfl
  | some p =>
    simp only
    cases hs : p.state <;> simp only [reduceCtorEq, ↓reduceIte] <;> split_ifs <;> rfl

theorem apply_event_job_spec (job : job_info) (e : Event) :
    (apply_event job e).job_spec = job.job_spec := by
  cases e with
  | CLD_EXITED pid st => exact process_terminated_job_spec job pid st
  | CLD_KILLED pid st => exact process_killed_job_spec job pid st
  | CLD_STOPPED pid => exact process_stopped_job_spec job pid
  | CLD_CONTINUED pid => exact process_continued_job_spec job pid

theorem drain_job_spec : ∀ (rs : List wait_result) (job : job_info),
    (drain job rs).1.job_spec = job.job_spec := by
  intro rs
  induction rs with
  | nil => intro job; rfl
  | cons r rs ih =>
    intro job
    cases r with
    | echild => rfl
    | failed => rfl
    | nothing => rfl
    | status e =>
      simp only [drain]
      split_ifs
      · exact apply_event_job_spec job e
      · exact apply_event_job_spec job e
      · rw [ih]; exact apply_event_job_spec job e
    | other si_pid =>
      simp only [drain]
      split_ifs
      · rfl
      · rfl
      · exact ih job

/-- the job-specs of the table that the sweep leaves are, in the same order, among those of
the table it was given -/
theorem sweep_job_specs : ∀ (after before : List job_info) (pending : List (List wait_result))
    (visited : List job_info) (r : List job_info × List job_info),
    sweep before after pending visited = Outcome.ret r →
    (r.1.map (fun j => j.job_spec)).Sublist ((before ++ after).map (fun j => j.job_spec)) := by
  intro after
  induction after with
  | nil =>
    intro before pending visited r h
    simp only [sweep, Outcome.ret.injEq] at h
    subst h
    simp
  | cons job after ih =>
    intro before pending visited r h
    simp only [sweep] at h
    by_cases hr : (drain job (pending.headD [])).2 = true
    · rw [if_pos hr] at h
      by_cases hb : before.isEmpty = true
      · rw [if_pos hb] at h
        by_cases ha : after.isEmpty = true
        · rw [if_pos ha] at h; cases h
        · rw [if_neg ha] at h
          simp only [Outcome.ret.injEq] at h
          subst h
          simp only [List.map_append, List.map_cons]
          exact List.Sublist.trans (List.sublist_cons_self _ _) (List.sublist_append_right _ _)
      · rw [if_neg hb] at h
        have := ih before pending.tail _ r h
        refine List.Sublist.trans this ?_
        simp only [List.map_append, List.map_cons]
        exact List.Sublist.append_left (List.sublist_cons_self _ _) _
    · rw [if_neg hr] at h
      have := ih (before ++ [(drain job (pending.headD [])).1]) pending.tail _ r h
      simpa [drain_job_spec] using this

theorem find_job_none {n : Int} : ∀ {l : List job_info},
    find_job n l = none ↔ ∀ j ∈ l, j.job_spec ≠ n := by
  intro l
  induction l with
  | nil => simp [find_job]
  | cons j l ih =>
    by_cases hj : j.job_spec = n
    · simp [find_job, hj]
    · simp [find_job, hj, ih]

/-- the Job that `fg` and `bg` find is the first of the table with the job-spec -/
theorem find_job_split {n : Int} {J : job_info} : ∀ {l1 l2 : List job_info},
    J.job_spec = n → (∀ j ∈ l1, j.job_spec ≠ n) →
    find_job n (l1 ++ J :: l2) = some J ∧ remove_job n (l1 ++ J :: l2) = l1 ++ l2 := by
  intro l1
  induction l1 with
  | nil => intro l2 hJ _; simp [find_job, remove_job, hJ]
  | cons j l1 ih =>
    intro l2 hJ hfirst
    have hj : j.job_spec ≠ n := hfirst j (by simp)
    have := @ih l2 hJ (fun k hk => hfirst k (by simp [hk]))
    simp [find_job, remove_job, hj, this]

theorem find_job_some {n : Int} : ∀ {l : List job_info} {J : job_info},
    find_job n l = some J →
    ∃ l1 l2, l = l1 ++ J :: l2 ∧ J.job_spec = n ∧ ∀ j ∈ l1, j.job_spec ≠ n := by
  intro l
  induction l with
  | nil => intro J h; simp [find_job] at h
  | cons j l ih =>
    intro J h
    by_cases hj : j.job_spec = n
    · simp only [find_job, hj, ↓reduceIte, Option.some.injEq] at h
      subst h
      exact ⟨[], l, rfl, hj, by simp⟩
    · simp only [find_job, hj, ↓reduceIte] at h
      obtain ⟨l1, l2, e, h1, h2⟩ := ih h
      refine ⟨j :: l1, l2, by rw [e]; rfl, h1, ?_⟩
      intro k hk
      simp only [List.mem_cons] at hk
      rcases hk with e2 | e2
      · rw [e2]; exact hj
      · exact h2 k e2

/-! ### The operations on the table, field by field -/

/-- the state that `send_job_to_bg` leaves, when the Job has no job-spec yet -/
theorem send_job_to_bg_fresh (s : shell_state) (job : job_info) (resume : Bool)
    (h : job.job_spec = 0) :
    send_job_to_bg s job resume =
      { s with
        varvalue_2 := some job.pgid
        max_bg_job_index := s.max_bg_job_index + 1
        last_bg_job_index := s.max_bg_job_index + 1
        bg_jobs := s.bg_jobs ++
          [{ job with job_spec := s.max_bg_job_index + 1, background := true }]
        sigcont := if resume then s.sigcont ++ [job.pgid] else s.sigcont } := by
  unfold send_job_to_bg resume_job
  cases resume <;> simp [h]

/-- the state that `send_job_to_bg` leaves, when the Job has a job-spec -/
theorem send_job_to_bg_kept (s : shell_state) (job : job_info) (resume : Bool)
    (h : job.job_spec ≠ 0) :
    send_job_to_bg s job resume =
      { s with
        varvalue_2 := some job.pgid
        last_bg_job_index := job.job_spec
        bg_jobs := s.bg_jobs ++ [{ job with background := true }]
        sigcont := if resume then s.sigcont ++ [job.pgid] else s.sigcont } := by
  unfold send_job_to_bg resume_job
  cases resume <;> simp [h]

theorem table_inv_send {s : shell_state} (h : TableInv s) (job : job_info) (resume : Bool)
    (hjob : job.job_spec ≠ 0 → (1 ≤ job.job_spec ∧ job.job_spec ≤ s.max_bg_job_index) ∧
      ∀ k ∈ s.bg_jobs, k.job_spec ≠ job.job_spec)
    (hfg : ∀ f, s.fg_job = some f → f.job_spec ≠ 0 → f.job_spec ≠ job.job_spec) :
    TableInv (send_job_to_bg s job resume) := by
  by_cases h0 : job.job_spec = 0
  · rw [send_job_to_bg_fresh s job resume h0]
    refine ⟨?_, ?_, ?_, ?_, ?_⟩
    · intro j hj
      simp only [List.mem_append, List.mem_singleton] at hj
      rcases hj with hj | hj
      · have := h.range j hj
        exact ⟨this.1, by show j.job_spec ≤ s.max_bg_job_index + 1; omega⟩
      · subst hj
        have := h.max_nonneg
        exact ⟨by show 1 ≤ s.max_bg_job_index + 1; omega, le_refl _⟩
    · simp only [List.map_append, List.map_cons, List.map_nil]
      rw [List.nodup_append]
      refine ⟨h.nodup, by simp, ?_⟩
      intro a ha hb
      simp only [List.mem_map] at ha
      obtain ⟨j, hj, e⟩ := ha
      simp only [List.mem_singleton] at hb
      have := (h.range j hj).2
      omega
    · intro f hf hne
      have := h.fg_range f hf hne
      exact ⟨this.1, by show f.job_spec ≤ s.max_bg_job_index + 1; omega⟩
    · intro f hf hne k hk
      simp only [List.mem_append, List.mem_singleton] at hk
      rcases hk with hk | hk
      · exact h.fg_fresh f hf hne k hk
      · subst hk
        have := (h.fg_range f hf hne).2
        show s.max_bg_job_index + 1 ≠ f.job_spec
        omega
    · have := h.max_nonneg
      show 0 ≤ s.max_bg_job_index + 1
      omega
  · rw [send_job_to_bg_kept s job resume h0]
    obtain ⟨hr, hfresh⟩ := hjob h0
    refine ⟨?_, ?_, ?_, ?_, h.max_nonneg⟩
    · intro j hj
      simp only [List.mem_append, List.mem_singleton] at hj
      rcases hj with hj | hj
      · exact h.range j hj
      · subst hj; exact hr
    · simp only [List.map_append, List.map_cons, List.map_nil]
      rw [List.nodup_append]
      refine ⟨h.nodup, by simp, ?_⟩
      intro a ha hb
      simp only [List.mem_map] at ha
      obtain ⟨j, hj, e⟩ := ha
      simp only [List.mem_singleton] at hb
      exact hfresh j hj (by rw [e, hb])
    · intro f hf hne
      exact h.fg_range f hf hne
    · intro f hf hne k hk
      simp only [List.mem_append, List.mem_singleton] at hk
      rcases hk with hk | hk
      · exact h.fg_fresh f hf hne k hk
      · subst hk
        exact fun e => hfg f hf hne e.symm

/-- the invariant of the table carries over to a state with the same counter whose
foreground slot is empty or holds a Job with the job-spec of the old one, and whose table has
job-specs that are, in the same order, among those of the old table -/
theorem table_inv_sub {s t : shell_state} (h : TableInv s)
    (hsub : (t.bg_jobs.map (fun j => j.job_spec)).Sublist
      (s.bg_jobs.map (fun j => j.job_spec)))
    (hmax : t.max_bg_job_index = s.max_bg_job_index)
    (hfg : t.fg_job = none ∨
      ∃ f g, s.fg_job = some f ∧ t.fg_job = some g ∧ g.job_spec = f.job_spec) :
    TableInv t := by
  have hmem : ∀ k ∈ t.bg_jobs, ∃ j ∈ s.bg_jobs, j.job_spec = k.job_spec := by
    intro k hk
    have : k.job_spec ∈ s.bg_jobs.map (fun j => j.job_spec) :=
      hsub.subset (List.mem_map_of_mem _ hk)
    simpa using this
  refine ⟨?_, hsub.nodup h.nodup, ?_, ?_, by rw [hmax]; exact h.max_nonneg⟩
  · intro k hk
    obtain ⟨j, hj, e⟩ := hmem k hk
    rw [hmax, ← e]
    exact h.range j hj
  · intro g hg hne
    rcases hfg with e | ⟨f, g2, e1, e2, e3⟩
    · rw [e] at hg; cases hg
    · rw [e2] at hg
      cases hg
      rw [hmax, e3]
      exact h.fg_range f e1 (by rw [← e3]; exact hne)
  · intro g hg hne k hk
    rcases hfg with e | ⟨f, g2, e1, e2, e3⟩
    · rw [e] at hg; cases hg
    · rw [e2] at hg
      cases hg
      obtain ⟨j, hj, e⟩ := hmem k hk
      rw [← e, e3]
      exact h.fg_fresh f e1 (by rw [← e3]; exact hne) j hj

theorem table_inv_init (pgrp : Int) : TableInv (shell_state.init pgrp) :=
  ⟨by simp [shell_state.init], by simp [shell_state.init], by simp [shell_state.init],
   by simp [shell_state.init], by simp [shell_state.init]⟩

theorem table_inv_launch {s : shell_state} (h : TableInv s) (job : job_info) (retval : Int)
    (h0 : job.job_spec = 0) : TableInv (main_after_launch s job retval) := by
  unfold main_after_launch
  simp only
  split_ifs
  · apply table_inv_send h
    · intro hne; exact absurd h0 hne
    · intro f _ hne; rw [h0]; exact hne
  · refine ⟨h.range, h.nodup, ?_, ?_, h.max_nonneg⟩
    · intro f hf hne
      simp only [Option.some.injEq] at hf
      subst hf
      exact absurd h0 hne
    · intro f hf hne
      simp only [Option.some.injEq] at hf
      subst hf
      exact absurd h0 hne

theorem table_inv_var {s : shell_state} (h : TableInv s) (v : Option Int) :
    TableInv { s with varvalue_1 := v } :=
  ⟨h.range, h.nodup, h.fg_range, h.fg_fresh, h.max_nonneg⟩

/-- the table around the Job found, in a state that satisfies the invariant -/
theorem table_inv_split {s : shell_state} (h : TableInv s) {l1 l2 : List job_info}
    {J : job_info} (e : s.bg_jobs = l1 ++ J :: l2) :
    (1 ≤ J.job_spec ∧ J.job_spec ≤ s.max_bg_job_index) ∧
    ∀ k ∈ l1 ++ l2, k.job_spec ≠ J.job_spec := by
  refine ⟨h.range J (by rw [e]; simp), ?_⟩
  have hn := h.nodup
  rw [e] at hn
  simp only [List.map_append, List.map_cons] at hn
  have hn2 := List.nodup_middle.mp hn
  rw [List.nodup_cons] at hn2
  intro k hk e2
  apply hn2.1
  rw [← e2, ← List.map_append]
  exact List.mem_map_of_mem _ hk

theorem table_inv_fg {s t : shell_state} (h : TableInv s) (buffer : List Char)
    (e : fg s buffer = some t) : TableInv t := by
  unfold fg at e
  cases ha : job_spec_arg s buffer with
  | none => rw [ha] at e; cases e
  | some n =>
    rw [ha] at e
    simp only at e
    cases hf : find_job n s.bg_jobs with
    | none =>
      rw [hf] at e
      simp only [Option.some.injEq] at e
      subst e
      exact table_inv_var h _
    | some J =>
      rw [hf] at e
      simp only [Option.some.injEq] at e
      subst e
      obtain ⟨l1, l2, el, hJ, hfirst⟩ := find_job_some hf
      have hrem : remove_job n s.bg_jobs = l1 ++ l2 := by
        rw [el]; exact (find_job_split hJ hfirst).2
      obtain ⟨hr, hfresh⟩ := table_inv_split h el
      unfold bring_job_to_fg resume_job
      simp only
      rw [hrem]
      have hsub : (l1 ++ l2).Sublist s.bg_jobs := by
        rw [el]
        exact List.Sublist.append_left (List.sublist_cons_self _ _) _
      refine ⟨fun j hj => h.range j (hsub.subset hj), (hsub.map _).nodup h.nodup, ?_, ?_,
        h.max_nonneg⟩
      · intro f hf2 _
        simp only [Option.some.injEq] at hf2
        subst hf2
        exact hr
      · intro f hf2 _ k hk
        simp only [Option.some.injEq] at hf2
        subst hf2
        exact hfresh k hk

theorem table_inv_bg {s t : shell_state} (h : TableInv s) (buffer : List Char)
    (e : bg s buffer = some t) : TableInv t := by
  unfold bg at e
  cases ha : job_spec_arg s buffer with
  | none => rw [ha] at e; cases e
  | some n =>
    rw [ha] at e
    simp only at e
    cases hf : find_job n s.bg_jobs with
    | none =>
      rw [hf] at e
      simp only [Option.some.injEq] at e
      subst e
      exact table_inv_var h _
    | some J =>
      rw [hf] at e
      simp only [Option.some.injEq] at e
      subst e
      obtain ⟨l1, l2, el, hJ, hfirst⟩ := find_job_some hf
      have hrem : remove_job n s.bg_jobs = l1 ++ l2 := by
        rw [el]; exact (find_job_split hJ hfirst).2
      obtain ⟨hr, hfresh⟩ := table_inv_split h el
      rw [hrem]
      apply table_inv_var
      have hsub : (l1 ++ l2).Sublist s.bg_jobs := by
        rw [el]
        exact List.Sublist.append_left (List.sublist_cons_self _ _) _
      have h1 : TableInv { s with bg_jobs := l1 ++ l2 } :=
        ⟨fun j hj => h.range j (hsub.subset hj), (hsub.map _).nodup h.nodup, h.fg_range,
          fun f hf2 hne k hk => h.fg_fresh f hf2 hne k (hsub.subset hk), h.max_nonneg⟩
      apply table_inv_send h1
      · intro _; exact ⟨hr, hfresh⟩
      · intro f hf2 hne e2
        exact h.fg_fresh f hf2 hne J (by rw [el]; simp) e2.symm

theorem table_inv_stopped {s : shell_state} (h : TableInv s) : TableInv (fg_job_stopped s) := by
  unfold fg_job_stopped
  cases hf : s.fg_job with
  | none =>
    simp only [bring_job_to_fg]
    exact ⟨h.range, h.nodup, by simp, by simp, h.max_nonneg⟩
  | some j =>
    simp only [bring_job_to_fg]
    have h1 : TableInv { s with fg_job := none } :=
      ⟨h.range, h.nodup, by simp, by simp, h.max_nonneg⟩
    have h2 : TableInv (send_job_to_bg { s with fg_job := none } j false) := by
      apply table_inv_send h1
      · intro hne
        exact ⟨h.fg_range j hf hne, fun k hk => h.fg_fresh j hf hne k hk⟩
      · intro f hf2; simp at hf2
    by_cases h0 : j.job_spec = 0
    · rw [send_job_to_bg_fresh _ _ _ h0] at h2 ⊢
      exact ⟨h2.range, h2.nodup, by simp, by simp, h2.max_nonneg⟩
    · rw [send_job_to_bg_kept _ _ _ h0] at h2 ⊢
      exact ⟨h2.range, h2.nodup, by simp, by simp, h2.max_nonneg⟩

theorem table_inv_terminated {s : shell_state} (h : TableInv s) :
    TableInv (fg_job_terminated s) := by
  unfold fg_job_terminated
  cases hf : s.fg_job with
  | none =>
    simp only [bring_job_to_fg]
    exact ⟨h.range, h.nodup, by simp, by simp, h.max_nonneg⟩
  | some j =>
    simp only [bring_job_to_fg]
    by_cases hc : j.job_spec ≠ 0 ∧ s.bg_jobs.isEmpty = true
    · rw [if_pos hc]
      have he : s.bg_jobs = [] := List.isEmpty_iff.mp hc.2
      exact ⟨by simp [he], by simp [he], by simp, by simp, by simp⟩
    · rw [if_neg hc]
      exact ⟨h.range, h.nodup, by simp, by simp, h.max_nonneg⟩

theorem table_inv_event {s : shell_state} (h : TableInv s) (e : Event) :
    TableInv { s with fg_job := s.fg_job.map (fun j => apply_event j e) } := by
  refine table_inv_sub h ?_ rfl ?_
  · exact List.Sublist.refl _
  cases hf : s.fg_job with
  | none => left; rfl
  | some f => right; exact ⟨f, apply_event f e, rfl, rfl, apply_event_job_spec f e⟩

theorem table_inv_swept {s t : shell_state} (h : TableInv s)
    (pending : List (List wait_result)) (e : wait_background_job s pending = Outcome.ret t) :
    TableInv t := by
  unfold wait_background_job at e
  cases hs : sweep [] s.bg_jobs pending [] with
  | fault => rw [hs] at e; cases e
  | ret r =>
    rw [hs] at e
    simp only [Outcome.ret.injEq] at e
    subst e
    have hsub := sweep_job_specs s.bg_jobs [] pending [] r hs
    rw [List.nil_append] at hsub
    refine table_inv_sub h ?_ rfl ?_
    · exact hsub
    cases hf : s.fg_job with
    | none => left; rfl
    | some f => right; exact ⟨f, f, rfl, rfl, rfl⟩

/-- the invariant of the table holds in every state that a session reaches -/
theorem reachable_table_inv {s : shell_state} (h : Reachable s) : TableInv s := by
  induction h with
  | init pgrp => exact table_inv_init pgrp
  | launch job retval _ h0 ih => exact table_inv_launch ih job retval h0
  | fg buffer _ e ih => exact table_inv_fg ih buffer e
  | bg buffer _ e ih => exact table_inv_bg ih buffer e
  | stopped _ ih => exact table_inv_stopped ih
  | terminated _ ih => exact table_inv_terminated ih
  | event e _ ih => exact table_inv_event ih e
  | swept pending _ e ih => exact table_inv_swept ih pending e

/-! ## Properties of the job table -/

/-- Claim C24: `send_job_to_bg` on a Job whose `job_spec` is 0 sets `job_spec` to the
previous `max_bg_job_index + 1` and stores that value in `max_bg_job_index`; on a Job that
has a non-zero `job_spec` it leaves `job_spec` and `max_bg_job_index` unchanged. In both
cases the Job is appended at the tail of the background table with its background flag set,
and `last_bg_job_index` becomes the `job_spec` of the Job. -/
theorem send_job_to_bg_table (s : shell_state) (job : job_info) (resume : Bool) :
    (job.job_spec = 0 →
      (send_job_to_bg s job resume).bg_jobs =
        s.bg_jobs ++ [{ job with job_spec := s.max_bg_job_index + 1, background := true }] ∧
      (send_job_to_bg s job resume).max_bg_job_index = s.max_bg_job_index + 1 ∧
      (send_job_to_bg s job resume).last_bg_job_index = s.max_bg_job_index + 1) ∧
    (job.job_spec ≠ 0 →
      (send_job_to_bg s job resume).bg_jobs = s.bg_jobs ++ [{ job with background := true }] ∧
      (send_job_to_bg s job resume).max_bg_job_index = s.max_bg_job_index ∧
      (send_job_to_bg s job resume).last_bg_job_index = job.job_spec) ∧
    (send_job_to_bg s job resume).fg_job = s.fg_job := by
  refine ⟨?_, ?_, ?_⟩
  · intro h
    rw [send_job_to_bg_fresh s job resume h]
    exact ⟨rfl, rfl, rfl⟩
  · intro h
    rw [send_job_to_bg_kept s job resume h]
    exact ⟨rfl, rfl, rfl⟩
  · by_cases h : job.job_spec = 0
    · rw [send_job_to_bg_fresh s job resume h]
    · rw [send_job_to_bg_kept s job resume h]

theorem send_job_to_bg_table_witness :
    (send_job_to_bg (shell_state.init 1) (sample_launched 100 true) false).bg_jobs =
      [{ sample_launched 100 true with job_spec := 1 }] ∧
    (send_job_to_bg (shell_state.init 1) (sample_launched 100 true) false).max_bg_job_index
      = 1 ∧
    (send_job_to_bg (shell_state.init 1) (sample_launched 100 true) false).last_bg_job_index
      = 1 :=
  (send_job_to_bg_table (shell_state.init 1) (sample_launched 100 true) false).1 (by decide)

/-- Claim C27: for `fg` and `bg` given a job-spec that matches no Job of the background table
(also when the line has no argument and `last_bg_job_index` matches none), the call returns
and the state is unchanged but for the variable `?`, which is set to 1: the table, the
foreground slot, `max_bg_job_index` and `last_bg_job_index` are as before. -/
theorem fg_bg_no_such_job (s : shell_state) (fg_line bg_line : List Char) (n : Int)
    (hfg : job_spec_arg s fg_line = some n) (hbg : job_spec_arg s bg_line = some n)
    (hnone : ∀ j ∈ s.bg_jobs, j.job_spec ≠ n) :
    fg s fg_line = some { s with varvalue_1 := some 1 } ∧
    bg s bg_line = some { s with varvalue_1 := some 1 } ∧
    ({ s with varvalue_1 := some 1 } : shell_state).bg_jobs = s.bg_jobs ∧
    ({ s with varvalue_1 := some 1 } : shell_state).fg_job = s.fg_job ∧
    ({ s with varvalue_1 := some 1 } : shell_state).max_bg_job_index = s.max_bg_job_index ∧
    ({ s with varvalue_1 := some 1 } : shell_state).last_bg_job_index =
      s.last_bg_job_index := by
  have hf := find_job_none.mpr hnone
  refine ⟨?_, ?_, rfl, rfl, rfl, rfl⟩
  · unfold fg; rw [hfg]; simp only; rw [hf]
  · unfold bg; rw [hbg]; simp only; rw [hf]

theorem fg_bg_no_such_job_witness :
    fg (send_job_to_bg (shell_state.init 1) (sample_launched 100 true) false) "fg 7".toList =
      some { send_job_to_bg (shell_state.init 1) (sample_launched 100 true) false with
             varvalue_1 := some 1 } ∧
    bg (send_job_to_bg (shell_state.init 1) (sample_launched 100 true) false) "bg 7".toList =
      some { send_job_to_bg (shell_state.init 1) (sample_launched 100 true) false with
             varvalue_1 := some 1 } :=
  have h := fg_bg_no_such_job
    (send_job_to_bg (shell_state.init 1) (sample_launched 100 true) false)
    "fg 7".toList "bg 7".toList 7 (by decide) (by decide) (by decide)
  ⟨h.1, h.2.1⟩

/-- Claim C28: `fg_job_stopped` with an occupied foreground slot makes the foreground Job the
last entry of the background table, with the job-spec `max_bg_job_index + 1` if its
`job_spec` was 0 and with its own `job_spec` otherwise, and with its background flag set;
`last_bg_job_index` becomes its job-spec and the foreground slot is empty afterwards. -/
theorem fg_job_stopped_table (s : shell_state) (j : job_info) (hfg : s.fg_job = some j) :
    (fg_job_stopped s).bg_jobs =
      s.bg_jobs ++
        [{ j with job_spec := if j.job_spec = 0 then s.max_bg_job_index + 1 else j.job_spec,
                  background := true }] ∧
    (fg_job_stopped s).last_bg_job_index =
      (if j.job_spec = 0 then s.max_bg_job_index + 1 else j.job_spec) ∧
    (fg_job_stopped s).max_bg_job_index =
      (if j.job_spec = 0 then s.max_bg_job_index + 1 else s.max_bg_job_index) ∧
    (fg_job_stopped s).fg_job = none ∧
    (fg_job_stopped s).tty_pgrp = s.pgrp := by
  unfold fg_job_stopped
  rw [hfg]
  simp only [bring_job_to_fg]
  by_cases h : j.job_spec = 0
  · rw [send_job_to_bg_fresh s j false h]
    simp [h]
  · rw [send_job_to_bg_kept s j false h]
    simp [h]

theorem fg_job_stopped_table_witness :
    (fg_job_stopped
        { shell_state.init 1 with fg_job := some (sample_launched 100 false) }).bg_jobs =
      [{ sample_launched 100 false with job_spec := 1, background := true }] ∧
    (fg_job_stopped
        { shell_state.init 1 with fg_job := some (sample_launched 100 false) }).fg_job =
      none :=
  have h := fg_job_stopped_table
    { shell_state.init 1 with fg_job := some (sample_launched 100 false) }
    (sample_launched 100 false) rfl
  ⟨h.1, h.2.2.2.1⟩

/-! ### `fg` and `bg` on a Job of the table -/

/-- the state that `fg` leaves when `J` is the first Job of the table with the job-spec -/
theorem fg_first (s : shell_state) (buffer : List Char) (n : Int) (l1 l2 : List job_info)
    (J : job_info) (harg : job_spec_arg s buffer = some n) (el : s.bg_jobs = l1 ++ J :: l2)
    (hJ : J.job_spec = n) (hfirst : ∀ j ∈ l1, j.job_spec ≠ n) :
    fg s buffer =
      some { s with
        bg_jobs := l1 ++ l2
        fg_job := some { J with background := false }
        tty_pgrp := J.pgid
        sigcont := s.sigcont ++ [J.pgid]
        varvalue_1 := some 0 } := by
  obtain ⟨h1, h2⟩ := @find_job_split n J l1 l2 hJ hfirst
  rw [← el] at h1 h2
  unfold fg
  rw [harg]
  simp only
  rw [h1]
  simp only [bring_job_to_fg, resume_job, h2]

/-- the state that `bg` leaves when `J` is the first Job of the table with the job-spec,
which is not 0 -/
theorem bg_first (s : shell_state) (buffer : List Char) (n : Int) (l1 l2 : List job_info)
    (J : job_info) (harg : job_spec_arg s buffer = some n) (el : s.bg_jobs = l1 ++ J :: l2)
    (hJ : J.job_spec = n) (hfirst : ∀ j ∈ l1, j.job_spec ≠ n) (h0 : n ≠ 0) :
    bg s buffer =
      some { s with
        bg_jobs := l1 ++ l2 ++ [{ J with background := true }]
        last_bg_job_index := n
        varvalue_2 := some J.pgid
        sigcont := s.sigcont ++ [J.pgid]
        varvalue_1 := some 0 } := by
  obtain ⟨h1, h2⟩ := @find_job_split n J l1 l2 hJ hfirst
  rw [← el] at h1 h2
  unfold bg
  rw [harg]
  simp only
  rw [h1]
  simp only
  rw [send_job_to_bg_kept _ _ _ (by rw [hJ]; exact h0), h2, hJ]
  rfl

/-- Claim C29: `fg n` in a state of a session in which the Job `J` with job-spec `n` is in
the background table removes `J` from the table, the other Jobs staying in their order (the
table `l1 ++ J :: l2` becomes `l1 ++ l2`, in which no Job has the job-spec `n`), and makes it
the foreground Job with its background flag cleared and its `job_spec` still `n`; the
terminal goes to its process group and the group is sent `SIGCONT`. So `bg n` followed by
`fg n` leaves the Job in the foreground slot and absent from the table. -/
theorem fg_found (s : shell_state) (buffer : List Char) (n : Int) (J : job_info)
    (hs : Reachable s) (harg : job_spec_arg s buffer = some n)
    (hJ : J ∈ s.bg_jobs) (hn : J.job_spec = n) :
    ∃ l1 l2 : List job_info, s.bg_jobs = l1 ++ J :: l2 ∧
      (∀ j ∈ l1 ++ l2, j.job_spec ≠ n) ∧
      (∃ t, fg s buffer = some t ∧
        t.bg_jobs = l1 ++ l2 ∧
        t.fg_job = some { J with background := false } ∧
        (t.fg_job.map (fun j => j.job_spec)) = some n ∧
        t.tty_pgrp = J.pgid ∧
        t.sigcont = s.sigcont ++ [J.pgid] ∧
        t.max_bg_job_index = s.max_bg_job_index ∧
        t.last_bg_job_index = s.last_bg_job_index) ∧
      (∀ bg_line fg_line : List Char, job_spec_arg s bg_line = some n →
        ∃ t1, bg s bg_line = some t1 ∧
          (job_spec_arg t1 fg_line = some n →
            ∃ t2, fg t1 fg_line = some t2 ∧
              t2.fg_job = some { J with background := false } ∧
              t2.bg_jobs = l1 ++ l2)) := by
  obtain ⟨l1, l2, el⟩ := List.append_of_mem hJ
  have hinv := reachable_table_inv hs
  obtain ⟨hr, hfresh⟩ := table_inv_split hinv el
  rw [hn] at hr hfresh
  have hfirst : ∀ j ∈ l1, j.job_spec ≠ n := fun j hj => hfresh j (by simp [hj])
  refine ⟨l1, l2, el, hfresh, ?_, ?_⟩
  · refine ⟨_, fg_first s buffer n l1 l2 J harg el hn hfirst, rfl, rfl, ?_, rfl, rfl, rfl,
      rfl⟩
    simp [hn]
  · intro bg_line fg_line hbg
    have h0 : n ≠ 0 := by omega
    refine ⟨_, bg_first s bg_line n l1 l2 J hbg el hn hfirst h0, ?_⟩
    intro hfg
    have e := fg_first _ fg_line n (l1 ++ l2) [] { J with background := true } hfg
      (by simp) hn hfresh
    refine ⟨_, e, rfl, ?_⟩
    simp

theorem fg_found_witness :
    (fg (main_after_launch (shell_state.init 1) (sample_launched 100 true) 0)
        "fg 1".toList).map (fun t => t.fg_job.map (fun j => j.job_spec)) = some (some 1) := by
  obtain ⟨l1, l2, _, _, ⟨t, e, _, _, h3, _⟩, _⟩ := fg_found
    (main_after_launch (shell_state.init 1) (sample_launched 100 true) 0) "fg 1".toList 1
    { sample_launched 100 true with
      job_spec := 1, state := job_state.XSSH_JOB_STATE_RUNNING }
    (Reachable.launch _ 0 (Reachable.init 1) rfl) (by decide) (by decide) (by decide)
  rw [e, Option.map_some', h3]

/-- Claim C30: `bg n` in a state of a session in which the Job `J` with job-spec `n` is in
the background table leaves the same Jobs in the table: `J`, with `job_spec` `n` and the
background flag set, is its last entry and the only one with the job-spec `n`, and the
other Jobs are as before, in their order. The foreground slot and `max_bg_job_index` are
unchanged and `last_bg_job_index` is `n`; the process group of `J` is sent `SIGCONT` and the
terminal is not touched. -/
theorem bg_found (s : shell_state) (buffer : List Char) (n : Int) (J : job_info)
    (hs : Reachable s) (harg : job_spec_arg s buffer = some n)
    (hJ : J ∈ s.bg_jobs) (hn : J.job_spec = n) :
    ∃ l1 l2 : List job_info, s.bg_jobs = l1 ++ J :: l2 ∧
      (∀ j ∈ l1 ++ l2, j.job_spec ≠ n) ∧
      ∃ t, bg s buffer = some t ∧
        t.bg_jobs = l1 ++ l2 ++ [{ J with background := true }] ∧
        (t.bg_jobs.map (fun j => j.job_spec)).Perm (s.bg_jobs.map (fun j => j.job_spec)) ∧
        t.bg_jobs.filter (fun j => j.job_spec = n) = [{ J with background := true }] ∧
        t.fg_job = s.fg_job ∧
        t.max_bg_job_index = s.max_bg_job_index ∧
        t.last_bg_job_index = n ∧
        t.tty_pgrp = s.tty_pgrp ∧
        t.sigcont = s.sigcont ++ [J.pgid] := by
  obtain ⟨l1, l2, el⟩ := List.append_of_mem hJ
  have hinv := reachable_table_inv hs
  obtain ⟨hr, hfresh⟩ := table_inv_split hinv el
  rw [hn] at hr hfresh
  have hfirst : ∀ j ∈ l1, j.job_spec ≠ n := fun j hj => hfresh j (by simp [hj])
  have h0 : n ≠ 0 := by omega
  refine ⟨l1, l2, el, hfresh, _, bg_first s buffer n l1 l2 J harg el hn hfirst h0, rfl, ?_, ?_,
    rfl, rfl, rfl, rfl, rfl⟩
  · rw [el]
    simp only [List.map_append, List.map_cons, List.map_nil, List.append_assoc]
    exact (List.perm_append_left_iff _).mpr (List.perm_append_singleton _ _)
  · simp only [List.filter_append, List.filter_cons, List.filter_nil, hn, decide_True,
      ↓reduceIte]
    have : (l1 ++ l2).filter (fun j => decide (j.job_spec = n)) = [] := by
      rw [List.filter_eq_nil_iff]
      intro j hj
      simpa using hfresh j hj
    rw [← List.filter_append, this]
    rfl

theorem bg_found_witness :
    (bg (main_after_launch (shell_state.init 1) (sample_launched 100 true) 0)
        "bg 1".toList).map
      (fun t => (t.bg_jobs.map (fun j => j.job_spec), t.last_bg_job_index,
        t.max_bg_job_index, t.fg_job)) = some ([1], 1, 1, none) := by
  obtain ⟨l1, l2, el, _, t, e, _, h2, _, h4, h5, h6, _⟩ := bg_found
    (main_after_launch (shell_state.init 1) (sample_launched 100 true) 0) "bg 1".toList 1
    { sample_launched 100 true with
      job_spec := 1, state := job_state.XSSH_JOB_STATE_RUNNING }
    (Reachable.launch _ 0 (Reachable.init 1) rfl) (by decide) (by decide) (by decide)
  have hp : t.bg_jobs.map (fun j => j.job_spec) = [1] := List.perm_singleton.mp h2
  rw [e, Option.map_some', hp, h4, h5, h6]
  rfl

/-! ### The job-specs of a session -/

/-- the counters of a Job that the loop of `create_job` builds -/
theorem job_loop_counters : ∀ (tokens : List (List Char)) (job0 : Option job_info),
    (∀ j0, job0 = some j0 →
      (j0.nprocs = (j0.proc_info_list.length : Int) ∧ j0.nrunning = 0 ∧ j0.job_spec = 0) ∧
      j0.proc_info_list ≠ []) →
    ∀ j, job_loop job0 tokens = some (some j) →
      (j.nprocs = (j.proc_info_list.length : Int) ∧ j.nrunning = 0 ∧ j.job_spec = 0) ∧
      j.proc_info_list ≠ [] := by
  intro tokens
  induction tokens with
  | nil =>
    intro job0 h0 j h
    simp only [job_loop, Option.some.injEq] at h
    exact h0 j h
  | cons token more ih =>
    intro job0 h0 j h
    unfold job_loop at h
    cases hp : create_proc token with
    | none => rw [hp] at h; cases h
    | some p =>
      rw [hp] at h
      simp only at h
      have hq : ((job0.getD job_info.zero).nprocs =
          ((job0.getD job_info.zero).proc_info_list.length : Int) ∧
          (job0.getD job_info.zero).nrunning = 0 ∧ (job0.getD job_info.zero).job_spec = 0) := by
        cases job0 with
        | none => exact ⟨rfl, rfl, rfl⟩
        | some j0 => exact (h0 j0 rfl).1
      by_cases hc : (p.background && !more.isEmpty) = true
      · rw [if_pos hc] at h; cases h
      · rw [if_neg hc] at h
        refine ih _ ?_ j h
        intro j1 e
        simp only [Option.some.injEq] at e
        subst e
        split_ifs
        · refine ⟨⟨?_, hq.2.1, hq.2.2⟩, by simp⟩
          show (job0.getD job_info.zero).nprocs + 1 = _
          rw [hq.1]
          simp
        · refine ⟨⟨?_, hq.2.1, hq.2.2⟩, by simp⟩
          show (job0.getD job_info.zero).nprocs + 1 = _
          rw [hq.1]
          simp

/-- a Job that `create_job` returns has its Processes counted in `nprocs`, none of them
counted as running, and no job-spec -/
theorem create_job_counters {buffer : List Char} {job : job_info}
    (h : create_job buffer = Outcome.ret (some job)) :
    job.proc_info_list ≠ [] ∧ job.nprocs = (job.proc_info_list.length : Int) ∧
    job.nrunning = 0 ∧ job.job_spec = 0 := by
  obtain ⟨_, j0, hl, e, _⟩ := create_job_procs h
  obtain ⟨⟨h1, h2, h3⟩, h4⟩ := job_loop_counters _ none (fun _ e => by cases e) j0 hl
  rw [e]
  exact ⟨h4, h1, h2, h3⟩

/-- the Launcher leaves the job-spec of the Job as it is -/
theorem execute_loop_job_spec (sys : Nat → launch_sys) (end_ : Int) :
    ∀ (todo : List proc_info) (i : Nat) (inprevpipe : Int) (job : job_info)
      (done : List proc_info) (r : Int × job_info),
    execute_loop sys end_ i inprevpipe job done todo = some r →
    r.2.job_spec = job.job_spec := by
  intro todo
  induction todo with
  | nil =>
    intro i inprevpipe job done r h
    simp only [execute_loop, Option.some.injEq] at h
    subst h
    rfl
  | cons p todo ih =>
    intro i inprevpipe job done r h
    unfold execute_loop at h
    simp only at h
    split_ifs at h
    all_goals first
      | (simp only [Option.some.injEq] at h; subst h; rfl)
      | (have h2 := ih _ _ _ _ _ h; exact h2)

/-- a launch of a parsed Job, whatever `execute_job` returns in the shell, leads from a state
of a session to a state of a session -/
theorem reachable_launch {s : shell_state} (hs : Reachable s) {buffer : List Char}
    {job job2 : job_info} (sys : Nat → launch_sys) (retval : Int)
    (hc : create_job buffer = Outcome.ret (some job))
    (he : execute_job job sys = some (retval, job2)) :
    Reachable (main_after_launch s job2 retval) := by
  apply Reachable.launch job2 retval hs
  have := execute_loop_job_spec sys _ _ _ _ _ _ _ he
  rw [this]
  exact (create_job_counters hc).2.2.2

/-! ## The background sweep and `wait_job` -/

/-- Claim C31 (code defect): when the first Job of the background table reaches Done or
Killed in `wait_background_job`, `CIRCLEQ_LOOP_PREV` yields the last Job of the table (the
predecessor of the first entry is the head), the loop goes on from there and ends: the
Jobs behind the first one are left in the table as they were, their pending status events
not applied; only the first Job was visited. With no other Job in the table the loop goes
on from the Job that was just freed. -/
theorem sweep_first_removed (s : shell_state) (job : job_info) (rest : List job_info)
    (pending : List (List wait_result)) (htable : s.bg_jobs = job :: rest)
    (hdone : (drain job (pending.headD [])).2 = true) :
    (rest ≠ [] →
      sweep [] (job :: rest) pending [] =
        Outcome.ret (rest, [(drain job (pending.headD [])).1]) ∧
      wait_background_job s pending = Outcome.ret { s with bg_jobs := rest }) ∧
    (rest = [] → wait_background_job s pending = Outcome.fault) := by
  constructor
  · intro hne
    have hr : rest.isEmpty = false := by
      cases rest with
      | nil => exact absurd rfl hne
      | cons a b => rfl
    have e : sweep [] (job :: rest) pending [] =
        Outcome.ret (rest, [(drain job (pending.headD [])).1]) := by
      simp only [sweep]
      rw [if_pos hdone, if_pos (by rfl), if_neg (by rw [hr]; exact Bool.false_ne_true)]
      rfl
    refine ⟨e, ?_⟩
    unfold wait_background_job
    rw [htable, e]
  · intro he
    subst he
    unfold wait_background_job
    rw [htable]
    simp only [sweep]
    rw [if_pos hdone, if_pos (by rfl), if_pos (by rfl)]

theorem sweep_first_removed_witness :
    wait_background_job
        (main_after_launch
          (main_after_launch (shell_state.init 1) (sample_launched 100 true) 0)
          (sample_launched 101 true) 0)
        [[wait_result.status (Event.CLD_EXITED 100 0)],
         [wait_result.status (Event.CLD_EXITED 101 0)]] =
      Outcome.ret
        { main_after_launch
            (main_after_launch (shell_state.init 1) (sample_launched 100 true) 0)
            (sample_launched 101 true) 0 with
          bg_jobs := [{ sample_launched 101 true with
                        job_spec := 2, state := job_state.XSSH_JOB_STATE_RUNNING }] } :=
  ((sweep_first_removed
    (main_after_launch
      (main_after_launch (shell_state.init 1) (sample_launched 100 true) 0)
      (sample_launched 101 true) 0)
    { sample_launched 100 true with
      job_spec := 1, state := job_state.XSSH_JOB_STATE_RUNNING }
    [{ sample_launched 101 true with
       job_spec := 2, state := job_state.XSSH_JOB_STATE_RUNNING }]
    [[wait_result.status (Event.CLD_EXITED 100 0)],
     [wait_result.status (Event.CLD_EXITED 101 0)]] (by decide) (by decide)).1
    (by decide)).2

/-- Claim C32 (amended): in `wait_job`, when the wait on the process group of the
foreground Job reports `ECHILD`, the loop ends at once and the state is as it was: the
foreground slot still holds the Job, unchanged, and `fg_job_terminated` is not called;
`wait_job` goes on to the background sweep, which leaves the foreground slot alone. -/
theorem wait_job_echild (s : shell_state) (j : job_info) (rs : List wait_result)
    (pending : List (List wait_result)) (hfg : s.fg_job = some j) :
    wait_loop s (wait_result.echild :: rs) = some s ∧
    wait_job s (wait_result.echild :: rs) pending = some (wait_background_job s pending) ∧
    ∀ t, wait_job s (wait_result.echild :: rs) pending = some (Outcome.ret t) →
      t.fg_job = some j := by
  have e : wait_loop s (wait_result.echild :: rs) = some s := by
    simp [wait_loop, hfg]
  refine ⟨e, by simp [wait_job, e], ?_⟩
  intro t ht
  simp only [wait_job, e, Option.map_some', Option.some.injEq] at ht
  unfold wait_background_job at ht
  cases hs : sweep [] s.bg_jobs pending [] with
  | fault => rw [hs] at ht; cases ht
  | ret r =>
    rw [hs] at ht
    simp only [Outcome.ret.injEq] at ht
    rw [← ht]
    exact hfg

theorem wait_job_echild_witness :
    wait_job { shell_state.init 1 with fg_job := some (sample_launched 100 false) }
        [wait_result.echild] [] =
      some (wait_background_job
        { shell_state.init 1 with fg_job := some (sample_launched 100 false) } []) :=
  (wait_job_echild { shell_state.init 1 with fg_job := some (sample_launched 100 false) }
    (sample_launched 100 false) [] [] rfl).2.1

/-- Claim C32 as stated fails: with the Job of pid 100 in the foreground slot and `ECHILD`
as the result of the wait, `wait_job` returns with the Job still in the foreground slot. -/
theorem wait_job_echild_counterexample :
    wait_job { shell_state.init 1 with fg_job := some (sample_launched 100 false) }
        [wait_result.echild] [] =
      some (Outcome.ret
        { shell_state.init 1 with fg_job := some (sample_launched 100 false) }) := by
  decide

/-! ## An external command line that does not parse -/

/-- Claim C33 (code defect): when `create_job` returns `NULL` for an external command line,
`main` passes the `NULL` pointer on to `execute_job`, whose first statement dereferences it:
the shell faults, where the claim has it set `?` and go on with the next line. -/
theorem main_external_parse_error (s : shell_state) (buffer : List Char)
    (sys : Nat → launch_sys) (h : create_job buffer = Outcome.ret none) :
    main_external s buffer sys = Outcome.fault := by
  unfold main_external
  rw [h]
  rfl

theorem main_external_parse_error_witness :
    main_external (shell_state.init 1) "ls >\n".toList sample_sys = Outcome.fault :=
  main_external_parse_error (shell_state.init 1) "ls >\n".toList sample_sys (by decide!)

/-! ## The handlers on a pid that is not of the Job -/

/-- Claim C39: each of `process_stopped`, `process_continued`, `process_killed` and
`process_terminated`, given a pid that matches no Process of the list of the Job, leaves the
Job as it is: state, status, counters and the list with the state of every Process. -/
theorem process_not_found (job : job_info) (pid code : Int)
    (h : ∀ p ∈ job.proc_info_list, p.pid ≠ pid) :
    process_stopped job pid = job ∧ process_continued job pid = job ∧
    process_killed job pid code = job ∧ process_terminated job pid code = job := by
  have hf : find_proc pid job.proc_info_list = none := by
    cases hfp : find_proc pid job.proc_info_list with
    | none => rfl
    | some p =>
      obtain ⟨l1, l2, hl, hp, _⟩ := find_proc_some pid _ p hfp
      exact absurd hp (h p (by rw [hl]; simp))
  refine ⟨?_, ?_, ?_, ?_⟩
  · unfold process_stopped; rw [hf]
  · unfold process_continued; rw [hf]
  · unfold process_killed; rw [hf]
  · unfold process_terminated; rw [hf]

theorem process_not_found_witness :
    process_stopped
        (sample_job [sample_proc 5 process_state.XSSH_PROC_STATE_RUNNING] 1 0
          job_state.XSSH_JOB_STATE_RUNNING) 9 =
      sample_job [sample_proc 5 process_state.XSSH_PROC_STATE_RUNNING] 1 0
        job_state.XSSH_JOB_STATE_RUNNING ∧
    process_terminated
        (sample_job [sample_proc 5 process_state.XSSH_PROC_STATE_RUNNING] 1 0
          job_state.XSSH_JOB_STATE_RUNNING) 9 0 =
      sample_job [sample_proc 5 process_state.XSSH_PROC_STATE_RUNNING] 1 0
        job_state.XSSH_JOB_STATE_RUNNING :=
  have h := process_not_found
    (sample_job [sample_proc 5 process_state.XSSH_PROC_STATE_RUNNING] 1 0
      job_state.XSSH_JOB_STATE_RUNNING) 9 0 (by decide)
  ⟨h.1, h.2.2.2⟩

/-! ## The lines printed for a Job -/

/-- Claim C34: `print_job_status` writes, for a Job with job-spec `s`, status `t` and
command text `c`, the line `[s] DONE t c` or `[s] KILLED t c` when the state is Done or
Killed, the line `[s] RUNNING c &` when the state is Running and the background flag is
set, and the line `[s] STOPPED c` when the state is Stopped, each ended by a newline; the
state word is the entry of `state_str` for the state of the Job, one of the words
`STOPPED`, `RUNNING`, `DONE`, `KILLED`. -/
theorem print_job_status_lines (job : job_info) :
    (job.state = job_state.XSSH_JOB_STATE_DONE →
      print_job_status job =
        "[".toList ++ fmt_d job.job_spec ++ "] DONE ".toList ++ fmt_d job.status ++
          " ".toList ++ job.cmd ++ "\n".toList) ∧
    (job.state = job_state.XSSH_JOB_STATE_KILLED →
      print_job_status job =
        "[".toList ++ fmt_d job.job_spec ++ "] KILLED ".toList ++ fmt_d job.status ++
          " ".toList ++ job.cmd ++ "\n".toList) ∧
    (job.state = job_state.XSSH_JOB_STATE_RUNNING → job.background = true →
      print_job_status job =
        "[".toList ++ fmt_d job.job_spec ++ "] RUNNING ".toList ++ job.cmd ++
          " &\n".toList) ∧
    (job.state = job_state.XSSH_JOB_STATE_STOPPED →
      print_job_status job =
        "[".toList ++ fmt_d job.job_spec ++ "] STOPPED ".toList ++ job.cmd ++ "\n".toList) ∧
    state_str.getD job_state.XSSH_JOB_STATE_STOPPED.toNat [] = "STOPPED".toList ∧
    state_str.getD job_state.XSSH_JOB_STATE_RUNNING.toNat [] = "RUNNING".toList ∧
    state_str.getD job_state.XSSH_JOB_STATE_DONE.toNat [] = "DONE".toList ∧
    state_str.getD job_state.XSSH_JOB_STATE_KILLED.toNat [] = "KILLED".toList := by
  refine ⟨?_, ?_, ?_, ?_, rfl, rfl, rfl, rfl⟩
  · intro h
    simp [print_job_status, h, state_str, job_state.toNat]
  · intro h
    simp [print_job_status, h, state_str, job_state.toNat]
  · intro h hb
    simp [print_job_status, h, hb, state_str, job_state.toNat]
  · intro h
    simp [print_job_status, h, state_str, job_state.toNat]

theorem print_job_status_lines_witness :
    print_job_status
        { sample_launched 100 true with
          job_spec := 1, status := 0, cmd := "sleep 10".toList,
          state := job_state.XSSH_JOB_STATE_DONE, proc_info_list := [], nprocs := 0,
          nrunning := 0 } =
      "[1] DONE 0 sleep 10\n".toList :=
  (print_job_status_lines
    { sample_launched 100 true with
      job_spec := 1, status := 0, cmd := "sleep 10".toList,
      state := job_state.XSSH_JOB_STATE_DONE, proc_info_list := [], nprocs := 0,
      nrunning := 0 }).1 rfl

/-! ## The announcement of a background Job -/

/-- the Job that the parser returns for `sleep 10` followed by `&`, with the display text
`cmd` -/
theorem create_job_sleep :
    create_job "sleep 10 &\n".toList =
      Outcome.ret (some
        { job_info.zero with
          background := true, cmd := "sleep 10 ".toList, nprocs := 1,
          proc_info_list :=
            [{ pgid := 0, pid := 0, args := ["sleep".toList, "sleep".toList, "10".toList],
               nargs := 3, state := process_state.XSSH_PROC_STATE_STOPPED, background := true,
               redirect_info_list := [] }] }) ∧
    create_job "sleep 10&\n".toList =
      Outcome.ret (some
        { job_info.zero with
          background := true, cmd := "sleep 10".toList, nprocs := 1,
          proc_info_list :=
            [{ pgid := 0, pid := 0, args := ["sleep".toList, "sleep".toList, "10".toList],
               nargs := 3, state := process_state.XSSH_PROC_STATE_STOPPED, background := true,
               redirect_info_list := [] }] }) := by
  constructor <;> decide!

/-- a Job of one Process whose launch succeeds -/
theorem execute_job_single (job : job_info) (p : proc_info) (sys : Nat → launch_sys)
    (hl : job.proc_info_list = [p]) (hn : job.nprocs = 1)
    (hfork : 0 < (sys 0).fork_ret) (hset : 0 ≤ (sys 0).setpgid_ret) :
    execute_job job sys =
      some (0, { job with
        pgid := (sys 0).fork_ret, lastpid := (sys 0).fork_ret, nrunning := job.nrunning + 1,
        proc_info_list :=
          [{ p with pid := (sys 0).fork_ret,
                    state := process_state.XSSH_PROC_STATE_RUNNING }] }) := by
  have c2 : ¬ (sys 0).fork_ret < 0 := by omega
  have c3 : ¬ (sys 0).fork_ret = 0 := by omega
  have c4 : ¬ ((sys 0).setpgid_ret < 0 ∧ (sys 0).setpgid_errno ≠ EACCES) := by
    intro h; omega
  unfold execute_job
  rw [hl, hn]
  unfold execute_loop
  simp only [Nat.cast_zero, sub_self, lt_self_iff_false, false_and, ↓reduceIte, c2, c3, c4,
    ne_eq, not_true_eq_false, List.nil_append, execute_loop]
  rw [hn]

/-- Claim C35 (amended): for the input line `sleep 10 &` given to a fresh shell whose launch
succeeds, the Job has one Process with argv `[sleep, 10]`, is in the background and has the
job-spec 1; its stored command text is the line without the final `&`, the blank before it
kept, so the announcement `[%d] %s &` is `[1] sleep 10  &`, with two blanks. It is
`[1] sleep 10 &` for the input line `sleep 10&`. -/
theorem announce_sleep (pgrp : Int) (sys : Nat → launch_sys)
    (hfork : 0 < (sys 0).fork_ret) (hset : 0 ≤ (sys 0).setpgid_ret) :
    (∃ (s : shell_state) (J : job_info),
      main_external (shell_state.init pgrp) "sleep 10 &\n".toList sys =
        Outcome.ret (some (s, "[1] sleep 10  &\n".toList)) ∧
      s.bg_jobs = [J] ∧ s.fg_job = none ∧ s.max_bg_job_index = 1 ∧
      J.job_spec = 1 ∧ J.background = true ∧ J.cmd = "sleep 10 ".toList ∧
      J.proc_info_list.map proc_info.argv = [["sleep".toList, "10".toList]] ∧
      J.proc_info_list.map (fun p => p.pid) = [(sys 0).fork_ret]) ∧
    (∃ (s : shell_state) (J : job_info),
      main_external (shell_state.init pgrp) "sleep 10&\n".toList sys =
        Outcome.ret (some (s, "[1] sleep 10 &\n".toList)) ∧
      s.bg_jobs = [J] ∧ s.fg_job = none ∧ s.max_bg_job_index = 1 ∧
      J.job_spec = 1 ∧ J.background = true ∧ J.cmd = "sleep 10".toList ∧
      J.proc_info_list.map proc_info.argv = [["sleep".toList, "10".toList]] ∧
      J.proc_info_list.map (fun p => p.pid) = [(sys 0).fork_ret]) := by
  constructor
  · refine ⟨{ shell_state.init pgrp with
        bg_jobs :=
          [{ job_info.zero with
             background := true, cmd := "sleep 10 ".toList, nprocs := 1, nrunning := 1,
             pgid := (sys 0).fork_ret, lastpid := (sys 0).fork_ret, job_spec := 1,
             state := job_state.XSSH_JOB_STATE_RUNNING,
             proc_info_list :=
               [{ pgid := 0, pid := (sys 0).fork_ret,
                  args := ["sleep".toList, "sleep".toList, "10".toList], nargs := 3,
                  state := process_state.XSSH_PROC_STATE_RUNNING, background := true,
                  redirect_info_list := [] }] }]
        max_bg_job_index := 1, last_bg_job_index := 1,
        varvalue_2 := some (sys 0).fork_ret }, _, ?_, rfl, rfl, rfl, rfl, rfl, rfl, rfl, rfl⟩
    unfold main_external
    rw [create_job_sleep.1]
    simp only [execute_job_ptr]
    rw [execute_job_single _ _ sys rfl rfl hfork hset]
    simp [main_after_launch, send_job_to_bg, job_info.zero, shell_state.init, main_announce]
    decide
  · refine ⟨{ shell_state.init pgrp with
        bg_jobs :=
          [{ job_info.zero with
             background := true, cmd := "sleep 10".toList, nprocs := 1, nrunning := 1,
             pgid := (sys 0).fork_ret, lastpid := (sys 0).fork_ret, job_spec := 1,
             state := job_state.XSSH_JOB_STATE_RUNNING,
             proc_info_list :=
               [{ pgid := 0, pid := (sys 0).fork_ret,
                  args := ["sleep".toList, "sleep".toList, "10".toList], nargs := 3,
                  state := process_state.XSSH_PROC_STATE_RUNNING, background := true,
                  redirect_info_list := [] }] }]
        max_bg_job_index := 1, last_bg_job_index := 1,
        varvalue_2 := some (sys 0).fork_ret }, _, ?_, rfl, rfl, rfl, rfl, rfl, rfl, rfl, rfl⟩
    unfold main_external
    rw [create_job_sleep.2]
    simp only [execute_job_ptr]
    rw [execute_job_single _ _ sys rfl rfl hfork hset]
    simp [main_after_launch, send_job_to_bg, job_info.zero, shell_state.init, main_announce]
    decide

theorem announce_sleep_witness :
    main_external_output
        (main_external (shell_state.init 1) "sleep 10&\n".toList sample_sys) =
      "[1] sleep 10 &\n".toList := by
  obtain ⟨s, J, e, _⟩ := (announce_sleep 1 sample_sys (by decide) (by decide)).2
  rw [e]
  rfl

/-- Claim C35 as stated fails: for the input line `sleep 10 &` in a fresh shell whose launch
succeeds the announcement is `[1] sleep 10  &`, with the blank of the line before the `&`
and the blank of the format, not `[1] sleep 10 &`. -/
theorem announce_sleep_counterexample :
    main_external_output
        (main_external (shell_state.init 1) "sleep 10 &\n".toList sample_sys) =
      "[1] sleep 10  &\n".toList := by
  decide!

/-! ## The dispatcher -/

theorem ltrim_idem (s : List Char) : ltrim (ltrim s) = ltrim s :=
  ltrim_of_head (ltrim_head s)

theorem ltrim_all_space {s : List Char} (h : ∀ c ∈ s, isspace c = true) : ltrim s = [] := by
  unfold ltrim
  rw [List.dropWhile_eq_nil_iff]
  exact h

theorem ltrim_space_prefix {ws rest : List Char} (h : ∀ c ∈ ws, isspace c = true) :
    ltrim (ws ++ rest) = ltrim rest := by
  induction ws with
  | nil => rfl
  | cons a ws ih =>
    have ha : isspace a = true := h a (by simp)
    have := ih (fun c hc => h c (by simp [hc]))
    unfold ltrim at this ⊢
    simp only [List.cons_append, List.dropWhile_cons, ha, ↓reduceIte]
    exact this

/-- a line that is empty behind its leading blanks, or begins with `#` there, ends the loop
of `deinstr` in its first iteration -/
theorem deinstr_loop_noop (b : List Char) (i : Nat) (name : List Char)
    (more : List (List Char))
    (h : ltrim b = [] ∨ (ltrim b).head? = some '#') :
    deinstr_loop b i (name :: more) = 14 := by
  unfold deinstr_loop
  simp only
  have : (ltrim b).length = 0 ∨ (ltrim b).head? = some '#' := by
    rcases h with h | h
    · left; rw [h]; rfl
    · right; exact h
  rw [if_pos this]
  rfl

theorem strip_comment_blank (buffer : List Char)
    (h : (∀ c ∈ cstr buffer, isspace c = true) ∨
      ∃ ws rest, cstr buffer = ws ++ '#' :: rest ∧ ∀ c ∈ ws, isspace c = true) :
    ltrim (cstr (strip_comment buffer)) = [] := by
  rcases h with h | ⟨ws, rest, e, hws⟩
  · have hno : '#' ∉ cstr buffer := by
      intro hm
      have := h '#' hm
      revert this
      decide
    unfold strip_comment
    rw [if_neg hno, cstr_eq_self (cstr_not_nul buffer)]
    exact ltrim_all_space h
  · have hin : '#' ∈ cstr buffer := by rw [e]; simp
    have htw : (cstr buffer).takeWhile (fun c => c != '#') = ws := by
      rw [e]
      rw [List.takeWhile_append_of_pos]
      · simp
      · intro c hc
        have := hws c hc
        have hne : c ≠ '#' := by
          intro hcc
          rw [hcc] at this
          revert this
          decide
        simpa using hne
    unfold strip_comment
    rw [if_pos hin, htw]
    have hsp : ∀ c ∈ ws ++ ['\n'], isspace c = true := by
      intro c hc
      simp only [List.mem_append, List.mem_singleton] at hc
      rcases hc with hc | hc
      · exact hws c hc
      · rw [hc]; decide
    have hnn : ∀ c ∈ ws ++ ['\n'], c ≠ NUL := by
      intro c hc hcc
      have := hsp c hc
      rw [hcc] at this
      revert this
      decide
    rw [cstr_eq_self hnn]
    exact ltrim_all_space hsp

/-- Claim C37: for every line that holds blanks only (also just the newline) or whose first
character that is not a blank is `#`, `deinstr` returns 14, on the line as read and on the
line after `main` has deleted the comment; 14 is neither the code of an instruction (1 to 13)
nor 0, and the branch of `main` for it calls `time(NULL)`: no built-in runs and `create_job`
is not called. -/
theorem deinstr_noop (buffer : List Char)
    (h : (∀ c ∈ cstr buffer, isspace c = true) ∨
      ∃ ws rest, cstr buffer = ws ++ '#' :: rest ∧ ∀ c ∈ ws, isspace c = true) :
    deinstr buffer = 14 ∧ deinstr (strip_comment buffer) = 14 ∧
    main_branch (deinstr buffer) = main_action.call_time ∧
    main_branch (deinstr (strip_comment buffer)) = main_action.call_time := by
  have h1 : deinstr buffer = 14 := by
    unfold deinstr instr
    apply deinstr_loop_noop
    rcases h with h | ⟨ws, rest, e, hws⟩
    · left; exact ltrim_all_space h
    · right
      rw [e, ltrim_space_prefix hws]
      rfl
  have h2 : deinstr (strip_comment buffer) = 14 := by
    unfold deinstr instr
    apply deinstr_loop_noop
    left
    exact strip_comment_blank buffer h
  refine ⟨h1, h2, ?_, ?_⟩
  · rw [h1]; rfl
  · rw [h2]; rfl

theorem deinstr_noop_witness :
    deinstr "  # list the files\n".toList = 14 ∧
    deinstr (strip_comment "  # list the files\n".toList) = 14 :=
  have h := deinstr_noop "  # list the files\n".toList
    (Or.inr ⟨"  ".toList, " list the files\n".toList, by decide, by decide⟩)
  ⟨h.1, h.2.1⟩

/-! ### The built-ins that `deinstr` takes by their first characters -/

/-- the inner loop of `deinstr` ends with `flag = 0` when the name and the buffer agree as
far as the shorter of them goes -/
theorem deinstr_compare_flag : ∀ (name b : List Char) (j : Nat),
    (deinstr_compare name b j).1 = false ↔ (name <+: b ∨ b <+: name) := by
  intro name
  induction name with
  | nil => intro b j; simp [deinstr_compare]
  | cons a name ih =>
    intro b j
    cases b with
    | nil => simp [deinstr_compare]
    | cons c b =>
      by_cases hac : a = c
      · subst hac
        simp only [deinstr_compare, ne_eq, not_true_eq_false, ↓reduceIte, ih b (j + 1)]
        simp [List.cons_prefix_cons]
      · simp only [deinstr_compare, ne_eq, hac, not_false_eq_true, ↓reduceIte]
        simp only [List.cons_prefix_cons, hac, false_and, false_or, Bool.true_eq_false,
          false_iff, not_and]
        intro h
        exact absurd h.symm hac

theorem deinstr_compare_head {name b : List Char} {a c : Char}
    (ha : name.head? = some a) (hc : b.head? = some c) (hne : a ≠ c) :
    (deinstr_compare name b 0).1 = true := by
  cases name with
  | nil => cases ha
  | cons a2 name =>
    cases b with
    | nil => cases hc
    | cons c2 b =>
      simp only [List.head?_cons, Option.some.injEq] at ha hc
      subst ha hc
      simp [deinstr_compare, hne]

theorem deinstr_loop_ltrim (buffer : List Char) (i : Nat) (name : List Char)
    (more : List (List Char)) :
    deinstr_loop buffer i (name :: more) = deinstr_loop (ltrim buffer) i (name :: more) := by
  rw [deinstr_loop, deinstr_loop]
  simp only [ltrim_idem]

/-- one iteration of the loop of `deinstr`, on a buffer without leading blanks that is not
empty and does not begin with `#` -/
theorem deinstr_loop_step {b : List Char} (hl : ltrim b = b) (hne : b ≠ [])
    (hh : b.head? ≠ some '#') (i : Nat) (name : List Char) (more : List (List Char)) :
    (deinstr_match i name b → deinstr_loop b i (name :: more) = (i : Int) + 1) ∧
    (¬ deinstr_match i name b →
      deinstr_loop b i (name :: more) = deinstr_loop b (i + 1) more) := by
  have c0 : ¬ ((ltrim b).length = 0 ∨ (ltrim b).head? = some '#') := by
    rw [hl]
    intro h
    rcases h with h | h
    · exact hne (List.length_eq_zero.mp h)
    · exact hh h
  constructor
  · intro hm
    rw [deinstr_loop]
    simp only
    rw [if_neg c0, hl]
    unfold deinstr_match at hm
    by_cases h1 : (deinstr_compare name b 0).1 = false ∧ 8 ≤ i ∧ i ≤ 12
    · rw [if_pos h1]
    · rw [if_neg h1]
      rcases hm with hm | ⟨f, a, b2, hm⟩
      · exact absurd hm h1
      · by_cases h2 : (deinstr_compare name b 0).1 = false ∧
            (deinstr_compare name b 0).2 = name.length ∧
            (deinstr_compare name b 0).2 ≤ b.length ∧
            b.getD (deinstr_compare name b 0).2 NUL = ' '
        · rw [if_pos h2]
        · rw [if_neg h2]
          by_cases h3 : (deinstr_compare name b 0).1 = false ∧
              (deinstr_compare name b 0).2 = name.length ∧
              (deinstr_compare name b 0).2 ≤ b.length ∧ i = 5
          · rw [if_pos h3]
          · rw [if_neg h3]
            have h4 : (deinstr_compare name b 0).1 = false ∧
                (deinstr_compare name b 0).2 = name.length ∧
                (deinstr_compare name b 0).2 ≤ b.length ∧ i = 7 := by
              rcases hm with hm | hm | hm
              · exact absurd ⟨f, a, b2, hm⟩ h2
              · exact absurd ⟨f, a, b2, hm⟩ h3
              · exact ⟨f, a, b2, hm⟩
            rw [if_pos h4]
  · intro hm
    rw [deinstr_loop]
    simp only
    rw [if_neg c0, hl]
    unfold deinstr_match at hm
    rw [not_or] at hm
    rw [if_neg hm.1]
    have h2 : ¬ ((deinstr_compare name b 0).1 = false ∧
        (deinstr_compare name b 0).2 = name.length ∧
        (deinstr_compare name b 0).2 ≤ b.length ∧
        b.getD (deinstr_compare name b 0).2 NUL = ' ') :=
      fun h => hm.2 ⟨h.1, h.2.1, h.2.2.1, Or.inl h.2.2.2⟩
    have h3 : ¬ ((deinstr_compare name b 0).1 = false ∧
        (deinstr_compare name b 0).2 = name.length ∧
        (deinstr_compare name b 0).2 ≤ b.length ∧ i = 5) :=
      fun h => hm.2 ⟨h.1, h.2.1, h.2.2.1, Or.inr (Or.inl h.2.2.2)⟩
    have h4 : ¬ ((deinstr_compare name b 0).1 = false ∧
        (deinstr_compare name b 0).2 = name.length ∧
        (deinstr_compare name b 0).2 ≤ b.length ∧ i = 7) :=
      fun h => hm.2 ⟨h.1, h.2.1, h.2.2.1, Or.inr (Or.inr h.2.2.2)⟩
    rw [if_neg h2, if_neg h3, if_neg h4]

/-- the loop of `deinstr` from iteration `i` on returns 0 or a code above `i` -/
theorem deinstr_loop_range {b : List Char} (hl : ltrim b = b) (hne : b ≠ [])
    (hh : b.head? ≠ some '#') : ∀ (l : List (List Char)) (i : Nat),
    deinstr_loop b i l = 0 ∨ (i : Int) + 1 ≤ deinstr_loop b i l := by
  intro l
  induction l with
  | nil => intro i; left; rfl
  | cons name more ih =>
    intro i
    obtain ⟨s1, s2⟩ := deinstr_loop_step hl hne hh i name more
    by_cases hm : deinstr_match i name b
    · right; rw [s1 hm]
    · rw [s2 hm]
      rcases ih (i + 1) with h | h
      · left; exact h
      · right
        push_cast at h
        omega

/-- the loop of `deinstr` returns the code of the first instruction that ends it -/
theorem deinstr_loop_eq {b : List Char} (hl : ltrim b = b) (hne : b ≠ [])
    (hh : b.head? ≠ some '#') : ∀ (l : List (List Char)) (i k : Nat) (name : List Char),
    l[k]? = some name →
    (deinstr_loop b i l = ((i + k : Nat) : Int) + 1 ↔
      (deinstr_match (i + k) name b ∧
        ∀ m n, m < k → l[m]? = some n → ¬ deinstr_match (i + m) n b)) := by
  intro l
  induction l with
  | nil => intro i k name h; simp at h
  | cons n0 more ih =>
    intro i k name h
    obtain ⟨s1, s2⟩ := deinstr_loop_step hl hne hh i n0 more
    cases k with
    | zero =>
      simp only [List.getElem?_cons_zero, Option.some.injEq] at h
      subst h
      simp only [Nat.add_zero, Nat.not_lt_zero, false_implies, implies_true, and_true]
      constructor
      · intro e
        by_contra hm
        rw [s2 hm] at e
        rcases deinstr_loop_range hl hne hh more (i + 1) with h | h
        · rw [h] at e; omega
        · rw [e] at h; push_cast at h; omega
      · exact s1
    | succ k =>
      simp only [List.getElem?_cons_succ] at h
      by_cases hm : deinstr_match i n0 b
      · rw [s1 hm]
        constructor
        · intro e; push_cast at e; omega
        · intro hr
          exact absurd hm (by simpa using hr.2 0 n0 (by omega) (by simp))
      · rw [s2 hm]
        have := ih (i + 1) k name h
        rw [show i + 1 + k = i + (k + 1) by omega] at this
        rw [this]
        constructor
        · intro hr
          refine ⟨hr.1, ?_⟩
          intro m n hmk hn
          cases m with
          | zero =>
            simp only [List.getElem?_cons_zero, Option.some.injEq] at hn
            subst hn
            exact hm
          | succ m =>
            simp only [List.getElem?_cons_succ] at hn
            have := hr.2 m n (by omega) hn
            rw [show i + 1 + m = i + (m + 1) by omega] at this
            exact this
        · intro hr
          refine ⟨hr.1, ?_⟩
          intro m n hmk hn
          have := hr.2 (m + 1) n (by omega) (by simpa using hn)
          rw [show i + (m + 1) = i + 1 + m by omega] at this
          exact this

/-- the names of the instructions before a built-in of index 8 to 12 begin with another
character than the built-in -/
theorem instr_heads (k : Nat) (name : List Char) (hk : 8 ≤ k) (hname : instr[k]? = some name)
    (m : Nat) (n : List Char) (hm : m < k) (hn : instr[m]? = some n) :
    ∃ a c, n.head? = some a ∧ name.head? = some c ∧ a ≠ c := by
  have hk13 : k < 13 := by
    have := (List.getElem?_eq_some_iff.mp hname).1
    simpa [instr] using this
  interval_cases k <;> interval_cases m <;>
    (simp only [instr, List.getElem?_cons_succ, List.getElem?_cons_zero,
      Option.some.injEq] at hname hn
     subst hname hn
     exact ⟨_, _, rfl, rfl, by decide⟩)

theorem head?_of_compat {name b : List Char} {c : Char} (hc : name.head? = some c)
    (hne : b ≠ []) (h : name <+: b ∨ b <+: name) : b.head? = some c := by
  rcases h with ⟨t, e⟩ | ⟨t, e⟩
  · rw [← e]
    cases name with
    | nil => cases hc
    | cons a name => exact hc
  · rw [← e] at hc
    cases b with
    | nil => exact absurd rfl hne
    | cons a b => exact hc

/-- Claim C40 (amended): `deinstr` returns the code `k + 1` of one of the built-ins `bg`,
`fg`, `jobs`, `pwd`, `cd` (indices 8 to 12 of `instr`) exactly when the line, behind its
leading blanks, is not empty, does not begin with `#`, and agrees with the name of the
built-in as far as the shorter of the two goes: the name is a prefix of the line, whatever
follows it, or the line is a prefix of the name. So a line whose first word only starts with
such a name is taken for the built-in. -/
theorem deinstr_builtin (buffer : List Char) (k : Nat) (name : List Char)
    (hk : 8 ≤ k) (hname : instr[k]? = some name) :
    deinstr buffer = (k : Int) + 1 ↔
      (ltrim (cstr buffer) ≠ [] ∧ (ltrim (cstr buffer)).head? ≠ some '#' ∧
        (name <+: ltrim (cstr buffer) ∨ ltrim (cstr buffer) <+: name)) := by
  have hk13 : k < 13 := by
    have := (List.getElem?_eq_some_iff.mp hname).1
    simpa [instr] using this
  have hl : ltrim (ltrim (cstr buffer)) = ltrim (cstr buffer) := ltrim_idem _
  have e0 : deinstr buffer = deinstr_loop (ltrim (cstr buffer)) 0 instr := by
    unfold deinstr instr
    exact deinstr_loop_ltrim _ _ _ _
  rw [e0]
  by_cases hgood : ltrim (cstr buffer) ≠ [] ∧ (ltrim (cstr buffer)).head? ≠ some '#'
  · have key := deinstr_loop_eq hl hgood.1 hgood.2 instr 0 k name hname
    simp only [Nat.zero_add] at key
    rw [key]
    constructor
    · intro h
      refine ⟨hgood.1, hgood.2, ?_⟩
      apply (deinstr_compare_flag name _ 0).mp
      rcases h.1 with h1 | h1
      · exact h1.1
      · exact h1.1
    · intro h
      have hflag := (deinstr_compare_flag name _ 0).mpr h.2.2
      refine ⟨Or.inl ⟨hflag, hk, by omega⟩, ?_⟩
      intro m n hm hn
      obtain ⟨a, c, ha, hc, hac⟩ := instr_heads k name hk hname m n hm hn
      have hb := head?_of_compat hc hgood.1 h.2.2
      have ht := deinstr_compare_head ha hb hac
      unfold deinstr_match
      rw [ht]
      simp
  · constructor
    · intro h
      have hbad : ltrim (ltrim (cstr buffer)) = [] ∨
          (ltrim (ltrim (cstr buffer))).head? = some '#' := by
        rw [hl]
        by_contra hc
        rw [not_or] at hc
        exact hgood hc
      unfold instr at h
      rw [deinstr_loop_noop _ _ _ _ hbad] at h
      omega
    · intro h
      exact absurd ⟨h.1, h.2.1⟩ hgood

theorem deinstr_builtin_witness : deinstr "fg 1\n".toList = 10 :=
  (deinstr_builtin "fg 1\n".toList 9 "fg".toList (by decide) (by decide)).mpr
    ⟨by decide, by decide, Or.inl ⟨" 1\n".toList, by decide⟩⟩

/-- Claim C40 as stated fails: the lines `fgrep x`, `cdrecord` and `pwdx 1` get the codes of
the built-ins `fg`, `cd` and `pwd`, whose branches `main` then takes, and not the code 0 of
an external command. -/
theorem deinstr_builtin_counterexample :
    deinstr "fgrep x\n".toList = 10 ∧ main_branch 10 = main_action.call_fg ∧
    deinstr "cdrecord\n".toList = 13 ∧ main_branch 13 = main_action.call_cd ∧
    deinstr "pwdx 1\n".toList = 12 ∧ main_branch 12 = main_action.call_pwd := by
  decide

/-! ## The redirections in `run_exec` -/

/-- the redirections that the parser records for `cmd 2>&1 >file` -/
theorem create_proc_dup_then_file :
    (create_proc "cmd 2>&1 >file".toList).map (fun p => p.redirect_info_list) =
      some [{ srcfd := 2, srcfile := none, dstfd := 1, dstfile := none, mode := 3 },
            { srcfd := 1, srcfile := none, dstfd := -1, dstfile := some "file".toList,
              mode := 1 }] := by
  decide!

/-- Claim C36 (code defect): `run_exec` ends every redirection with `close(fd2)`, also a
duplication `n>&m`, where `fd2` is the descriptor `m` named on the line. On the list parsed
from `cmd 2>&1 >file`, with descriptors 0, 1, 2 open and `open` returning the lowest free
descriptor, the loop runs `dup2(1, 2)`, `close(1)`, then `open` returns 1, `dup2(1, 1)`
changes nothing and `close(1)` closes the file: descriptor 2 refers to what descriptor 1
referred to, as the claim has it, but descriptor 1 is closed and does not refer to `file`. -/
theorem run_exec_dup_closes_stdout (can_open : List Char → Bool) (r0 r1 r2 : open_file)
    (more : fd_table) (hopen : can_open "file".toList = true) :
    ∃ p, create_proc "cmd 2>&1 >file".toList = some p ∧
      run_exec_redirects can_open p.redirect_info_list
          (some r0 :: some r1 :: some r2 :: more) =
        some (some r0 :: none :: some r1 :: more) ∧
      fd_lookup (some r0 :: none :: some r1 :: more) 2 = some r1 ∧
      fd_lookup (some r0 :: none :: some r1 :: more) 1 = none ∧
      fd_lookup (some r0 :: none :: some r1 :: more) 0 = some r0 := by
  have h := create_proc_dup_then_file
  cases hp : create_proc "cmd 2>&1 >file".toList with
  | none => rw [hp] at h; cases h
  | some p =>
    rw [hp] at h
    simp only [Option.map_some', Option.some.injEq] at h
    refine ⟨p, rfl, ?_, rfl, rfl, rfl⟩
    rw [h]
    have hopen : can_open ['f', 'i', 'l', 'e'] = true := hopen
    simp [run_exec_redirects, sys_dup2, sys_close, sys_open, fd_lookup, fd_store, lowest_free,
      hopen]

theorem run_exec_dup_closes_stdout_witness :
    (create_proc "cmd 2>&1 >file".toList).bind
        (fun p => run_exec_redirects (fun _ => true) p.redirect_info_list
          [some (open_file.inherited 0), some (open_file.inherited 1),
           some (open_file.inherited 2)]) =
      some [some (open_file.inherited 0), none, some (open_file.inherited 1)] := by
  obtain ⟨p, e, h, _⟩ := run_exec_dup_closes_stdout (fun _ => true)
    (open_file.inherited 0) (open_file.inherited 1) (open_file.inherited 2) [] rfl
  rw [e, Option.some_bind, h]

/-! ## The counters of a Job -/

theorem count_stopped_split (l1 l2 : List proc_info) (p : proc_info) :
    count_stopped (l1 ++ p :: l2) =
      count_stopped l1 +
        (if p.state = process_state.XSSH_PROC_STATE_STOPPED then 1 else 0) +
        count_stopped l2 := by
  unfold count_stopped
  by_cases h : p.state = process_state.XSSH_PROC_STATE_STOPPED
  · simp [h]; omega
  · simp [h]

theorem count_stopped_append (l1 l2 : List proc_info) :
    count_stopped (l1 ++ l2) = count_stopped l1 + count_stopped l2 := by
  simp [count_stopped]

/-- a list of Processes that are Running or Stopped is counted by the two counters -/
theorem length_eq_counts : ∀ (l : List proc_info),
    (∀ p ∈ l, p.state = process_state.XSSH_PROC_STATE_RUNNING ∨
      p.state = process_state.XSSH_PROC_STATE_STOPPED) →
    l.length = count_running l + count_stopped l := by
  intro l
  induction l with
  | nil => intro _; rfl
  | cons p l ih =>
    intro h
    have ih2 := ih (fun q hq => h q (List.mem_cons_of_mem _ hq))
    have e := count_stopped_split [] l p
    simp only [List.nil_append] at e
    rw [count_running_cons, e, List.length_cons, ih2]
    have c0 : count_stopped [] = 0 := rfl
    rw [c0]
    rcases h p (List.mem_cons_self _ _) with hs | hs
    · simp [hs]; omega
    · simp [hs]; omega

theorem process_stopped_nstopped (job : job_info) (pid : Int)
    (h : job.nstopped = (count_stopped job.proc_info_list : Int)) :
    (process_stopped job pid).nstopped =
      (count_stopped (process_stopped job pid).proc_info_list : Int) := by
  cases hf : find_proc pid job.proc_info_list with
  | none => unfold process_stopped; rw [hf]; exact h
  | some p =>
    obtain ⟨l1, l2, hl, hp, hfirst⟩ := find_proc_some pid _ p hf
    have hr := set_proc_state_split pid process_state.XSSH_PROC_STATE_STOPPED p l2 hp l1 hfirst
    rw [hl, count_stopped_split] at h
    unfold process_stopped
    rw [hf]
    simp only
    by_cases hs : p.state = process_state.XSSH_PROC_STATE_RUNNING
    · have hns : ¬ p.state = process_state.XSSH_PROC_STATE_STOPPED := by rw [hs]; decide
      rw [if_neg hns] at h
      simp only [hs, ↓reduceIte]
      split_ifs <;>
        (simp only [hl, hr, count_stopped_split, ↓reduceIte, h]; push_cast; ring)
    · simp only [hs, ↓reduceIte]
      split_ifs <;> (simp only [hl, count_stopped_split, h])

theorem process_continued_nstopped (job : job_info) (pid : Int)
    (h : job.nstopped = (count_stopped job.proc_info_list : Int)) :
    (process_continued job pid).nstopped =
      (count_stopped (process_continued job pid).proc_info_list : Int) := by
  cases hf : find_proc pid job.proc_info_list with
  | none => unfold process_continued; rw [hf]; exact h
  | some p =>
    obtain ⟨l1, l2, hl, hp, hfirst⟩ := find_proc_some pid _ p hf
    have hr := set_proc_state_split pid process_state.XSSH_PROC_STATE_RUNNING p l2 hp l1 hfirst
    rw [hl, count_stopped_split] at h
    unfold process_continued
    rw [hf]
    simp only
    by_cases hs : p.state = process_state.XSSH_PROC_STATE_STOPPED
    · rw [if_pos hs] at h
      simp only [hs, ↓reduceIte]
      split_ifs <;>
        (simp only [hl, hr, count_stopped_split, reduceCtorEq, ↓reduceIte, h]; push_cast; ring)
    · rw [if_neg hs] at h
      simp only [hs, ↓reduceIte]
      split_ifs <;> (simp only [hl, count_stopped_split, hs, ↓reduceIte, h])

theorem process_killed_nstopped (job : job_info) (pid code : Int)
    (h : job.nstopped = (count_stopped job.proc_info_list : Int)) :
    (process_killed job pid code).nstopped =
      (count_stopped (process_killed job pid code).proc_info_list : Int) := by
  cases hf : find_proc pid job.proc_info_list with
  | none => unfold process_killed; rw [hf]; exact h
  | some p =>
    obtain ⟨l1, l2, hl, hp, hfirst⟩ := find_proc_some pid _ p hf
    have hr := remove_proc_split pid p l2 hp l1 hfirst
    rw [hl, count_stopped_split] at h
    unfold process_killed
    rw [hf]
    simp only
    cases hs : p.state <;> rw [hs] at h <;>
      simp only [reduceCtorEq, ↓reduceIte] at h ⊢ <;>
      split_ifs <;>
      (simp only [hl, hr, count_stopped_append, h]; push_cast; ring)

theorem process_terminated_nstopped (job : job_info) (pid code : Int)
    (h : job.nstopped = (count_stopped job.proc_info_list : Int)) :
    (process_terminated job pid code).nstopped =
      (count_stopped (process_terminated job pid code).proc_info_list : Int) := by
  cases hf : find_proc pid job.proc_info_list with
  | none => unfold process_terminated; rw [hf]; exact h
  | some p =>
    obtain ⟨l1, l2, hl, hp, hfirst⟩ := find_proc_some pid _ p hf
    have hr := remove_proc_split pid p l2 hp l1 hfirst
    rw [hl, count_stopped_split] at h
    unfold process_terminated
    rw [hf]
    simp only
    cases hs : p.state <;> rw [hs] at h <;>
      simp only [reduceCtorEq, ↓reduceIte] at h ⊢ <;>
      split_ifs <;>
      (simp only [hl, hr, count_stopped_append, h]; push_cast; ring)

theorem apply_event_nstopped (job : job_info) (e : Event)
    (h : job.nstopped = (count_stopped job.proc_info_list : Int)) :
    (apply_event job e).nstopped =
      (count_stopped (apply_event job e).proc_info_list : Int) := by
  cases e with
  | CLD_EXITED pid st => exact process_terminated_nstopped job pid st h
  | CLD_KILLED pid st => exact process_killed_nstopped job pid st h
  | CLD_STOPPED pid => exact process_stopped_nstopped job pid h
  | CLD_CONTINUED pid => exact process_continued_nstopped job pid h

theorem run_events_nstopped : ∀ (es : List Event) (job : job_info),
    job.nstopped = (count_stopped job.proc_info_list : Int) →
    (run_events job es).nstopped =
      (count_stopped (run_events job es).proc_info_list : Int) := by
  intro es
  induction es with
  | nil => intro job h; exact h
  | cons e es ih =>
    intro job h
    rw [run_events_cons]
    exact ih _ (apply_event_nstopped job e h)

/-- Claim C38: for every Job of `n >= 1` Processes launched successfully (every Process
Running, `nrunning = nprocs = n`, `nstopped = 0`) and every finite sequence of status events
applied to it, with pids of the Job or not, after the events `nprocs` is the length of the
list of Processes, every Process that remains is Running or Stopped, `nrunning` is the
number of Running Processes and `nstopped` the number of Stopped ones, so that
`nprocs = nrunning + nstopped`, and no counter is negative. -/
theorem job_counters (job : job_info) (es : List Event)
    (hn : job.proc_info_list ≠ [])
    (hall : ∀ p ∈ job.proc_info_list, p.state = process_state.XSSH_PROC_STATE_RUNNING)
    (hnr : job.nrunning = (job.proc_info_list.length : Int))
    (hnp : job.nprocs = (job.proc_info_list.length : Int))
    (hns : job.nstopped = 0)
    (hst : job.state = job_state.XSSH_JOB_STATE_RUNNING) :
    (run_events job es).nprocs = ((run_events job es).proc_info_list.length : Int) ∧
    (∀ p ∈ (run_events job es).proc_info_list,
      p.state = process_state.XSSH_PROC_STATE_RUNNING ∨
      p.state = process_state.XSSH_PROC_STATE_STOPPED) ∧
    (run_events job es).nrunning = (count_running (run_events job es).proc_info_list : Int) ∧
    (run_events job es).nstopped = (count_stopped (run_events job es).proc_info_list : Int) ∧
    (run_events job es).nprocs = (run_events job es).nrunning + (run_events job es).nstopped ∧
    0 ≤ (run_events job es).nprocs ∧ 0 ≤ (run_events job es).nrunning ∧
    0 ≤ (run_events job es).nstopped := by
  obtain ⟨h1, h2, h3, _, _⟩ :=
    run_events_inv es job false (launched_inv hn hall hnr hnp hst)
  have h0 : job.nstopped = (count_stopped job.proc_info_list : Int) := by
    rw [hns]
    have : count_stopped job.proc_info_list = 0 := by
      unfold count_stopped
      rw [List.length_eq_zero, List.filter_eq_nil_iff]
      intro p hp
      simp [hall p hp]
    rw [this]
    rfl
  have h4 := run_events_nstopped es job h0
  have h5 := length_eq_counts _ h3
  refine ⟨h2, h3, h1, h4, ?_, ?_, ?_, ?_⟩
  · rw [h2, h1, h4, h5]; push_cast; ring
  · rw [h2]; exact Int.natCast_nonneg _
  · rw [h1]; exact Int.natCast_nonneg _
  · rw [h4]; exact Int.natCast_nonneg _

theorem job_counters_witness :
    (run_events
        (sample_job [sample_proc 5 process_state.XSSH_PROC_STATE_RUNNING,
                     sample_proc 7 process_state.XSSH_PROC_STATE_RUNNING] 2 0
          job_state.XSSH_JOB_STATE_RUNNING)
        [Event.CLD_STOPPED 5, Event.CLD_STOPPED 9, Event.CLD_EXITED 7 0,
         Event.CLD_STOPPED 5]).nprocs =
      (run_events
        (sample_job [sample_proc 5 process_state.XSSH_PROC_STATE_RUNNING,
                     sample_proc 7 process_state.XSSH_PROC_STATE_RUNNING] 2 0
          job_state.XSSH_JOB_STATE_RUNNING)
        [Event.CLD_STOPPED 5, Event.CLD_STOPPED 9, Event.CLD_EXITED 7 0,
         Event.CLD_STOPPED 5]).nrunning +
      (run_events
        (sample_job [sample_proc 5 process_state.XSSH_PROC_STATE_RUNNING,
                     sample_proc 7 process_state.XSSH_PROC_STATE_RUNNING] 2 0
          job_state.XSSH_JOB_STATE_RUNNING)
        [Event.CLD_STOPPED 5, Event.CLD_STOPPED 9, Event.CLD_EXITED 7 0,
         Event.CLD_STOPPED 5]).nstopped :=
  (job_counters
    (sample_job [sample_proc 5 process_state.XSSH_PROC_STATE_RUNNING,
                 sample_proc 7 process_state.XSSH_PROC_STATE_RUNNING] 2 0
      job_state.XSSH_JOB_STATE_RUNNING)
    [Event.CLD_STOPPED 5, Event.CLD_STOPPED 9, Event.CLD_EXITED 7 0, Event.CLD_STOPPED 5]
    (by decide) (by decide) (by decide) (by decide) (by decide) (by decide)).2.2.2.2.1

/-! ### The redirection list and the redirections as they are written -/

/-- the entry of a redirection as it is written is what `create_proc` records when the
target of the pending `redirect_info` of its operator arrives -/
theorem entry_eq_set_target (it : RedirItem) :
    it.entry = set_target (it.op.fresh (fd_of_token it.fd_text)) it.target := by
  rcases it with ⟨o, pre, tgt⟩
  cases o
  · rw [set_target_trunc]; rfl
  · rw [set_target_append]; rfl
  · rw [set_target_dupout]
    simp only [RedirItem.entry]
    by_cases h : fd_of_token tgt ≥ 0
    · rw [if_pos h, if_pos h]
    · rw [if_neg h, if_neg h]
      by_cases h2 : (if fd_of_token pre < 0 then 1 else fd_of_token pre) = 1
      · rw [if_neg (not_not.mpr h2), if_neg (not_not.mpr h2), h2]
      · rw [if_pos h2, if_pos h2]
  · rw [set_target_read]; rfl
  · rw [set_target_dupin]; rfl

/-- the first half of the loop body at the end of the word `w`: the word becomes the target
of the pending operator, or stays in `cur_token` -/
theorem end_token_items {st s : ParseState} {w : List Char}
    {pending : Option (RedirOp × List Char)} (hi : st.Reads w pending)
    (h : end_token st = some s) :
    ∃ X, s.redirect_info_list = st.redirect_info_list ++ X ∧
      (close_word w pending).1.map RedirItem.entry = X.map some ∧
      s.rinfo = (close_word w pending).2.1.map (fun p => p.1.fresh (fd_of_token p.2)) ∧
      s.cur_token = (close_word w pending).2.2 ∧ s.token = false := by
  rcases st with ⟨token, tok, cur, rinfo, bg, rl, ecb, na⟩
  obtain ⟨h1, h2, h3⟩ := hi
  simp only at h1 h2 h3
  subst h1
  have hw : (if token = true then tok else []) = w := by
    by_cases ht : token = true
    · rw [if_pos ht] at h2 ⊢; exact h2
    · rw [if_neg ht] at h2 ⊢; exact h2.symm
  unfold end_token at h
  simp only [hw] at h
  rcases pending with _ | ⟨o, pre⟩
  · simp only [Option.map_none'] at h3
    subst h3
    simp only at h
    split_ifs at h
    simp only [Option.some.injEq] at h
    subst h
    exact ⟨[], by simp, by simp [close_word], by simp [close_word], by simp [close_word], rfl⟩
  · simp only [Option.map_some'] at h3
    subst h3
    simp only at h
    by_cases hne : w = []
    · subst hne
      simp only [List.length_nil, ne_eq, not_true_eq_false, ↓reduceIte] at h
      split_ifs at h
      all_goals
        simp only [Option.some.injEq] at h
        subst h
        exact ⟨[], by simp, by simp [close_word], by simp [close_word], by simp [close_word],
          rfl⟩
    · have hl : w.length ≠ 0 := by
        intro e; exact hne (List.length_eq_zero.mp e)
      rw [if_pos hl] at h
      cases hs : set_target (o.fresh (fd_of_token pre)) w with
      | none => rw [hs] at h; cases h
      | some x =>
        rw [hs] at h
        simp only at h
        split_ifs at h
        simp only [Option.some.injEq] at h
        subst h
        refine ⟨[x], rfl, ?_, by simp [close_word, hne], by simp [close_word, hne], rfl⟩
        simp only [close_word, ne_eq, hne, not_false_eq_true, ↓reduceIte, List.map_cons,
          List.map_nil, List.cons.injEq, and_true]
        rw [entry_eq_set_target]
        exact hs

/-- the second half of the loop body: the pending operator after it -/
theorem dispatch_items {s t : ParseState} {c n : Char} {b : Bool}
    (h : dispatch s c n = some (t, b)) :
    t.redirect_info_list = s.redirect_info_list ∧ t.cur_token = [] ∧ t.token = s.token ∧
    ((isredir c = true ∧ s.rinfo = none ∧
        t.rinfo = some (new_redirect c n (fd_of_token s.cur_token)).1 ∧
        b = (new_redirect c n (fd_of_token s.cur_token)).2) ∨
      (isredir c = false ∧ t.rinfo = s.rinfo ∧ b = false ∧ (c = NUL → s.rinfo = none))) := by
  have hp : ∀ (u : ParseState) (w : List Char), (push_arg u w).cur_token = u.cur_token ∧
      (push_arg u w).token = u.token := by
    intro u w
    unfold push_arg
    split_ifs <;> exact ⟨rfl, rfl⟩
  unfold dispatch at h
  simp only at h
  by_cases hc : isredir c = true
  · rw [if_pos hc] at h
    split_ifs at h with h1
    all_goals
      simp only [Option.some.injEq, Prod.mk.injEq] at h
      obtain ⟨h2, h3⟩ := h
      subst h2
      have hn : s.rinfo = none := by
        cases hr : s.rinfo with
        | none => rfl
        | some r => rw [hr] at h1; simp at h1
      exact ⟨push_arg_redirects _ _, (hp _ _).1, (hp _ _).2,
        Or.inl ⟨hc, hn, push_arg_rinfo _ _, h3.symm⟩⟩
  · rw [if_neg hc] at h
    simp only [Bool.not_eq_true] at hc
    split_ifs at h with h1 h2 h3 h4
    all_goals
      simp only [Option.some.injEq, Prod.mk.injEq] at h
      obtain ⟨h5, h6⟩ := h
      subst h5
      refine ⟨push_arg_redirects _ _, (hp _ _).1, (hp _ _).2,
        Or.inr ⟨hc, push_arg_rinfo _ _, h6.symm, ?_⟩⟩
    · intro e; subst e; exact absurd h1 (by decide)
    · intro _; simpa using h4
    · intro e; exact absurd e h3

/-- an operator of the loop is an operator of the grammar, which takes the same characters -/
theorem lexemes_fresh {c : Char} (hc : isredir c = true) (fd : Int) (rest : List Char) :
    ∃ o : RedirOp, (new_redirect c (rest.headD NUL) fd).1 = o.fresh fd ∧
      (((new_redirect c (rest.headD NUL) fd).2 = false ∧
          lexemes (c :: rest) = Lexeme.op o :: lexemes rest) ∨
        (∃ d r2, rest = d :: r2 ∧ (new_redirect c (rest.headD NUL) fd).2 = true ∧
          lexemes (c :: rest) = Lexeme.op o :: lexemes r2)) := by
  have hd : ∀ x : Char, rest.headD NUL = x → x ≠ NUL → ∃ r2, rest = x :: r2 := by
    intro x hx hne
    cases rest with
    | nil => exact absurd hx.symm hne
    | cons d r2 => exact ⟨r2, by simpa using hx⟩
  rcases new_redirect_cases c (rest.headD NUL) fd hc with
    ⟨rfl, h, e⟩ | ⟨rfl, h, e⟩ | ⟨rfl, h1, h2, e⟩ | ⟨rfl, h, e⟩ | ⟨rfl, h, e⟩
  · obtain ⟨r2, hr⟩ := hd _ h (by decide)
    refine ⟨RedirOp.append, by rw [e], Or.inr ⟨'>', r2, hr, by rw [e], ?_⟩⟩
    rw [hr]; exact lexemes_gt_gt r2
  · obtain ⟨r2, hr⟩ := hd _ h (by decide)
    refine ⟨RedirOp.dupout, by rw [e], Or.inr ⟨'&', r2, hr, by rw [e], ?_⟩⟩
    rw [hr]; exact lexemes_gt_amp r2
  · exact ⟨RedirOp.trunc, by rw [e], Or.inl ⟨by rw [e], lexemes_gt_other h1 h2⟩⟩
  · obtain ⟨r2, hr⟩ := hd _ h (by decide)
    refine ⟨RedirOp.dupin, by rw [e], Or.inr ⟨'&', r2, hr, by rw [e], ?_⟩⟩
    rw [hr]; exact lexemes_lt_amp r2
  · exact ⟨RedirOp.read, by rw [e], Or.inl ⟨by rw [e], lexemes_lt_other h⟩⟩

/-- a character of the text that is not a token character is `<`, `>`, `&` or a blank -/
theorem sep_facts {c : Char} (h : isvalidtokenchar c = false) (hn : c ≠ NUL)
    (hr : isredir c = false) : c = '&' ∨ (c ≠ '&' ∧ isspace c = true) := by
  by_cases ha : c = '&'
  · exact Or.inl ha
  · refine Or.inr ⟨ha, ?_⟩
    simp only [isredir, Bool.or_eq_false_iff] at hr
    have ha2 : isampersand c = false := by simpa [isampersand] using ha
    have hn2 : (c == NUL) = false := by simpa using hn
    simp only [isvalidtokenchar, hr.1, hr.2, ha2, hn2, Bool.or_false, Bool.false_or,
      Bool.not_eq_false'] at h
    exact h

/-- one iteration of the loop at a character that ends a word, against the grammar -/
theorem step_items {st s1 : ParseState} {c : Char} {b : Bool} {w : List Char}
    {pending : Option (RedirOp × List Char)} (rest : List Char)
    (hi : st.Reads w pending) (hv : isvalidtokenchar c = false) (hn : c ≠ NUL)
    (h : step st c (rest.headD NUL) = some (s1, b)) :
    ∃ X pending2, s1.redirect_info_list = st.redirect_info_list ++ X ∧
      s1.Reads [] pending2 ∧
      (close_word w pending).1.map RedirItem.entry = X.map some ∧
      redir_items_go (lexemes (c :: rest)) w pending =
        (close_word w pending).1 ++
          redir_items_go (lexemes (if b then rest.tail else rest)) [] pending2 ∧
      (b = true → rest ≠ []) := by
  rw [step_eq] at h
  cases he : end_token st with
  | none => rw [he] at h; cases h
  | some s =>
    rw [he, Option.some_bind] at h
    obtain ⟨X, x1, x2, x3, x4, x5⟩ := end_token_items hi he
    obtain ⟨d1, d2, d3, d4⟩ := dispatch_items h
    rcases d4 with ⟨hc, _, d5, d6⟩ | ⟨hc, d5, d6, _⟩
    · rw [x4] at d5 d6
      obtain ⟨o, f1, f2⟩ := lexemes_fresh hc (fd_of_token (close_word w pending).2.2) rest
      refine ⟨X, some (o, (close_word w pending).2.2), by rw [d1, x1], ?_, x2, ?_, ?_⟩
      · refine ⟨d2, ?_, ?_⟩
        · rw [d3, x5]; simp
        · rw [d5, f1]; rfl
      · rcases f2 with ⟨g1, g2⟩ | ⟨d, r2, g0, g1, g2⟩
        · rw [d6, g1, g2]
          simp only [redir_items_go, Bool.false_eq_true, ↓reduceIte]
        · rw [d6, g1, g2, g0]
          simp only [redir_items_go, ↓reduceIte, List.tail_cons]
      · intro hb
        rcases f2 with ⟨g1, _⟩ | ⟨d, r2, g0, _, _⟩
        · rw [d6, g1] at hb; cases hb
        · rw [g0]; simp
    · refine ⟨X, (close_word w pending).2.1, by rw [d1, x1], ?_, x2, ?_, ?_⟩
      · refine ⟨d2, ?_, ?_⟩
        · rw [d3, x5]; simp
        · rw [d5, x3]
      · rw [d6, lexemes_plain hc]
        simp only [Bool.false_eq_true, ↓reduceIte]
        rcases sep_facts hv hn hc with ha | ⟨ha, hs⟩
        · rw [if_pos ha]; simp only [redir_items_go]
        · rw [if_neg ha, if_pos hs]; simp only [redir_items_go]
      · intro hb; rw [d6] at hb; cases hb

/-- the last iteration of the loop, at the terminating NUL -/
theorem step_items_end {st s1 : ParseState} {b : Bool} {w : List Char}
    {pending : Option (RedirOp × List Char)} (hi : st.Reads w pending)
    (h : step st NUL NUL = some (s1, b)) :
    ∃ X, s1.redirect_info_list = st.redirect_info_list ++ X ∧
      (close_word w pending).1.map RedirItem.entry = X.map some := by
  rw [step_eq] at h
  cases he : end_token st with
  | none => rw [he] at h; cases h
  | some s =>
    rw [he, Option.some_bind] at h
    obtain ⟨X, x1, x2, _⟩ := end_token_items hi he
    obtain ⟨d1, _⟩ := dispatch_items h
    exact ⟨X, by rw [d1, x1], x2⟩

/-- a character of a word is read into the word -/
theorem tokenChar_reads {st : ParseState} {w : List Char}
    {pending : Option (RedirOp × List Char)} (hi : st.Reads w pending) (c : Char) :
    (st.tokenChar c).Reads (w ++ [c]) pending := by
  obtain ⟨h1, h2, h3⟩ := hi
  refine ⟨h1, ?_, h3⟩
  simp only [ParseState.tokenChar, ↓reduceIte]
  by_cases ht : st.token = true
  · rw [if_pos ht] at h2 ⊢; rw [h2]
  · rw [if_neg ht] at h2 ⊢; rw [h2]

/-- the loop of `create_proc` appends to the redirection list the entries of the
redirections as they are written in the rest of the text, in their order -/
theorem scan_items (k : Nat) : ∀ (rest : List Char) (st t : ParseState) (w : List Char)
    (pending : Option (RedirOp × List Char)),
    rest.length ≤ k → (∀ c ∈ rest, c ≠ NUL) → st.Reads w pending → scan st rest = some t →
    ∃ R, t.redirect_info_list = st.redirect_info_list ++ R ∧
      (redir_items_go (lexemes rest) w pending).map RedirItem.entry = R.map some := by
  induction k with
  | zero =>
    intro rest st t w pending hlen _ hi h
    have : rest = [] := List.length_eq_zero.mp (Nat.le_zero.mp hlen)
    subst this
    rw [scan_nil] at h
    cases hs : step st NUL NUL with
    | none => rw [hs] at h; cases h
    | some r =>
      rcases r with ⟨s1, b⟩
      rw [hs] at h
      simp only [Option.map_some', Option.some.injEq] at h
      subst h
      obtain ⟨X, x1, x2⟩ := step_items_end hi hs
      exact ⟨X, x1, by simpa [lexemes, redir_items_go] using x2⟩
  | succ k ih =>
    intro rest st t w pending hlen hnul hi h
    cases rest with
    | nil =>
      rw [scan_nil] at h
      cases hs : step st NUL NUL with
      | none => rw [hs] at h; cases h
      | some r =>
        rcases r with ⟨s1, b⟩
        rw [hs] at h
        simp only [Option.map_some', Option.some.injEq] at h
        subst h
        obtain ⟨X, x1, x2⟩ := step_items_end hi hs
        exact ⟨X, x1, by simpa [lexemes, redir_items_go] using x2⟩
    | cons c rest1 =>
      have hc0 : c ≠ NUL := hnul c (by simp)
      have hnul1 : ∀ d ∈ rest1, d ≠ NUL := fun d hd => hnul d (by simp [hd])
      by_cases hc : isvalidtokenchar c = true
      · rw [scan_cons_tok _ _ hc] at h
        obtain ⟨f1, f2, f3, _⟩ := tokchar_facts hc
        obtain ⟨R, r1, r2⟩ := ih rest1 _ t _ pending (by simpa using hlen) hnul1
          (tokenChar_reads hi c) h
        refine ⟨R, by simpa [ParseState.tokenChar] using r1, ?_⟩
        have ha : c ≠ '&' := by
          intro e; subst e; exact absurd f2 (by decide)
        rw [lexemes_plain f1, if_neg ha, f3]
        simpa [redir_items_go] using r2
      · simp only [Bool.not_eq_true] at hc
        cases hs : step st c (rest1.headD NUL) with
        | none => rw [scan_sep_none hc hs] at h; cases h
        | some r =>
          rcases r with ⟨s1, b⟩
          obtain ⟨X, pending2, x1, x2, x3, x4, x5⟩ := step_items rest1 hi hc hc0 hs
          cases b with
          | false =>
            rw [scan_sep_next hc hs] at h
            obtain ⟨R, r1, r2⟩ := ih rest1 s1 t [] pending2 (by simpa using hlen) hnul1 x2 h
            refine ⟨X ++ R, by rw [r1, x1, List.append_assoc], ?_⟩
            rw [x4]
            simp only [Bool.false_eq_true, ↓reduceIte, List.map_append]
            rw [x3, r2]
          | true =>
            cases rest1 with
            | nil => exact absurd rfl (x5 rfl)
            | cons d rest2 =>
              simp only [List.headD_cons] at hs
              rw [scan_sep_skip hc hs] at h
              obtain ⟨R, r1, r2⟩ := ih rest2 s1 t [] pending2 (by
                simp only [List.length_cons] at hlen; omega)
                (fun e he => hnul1 e (by simp [he])) x2 h
              refine ⟨X ++ R, by rw [r1, x1, List.append_assoc], ?_⟩
              rw [x4]
              simp only [↓reduceIte, List.tail_cons, List.map_append]
              rw [x3, r2]

/-- the operators of the redirections as they are written are among the operators of the
text, in their order -/
theorem redir_items_ops_sublist : ∀ (lex : List Lexeme) (w : List Char)
    (pending : Option (RedirOp × List Char)),
    ((redir_items_go lex w pending).map RedirItem.op).Sublist
      ((pending.map Prod.fst).toList ++ lex.filterMap (fun l => match l with
        | Lexeme.op o => some o
        | _ => none)) := by
  have hclose : ∀ (w : List Char) (pending : Option (RedirOp × List Char)),
      ((close_word w pending).1.map RedirItem.op ++
        ((close_word w pending).2.1.map Prod.fst).toList).Sublist
        (pending.map Prod.fst).toList := by
    intro w pending
    rcases pending with _ | ⟨o, pre⟩
    · simp [close_word]
    · by_cases hw : w = []
      · simp [close_word, hw]
      · simp [close_word, hw]
  have hdrop : ∀ (w : List Char) (pending : Option (RedirOp × List Char)),
      ((close_word w pending).1.map RedirItem.op).Sublist (pending.map Prod.fst).toList :=
    fun w pending => (List.sublist_append_left _ _).trans (hclose w pending)
  intro lex
  induction lex with
  | nil =>
    intro w pending
    simpa [redir_items_go] using hdrop w pending
  | cons l lex ih =>
    intro w pending
    cases l with
    | wordchar c =>
      simpa [redir_items_go] using ih (w ++ [c]) pending
    | blank =>
      simp only [redir_items_go, List.map_append, List.filterMap_cons]
      have h1 := ih [] (close_word w pending).2.1
      have h2 := (List.Sublist.refl ((close_word w pending).1.map RedirItem.op)).append h1
      rw [← List.append_assoc] at h2
      exact h2.trans ((hclose w pending).append (List.Sublist.refl _))
    | amp =>
      simp only [redir_items_go, List.map_append, List.filterMap_cons]
      have h1 := ih [] (close_word w pending).2.1
      have h2 := (List.Sublist.refl ((close_word w pending).1.map RedirItem.op)).append h1
      rw [← List.append_assoc] at h2
      exact h2.trans ((hclose w pending).append (List.Sublist.refl _))
    | op o =>
      simp only [redir_items_go, List.map_append, List.filterMap_cons]
      have h1 := ih [] (some (o, (close_word w pending).2.2))
      simp only [Option.map_some', Option.toList_some, List.singleton_append] at h1
      exact (hdrop w pending).append h1

/-- the redirection list of a text that parses holds the entries of the redirections as
they are written, which are one for each operator of the text -/
theorem create_proc_items {text : List Char} {p : proc_info} (h : create_proc text = some p) :
    (redir_items (cstr text)).map RedirItem.op = redir_ops (cstr text) ∧
    (redir_items (cstr text)).map RedirItem.entry = p.redirect_info_list.map some := by
  rw [create_proc] at h
  cases hs : scan ParseState.init (cstr text) with
  | none => rw [hs] at h; cases h
  | some t =>
    rw [hs] at h
    simp only [Option.map_some', Option.some.injEq] at h
    obtain ⟨R, r1, r2⟩ := scan_redirs _ _ _ _ le_rfl hs
    obtain ⟨R2, q1, q2⟩ := scan_items _ (cstr text) ParseState.init t [] none le_rfl
      (fun c hc => cstr_not_nul text c hc) ⟨rfl, by simp [ParseState.init], rfl⟩ hs
    have e : p.redirect_info_list = R := by
      rw [← h]; simpa [proc_of, ParseState.init] using r1
    have e2 : R2 = R := by
      have := q1.symm.trans r1
      simpa [ParseState.init] using this
    subst e2
    have l1 : (redir_ops (cstr text)).length = R2.length := by
      have := r2.length_eq
      simpa [ParseState.pendingModes, ParseState.init] using this
    have l2 : (redir_items (cstr text)).length = R2.length := by
      have := congrArg List.length q2
      simpa [redir_items] using this
    refine ⟨?_, by rw [e]; exact q2⟩
    have hsub := redir_items_ops_sublist (lexemes (cstr text)) [] none
    simp only [Option.map_none', Option.toList_none, List.nil_append] at hsub
    exact hsub.eq_of_length (by
      rw [List.length_map]
      exact l2.trans l1.symm)

/-- Claim C7: for every process text that parses, the redirection list of the Process has
one entry per redirection operator of the text, in the left-to-right order of the
operators. The redirections as they are written in the text (`redir_items`: each operator
with the word directly in front of it and the first word after it, from left to right) have
the operators of the text, one for one and in their order, and the redirection list is the
list of their entries, each with the descriptor and the target written at its operator. In
particular `cmd >a >b` gives [WriteTrunc 1->a, WriteTrunc 1->b] and `cmd 2>&1 >file` gives
[DupOut 2->1, WriteTrunc 1->file]. -/
theorem create_proc_redirects_in_order :
    (∀ (text : List Char) (p : proc_info), create_proc text = some p →
      (redir_items (cstr text)).map RedirItem.op = redir_ops (cstr text) ∧
      p.redirect_info_list.map some = (redir_items (cstr text)).map RedirItem.entry) ∧
    (create_proc "cmd >a >b".toList).map (fun p => p.redirect_info_list) =
      some [{ srcfd := 1, srcfile := none, dstfd := -1, dstfile := some "a".toList, mode := 1 },
            { srcfd := 1, srcfile := none, dstfd := -1, dstfile := some "b".toList, mode := 1 }] ∧
    (create_proc "cmd 2>&1 >file".toList).map (fun p => p.redirect_info_list) =
      some [{ srcfd := 2, srcfile := none, dstfd := 1, dstfile := none, mode := 3 },
            { srcfd := 1, srcfile := none, dstfd := -1, dstfile := some "file".toList,
              mode := 1 }] := by
  refine ⟨?_, by decide!, by decide!⟩
  intro text p h
  exact ⟨(create_proc_items h).1, (create_proc_items h).2.symm⟩

theorem create_proc_redirects_in_order_witness :
    (redir_items (cstr "cmd 2>err >out <in".toList)).map RedirItem.op =
      redir_ops (cstr "cmd 2>err >out <in".toList) ∧
    ([{ srcfd := 2, srcfile := none, dstfd := -1, dstfile := some "err".toList, mode := 1 },
      { srcfd := 1, srcfile := none, dstfd := -1, dstfile := some "out".toList, mode := 1 },
      { srcfd := -1, srcfile := some "in".toList, dstfd := 0, dstfile := none, mode := 4 }] :
        List redirect_info).map some =
      (redir_items (cstr "cmd 2>err >out <in".toList)).map RedirItem.entry :=
  create_proc_redirects_in_order.1 "cmd 2>err >out <in".toList
    ({ pgid := 0, pid := 0, args := ["cmd".toList, "cmd".toList], nargs := 2,
       state := process_state.XSSH_PROC_STATE_STOPPED, background := false,
       redirect_info_list :=
         [{ srcfd := 2, srcfile := none, dstfd := -1, dstfile := some "err".toList, mode := 1 },
          { srcfd := 1, srcfile := none, dstfd := -1, dstfile := some "out".toList, mode := 1 },
          { srcfd := -1, srcfile := some "in".toList, dstfd := 0, dstfile := none,
            mode := 4 }] } : proc_info)
    (by decide!)

end XSSH
